import Mathlib

/-!
# Principia `physics/forkable_body.hpp`: branching timelines

A `Forkable` owns a timeline (an ordered map keyed by `Instant`) and a multimap
of children keyed by fork time; it knows its parent, the position in the
parent's timeline where it was forked, and its own entry in the parent's
children.  A `ForkableIterator` walks the timelines of a trajectory and of its
ancestors as one sequence.

The iterator code only ever follows `parent_` pointers, so the object it sees
is a trajectory together with its chain of ancestors (`Forkable` below).  The
serialization code only ever follows `children_`, so the object it sees is a
trajectory together with its descendants (`Tr4jectory` further down).

Timeline iterators are modelled as positions: `0` is `timeline_begin()` and the
length of the timeline is `timeline_end()`.  The payload of a timeline entry is
never inspected by this code; an entry is represented by its time.
A failed `CHECK`, `LOG(FATAL)` or the dereference of an unset optional is the
result `none`.
-/

namespace Principia

/-- A point in time, the key of timelines and of the children multimap. -/
abbrev Instant := Int

/-- A trajectory as seen through its `parent_` pointer.  `root` has
`parent_ == nullptr` and both optionals unset; `fork` has the three members
set, as `NewFork` and `AttachForkToCopiedBegin` set them together:
`fork_time` is `(*position_in_parent_children_)->first` and
`position_in_parent_timeline_` is a position in the timeline of `parent_`. -/
inductive Forkable where
  | root (timeline : List Instant)
  | fork (timeline : List Instant) (parent_ : Forkable) (fork_time : Instant)
      (position_in_parent_timeline_ : Nat)
  deriving DecidableEq, Repr

namespace Forkable

/-- The times of the entries of the trajectory's own timeline, in order. -/
def timeline : Forkable → List Instant
  | root tl => tl
  | fork tl _ _ _ => tl

/-- The member `parent_`, `none` for `nullptr`. -/
def parent_ : Forkable → Option Forkable
  | root _ => none
  | fork _ p _ _ => some p

/-- The member `position_in_parent_timeline_`. -/
def position_in_parent_timeline_ : Forkable → Option Nat
  | root _ => none
  | fork _ _ _ pos => some pos

/-- The key `(*position_in_parent_children_)->first` of the trajectory's entry
in the children of its parent. -/
def fork_time : Forkable → Option Instant
  | root _ => none
  | fork _ _ k _ => some k

/-- The source's `is_root`: `parent_ == nullptr`. -/
def is_root : Forkable → Bool
  | root _ => true
  | fork _ _ _ _ => false

/-- Modelled from the spec: `timeline_begin()` of the timeline collaborator
(section 6), the position of the first entry. -/
def timeline_begin (_ : Forkable) : Nat := 0

/-- Modelled from the spec: `timeline_end()` of the timeline collaborator
(section 6), the position past the last entry. -/
def timeline_end (f : Forkable) : Nat := f.timeline.length

/-- Modelled from the spec: `timeline_empty()` of the timeline collaborator. -/
def timeline_empty (f : Forkable) : Bool := f.timeline.isEmpty

/-- Modelled from the spec: `timeline_size()` of the timeline collaborator. -/
def timeline_size (f : Forkable) : Nat := f.timeline.length

/-- Modelled from the spec: `timeline_find(time)`, the exact lookup of the
timeline collaborator (section 6): the position of the entry at `time`, or
`timeline_end()`. -/
def timeline_find (f : Forkable) (time : Instant) : Nat := f.timeline.indexOf time

/-- Modelled from the spec: `timeline_lower_bound(time)`, the lower-bound
search of the timeline collaborator (section 6): the position of the first
entry whose time is at least `time`, or `timeline_end()`. -/
def timeline_lower_bound (f : Forkable) (time : Instant) : Nat :=
  f.timeline.findIdx (fun x => decide (time ≤ x))

/-- Modelled from the spec: `ForkableTraits<Tr4jectory>::time(it)`, the time of
the entry that a timeline iterator designates; `none` when the iterator is
`timeline_end()`. -/
def time (f : Forkable) (it : Nat) : Option Instant := f.timeline[it]?

/-- The test of `Find` and `LowerBound` for a timeline that covers `time`:
`!ancestor->timeline_empty() && time(ancestor->timeline_begin()) <= time`. -/
def covers (f : Forkable) (t : Instant) : Bool :=
  match f.timeline with
  | [] => false
  | first :: _ => decide (first ≤ t)

/-- The number of ancestors of a trajectory.  The objects along the ancestors
of one trajectory, the trajectory included, have pairwise different numbers of
ancestors, as they have pairwise different addresses. -/
def depth : Forkable → Nat
  | root _ => 0
  | fork _ p _ _ => p.depth + 1

end Forkable

/-- The source's `ForkableIterator`: `ancestry_` has the trajectory the
iterator was obtained from at the back and the trajectory whose timeline
contains `current_` at the front. -/
structure It3rator where
  ancestry_ : List Forkable
  current_ : Nat
  deriving DecidableEq, Repr

namespace It3rator

/-- The source's `ForkableIterator::trajectory`. -/
def trajectory (it : It3rator) : Option Forkable := it.ancestry_.getLast?

/-- The members of a `ForkableIterator` object as `operator==` reads them:
the pointers that the deque `ancestry_` holds, and `current_`.  An `It3rator`
has in `ancestry_` the objects that these pointers point to, as seen through
their `parent_` pointers, and two objects with the same timeline, parent, key
and position are seen alike; the comparison of pointers is therefore on the
pointers themselves. -/
structure Members where
  ancestry_ : List Nat
  current_ : Nat
  deriving DecidableEq, Repr

/-- The source's `ForkableIterator::trajectory`, on the pointers: `none` when
`CHECK(!ancestry_.empty())` fails. -/
def Members.trajectory (it : Members) : Option Nat := it.ancestry_.getLast?

/-- The source's `ForkableIterator::operator==`.  In a build with `DCHECK`s
(`debug`), `DCHECK_EQ(trajectory(), right.trajectory())` fails, `none`, when
an ancestry is empty or the two iterators are not iterators of the same
object.  The positions are compared when the sizes are equal; they are
positions in the same timeline when the two ancestries hold the same pointers,
and otherwise the comparison of the ancestries is false, whatever the
comparison of the positions gives. -/
def eq (debug : Bool) (left right : Members) : Option Bool :=
  if debug = true ∧ ¬ (left.trajectory.isSome = true ∧ left.trajectory = right.trajectory) then
    none
  else
    some (left.ancestry_.length == right.ancestry_.length &&
      left.current_ == right.current_ &&
      left.ancestry_ == right.ancestry_)

/-- The source's `ForkableIterator::operator!=`. -/
def ne (debug : Bool) (left right : Members) : Option Bool :=
  (eq debug left right).map (fun equal => !equal)

/-- The members of the iterator object that an `It3rator` stands for, given
the address of each object of its ancestry. -/
def members (address : Forkable → Nat) (it : It3rator) : Members :=
  ⟨it.ancestry_.map address, it.current_⟩

/-- The entry designated by the iterator (`operator*`), as its time. -/
def deref (it : It3rator) : Option Instant :=
  match it.ancestry_ with
  | [] => none
  | front :: _ => front.time it.current_

/-- The source's `ForkableIterator::CheckNormalizedIfEnd`: the iterator itself
when the `CHECK` passes. -/
def CheckNormalizedIfEnd (it : It3rator) : Option It3rator :=
  match it.ancestry_ with
  | [] => none
  | front :: _ =>
    if it.ancestry_.length = 1 ∨ it.current_ ≠ front.timeline_end then some it else none

/-- The source's `ForkableIterator::NormalizeIfEnd`. -/
def NormalizeIfEnd (it : It3rator) : Option It3rator :=
  match it.ancestry_ with
  | [] => none
  | front :: rest =>
    if it.current_ = front.timeline_end ∧ it.ancestry_.length > 1 then
      let back := (front :: rest).getLast (List.cons_ne_nil front rest)
      some ⟨[back], back.timeline_end⟩
    else some it

/-- The `do ... while` loop of `operator++`: `child` is `*ancestry_it`, the
list is what follows it in `ancestry_`; every round sets `current_` to the
beginning of the timeline of `child` and pops the front of `ancestry_`. -/
def skip_forks (current_time : Instant) : Forkable → List Forkable → Option It3rator
  | child, [] => some ⟨[child], child.timeline_begin⟩
  | child, next :: rest =>
    match next.fork_time with
    | none => none
    | some child_fork_time =>
      if current_time = child_fork_time then skip_forks current_time next rest
      else some ⟨child :: next :: rest, child.timeline_begin⟩

/-- The source's `ForkableIterator::operator++`. -/
def increment (it : It3rator) : Option It3rator :=
  match it.ancestry_ with
  | [] => none
  | front :: rest =>
    if it.current_ = front.timeline_end then none
    else
      match rest with
      | [] => CheckNormalizedIfEnd ⟨it.ancestry_, it.current_ + 1⟩
      | child :: others =>
        match front.time it.current_, child.fork_time with
        | some current_time, some child_fork_time =>
          if current_time = child_fork_time then
            (skip_forks current_time child others).bind CheckNormalizedIfEnd
          else CheckNormalizedIfEnd ⟨it.ancestry_, it.current_ + 1⟩
        | _, _ => none

/-- The `do ... while` loop of `operator--`, entered with a non-root
`ancestor`: `current_` becomes the fork point in the parent, the parent is
pushed at the front, and the loop goes on while that is the end of the
parent's timeline and the parent is not a root. -/
def climb : Forkable → List Forkable → Option It3rator
  | .root _, _ => none
  | .fork _ parent _ position, ancestry =>
    if position = parent.timeline_end ∧ parent.is_root = false then
      climb parent (parent :: ancestry)
    else some ⟨parent :: ancestry, position⟩

/-- The source's `ForkableIterator::operator--`. -/
def decrement (it : It3rator) : Option It3rator :=
  match it.ancestry_ with
  | [] => none
  | ancestor :: _ =>
    if it.current_ = ancestor.timeline_begin then climb ancestor it.ancestry_
    else some ⟨it.ancestry_, it.current_ - 1⟩

end It3rator

namespace Forkable

/-- The source's `Forkable::root`. -/
def root_ : Forkable → Forkable
  | root tl => root tl
  | fork _ p _ _ => root_ p

/-- The loop of the source's `Forkable::Wrap`. -/
def Wrap.loop (ancestor : Forkable) (position : Nat) : Forkable → List Forkable → Option It3rator
  | ancest0r, ancestry =>
    if ancestor = ancest0r then
      It3rator.CheckNormalizedIfEnd ⟨ancest0r :: ancestry, position⟩
    else
      match ancest0r with
      | root _ => none
      | fork _ p _ _ => Wrap.loop ancestor position p (ancest0r :: ancestry)

/-- The source's `Forkable::Wrap`. -/
def Wrap (that ancestor : Forkable) (position_in_ancestor_timeline : Nat) : Option It3rator :=
  Wrap.loop ancestor position_in_ancestor_timeline that []

/-- The source's `Forkable::begin`. -/
def begin (that : Forkable) : Option It3rator :=
  that.Wrap that.root_ that.root_.timeline_begin

/-- The source's `Forkable::end`. -/
def end_ (that : Forkable) : Option It3rator :=
  It3rator.CheckNormalizedIfEnd ⟨[that], that.timeline_end⟩

/-- The loop of the source's `Forkable::Find`. -/
def Find.loop (t : Instant) : Forkable → List Forkable → It3rator
  | ancestor, ancestry =>
    if ancestor.covers t then ⟨ancestor :: ancestry, ancestor.timeline_find t⟩
    else
      match ancestor with
      | root _ => ⟨ancestor :: ancestry, ancestor.timeline_end⟩
      | fork _ p _ _ => Find.loop t p (ancestor :: ancestry)

/-- The source's `Forkable::Find`. -/
def Find (that : Forkable) (t : Instant) : Option It3rator :=
  (Find.loop t that []).NormalizeIfEnd

/-- The test of `LowerBound` that the lower bound found in the timeline of
`ancestor` is not directly usable: it is the end of the timeline, or it is
after the fork point (when there is one and it is not the end). -/
def LowerBound.unusable (ancestor : Forkable) (fork_point : Option Nat) (current : Nat) :
    Option Bool :=
  if current = ancestor.timeline_end then some true
  else
    match fork_point with
    | none => some false
    | some fp =>
      if fp = ancestor.timeline_end then some false
      else
        match ancestor.time fp, ancestor.time current with
        | some a, some b => some (decide (a < b))
        | _, _ => none

/-- The `for (;;)` loop of `LowerBound`, over what follows the front of
`ancestry_` and of `fork_points`. -/
def LowerBound.descend (otherwise : It3rator) :
    List Forkable → List (Option Nat) → Option It3rator
  | [], [] => some otherwise
  | [], _ :: _ => none
  | _ :: _, [] => none
  | a :: ancestry, fp :: fork_points =>
    if a.timeline_empty = false ∧ (fp = none ∨ fp ≠ some a.timeline_end) then
      some ⟨a :: ancestry, a.timeline_begin⟩
    else LowerBound.descend otherwise ancestry fork_points

/-- The `do ... while` loop of the source's `Forkable::LowerBound`. -/
def LowerBound.loop (t : Instant) :
    Forkable → List Forkable → List (Option Nat) → Option It3rator
  | ancestor, ancestry, fork_points =>
    if ancestor.covers t then
      let current := ancestor.timeline_lower_bound t
      match fork_points with
      | [] => none
      | fork_point :: below =>
        match LowerBound.unusable ancestor fork_point current with
        | none => none
        | some true =>
          LowerBound.descend ⟨ancestor :: ancestry, ancestor.timeline_end⟩ ancestry below
        | some false => some ⟨ancestor :: ancestry, current⟩
    else
      match ancestor with
      | root _ => some ⟨ancestor :: ancestry, ancestor.timeline_begin⟩
      | fork _ p _ position =>
        LowerBound.loop t p (ancestor :: ancestry) (some position :: fork_points)

/-- The source's `Forkable::LowerBound`. -/
def LowerBound (that : Forkable) (t : Instant) : Option It3rator :=
  (LowerBound.loop t that [] [none]).bind It3rator.NormalizeIfEnd

/-- The `while` loop of the source's `Forkable::Size`, with `ancestor` the
first argument and `size` the second. -/
def Size.loop : Forkable → Nat → Nat
  | root _, size => size
  | fork _ parent _ position, size =>
    Size.loop parent
      (if parent.timeline_empty then size else size + (position - parent.timeline_begin) + 1)

/-- The source's `Forkable::Size`. -/
def Size (that : Forkable) : Nat := Size.loop that that.timeline_size

/-- The source's `Forkable::Empty`. -/
def Empty (that : Forkable) : Bool := that.timeline_empty && that.is_root

/-- The iterators met by `for (it = first; it != last; ++it)`, `first`
included and `last` excluded, in a build with `DCHECK`s (`debug`) or without;
`none` when `++` fails, when the `DCHECK_EQ` of `operator!=` fails or when
`last` is not reached in `fuel` steps.  The iterators of the loop are
iterators of one trajectory: the objects of their ancestries are among the
ancestors of that trajectory, which `depth` tells apart as their addresses
do. -/
def iterate (debug : Bool) : Nat → It3rator → It3rator → Option (List It3rator)
  | 0, _, _ => none
  | fuel + 1, it, last =>
    match It3rator.ne debug (it.members depth) (last.members depth) with
    | none => none
    | some false => some []
    | some true =>
      match It3rator.increment it with
      | none => none
      | some next =>
        match iterate debug fuel next last with
        | none => none
        | some visited => some (it :: visited)

/-- The iterators met from `begin()` to `end()`, in a build with `DCHECK`s;
they are the same without (`traversal_in_both_builds`). -/
def traversal (fuel : Nat) (that : Forkable) : Option (List It3rator) :=
  match that.begin, that.end_ with
  | some first, some last => iterate true fuel first last
  | _, _ => none

/-- Modelled from the spec: appending entries to the own timeline of a
trajectory (done by the trajectory class, which owns the timeline; section 3,
lifecycle of a node). -/
def push_back : Forkable → List Instant → Forkable
  | root tl, entries => root (tl ++ entries)
  | fork tl p k position, entries => fork (tl ++ entries) p k position

/-- The source's `Forkable::NewFork`, as seen from the new child: its
`parent_` is `that`, its key is the time at `timeline_it` or, at the end of the
timeline, the key of `that` in its own parent (`CHECK(!is_root())`). -/
def NewFork (that : Forkable) (timeline_it : Nat) : Option Forkable :=
  if timeline_it = that.timeline_end then
    match that.fork_time with
    | none => none
    | some t => some (fork [] that t timeline_it)
  else
    match that.time timeline_it with
    | none => none
    | some t => some (fork [] that t timeline_it)

/-- The invariants of section 3 along the ancestors of a trajectory: the times
of each timeline are strictly increasing and after the fork time of the
trajectory, and the key of each fork is the time of the entry it is forked at
or, for a fork at the end of the timeline of its parent, the key of that
parent (the two cases of `NewFork`). -/
def WellFormed : Forkable → Prop
  | root tl => tl.Pairwise (· < ·)
  | fork tl p k position =>
    tl.Pairwise (· < ·) ∧ (∀ x ∈ tl, k < x) ∧ p.WellFormed ∧
      (p.time position = some k ∨ (position = p.timeline_end ∧ p.fork_time = some k))

/-- Decision procedure for `WellFormed`. -/
def WellFormed.decide : (f : Forkable) → Decidable f.WellFormed
  | root tl => by unfold WellFormed; exact inferInstance
  | fork tl p k position =>
    have := WellFormed.decide p
    by unfold WellFormed; exact inferInstance

instance : DecidablePred WellFormed := WellFormed.decide

end Forkable

/-! ## The scenarios of section 8 -/

/-- The root of the first scenario, with timeline `[t0, t1, t2, t3]`. -/
def scenario_root (t0 t1 t2 t3 : Instant) : Forkable := .root [t0, t1, t2, t3]

/-- The child of the first scenario: forked from the root at `t1`, then
`[t4, t5]` appended to it. -/
def scenario_fork (t0 t1 t2 t3 t4 t5 : Instant) : Option Forkable :=
  ((scenario_root t0 t1 t2 t3).NewFork ((scenario_root t0 t1 t2 t3).timeline_find t1)).map
    (fun c => c.push_back [t4, t5])

/-! ## Subtree serialization

`WriteSubTreeToMessage` and `FillSubTreeFromMessage` follow `children_`.  A
trajectory is modelled here with its descendants; `address` stands for the
pointer to the object (`child.get()`), and `fork` holds its own key in the
children of its parent together with `position_in_parent_timeline_`, unset for
a root. -/

/-- A trajectory as seen through `children_`, a multimap from fork time to
owned child, in the order of iteration. -/
inductive Tr4jectory where
  | mk (address : Nat) (timeline : List Instant) (fork : Option (Instant × Nat))
      (children_ : List (Instant × Tr4jectory))
  deriving Repr

mutual
/-- Modelled from the spec: the message `serialization::DiscreteTrajectory`
(section 6): a list of litters and a list of position indices; `timeline` is
the part written by the trajectory class for its own entries. -/
inductive Message where
  | mk (timeline : List Instant) (children : List Litter) (fork_position : List Nat)
/-- Modelled from the spec: the message
`serialization::DiscreteTrajectory::Litter` (section 6): a fork time and the
children forked at that time. -/
inductive Litter where
  | mk (fork_time : Instant) (trajectories : List Message)
end

namespace Message

/-- The field `timeline` of the message. -/
def timeline : Message → List Instant
  | mk tl _ _ => tl

/-- The repeated field `children` of the message. -/
def children : Message → List Litter
  | mk _ cs _ => cs

/-- The repeated field `fork_position` of the message. -/
def fork_position : Message → List Nat
  | mk _ _ fp => fp

/-- Modelled from the spec: `add_fork_position(i)` appends to `fork_position`. -/
def add_fork_position : Message → Nat → Message
  | mk tl cs fp, i => mk tl cs (fp ++ [i])

/-- Modelled from the spec: `add_children()` followed by writing the fork time
of the new litter, which is appended to `children`. -/
def add_children : Message → Instant → Message
  | mk tl cs fp, fork_time => mk tl (cs ++ [Litter.mk fork_time []]) fp

/-- Appends a trajectory to the last litter of a list, the one that the
variable `litter` of `WriteSubTreeToMessage` designates. -/
def add_to_last : List Litter → Message → List Litter
  | [], _ => []
  | [Litter.mk fork_time ms], m => [Litter.mk fork_time (ms ++ [m])]
  | l :: l2 :: rest, m => l :: add_to_last (l2 :: rest) m

/-- Modelled from the spec: `litter->add_trajectories()` with the trajectory
that the recursive call writes into it. -/
def add_trajectories : Message → Message → Message
  | mk tl cs fp, m => mk tl (add_to_last cs m) fp

end Message

namespace Litter

/-- The field `fork_time` of the litter. -/
def fork_time : Litter → Instant
  | mk t _ => t

/-- The repeated field `trajectories` of the litter. -/
def trajectories : Litter → List Message
  | mk _ ms => ms

end Litter

namespace Tr4jectory

/-- The pointer to the trajectory. -/
def address : Tr4jectory → Nat
  | mk a _ _ _ => a

/-- The times of the entries of the trajectory's own timeline. -/
def timeline : Tr4jectory → List Instant
  | mk _ tl _ _ => tl

/-- The key of the trajectory in the children of its parent and its
`position_in_parent_timeline_`; `none` for a root. -/
def fork : Tr4jectory → Option (Instant × Nat)
  | mk _ _ f _ => f

/-- The member `children_`. -/
def children_ : Tr4jectory → List (Instant × Tr4jectory)
  | mk _ _ _ cs => cs

/-- The position of the first element of `forks` equal to the pointer, as
`std::find` returns it; `none` for `forks.end()`. -/
def find_fork (forks : List (Option Nat)) (address : Nat) : Option Nat :=
  if forks.findIdx (fun x => decide (x = some address)) < forks.length then
    some (forks.findIdx (fun x => decide (x = some address)))
  else none

mutual
/-- The source's `Forkable::WriteSubTreeToMessage`. -/
def WriteSubTreeToMessage :
    Tr4jectory → Message → List (Option Nat) → Message × List (Option Nat)
  | mk _ _ _ children, message, forks =>
    WriteSubTreeToMessage.loop children none message forks
/-- The `for` loop of `WriteSubTreeToMessage` over `children_`, with the
variable `last_instant`; `litter` is the last litter of the message.  The
message handed to the recursive call, `litter->add_trajectories()`, is new;
the trajectory class writes the timeline of the child in it (modelled from
the spec, section 8: the same per-node timeline contents). -/
def WriteSubTreeToMessage.loop :
    List (Instant × Tr4jectory) → Option Instant → Message → List (Option Nat) →
      Message × List (Option Nat)
  | [], _, message, forks => (message, forks)
  | (fork_time, child) :: rest, last_instant, message, forks =>
    match find_fork forks child.address with
    | none => WriteSubTreeToMessage.loop rest last_instant message forks
    | some position =>
      let message1 := message.add_fork_position position
      let forks1 := forks.set position none
      let message2 :=
        if last_instant = some fork_time then message1 else message1.add_children fork_time
      let written := WriteSubTreeToMessage child (Message.mk child.timeline [] []) forks1
      WriteSubTreeToMessage.loop rest (some fork_time) (message2.add_trajectories written.1)
        written.2
end

/-- The insertion of `std::multimap::emplace`: after the last entry whose key
is not greater than `key`. -/
def emplace (key : Instant) (child : Tr4jectory) :
    List (Instant × Tr4jectory) → List (Instant × Tr4jectory)
  | [] => [(key, child)]
  | (k, c) :: rest =>
    if key < k then (key, child) :: (k, c) :: rest else (k, c) :: emplace key child rest

/-- The source's `Forkable::NewFork`, as seen from `that`: the entry
`(time, child)` that is emplaced in `children_`; the pointer to the new child
is `fresh`. -/
def NewFork (that : Tr4jectory) (timeline_it : Nat) (fresh : Nat) :
    Option (Instant × Tr4jectory) :=
  if timeline_it = that.timeline.length then
    match that.fork with
    | none => none
    | some (time, _) => some (time, mk fresh [] (some (time, timeline_it)) [])
  else
    match that.timeline[timeline_it]? with
    | none => none
    | some time => some (time, mk fresh [] (some (time, timeline_it)) [])

/-- Modelled from the spec: the trajectory class reads the own timeline of a
trajectory from its message before its children are read (section 8: the same
per-node timeline contents). -/
def read_timeline : Tr4jectory → Message → Tr4jectory
  | mk a _ f cs, message => mk a message.timeline f cs

/-- The trajectory with the entry `(time, fork)` emplaced in `children_`. -/
def with_child : Tr4jectory → Instant → Tr4jectory → Tr4jectory
  | mk a tl f cs, time, fork => mk a tl f (emplace time fork cs)

/-- The state of the loops of `FillSubTreeFromMessage`: the trajectory being
filled, the pointers that the slots `*forks[i]` hold, the next unused pointer
and the variable `index`. -/
structure Filling where
  that : Tr4jectory
  forks : List (Option Nat)
  fresh : Nat
  index : Nat

mutual
/-- The source's `Forkable::FillSubTreeFromMessage`. -/
def FillSubTreeFromMessage :
    Message → Tr4jectory → List (Option Nat) → Nat → Option (Tr4jectory × List (Option Nat) × Nat)
  | Message.mk _ children fork_position, that, forks, fresh =>
    match FillSubTreeFromMessage.litters fork_position children ⟨that, forks, fresh, 0⟩ with
    | none => none
    | some filled => some (filled.that, filled.forks, filled.fresh)
/-- The outer `for` loop of `FillSubTreeFromMessage`, over the litters. -/
def FillSubTreeFromMessage.litters (fork_position : List Nat) :
    List Litter → Filling → Option Filling
  | [], filling => some filling
  | Litter.mk fork_time trajectories :: rest, filling =>
    match FillSubTreeFromMessage.trajectories fork_position fork_time trajectories filling with
    | none => none
    | some filled => FillSubTreeFromMessage.litters fork_position rest filled
/-- The inner `for` loop of `FillSubTreeFromMessage`, over the trajectories of
a litter.  The child made by `NewFork` is filled by the recursive call, which
the trajectory class starts by reading the timeline of the child from the
message (modelled from the spec, section 8), and stands in `children_` at the
place where `emplace` put it. -/
def FillSubTreeFromMessage.trajectories (fork_position : List Nat) (fork_time : Instant) :
    List Message → Filling → Option Filling
  | [], filling => some filling
  | child :: rest, filling =>
    match NewFork filling.that (filling.that.timeline.indexOf fork_time) filling.fresh with
    | none => none
    | some (time, fork) =>
      match FillSubTreeFromMessage child (fork.read_timeline child) filling.forks
          (filling.fresh + 1) with
      | none => none
      | some (filled, forks1, fresh1) =>
        if fork_position.length > 0 then
          match fork_position[filling.index]? with
          | none => none
          | some position =>
            if position < forks1.length then
              FillSubTreeFromMessage.trajectories fork_position fork_time rest
                ⟨filling.that.with_child time filled, forks1.set position (some fork.address),
                  fresh1, filling.index + 1⟩
            else none
        else
          FillSubTreeFromMessage.trajectories fork_position fork_time rest
            ⟨filling.that.with_child time filled, forks1, fresh1, filling.index + 1⟩
end

mutual
/-- The trajectory with every pointer forgotten: what is left is the
timelines, the fork times, the fork positions and the order of the children. -/
def forget : Tr4jectory → Tr4jectory
  | mk _ tl f cs => mk 0 tl f (forget_children cs)
/-- The children with every pointer forgotten. -/
def forget_children : List (Instant × Tr4jectory) → List (Instant × Tr4jectory)
  | [] => []
  | (k, c) :: rest => (k, forget c) :: forget_children rest
end

mutual
/-- The pointers to the descendants of a trajectory, itself excluded. -/
def descendants : Tr4jectory → List Nat
  | mk _ _ _ cs => descendants_of_children cs
/-- The pointers to the trajectories of a list of children and to their
descendants. -/
def descendants_of_children : List (Instant × Tr4jectory) → List Nat
  | [] => []
  | (_, c) :: rest => (c.address :: descendants c) ++ descendants_of_children rest
end

mutual
/-- The invariants of section 3 below a trajectory: strictly increasing
timelines after the own fork time, children in the order of their keys, and
the key of each child equal to the time of the entry it is forked at or, for a
fork at the end of the timeline, to the own key. -/
def WellFormed : Tr4jectory → Prop
  | mk _ tl f cs =>
    tl.Pairwise (· < ·) ∧ (∀ own ∈ f, ∀ x ∈ tl, own.1 < x) ∧
      (cs.map Prod.fst).Pairwise (· ≤ ·) ∧ WellFormed_children tl (f.map Prod.fst) cs
/-- The invariants for the children of a trajectory with timeline `tl` and key
`own`. -/
def WellFormed_children (tl : List Instant) (own : Option Instant) :
    List (Instant × Tr4jectory) → Prop
  | [] => True
  | (k, c) :: rest =>
    (match c.fork with
      | none => False
      | some (key, position) =>
        key = k ∧ (tl[position]? = some k ∨ (position = tl.length ∧ own = some k))) ∧
      WellFormed c ∧ WellFormed_children tl own rest
end

end Tr4jectory


namespace It3rator

/-- The normalization invariant of section 4.1, as `CheckNormalizedIfEnd`
tests it: an iterator at the end of the timeline of the front of its ancestry
has an ancestry of length 1. -/
def normalized (it : It3rator) : Prop :=
  ∀ front ∈ it.ancestry_.head?, it.current_ = front.timeline_end → it.ancestry_.length = 1

instance (it : It3rator) : Decidable it.normalized := by
  unfold normalized; exact inferInstance

end It3rator

/-- A fork of the child of the first scenario (times 0 to 5) at the end of the
timeline of that child, as `NewFork(timeline_end())` makes it: its key is the
key of the child, 1, and its timeline is empty. -/
def scenario_fork_at_end : Option Forkable :=
  (scenario_fork 0 1 2 3 4 5).bind (fun c => c.NewFork c.timeline_end)

/-! ## The sequence of a trajectory

The iterators that the iteration from `begin()` to `end()` of a trajectory
meets, written down by recursion on the ancestors; the theorems below prove
that the iteration meets exactly these. -/

namespace It3rator

/-- The iterator with the trajectory `N` pushed at the back of its ancestry:
an iterator of the parent of `N`, seen as an iterator of `N`. -/
def extend (N : Forkable) (it : It3rator) : It3rator := ⟨it.ancestry_ ++ [N], it.current_⟩

/-- The timeline entry that an iterator designates: the trajectory at the
front of the ancestry and the position in its timeline. -/
def entry (it : It3rator) : Option (Forkable × Nat) :=
  it.ancestry_.head?.map (fun front => (front, it.current_))

/-- The iterator designates an entry whose time is at most `t`. -/
def at_or_before (t : Instant) (it : It3rator) : Bool :=
  match it.deref with
  | some x => decide (x ≤ t)
  | none => false

/-- The iterator designates an entry: its position is before the end of the
timeline of the front of its ancestry. -/
def on_entry (it : It3rator) : Prop :=
  ∃ front rest, it.ancestry_ = front :: rest ∧ it.current_ < front.timeline.length

end It3rator

namespace Forkable

/-- The ancestors of a trajectory and the trajectory itself, from the root
down: the full ancestry that `Wrap` builds for `begin()`. -/
def ancestry : Forkable → List Forkable
  | root tl => [root tl]
  | fork tl p k position => ancestry p ++ [fork tl p k position]

/-- The iterators of `N` on the entries of its own timeline. -/
def own (N : Forkable) : List It3rator :=
  (List.range N.timeline.length).map (fun j => ⟨[N], j⟩)

/-- The iterators of `N` on the entries of its ancestors up to its fork point:
those of the parent up to the parent's fork point and, unless `N` is forked at
the end of the timeline of the parent, those on the own entries of the parent
up to the position of the fork. -/
def inherited : Forkable → List It3rator
  | root _ => []
  | fork tl p k position =>
    (inherited p ++ (if position < p.timeline.length then (own p).take (position + 1) else [])).map
      (It3rator.extend (fork tl p k position))

/-- The times of the entries that `inherited` designates. -/
def inherited_times : Forkable → List Instant
  | root _ => []
  | fork _ p _ position =>
    inherited_times p ++ (if position < p.timeline.length then p.timeline.take (position + 1) else [])

/-- The iterators of a trajectory `p` up to the fork point of a fork at
`position`, not yet seen from the fork. -/
def before_fork (p : Forkable) (position : Nat) : List It3rator :=
  p.inherited ++ (if position < p.timeline.length then p.own.take (position + 1) else [])

/-- The iterators of a trajectory `p` after the fork point of a fork at
`position`, then the end of `p`. -/
def after_fork (p : Forkable) (position : Nat) : List It3rator :=
  (if position < p.timeline.length then p.own.drop (position + 1) else p.own) ++
    [⟨[p], p.timeline_end⟩]

/-- The iterators of `N` on the entries of its ancestors up to its fork point,
then on the entries of its own timeline. -/
def sequence (N : Forkable) : List It3rator := inherited N ++ own N

end Forkable

/-! ## A tree for the serialization scenarios -/

/-- A root with timeline `[0, 3]`, two children forked at 0 and one forked at
3; the first child has timeline `[1, 2]`, a child forked at the end of its
timeline (with its key 0) and a child forked at 1. -/
def serialized_root : Tr4jectory :=
  .mk 0 [0, 3] none
    [(0, .mk 1 [1, 2] (some (0, 0))
          [(0, .mk 11 [] (some (0, 2)) []), (1, .mk 12 [7] (some (1, 0)) [])]),
     (0, .mk 2 [] (some (0, 0)) []),
     (3, .mk 3 [5] (some (3, 1)) [])]

/-! ## Position indices, legacy messages and paths -/

namespace Message

mutual
/-- The position indices recorded over the whole tree of a message: those of
its own `fork_position`, then those of the trajectories of its litters. -/
def positions : Message → List Nat
  | mk _ cs fp => fp ++ positions_of_litters cs
/-- The position indices recorded in the trajectories of a list of litters. -/
def positions_of_litters : List Litter → List Nat
  | [] => []
  | Litter.mk _ ms :: rest => positions_of_messages ms ++ positions_of_litters rest
/-- The position indices recorded in a list of trajectories. -/
def positions_of_messages : List Message → List Nat
  | [] => []
  | m :: ms => positions m ++ positions_of_messages ms
end

mutual
/-- A message of the schema without position indices: `fork_position` is empty
at every level. -/
def legacy : Message → Prop
  | mk _ cs fp => fp = [] ∧ legacy_litters cs
/-- Every trajectory of the litters is a legacy message. -/
def legacy_litters : List Litter → Prop
  | [] => True
  | Litter.mk _ ms :: rest => legacy_messages ms ∧ legacy_litters rest
/-- Every trajectory of the list is a legacy message. -/
def legacy_messages : List Message → Prop
  | [] => True
  | m :: ms => legacy m ∧ legacy_messages ms
end

mutual
/-- The number of trajectories that a message describes, at every level, the
message itself excluded. -/
def count : Message → Nat
  | mk _ cs _ => count_of_litters cs
/-- The number of trajectories that a list of litters describes. -/
def count_of_litters : List Litter → Nat
  | [] => 0
  | Litter.mk _ ms :: rest => count_of_messages ms + count_of_litters rest
/-- The number of trajectories that a list of trajectories describes, those of
the list included. -/
def count_of_messages : List Message → Nat
  | [] => 0
  | m :: ms => 1 + count m + count_of_messages ms
end

end Message

namespace Tr4jectory

/-- The descendant reached from a trajectory by a path of ranks in
`children_`: the first rank designates a child, the next one a child of that
child, and so on. -/
def follow : List Nat → Tr4jectory → Option Tr4jectory
  | [], t => some t
  | i :: path, t =>
    match t.children_[i]? with
    | none => none
    | some (_, c) => follow path c

end Tr4jectory


/-! ## Tree surgery -/

namespace Forkable

/-- The `do ... while` loop of the source's `Forkable::Fork`, entered with a
non-root `ancestor`: the position becomes the fork point in the parent, the
ancestor becomes the parent, and the loop goes on while that position is the
end of the timeline of the parent and the parent is not a root. -/
def Fork.loop : Forkable → Option (Forkable × Nat)
  | root _ => none
  | fork _ parent _ position =>
    if position = parent.timeline_end ∧ parent.is_root = false then Fork.loop parent
    else some (parent, position)

/-- The source's `Forkable::Fork`. -/
def Fork (that : Forkable) : Option It3rator :=
  if that.is_root then none
  else
    match Fork.loop that with
    | none => none
    | some (ancestor, position_in_ancestor_timeline) =>
      that.Wrap ancestor position_in_ancestor_timeline

end Forkable

/-- A `Tr4jectory*` that is not null: the address that it holds and the object
at that address as seen through its `parent_` pointer. -/
structure Pointer where
  address : Nat
  pointee : Forkable
  deriving DecidableEq, Repr

namespace Tr4jectory

/-- The source's `is_root`, for a trajectory seen through `children_`:
`parent_` is null exactly when the two optionals are unset, as `NewFork`,
`AttachForkToCopiedBegin` and `DetachForkWithCopiedBegin` set and clear the
three members together. -/
def is_root (that : Tr4jectory) : Bool := that.fork.isNone

/-- The two views of one object agree on the members that both hold: the
timeline, the key `(*position_in_parent_children_)->first` and
`position_in_parent_timeline_`. -/
def seen_as (that : Tr4jectory) (view : Forkable) : Prop :=
  view.timeline = that.timeline ∧ view.fork_time = that.fork.map Prod.fst ∧
    view.position_in_parent_timeline_ = that.fork.map Prod.snd

/-- The trajectory with other children. -/
def with_children : Tr4jectory → List (Instant × Tr4jectory) → Tr4jectory
  | mk a tl f _, cs => mk a tl f cs

/-- The loop of the source's `DeleteFork` over `children_.equal_range(time)`:
the children without the first entry with key `time` whose pointer is
`trajectory`; `none` when there is no such entry (`LOG(FATAL)`). -/
def DeleteFork.loop (time : Instant) (trajectory : Nat) :
    List (Instant × Tr4jectory) → Option (List (Instant × Tr4jectory))
  | [] => none
  | (k, c) :: rest =>
    if k = time ∧ c.address = trajectory then some rest
    else (DeleteFork.loop time trajectory rest).map (fun erased => (k, c) :: erased)

/-- The source's `Forkable::DeleteFork`: the trajectory after the call and the
value of the caller's pointer `trajectory`, `none` for `nullptr`. -/
def DeleteFork (that : Tr4jectory) (trajectory : Option Pointer) :
    Option (Tr4jectory × Option Pointer) :=
  match trajectory with
  | none => none
  | some pointer =>
    match pointer.pointee.Fork with
    | none => none
    | some fork_it =>
      match fork_it.deref with
      | none => none
      | some time =>
        match DeleteFork.loop time pointer.address that.children_ with
        | none => none
        | some children => some (that.with_children children, none)

/-- The assignments to `child->position_in_parent_timeline_` in the loops of
`AttachForkToCopiedBegin` and `DetachForkWithCopiedBegin`: a child whose
position in the timeline of its parent is `current` gets the position
`replacement`. -/
def move_forks (current replacement : Nat) :
    List (Instant × Tr4jectory) → List (Instant × Tr4jectory)
  | [] => []
  | (k, mk a tl (some (key, position)) cs) :: rest =>
    (k, mk a tl (some (key, if position = current then replacement else position)) cs) ::
      move_forks current replacement rest
  | (k, mk a tl none cs) :: rest => (k, mk a tl none cs) :: move_forks current replacement rest

/-- The source's `Forkable::AttachForkToCopiedBegin`: the trajectory with
`fork` among its children. -/
def AttachForkToCopiedBegin (that fork : Tr4jectory) : Option Tr4jectory :=
  if fork.is_root = false then none
  else
    match fork.timeline with
    | [] => none
    | time :: _ =>
      let position_in_parent_timeline_ :=
        if that.timeline.isEmpty then that.timeline.length else that.timeline.length - 1
      some (that.with_child time
        (mk fork.address fork.timeline (some (time, position_in_parent_timeline_))
          (move_forks 0 fork.timeline.length fork.children_)))

/-- The source's `Forkable::DetachForkWithCopiedBegin`, for a trajectory whose
entry in the children of `parent_` has the rank `position_in_parent_children_`:
the detached trajectory, now a root, and the parent after the call. -/
def DetachForkWithCopiedBegin (that parent_ : Tr4jectory) (position_in_parent_children_ : Nat) :
    Option (Tr4jectory × Tr4jectory) :=
  if that.is_root then none
  else
    some (mk that.address that.timeline none (move_forks that.timeline.length 0 that.children_),
      parent_.with_children (parent_.children_.eraseIdx position_in_parent_children_))

/-- The rank of `children_.upper_bound(time)`: of the first child whose key is
greater than `time`. -/
def upper_bound (time : Instant) (children : List (Instant × Tr4jectory)) : Nat :=
  children.findIdx (fun e => decide (time < e.1))

/-- The rank of `children_.lower_bound(time)`: of the first child whose key is
not less than `time`. -/
def lower_bound (time : Instant) (children : List (Instant × Tr4jectory)) : Nat :=
  children.findIdx (fun e => decide (time ≤ e.1))

/-- The source's `Forkable::DeleteAllForksAfter`, on an object given by its two
views: the trajectory after the call. -/
def DeleteAllForksAfter (that : Tr4jectory) (view : Forkable) (time : Instant) :
    Option Tr4jectory :=
  let erased := that.with_children (that.children_.take (upper_bound time that.children_))
  if view.is_root then some erased
  else
    match view.Fork with
    | none => none
    | some fork_it =>
      match fork_it.deref with
      | none => none
      | some fork_time => if fork_time ≤ time then some erased else none

/-- The source's `Forkable::CheckNoForksBefore`: the trajectory after the call,
which has no assignment. -/
def CheckNoForksBefore (that : Tr4jectory) (time : Instant) : Option Tr4jectory :=
  if that.is_root = false then none
  else if 0 = lower_bound time that.children_ then some that
  else none

end Tr4jectory

namespace Tr4jectory

/-- The source's `Forkable::AttachForkToCopiedBegin` with the state in which a
failed `CHECK` leaves the trajectory: `Except.error` holds the trajectory as
it is when the call fails, `Except.ok` the trajectory with `fork` among its
children. -/
def AttachForkToCopiedBegin.run (that fork : Tr4jectory) : Except Tr4jectory Tr4jectory :=
  if fork.is_root = false then Except.error that
  else
    match fork.timeline with
    | [] => Except.error that
    | time :: _ =>
      let position_in_parent_timeline_ :=
        if that.timeline.isEmpty then that.timeline.length else that.timeline.length - 1
      Except.ok (that.with_child time
        (mk fork.address fork.timeline (some (time, position_in_parent_timeline_))
          (move_forks 0 fork.timeline.length fork.children_)))

end Tr4jectory

/-! ## Trees built by the tree surgery -/

namespace Forkable

/-- The fork-time link along the ancestors of a trajectory: the key of each
fork is the time of the entry it is forked at or, for a fork at the end of the
timeline of its parent, the key of that parent. -/
def Linked : Forkable → Prop
  | root _ => True
  | fork _ p k position =>
    p.Linked ∧ (p.time position = some k ∨ (position = p.timeline_end ∧ p.fork_time = some k))

end Forkable

namespace Tr4jectory

/-- The trajectory with the trajectory at the end of a path of ranks in
`children_` replaced. -/
def update : List Nat → Tr4jectory → Tr4jectory → Tr4jectory
  | [], replacement, _ => replacement
  | i :: path, replacement, t =>
    match t.children_[i]? with
    | none => t
    | some (k, c) => t.with_children (t.children_.set i (k, update path replacement c))

/-- A child seen through its `parent_` pointer, given its parent seen so: its
timeline, its parent, its key and its position in the timeline of the parent;
a root when the members are unset. -/
def child_view (parent : Forkable) (c : Tr4jectory) : Forkable :=
  match c.fork with
  | none => Forkable.root c.timeline
  | some (key, position) => Forkable.fork c.timeline parent key position

/-- The trajectory at the end of a path of ranks in `children_`, seen through
its `parent_` pointer, given the trajectory at the beginning of the path seen
so. -/
def view_at : List Nat → Forkable → Tr4jectory → Option Forkable
  | [], view, _ => some view
  | i :: path, view, t =>
    match t.children_[i]? with
    | none => none
    | some (_, c) => view_at path (child_view view c) c

mutual
/-- The fork-time link below a trajectory: the key of each child is the key of
its entry and is the time of the entry of the timeline that the child is
forked at or, for a child forked at the end of the timeline, the own key. -/
def Linked : Tr4jectory → Prop
  | mk _ tl f cs => Linked_children tl (f.map Prod.fst) cs
/-- The fork-time link for the children of a trajectory with timeline `tl` and
key `own`. -/
def Linked_children (tl : List Instant) (own : Option Instant) :
    List (Instant × Tr4jectory) → Prop
  | [] => True
  | (k, c) :: rest =>
    (match c.fork with
      | none => False
      | some (key, position) =>
        key = k ∧ (tl[position]? = some k ∨ (position = tl.length ∧ own = some k))) ∧
      Linked c ∧ Linked_children tl own rest
end

/-- Modelled from the spec: the timeline collaborator appends an entry to the
own timeline of a trajectory (section 6).  The iterators to the entries and
`timeline_end()` stay what they are: a child forked at the end of the timeline
is still forked at its end. -/
def Append (that : Tr4jectory) (time : Instant) : Tr4jectory :=
  mk that.address (that.timeline ++ [time]) that.fork
    (move_forks that.timeline.length (that.timeline.length + 1) that.children_)

/-- The time of the last entry of the sequence of a trajectory as far as the
trajectory holds it: of the last entry of its timeline or, when its timeline
is empty, its own key. -/
def last_time (that : Tr4jectory) : Option Instant :=
  match that.timeline.getLast? with
  | some time => some time
  | none => that.fork.map Prod.fst

/-- The trees that the tree surgery builds from roots.  A root is made by the
owning context with its timeline; `Append` is the timeline collaborator;
`AttachForkToCopiedBegin` is used under its documented precondition, that the
timeline of `fork` begins with a copy of the last entry of the trajectory (for
an empty timeline, handled by the source, of its key);
`DetachForkWithCopiedBegin` is used under its documented precondition, that
the fork time is now the first entry of the timeline. -/
inductive Built : Tr4jectory → Prop
  | root (address : Nat) (timeline : List Instant) : Built (mk address timeline none [])
  | Append (T P : Tr4jectory) (path : List Nat) (time : Instant) :
    Built T → follow path T = some P → Built (update path (P.Append time) T)
  | NewFork (T P : Tr4jectory) (path : List Nat) (timeline_it fresh : Nat) (time : Instant)
      (child : Tr4jectory) :
    Built T → follow path T = some P → P.NewFork timeline_it fresh = some (time, child) →
    Built (update path (P.with_child time child) T)
  | DeleteFork (T P P' : Tr4jectory) (path : List Nat) (trajectory handle : Option Pointer) :
    Built T → follow path T = some P → P.DeleteFork trajectory = some (P', handle) →
    Built (update path P' T)
  | DeleteAllForksAfter (T P P' : Tr4jectory) (path : List Nat) (view : Forkable)
      (time : Instant) :
    Built T → follow path T = some P → P.DeleteAllForksAfter view time = some P' →
    Built (update path P' T)
  | AttachForkToCopiedBegin (T S P P' : Tr4jectory) (path : List Nat) :
    Built T → Built S → follow path T = some P → S.timeline.head? = P.last_time →
    P.AttachForkToCopiedBegin S = some P' → Built (update path P' T)
  | DetachForkWithCopiedBegin (T P N N' P' : Tr4jectory) (path : List Nat) (i : Nat)
      (k : Instant) :
    Built T → follow path T = some P → P.children_[i]? = some (k, N) →
    N.timeline.head? = N.fork.map Prod.fst →
    N.DetachForkWithCopiedBegin P i = some (N', P') → Built (update path P' T)
  | detached (T P N N' P' : Tr4jectory) (path : List Nat) (i : Nat) (k : Instant) :
    Built T → follow path T = some P → P.children_[i]? = some (k, N) →
    N.timeline.head? = N.fork.map Prod.fst →
    N.DetachForkWithCopiedBegin P i = some (N', P') → Built N'

end Tr4jectory

/-! ## Objects and pointers

The members `parent_` and `position_in_parent_children_` are pointers between
objects.  To state what the tree surgery does to them, the objects are held
here in a store, at their addresses.  The iterator
`position_in_parent_children_` designates an entry of the children of the
parent; the entries of a multimap never move, and each owns one pointer, so
the iterator is represented by the pointer that its entry owns.  An entry that
is erased destroys the objects that it owns; the store keeps them, and no
object refers to them afterwards. -/

/-- The members of a `Forkable` object. -/
structure Object where
  parent_ : Option Nat
  position_in_parent_children_ : Option Nat
  position_in_parent_timeline_ : Option Nat
  timeline : List Instant
  children_ : List (Instant × Nat)
  deriving DecidableEq, Repr

namespace Object

/-- The members that the timeline collaborator does not touch. -/
def skeleton (o : Object) : Option Nat × Option Nat × List (Instant × Nat) :=
  (o.parent_, o.position_in_parent_children_, o.children_)

end Object

/-- The object at each address; `none` where there is no object. -/
abbrev Store := Nat → Option Object

namespace Store

/-- The store without objects. -/
def empty : Store := fun _ => none

/-- The store with `object` at `address`. -/
def set (s : Store) (address : Nat) (object : Object) : Store :=
  fun a => if a = address then some object else s a

/-- The source's `Forkable::root`, with the number of objects that the loop
may visit; `none` when that number does not suffice. -/
def root : Nat → Store → Nat → Option Nat
  | 0, _, _ => none
  | fuel + 1, s, ancestor =>
    match s ancestor with
    | none => none
    | some o =>
      match o.parent_ with
      | none => some ancestor
      | some parent => root fuel s parent

/-- The key `(*position_in_parent_children_)->first` of the object at `that`:
the key of the entry of the children of its parent that the iterator
designates. -/
def fork_time (s : Store) (that : Nat) : Option Instant :=
  match s that with
  | none => none
  | some o =>
    match o.parent_, o.position_in_parent_children_ with
    | some parent, some entry =>
      match s parent with
      | none => none
      | some po => (po.children_.find? (fun e => e.2 == entry)).map Prod.fst
    | _, _ => none

/-- The insertion of `std::multimap::emplace`: after the last entry whose key
is not greater than `key`. -/
def emplace (key : Instant) (child : Nat) : List (Instant × Nat) → List (Instant × Nat)
  | [] => [(key, child)]
  | (k, c) :: rest =>
    if key < k then (key, child) :: (k, c) :: rest else (k, c) :: emplace key child rest

/-- The source's `Forkable::NewFork` on the object at `that`; `fresh` is the
address that `make_unique` returns, where there is no object yet. -/
def NewFork (s : Store) (that timeline_it fresh : Nat) : Option Store :=
  match s that, s fresh with
  | some o, none =>
    let time :=
      if timeline_it = o.timeline.length then
        if o.parent_.isNone then none else s.fork_time that
      else o.timeline[timeline_it]?
    match time with
    | none => none
    | some time =>
      let s1 := s.set fresh ⟨none, none, none, [], []⟩
      let s2 := s1.set that { o with children_ := emplace time fresh o.children_ }
      some (s2.set fresh ⟨some that, some fresh, some timeline_it, [], []⟩)
  | _, _ => none

/-- The source's `ForkableIterator::CheckNormalizedIfEnd`, for an iterator
given by its ancestry and its position. -/
def CheckNormalizedIfEnd (s : Store) (ancestry_ : List Nat) (current_ : Nat) :
    Option (List Nat × Nat) :=
  match ancestry_ with
  | [] => none
  | front :: _ =>
    match s front with
    | none => none
    | some o =>
      if ancestry_.length = 1 ∨ current_ ≠ o.timeline.length then some (ancestry_, current_)
      else none

/-- The loop of the source's `Forkable::Wrap`, with the number of objects that
it may visit. -/
def Wrap.loop (s : Store) (ancestor position : Nat) :
    Nat → Nat → List Nat → Option (List Nat × Nat)
  | 0, _, _ => none
  | fuel + 1, ancest0r, ancestry =>
    if ancestor = ancest0r then CheckNormalizedIfEnd s (ancest0r :: ancestry) position
    else
      match s ancest0r with
      | none => none
      | some o =>
        match o.parent_ with
        | none => none
        | some parent => Wrap.loop s ancestor position fuel parent (ancest0r :: ancestry)

/-- The loop of the source's `Forkable::Fork`, with the number of objects that
it may visit. -/
def Fork.loop (s : Store) : Nat → Nat → Option (Nat × Nat)
  | 0, _ => none
  | fuel + 1, ancestor =>
    match s ancestor with
    | none => none
    | some o =>
      match o.position_in_parent_timeline_, o.parent_ with
      | some position, some parent =>
        match s parent with
        | none => none
        | some po =>
          if position = po.timeline.length ∧ po.parent_.isSome then Fork.loop s fuel parent
          else some (parent, position)
      | _, _ => none

/-- The source's `Forkable::Fork` on the object at `that`. -/
def Fork (fuel : Nat) (s : Store) (that : Nat) : Option (List Nat × Nat) :=
  match s that with
  | none => none
  | some o =>
    if o.parent_.isNone then none
    else
      match Fork.loop s fuel that with
      | none => none
      | some (ancestor, position) => Wrap.loop s ancestor position fuel that []

/-- The time `time(it.current_)` of the entry that an iterator designates. -/
def time (s : Store) (it : List Nat × Nat) : Option Instant :=
  match it.1 with
  | [] => none
  | front :: _ =>
    match s front with
    | none => none
    | some o => o.timeline[it.2]?

/-- The loop of the source's `DeleteFork` over `children_.equal_range(time)`:
the children without the first entry with key `time` that owns the pointer
`trajectory`; `none` when there is no such entry. -/
def DeleteFork.loop (time : Instant) (trajectory : Nat) :
    List (Instant × Nat) → Option (List (Instant × Nat))
  | [] => none
  | (k, c) :: rest =>
    if k = time ∧ c = trajectory then some rest
    else (DeleteFork.loop time trajectory rest).map (fun erased => (k, c) :: erased)

/-- The source's `Forkable::DeleteFork` on the object at `that`: the store
after the call and the value of the caller's pointer. -/
def DeleteFork (fuel : Nat) (s : Store) (that : Nat) (trajectory : Option Nat) :
    Option (Store × Option Nat) :=
  match trajectory with
  | none => none
  | some pointer =>
    match Fork fuel s pointer with
    | none => none
    | some fork_it =>
      match s.time fork_it, s that with
      | some time, some o =>
        match DeleteFork.loop time pointer o.children_ with
        | none => none
        | some children => some (s.set that { o with children_ := children }, none)
      | _, _ => none

/-- The source's `Forkable::DeleteAllForksAfter` on the object at `that`. -/
def DeleteAllForksAfter (fuel : Nat) (s : Store) (that : Nat) (time : Instant) :
    Option Store :=
  match s that with
  | none => none
  | some o =>
    let erased := s.set that
      { o with children_ := o.children_.take (o.children_.findIdx (fun e => decide (time < e.1))) }
    if o.parent_.isNone then some erased
    else
      match Fork fuel s that with
      | none => none
      | some fork_it =>
        match s.time fork_it with
        | none => none
        | some fork_time => if fork_time ≤ time then some erased else none

/-- The loops of `AttachForkToCopiedBegin` and `DetachForkWithCopiedBegin`
over the children: a child whose position in the timeline of its parent is
`current` gets the position `replacement`. -/
def move_forks (current replacement : Nat) : List (Instant × Nat) → Store → Option Store
  | [], s => some s
  | (_, child) :: rest, s =>
    match s child with
    | none => none
    | some co =>
      move_forks current replacement rest
        (if co.position_in_parent_timeline_ = some current then
          s.set child { co with position_in_parent_timeline_ := some replacement }
        else s)

/-- The source's `Forkable::AttachForkToCopiedBegin` on the object at `that`,
with the pointer `fork`. -/
def AttachForkToCopiedBegin (s : Store) (that fork : Nat) : Option Store :=
  match s fork with
  | none => none
  | some fo =>
    if fo.parent_.isSome then none
    else
      match fo.timeline with
      | [] => none
      | time :: _ =>
        match move_forks 0 fo.timeline.length fo.children_ s with
        | none => none
        | some s1 =>
          match s1 that with
          | none => none
          | some o =>
            let s2 := s1.set that { o with children_ := emplace time fork o.children_ }
            match s2 fork, s2 that with
            | some fo2, some o2 =>
              some (s2.set fork
                { fo2 with
                  parent_ := some that
                  position_in_parent_children_ := some fork
                  position_in_parent_timeline_ :=
                    some (if o2.timeline.isEmpty then o2.timeline.length
                      else o2.timeline.length - 1) })
            | _, _ => none

/-- The source's `Forkable::DetachForkWithCopiedBegin` on the object at
`that`: the store after the call and the pointer `owned_this` that is
returned, the one owned by the entry that `position_in_parent_children_`
designates. -/
def DetachForkWithCopiedBegin (s : Store) (that : Nat) : Option (Store × Nat) :=
  match s that with
  | none => none
  | some o =>
    match o.parent_, o.position_in_parent_children_ with
    | some parent, some entry =>
      match move_forks o.timeline.length 0 o.children_ s with
      | none => none
      | some s1 =>
        match s1 parent with
        | none => none
        | some po =>
          let s2 := s1.set parent
            { po with children_ := po.children_.eraseP (fun e => e.2 == entry) }
          match s2 that with
          | none => none
          | some o2 =>
            some (s2.set that
              { o2 with
                parent_ := none
                position_in_parent_children_ := none
                position_in_parent_timeline_ := none }, entry)
    | _, _ => none

/-- The stores that the tree surgery reaches from the store without objects.
A root is made by its owning context; the timeline collaborator changes the
timelines and the positions in them, and no other member.  With `guarded`,
`AttachForkToCopiedBegin` is never applied to a trajectory and to the root of
that same trajectory. -/
inductive Reachable (guarded : Bool) : Store → Prop
  | empty : Reachable guarded Store.empty
  | root (s : Store) (fresh : Nat) (timeline : List Instant) :
    Reachable guarded s → s fresh = none →
    Reachable guarded (s.set fresh ⟨none, none, none, timeline, []⟩)
  | timelines (s s' : Store) :
    Reachable guarded s →
    (∀ a, (s' a).map Object.skeleton = (s a).map Object.skeleton) → Reachable guarded s'
  | NewFork (s s' : Store) (that timeline_it fresh : Nat) :
    Reachable guarded s → s.NewFork that timeline_it fresh = some s' → Reachable guarded s'
  | DeleteFork (s s' : Store) (fuel that : Nat) (trajectory handle : Option Nat) :
    Reachable guarded s → s.DeleteFork fuel that trajectory = some (s', handle) →
    Reachable guarded s'
  | DeleteAllForksAfter (s s' : Store) (fuel that : Nat) (time : Instant) :
    Reachable guarded s → s.DeleteAllForksAfter fuel that time = some s' →
    Reachable guarded s'
  | AttachForkToCopiedBegin (s s' : Store) (that fork : Nat) :
    Reachable guarded s → (guarded = true → ∀ fuel, s.root fuel that ≠ some fork) →
    s.AttachForkToCopiedBegin that fork = some s' → Reachable guarded s'
  | DetachForkWithCopiedBegin (s s' : Store) (that owned_this : Nat) :
    Reachable guarded s → s.DetachForkWithCopiedBegin that = some (s', owned_this) →
    Reachable guarded s'

/-- The ownership invariant: every pointer owned by an entry of the children
of the object at `P` points to an object whose parent is `P` and whose
`position_in_parent_children_` designates that entry, and no two entries of
the children of an object own the same pointer. -/
def Owned (s : Store) : Prop :=
  ∀ P o, s P = some o →
    (∀ e ∈ o.children_, ∃ oc, s e.2 = some oc ∧ oc.parent_ = some P ∧
      oc.position_in_parent_children_ = some e.2) ∧
    (o.children_.map Prod.snd).Nodup

/-- A root with the timeline `[0]`, at the address 0, and its child, at the
address 1, forked at its first entry by `NewFork`. -/
def root_and_fork : Store :=
  fun a =>
    if a = 0 then some ⟨none, none, none, [0], [(0, 1)]⟩
    else if a = 1 then some ⟨some 0, some 1, some 0, [], []⟩
    else none

/-- A root with the timeline `[0]`, at the address 0, attached by
`AttachForkToCopiedBegin` to its own child, at the address 1, forked at its
first entry. -/
def attached_to_own_fork : Store :=
  fun a =>
    if a = 0 then some ⟨some 1, some 0, some 0, [0], [(0, 1)]⟩
    else if a = 1 then some ⟨some 0, some 1, some 1, [], [(0, 0)]⟩
    else none

end Store

namespace It3rator

/-- An iterator of the trajectory `N`: its ancestry is not empty, ends with
`N` and runs along the `parent_` pointers, and its position is a position of
the timeline of the front of the ancestry, the end included. -/
def of_trajectory (N : Forkable) (it : It3rator) : Prop :=
  it.ancestry_.getLast? = some N ∧
    List.Chain' (fun a b : Forkable => b.parent_ = some a) it.ancestry_ ∧
    ∀ front ∈ it.ancestry_.head?, it.current_ ≤ front.timeline_end

end It3rator

namespace Forkable

/-- The fork point of each trajectory along the ancestors is a position of the
timeline of its parent, the end included: `position_in_parent_timeline_` is an
iterator of the timeline of the parent. -/
def Positioned : Forkable → Prop
  | root _ => True
  | fork _ p _ position => p.Positioned ∧ position ≤ p.timeline_end

end Forkable

namespace Tr4jectory

/-- The source's `Forkable::NewFork` with the state in which a failed `CHECK`
leaves the trajectory: `Except.error` holds the trajectory as it is when the
call fails, at `CHECK(!is_root())` or at the read of the time of an iterator
that is not on an entry, both before `children_.emplace`; `Except.ok` holds
the trajectory with the new child among its children. -/
def NewFork.run (that : Tr4jectory) (timeline_it : Nat) (fresh : Nat) :
    Except Tr4jectory Tr4jectory :=
  if timeline_it = that.timeline.length then
    match that.fork with
    | none => Except.error that
    | some (time, _) =>
      Except.ok (that.with_child time (mk fresh [] (some (time, timeline_it)) []))
  else
    match that.timeline[timeline_it]? with
    | none => Except.error that
    | some time =>
      Except.ok (that.with_child time (mk fresh [] (some (time, timeline_it)) []))

end Tr4jectory

/-! ## The litters of a written message -/

namespace Message

/-- The trajectories of a list of litters in the order of the message, each
with the fork time of its litter. -/
def trajectories_of_litters : List Litter → List (Instant × Message)
  | [] => []
  | Litter.mk fork_time ms :: rest =>
    ms.map (fun m => (fork_time, m)) ++ trajectories_of_litters rest

mutual
/-- At every level of the message the fork times of the litters are strictly
increasing, every litter has a trajectory, and there are as many position
indices as trajectories in the litters of the level. -/
def grouped : Message → Prop
  | mk _ cs fp =>
    (cs.map Litter.fork_time).Pairwise (· < ·) ∧ (∀ l ∈ cs, l.trajectories ≠ []) ∧
      fp.length = (trajectories_of_litters cs).length ∧ grouped_litters cs
/-- Every trajectory of the litters is grouped. -/
def grouped_litters : List Litter → Prop
  | [] => True
  | Litter.mk _ ms :: rest => grouped_messages ms ∧ grouped_litters rest
/-- Every trajectory of the list is grouped. -/
def grouped_messages : List Message → Prop
  | [] => True
  | m :: ms => grouped m ∧ grouped_messages ms
end

/-- The state of the loop of `WriteSubTreeToMessage` between two children: the
litters `L` and the position indices `P` written so far are those of a grouped
message, and `last_instant` is the fork time of the last litter, if any. -/
def grouped_so_far (last_instant : Option Instant) (L : List Litter) (P : List Nat) : Prop :=
  (L.map Litter.fork_time).Pairwise (· < ·) ∧ (∀ l ∈ L, l.trajectories ≠ []) ∧
    P.length = (trajectories_of_litters L).length ∧ grouped_litters L ∧
    ((L = [] ∧ last_instant = none) ∨
      ∃ L0 t ms, L = L0 ++ [Litter.mk t ms] ∧ last_instant = some t)

end Message

namespace Tr4jectory

mutual
/-- The order of `std::multimap`: at every level the children are in the
order of their keys. -/
def Ordered : Tr4jectory → Prop
  | mk _ _ _ cs => (cs.map Prod.fst).Pairwise (· ≤ ·) ∧ Ordered_children cs
/-- The children of each child of the list are in the order of their keys, at
every level. -/
def Ordered_children : List (Instant × Tr4jectory) → Prop
  | [] => True
  | (_, c) :: rest => Ordered c ∧ Ordered_children rest
end

end Tr4jectory

/-! ## `ContinuousTrajectory`: the series and `ForgetBefore`

The part of `continuous_trajectory_body.hpp` that `ForgetBefore` reads and
writes: the vector `series_`, the pointer `first_time_` and the vector
`last_points_`. -/

/-- An element of `series_`, a `ЧебышёвSeries`, by the bounds of its interval,
`t_min()` and `t_max()`; its coefficients are not read by `ForgetBefore`. -/
structure Series where
  t_min : Instant
  t_max : Instant
deriving DecidableEq, Repr

/-- The members of `ContinuousTrajectory` that `ForgetBefore` reads and
writes: `series_`, `first_time_` (`none` for a null pointer) and the times of
`last_points_`. -/
structure ContinuousTrajectory where
  series_ : List Series
  first_time_ : Option Instant
  last_points_ : List Instant
deriving DecidableEq, Repr

namespace ContinuousTrajectory

/-- The source's `ContinuousTrajectory::empty`. -/
def empty (that : ContinuousTrajectory) : Bool := that.series_.isEmpty

/-- The source's `ContinuousTrajectory::t_min`; `none` when `CHECK(!empty())`
fails or `first_time_` is null. -/
def t_min (that : ContinuousTrajectory) : Option Instant :=
  if that.empty then none else that.first_time_

/-- The source's `ContinuousTrajectory::t_max`; `none` when `CHECK(!empty())`
fails. -/
def t_max (that : ContinuousTrajectory) : Option Instant :=
  if that.empty then none else that.series_.getLast?.map Series.t_max

/-- The source's `ContinuousTrajectory::FindSeriesForInstant`, as a position
in `series_`; `none` when `CHECK(it != series_.end())` fails.
`std::lower_bound` with the comparison `left.t_max() < right` is the first
position whose series does not have `t_max() < time`, which is what it returns
on a range partitioned by the comparison, as `series_` is when the `t_max()`
of its series are in order. -/
def FindSeriesForInstant (that : ContinuousTrajectory) (time : Instant) : Option Nat :=
  let it := that.series_.findIdx (fun left => decide (¬ left.t_max < time))
  if it = that.series_.length then none else some it

/-- The source's `ContinuousTrajectory::ForgetBefore`, with which of the two
branches of its `if` was taken (`true` for the branch that clears
everything); `none` when `FindSeriesForInstant` fails or when a null
`first_time_` is written through. -/
def ForgetBefore.run (that : ContinuousTrajectory) (time : Instant) :
    Option (ContinuousTrajectory × Bool) :=
  match that.FindSeriesForInstant time with
  | none => none
  | some it =>
    let series := that.series_.drop it
    if series.isEmpty then some (⟨series, none, []⟩, true)
    else
      match that.first_time_ with
      | none => none
      | some _ => some (⟨series, some time, that.last_points_⟩, false)

/-- The source's `ContinuousTrajectory::ForgetBefore`. -/
def ForgetBefore (that : ContinuousTrajectory) (time : Instant) :
    Option ContinuousTrajectory :=
  (ForgetBefore.run that time).map Prod.fst

/-- The invariant of the class that `Append` maintains for times that
increase: the `t_max()` of the series are in order, and `first_time_` is set
when there is a series (`Append` sets it at the first point, before any series
is made). -/
def Consistent (that : ContinuousTrajectory) : Prop :=
  (that.series_.map Series.t_max).Pairwise (· ≤ ·) ∧
    (that.series_ ≠ [] → that.first_time_.isSome = true)

instance (that : ContinuousTrajectory) : Decidable that.Consistent := by
  unfold Consistent
  exact inferInstance

end ContinuousTrajectory

/-! ## The children that a message describes -/

namespace Message

/-- The key under which `NewFork` puts a child that a litter with the fork
time `t` describes, in a trajectory with the timeline `tl` and the key `own`:
`t`, the time of the entry that the child is forked at, or, when the timeline
has no entry at `t`, the key of the trajectory, the child being forked at the
end of the timeline. -/
def described_key (tl : List Instant) (own : Option Instant) (t : Instant) : Instant :=
  if t ∈ tl then t else own.getD t

mutual
/-- Modelled from the spec: the trajectory that a message describes (section
6), pointers forgotten, given its key and its position in the timeline of its
parent: its timeline is that of the message, and its children are the
children that the litters describe, put in `children_` one after the other in
the order of the message. -/
def described : Option (Instant × Nat) → Message → Tr4jectory
  | fork, mk tl cs _ =>
    Tr4jectory.mk 0 tl fork
      ((described_by_litters tl (fork.map Prod.fst) cs).foldl
        (fun children e => Tr4jectory.emplace e.1 e.2 children) [])
/-- Modelled from the spec: the children that a list of litters describes for
a trajectory with the timeline `tl` and the key `own`, in the order of the
message, each with its key. -/
def described_by_litters (tl : List Instant) (own : Option Instant) :
    List Litter → List (Instant × Tr4jectory)
  | [] => []
  | Litter.mk t ms :: rest =>
    described_by_messages tl own t ms ++ described_by_litters tl own rest
/-- Modelled from the spec: the children that the trajectories of a litter
with the fork time `t` describe: each is forked where `timeline_find` finds
`t` in the timeline `tl`, at the entry at time `t` or at the end. -/
def described_by_messages (tl : List Instant) (own : Option Instant) (t : Instant) :
    List Message → List (Instant × Tr4jectory)
  | [] => []
  | m :: ms =>
    (described_key tl own t, described (some (described_key tl own t, tl.indexOf t)) m) ::
      described_by_messages tl own t ms
end

end Message
/-! ## Normalization of iterators -/

open Forkable

theorem CheckNormalizedIfEnd_some {it c : It3rator} (h : it.CheckNormalizedIfEnd = some c) :
    c = it ∧ c.normalized := by
  unfold It3rator.CheckNormalizedIfEnd at h
  split at h
  · simp at h
  · rename_i front rest hanc
    split at h
    · rename_i hc
      simp at h
      subst h
      refine ⟨rfl, ?_⟩
      intro f hf hcur
      simp [hanc] at hf
      subst hf
      rcases hc with hc | hc
      · exact hc
      · exact absurd hcur hc
    · simp at h

theorem NormalizeIfEnd_normalized {it c : It3rator} (h : it.NormalizeIfEnd = some c) :
    c.normalized := by
  unfold It3rator.NormalizeIfEnd at h
  split at h
  · simp at h
  · rename_i front rest hanc
    split at h
    · simp at h
      subst h
      intro f _ _
      rfl
    · rename_i hc
      simp at h
      subst h
      intro f hf hcur
      simp [hanc] at hf
      subst hf
      simp only [hanc] at hc ⊢
      by_contra hlen
      apply hc
      refine ⟨hcur, ?_⟩
      simp at hlen ⊢
      cases rest with
      | nil => simp at hlen
      | cons _ _ => simp

theorem NormalizeIfEnd_isSome {it : It3rator} (h : it.ancestry_ ≠ []) :
    ∃ c, it.NormalizeIfEnd = some c := by
  unfold It3rator.NormalizeIfEnd
  split
  · rename_i hanc; exact absurd hanc h
  · split
    · exact ⟨_, rfl⟩
    · exact ⟨_, rfl⟩

theorem Find_loop_ne_nil (t : Instant) (a : Forkable) (anc : List Forkable) :
    (Find.loop t a anc).ancestry_ ≠ [] := by
  induction a generalizing anc with
  | root tl =>
    unfold Find.loop
    split <;> simp
  | fork tl p k pos ih =>
    unfold Find.loop
    split
    · simp
    · exact ih _

theorem climb_not_end {a : Forkable} (h : a.WellFormed) {anc : List Forkable} {c : It3rator}
    (hc : It3rator.climb a anc = some c) :
    ∃ front rest, c.ancestry_ = front :: rest ∧ c.current_ < front.timeline_end := by
  induction a generalizing anc with
  | root tl => simp [It3rator.climb] at hc
  | fork tl p k pos ih =>
    obtain ⟨_, _, hp, hlink⟩ := h
    unfold It3rator.climb at hc
    split at hc
    · exact ih hp hc
    · rename_i hcond
      simp at hc
      subst hc
      refine ⟨p, anc, rfl, ?_⟩
      rcases hlink with hl | ⟨hl, hk⟩
      · simp only [Forkable.time] at hl
        obtain ⟨hlt, _⟩ := List.getElem?_eq_some_iff.mp hl
        exact hlt
      · exfalso
        apply hcond
        refine ⟨hl, ?_⟩
        cases p with
        | root _ => simp [Forkable.fork_time] at hk
        | fork _ _ _ _ => rfl
theorem descend_isSome (otherwise : It3rator) (ho : otherwise.ancestry_ ≠ [])
    (anc : List Forkable) (fps : List (Option Nat))
    (h : fps.length = anc.length) :
    ∃ c, LowerBound.descend otherwise anc fps = some c ∧ c.ancestry_ ≠ [] := by
  induction anc generalizing fps with
  | nil =>
    cases fps with
    | nil => exact ⟨_, rfl, ho⟩
    | cons _ _ => simp at h
  | cons a anc ih =>
    cases fps with
    | nil => simp at h
    | cons fp fps =>
      unfold LowerBound.descend
      split
      · exact ⟨_, rfl, by simp⟩
      · exact ih fps (by simpa using h)

theorem lower_bound_le (f : Forkable) (t : Instant) : f.timeline_lower_bound t ≤ f.timeline_end := by
  unfold timeline_lower_bound timeline_end
  exact List.findIdx_le_length _

theorem unusable_isSome (a : Forkable) (fp : Option Nat) (cur : Nat) (hcur : cur ≤ a.timeline_end)
    (hfp : ∀ pos ∈ fp, pos ≤ a.timeline_end) : ∃ b, LowerBound.unusable a fp cur = some b := by
  unfold LowerBound.unusable
  split
  · exact ⟨_, rfl⟩
  · rename_i hne
    cases fp with
    | none => exact ⟨_, rfl⟩
    | some pos =>
      simp only
      split
      · exact ⟨_, rfl⟩
      · rename_i hpos
        have h1 : pos < a.timeline.length := lt_of_le_of_ne (hfp pos rfl) hpos
        have h2 : cur < a.timeline.length := lt_of_le_of_ne hcur hne
        simp [Forkable.time, List.getElem?_eq_getElem h1, List.getElem?_eq_getElem h2]

theorem position_le_of_WellFormed {tl : List Instant} {p : Forkable} {k : Instant} {pos : Nat}
    (h : (fork tl p k pos).WellFormed) : pos ≤ p.timeline_end := by
  obtain ⟨_, _, _, hlink⟩ := h
  rcases hlink with hl | ⟨hl, _⟩
  · simp only [Forkable.time] at hl
    exact le_of_lt (List.getElem?_eq_some_iff.mp hl).1
  · exact le_of_eq hl

theorem WellFormed_parent {tl : List Instant} {p : Forkable} {k : Instant} {pos : Nat}
    (h : (fork tl p k pos).WellFormed) : p.WellFormed := h.2.2.1

theorem LowerBound_covered_isSome (t : Instant) (a : Forkable)
    (anc : List Forkable) (fp : Option Nat) (below : List (Option Nat))
    (hlen : below.length = anc.length) (hfp : ∀ pos ∈ fp, pos ≤ a.timeline_end) :
    ∃ c, (match LowerBound.unusable a fp (a.timeline_lower_bound t) with
        | none => none
        | some true =>
          LowerBound.descend ⟨a :: anc, a.timeline_end⟩ anc below
        | some false => some ⟨a :: anc, a.timeline_lower_bound t⟩) = some c ∧
        c.ancestry_ ≠ [] := by
  obtain ⟨b, hb⟩ := unusable_isSome a fp _ (lower_bound_le _ t) hfp
  rw [hb]
  cases b with
  | true => exact descend_isSome _ (by simp) anc below hlen
  | false => exact ⟨_, rfl, by simp⟩

theorem LowerBound_loop_isSome (t : Instant) (a : Forkable) (h : a.WellFormed)
    (anc : List Forkable) (fp : Option Nat) (below : List (Option Nat))
    (hlen : below.length = anc.length) (hfp : ∀ pos ∈ fp, pos ≤ a.timeline_end) :
    ∃ c, LowerBound.loop t a anc (fp :: below) = some c ∧ c.ancestry_ ≠ [] := by
  induction a generalizing anc fp below with
  | root tl =>
    unfold LowerBound.loop
    split
    · exact LowerBound_covered_isSome t _ anc fp below hlen hfp
    · exact ⟨_, rfl, by simp⟩
  | fork tl p k pos ih =>
    unfold LowerBound.loop
    split
    · exact LowerBound_covered_isSome t _ anc fp below hlen hfp
    · refine ih (WellFormed_parent h) _ (some pos) (fp :: below) (by simp [hlen]) ?_
      intro q hq
      simp at hq
      subst hq
      exact position_le_of_WellFormed h

theorem LowerBound_isSome (N : Forkable) (h : N.WellFormed) (t : Instant) :
    ∃ c, N.LowerBound t = some c := by
  obtain ⟨c, hc, hne⟩ := LowerBound_loop_isSome t N h [] none [] rfl (by simp)
  obtain ⟨d, hd⟩ := NormalizeIfEnd_isSome hne
  exact ⟨d, by simp [LowerBound, hc, hd]⟩

theorem Wrap_loop_normalized (ancestor : Forkable) (position : Nat) (a : Forkable)
    (acc : List Forkable) (c : It3rator) (h : Wrap.loop ancestor position a acc = some c) :
    c.normalized := by
  induction a generalizing acc with
  | root tl =>
    unfold Wrap.loop at h
    split at h
    · exact (CheckNormalizedIfEnd_some h).2
    · simp at h
  | fork tl p k pos ih =>
    unfold Wrap.loop at h
    split at h
    · exact (CheckNormalizedIfEnd_some h).2
    · exact ih _ h

theorem increment_normalized {it c : It3rator} (h : it.increment = some c) : c.normalized := by
  unfold It3rator.increment at h
  split at h
  · simp at h
  · split at h
    · simp at h
    · split at h
      · exact (CheckNormalizedIfEnd_some h).2
      · split at h
        · split at h
          · rw [Option.bind_eq_some] at h
            obtain ⟨d, _, hd⟩ := h
            exact (CheckNormalizedIfEnd_some hd).2
          · exact (CheckNormalizedIfEnd_some h).2
        · simp at h

/-! ## The scenarios of section 8 -/

/-- The child of the first scenario is the fork of the root at position 1 with
key `t1` and timeline `[t4, t5]`. -/
theorem scenario_fork_eq (t0 t1 t2 t3 t4 t5 : Instant) (h01 : t0 < t1) :
    scenario_fork t0 t1 t2 t3 t4 t5 = some (fork [t4, t5] (root [t0, t1, t2, t3]) t1 1) := by
  have : t0 ≠ t1 := ne_of_lt h01
  simp [scenario_fork, scenario_root, Forkable.NewFork, timeline_find, timeline_end,
    Forkable.timeline, List.indexOf_cons, Forkable.time, Forkable.push_back, this]

/-- C5: with root timeline `[t0, t1, t2, t3]`, a child forked at `t1` and the
child's own timeline `[t4, t5]`, where `t0 < t1 < t2 < t3 < t4 < t5`, the
iteration from `begin` to `end` of the child visits exactly the entries at
`t0, t1, t4, t5`, and `Size` of the child is 4. -/
theorem scenario_traversal_and_Size (t0 t1 t2 t3 t4 t5 : Instant) (h01 : t0 < t1)
    (h12 : t1 < t2) (h23 : t2 < t3) (h34 : t3 < t4) (h45 : t4 < t5) :
    ∃ C, scenario_fork t0 t1 t2 t3 t4 t5 = some C ∧ C.WellFormed ∧
      (∀ fuel, 5 ≤ fuel → ∃ visited, C.traversal fuel = some visited ∧
        visited.map It3rator.deref = [some t0, some t1, some t4, some t5]) ∧
      C.Size = 4 := by
  refine ⟨_, scenario_fork_eq t0 t1 t2 t3 t4 t5 h01, ?_, ?_, ?_⟩
  · have h14 : t1 < t4 := by linarith
    have h15 : t1 < t5 := by linarith
    have h02 : t0 < t2 := by linarith
    have h03 : t0 < t3 := by linarith
    have h13 : t1 < t3 := by linarith
    simp [Forkable.WellFormed, Forkable.time, Forkable.timeline, *]
  · intro fuel hfuel
    obtain ⟨n, rfl⟩ : ∃ n, fuel = n + 5 := ⟨fuel - 5, by omega⟩
    have : t0 ≠ t1 := ne_of_lt h01
    simp [traversal, Forkable.begin, Forkable.end_, Wrap, Wrap.loop, root_,
      It3rator.CheckNormalizedIfEnd, timeline_begin, timeline_end, Forkable.timeline, iterate,
      It3rator.ne, It3rator.eq, It3rator.members, It3rator.Members.trajectory, Forkable.depth,
      It3rator.increment, Forkable.time, Forkable.fork_time, It3rator.skip_forks,
      It3rator.deref, this]
  · simp [Size, Size.loop, timeline_size, timeline_empty, timeline_begin, Forkable.timeline]

/-- Witness for C5 at the times 0 to 5. -/
theorem scenario_traversal_and_Size_witness :
    ∃ C, scenario_fork 0 1 2 3 4 5 = some C ∧ C.WellFormed ∧
      (∀ fuel, 5 ≤ fuel → ∃ visited, C.traversal fuel = some visited ∧
        visited.map It3rator.deref = [some 0, some 1, some 4, some 5]) ∧
      C.Size = 4 :=
  scenario_traversal_and_Size 0 1 2 3 4 5 (by decide) (by decide) (by decide) (by decide)
    (by decide)

/-- C6, as the spec states it, fails: at the times 0 to 5, `LowerBound(C, 2)`
is the iterator on the first entry of the child's own timeline, and
`operator==` tells it from `end(C)`. -/
theorem scenario_LowerBound_is_not_end :
    scenario_fork 0 1 2 3 4 5 = some (fork [4, 5] (root [0, 1, 2, 3]) 1 1) ∧
      (fork [4, 5] (root [0, 1, 2, 3]) 1 1).LowerBound 2 =
        some ⟨[fork [4, 5] (root [0, 1, 2, 3]) 1 1], 0⟩ ∧
      (fork [4, 5] (root [0, 1, 2, 3]) 1 1).end_ =
        some ⟨[fork [4, 5] (root [0, 1, 2, 3]) 1 1], 2⟩ ∧
      ∀ debug, It3rator.eq debug
        (It3rator.members Forkable.depth ⟨[fork [4, 5] (root [0, 1, 2, 3]) 1 1], 0⟩)
        (It3rator.members Forkable.depth ⟨[fork [4, 5] (root [0, 1, 2, 3]) 1 1], 2⟩) =
          some false := by
  decide

/-- C6, amended: with root timeline `[t0, t1, t2, t3]`, a child `C` forked at
`t1` and the child's own timeline `[t4, t5]`, where `t0 < t1 < ... < t5`,
`LowerBound(C, t2)` is the iterator with ancestry `[C]` on the first entry of
the own timeline of `C`, the entry at `t4`, which is the first entry of the
sequence of `C` whose time is at least `t2`; it is not `end(C)`. -/
theorem scenario_LowerBound (t0 t1 t2 t3 t4 t5 : Instant) (h01 : t0 < t1)
    (h12 : t1 < t2) (h23 : t2 < t3) (h34 : t3 < t4) (h45 : t4 < t5) :
    ∃ C, scenario_fork t0 t1 t2 t3 t4 t5 = some C ∧
      C.LowerBound t2 = some ⟨[C], 0⟩ ∧
      It3rator.deref ⟨[C], 0⟩ = some t4 ∧
      C.end_ = some ⟨[C], 2⟩ ∧
      ∀ debug, It3rator.eq debug (It3rator.members Forkable.depth ⟨[C], 0⟩)
        (It3rator.members Forkable.depth ⟨[C], 2⟩) = some false := by
  refine ⟨_, scenario_fork_eq t0 t1 t2 t3 t4 t5 h01, ?_, ?_, ?_, ?_⟩
  · have h25 : t2 < t5 := by linarith
    have h1 : ¬ t4 ≤ t2 := by linarith
    have h2 : t0 ≤ t2 := by linarith
    have h3 : ¬ t2 ≤ t0 := by linarith
    have h4 : ¬ t2 ≤ t1 := by linarith
    simp [Forkable.LowerBound, LowerBound.loop, covers, Forkable.timeline, h1, h2, h3, h4,
      timeline_lower_bound, List.findIdx_cons, LowerBound.unusable, timeline_end, Forkable.time,
      h12, LowerBound.descend, timeline_empty, timeline_begin, It3rator.NormalizeIfEnd]
  · simp [It3rator.deref, Forkable.time, Forkable.timeline]
  · simp [Forkable.end_, It3rator.CheckNormalizedIfEnd, timeline_end, Forkable.timeline]
  · intro debug
    simp [It3rator.eq, It3rator.members, It3rator.Members.trajectory]

/-- Witness for the amended C6 at the times 0 to 5. -/
theorem scenario_LowerBound_witness :
    ∃ C, scenario_fork 0 1 2 3 4 5 = some C ∧
      C.LowerBound 2 = some ⟨[C], 0⟩ ∧
      It3rator.deref ⟨[C], 0⟩ = some 4 ∧
      C.end_ = some ⟨[C], 2⟩ ∧
      ∀ debug, It3rator.eq debug (It3rator.members Forkable.depth ⟨[C], 0⟩)
        (It3rator.members Forkable.depth ⟨[C], 2⟩) = some false :=
  scenario_LowerBound 0 1 2 3 4 5 (by decide) (by decide) (by decide) (by decide) (by decide)
/-- In a strictly increasing timeline the lower bound of a time that is
present is the position of that time. -/
theorem findIdx_le_eq_indexOf (tl : List Instant) (t : Instant) (hs : tl.Pairwise (· < ·))
    (h : t ∈ tl) : tl.findIdx (fun x => decide (t ≤ x)) = tl.indexOf t := by
  induction tl with
  | nil => simp at h
  | cons a rest ih =>
    rw [List.pairwise_cons] at hs
    by_cases hat : a = t
    · subst hat
      simp [List.findIdx_cons]
    · have hin : t ∈ rest := by
        rcases List.mem_cons.mp h with h | h
        · exact absurd h.symm hat
        · exact h
      have hlt : a < t := hs.1 t hin
      have hnle : ¬ t ≤ a := not_le.mpr hlt
      simp [List.findIdx_cons, List.indexOf_cons, hnle, hat, ih hs.2 hin]

/-- C7, as the spec states it, fails: for the root with timeline
`[0, 1, 2, 3]` and children forked at 1, the trajectory of the iterator that
`LowerBound(root, 1)` returns is the root, not the child that `NewFork` made
first. -/
theorem LowerBound_of_root_is_not_in_first_child :
    ((root [0, 1, 2, 3]).LowerBound 1).bind It3rator.trajectory = some (root [0, 1, 2, 3]) ∧
      (root [0, 1, 2, 3]).NewFork ((root [0, 1, 2, 3]).timeline_find 1) =
        some (fork [] (root [0, 1, 2, 3]) 1 1) ∧
      ((root [0, 1, 2, 3]).LowerBound 1).bind It3rator.trajectory ≠
        (root [0, 1, 2, 3]).NewFork ((root [0, 1, 2, 3]).timeline_find 1) := by
  decide

/-- C7, amended: for a root whose timeline contains `t1` and that has two
children both forked at `t1`, `LowerBound(root, t1)` does not fail and is the
iterator with ancestry `[root]` on the entry of the root's own timeline at
`t1`; its trajectory is the root itself and neither child, and `children_` is
not examined. -/
theorem LowerBound_of_root_at_fork_time (timeline : List Instant) (t1 : Instant)
    (first second : Forkable) (hs : timeline.Pairwise (· < ·)) (h : t1 ∈ timeline)
    (h1 : (root timeline).NewFork ((root timeline).timeline_find t1) = some first)
    (h2 : (root timeline).NewFork ((root timeline).timeline_find t1) = some second) :
    (root timeline).LowerBound t1 = some ⟨[root timeline], timeline.indexOf t1⟩ ∧
      It3rator.deref ⟨[root timeline], timeline.indexOf t1⟩ = some t1 ∧
      It3rator.trajectory ⟨[root timeline], timeline.indexOf t1⟩ = some (root timeline) ∧
      root timeline ≠ first ∧ root timeline ≠ second := by
  have hidx : timeline.indexOf t1 < timeline.length := List.indexOf_lt_length.mpr h
  have hcov : (root timeline).covers t1 = true := by
    unfold covers
    cases htl : timeline with
    | nil => simp [htl] at h
    | cons a rest =>
      simp only [Forkable.timeline, decide_eq_true_eq]
      rw [htl, List.pairwise_cons] at hs
      rw [htl] at h
      rcases List.mem_cons.mp h with h | h
      · exact le_of_eq h.symm
      · exact le_of_lt (hs.1 t1 h)
  refine ⟨?_, ?_, ?_, ?_, ?_⟩
  · have hne : timeline.indexOf t1 ≠ timeline.length := ne_of_lt hidx
    simp [Forkable.LowerBound, LowerBound.loop, hcov, timeline_lower_bound, Forkable.timeline,
      findIdx_le_eq_indexOf timeline t1 hs h, LowerBound.unusable, timeline_end, hne,
      It3rator.NormalizeIfEnd]
  · simp [It3rator.deref, Forkable.time, Forkable.timeline, List.getElem?_eq_getElem hidx]
  · simp [It3rator.trajectory]
  · intro he
    subst he
    simp only [Forkable.NewFork] at h1
    split at h1
    · simp [Forkable.fork_time] at h1
    · split at h1 <;> simp at h1
  · intro he
    subst he
    simp only [Forkable.NewFork] at h2
    split at h2
    · simp [Forkable.fork_time] at h2
    · split at h2 <;> simp at h2

/-- Witness for the amended C7: the root with timeline `[0, 1, 2, 3]` and two
children forked at 1. -/
theorem LowerBound_of_root_at_fork_time_witness :
    (root [0, 1, 2, 3]).LowerBound 1 = some ⟨[root [0, 1, 2, 3]], 1⟩ ∧
      It3rator.deref ⟨[root [0, 1, 2, 3]], 1⟩ = some 1 ∧
      It3rator.trajectory ⟨[root [0, 1, 2, 3]], 1⟩ = some (root [0, 1, 2, 3]) ∧
      root [0, 1, 2, 3] ≠ fork [] (root [0, 1, 2, 3]) 1 1 ∧
      root [0, 1, 2, 3] ≠ fork [] (root [0, 1, 2, 3]) 1 1 :=
  LowerBound_of_root_at_fork_time [0, 1, 2, 3] 1 (fork [] (root [0, 1, 2, 3]) 1 1)
    (fork [] (root [0, 1, 2, 3]) 1 1) (by decide) (by decide) (by decide) (by decide)

/-! ## Forks at the end of a nonempty timeline, and `Find` after the fork point -/

/-- C1 fails on the code: for the fork `S` made by `NewFork(timeline_end())`
on the child of the first scenario, the iteration from `begin(S)` to `end(S)`
visits 2 entries (those of the root at 0 and 1), and `Size(S)` is 5. -/
theorem Size_of_fork_at_end_of_timeline :
    scenario_fork_at_end =
        some (fork [] (fork [4, 5] (root [0, 1, 2, 3]) 1 1) 1 2) ∧
      (fork [] (fork [4, 5] (root [0, 1, 2, 3]) 1 1) 1 2).WellFormed ∧
      (fork [] (fork [4, 5] (root [0, 1, 2, 3]) 1 1) 1 2).traversal 3 =
        some [⟨[root [0, 1, 2, 3], fork [4, 5] (root [0, 1, 2, 3]) 1 1,
                fork [] (fork [4, 5] (root [0, 1, 2, 3]) 1 1) 1 2], 0⟩,
              ⟨[root [0, 1, 2, 3], fork [4, 5] (root [0, 1, 2, 3]) 1 1,
                fork [] (fork [4, 5] (root [0, 1, 2, 3]) 1 1) 1 2], 1⟩] ∧
      (fork [] (fork [4, 5] (root [0, 1, 2, 3]) 1 1) 1 2).Size = 5 := by
  decide

/-- C3 fails on the code: for the fork `S` made by `NewFork(timeline_end())`
on the child `C` of the first scenario, the entries visited from `begin(S)` to
`end(S)` are those of the root at 0 and 1, none at or after 4, yet
`LowerBound(S, 4)` is not `end(S)`: it is an iterator with ancestry `[C, S]`
on the entry of `C` at 4, and `operator++` fails on its successor. -/
theorem LowerBound_of_fork_at_end_of_timeline :
    scenario_fork_at_end =
        some (fork [] (fork [4, 5] (root [0, 1, 2, 3]) 1 1) 1 2) ∧
      ((fork [] (fork [4, 5] (root [0, 1, 2, 3]) 1 1) 1 2).traversal 3).map
          (List.map It3rator.deref) = some [some 0, some 1] ∧
      (fork [] (fork [4, 5] (root [0, 1, 2, 3]) 1 1) 1 2).LowerBound 4 =
        some ⟨[fork [4, 5] (root [0, 1, 2, 3]) 1 1,
               fork [] (fork [4, 5] (root [0, 1, 2, 3]) 1 1) 1 2], 0⟩ ∧
      (fork [] (fork [4, 5] (root [0, 1, 2, 3]) 1 1) 1 2).end_ =
        some ⟨[fork [] (fork [4, 5] (root [0, 1, 2, 3]) 1 1) 1 2], 0⟩ ∧
      It3rator.deref ⟨[fork [4, 5] (root [0, 1, 2, 3]) 1 1,
               fork [] (fork [4, 5] (root [0, 1, 2, 3]) 1 1) 1 2], 0⟩ = some 4 ∧
      It3rator.increment ⟨[fork [4, 5] (root [0, 1, 2, 3]) 1 1,
               fork [] (fork [4, 5] (root [0, 1, 2, 3]) 1 1) 1 2], 1⟩ = none := by
  decide

/-- C4 fails on the code: in the first scenario at the times 0 to 5, the
entries visited from `begin(C)` to `end(C)` are at 0, 1, 4, 5, none at 2, yet
`Find(C, 2)` is not `end(C)`: it is the iterator with ancestry `[root, C]` on
the entry of the root at 2, after the fork point of `C`, which the iteration
does not visit. -/
theorem Find_after_fork_point :
    scenario_fork 0 1 2 3 4 5 = some (fork [4, 5] (root [0, 1, 2, 3]) 1 1) ∧
      (fork [4, 5] (root [0, 1, 2, 3]) 1 1).Find 2 =
        some ⟨[root [0, 1, 2, 3], fork [4, 5] (root [0, 1, 2, 3]) 1 1], 2⟩ ∧
      (fork [4, 5] (root [0, 1, 2, 3]) 1 1).end_ =
        some ⟨[fork [4, 5] (root [0, 1, 2, 3]) 1 1], 2⟩ ∧
      (fork [4, 5] (root [0, 1, 2, 3]) 1 1).traversal 5 =
        some [⟨[root [0, 1, 2, 3], fork [4, 5] (root [0, 1, 2, 3]) 1 1], 0⟩,
              ⟨[root [0, 1, 2, 3], fork [4, 5] (root [0, 1, 2, 3]) 1 1], 1⟩,
              ⟨[fork [4, 5] (root [0, 1, 2, 3]) 1 1], 0⟩,
              ⟨[fork [4, 5] (root [0, 1, 2, 3]) 1 1], 1⟩] ∧
      ((fork [4, 5] (root [0, 1, 2, 3]) 1 1).traversal 5).map
          (List.map It3rator.deref) = some [some 0, some 1, some 4, some 5] := by
  decide

/-- C8 fails on the code: `end(C)` has ancestry `[C]` and the position of the
end of the timeline of `C`, but in the first scenario at the times 0 to 5
`Find(C, 2)`, for the time 2 that the sequence of `C` does not contain, does
not compare equal to `end(C)`; and for the fork `S` of `C` at the end of its
timeline, `LowerBound(S, 4)`, with 4 after the last entry of the sequence of
`S`, does not compare equal to `end(S)`. -/
theorem end_is_not_reached_by_Find_and_LowerBound :
    (fork [4, 5] (root [0, 1, 2, 3]) 1 1).end_ =
        some ⟨[fork [4, 5] (root [0, 1, 2, 3]) 1 1], 2⟩ ∧
      ((fork [4, 5] (root [0, 1, 2, 3]) 1 1).traversal 5).map
          (List.map It3rator.deref) = some [some 0, some 1, some 4, some 5] ∧
      (∀ debug, ((fork [4, 5] (root [0, 1, 2, 3]) 1 1).Find 2).bind
          (fun it => It3rator.eq debug (It3rator.members Forkable.depth it)
            (It3rator.members Forkable.depth ⟨[fork [4, 5] (root [0, 1, 2, 3]) 1 1], 2⟩)) =
        some false) ∧
      (fork [] (fork [4, 5] (root [0, 1, 2, 3]) 1 1) 1 2).end_ =
        some ⟨[fork [] (fork [4, 5] (root [0, 1, 2, 3]) 1 1) 1 2], 0⟩ ∧
      ((fork [] (fork [4, 5] (root [0, 1, 2, 3]) 1 1) 1 2).traversal 3).map
          (List.map It3rator.deref) = some [some 0, some 1] ∧
      ∀ debug, ((fork [] (fork [4, 5] (root [0, 1, 2, 3]) 1 1) 1 2).LowerBound 4).bind
          (fun it => It3rator.eq debug (It3rator.members Forkable.depth it)
            (It3rator.members Forkable.depth
              ⟨[fork [] (fork [4, 5] (root [0, 1, 2, 3]) 1 1) 1 2], 0⟩)) =
        some false := by
  decide
/-! ## The iteration from `begin` to `end` -/

theorem skip_forks_extend_ne (τ k : Instant) (N : Forkable) (hN : N.fork_time = some k)
    (hne : τ ≠ k) (child : Forkable) (others : List Forkable) :
    It3rator.skip_forks τ child (others ++ [N]) =
      (It3rator.skip_forks τ child others).map (It3rator.extend N) := by
  induction others generalizing child with
  | nil => simp [It3rator.skip_forks, hN, hne, It3rator.extend]
  | cons next rest ih =>
    simp only [List.cons_append, It3rator.skip_forks]
    cases hk : next.fork_time with
    | none => simp
    | some κ =>
      simp only
      split
      · exact ih next
      · simp [It3rator.extend]

theorem skip_forks_extend_eq (τ : Instant) (N : Forkable) (hN : N.fork_time = some τ)
    (child : Forkable) (others : List Forkable) (s : It3rator)
    (hs : It3rator.skip_forks τ child others = some s) (hlen : s.ancestry_.length = 1) :
    It3rator.skip_forks τ child (others ++ [N]) = some ⟨[N], N.timeline_begin⟩ := by
  induction others generalizing child with
  | nil => simp [It3rator.skip_forks, hN]
  | cons next rest ih =>
    simp only [List.cons_append, It3rator.skip_forks] at hs ⊢
    cases hk : next.fork_time with
    | none => simp [hk] at hs
    | some κ =>
      simp only [hk] at hs ⊢
      split at hs
      · rename_i heq
        subst heq
        rw [if_pos rfl]
        exact ih next hs
      · simp at hs
        subst hs
        simp at hlen

theorem CheckNormalizedIfEnd_eq_some {it c : It3rator} (h : it.CheckNormalizedIfEnd = some c) :
    c = it := (CheckNormalizedIfEnd_some h).1

theorem CheckNormalizedIfEnd_of_on_entry {it : It3rator} (h : it.on_entry) :
    it.CheckNormalizedIfEnd = some it := by
  obtain ⟨front, rest, hanc, hlt⟩ := h
  unfold It3rator.CheckNormalizedIfEnd
  simp only [hanc]
  have : it.current_ ≠ front.timeline_end := ne_of_lt hlt
  simp [this]

theorem on_entry_extend {it : It3rator} (N : Forkable) (h : it.on_entry) :
    (it.extend N).on_entry := by
  obtain ⟨front, rest, hanc, hlt⟩ := h
  exact ⟨front, rest ++ [N], by simp [It3rator.extend, hanc], hlt⟩

theorem deref_extend {it : It3rator} (N : Forkable) (h : it.ancestry_ ≠ []) :
    (it.extend N).deref = it.deref := by
  cases hanc : it.ancestry_ with
  | nil => exact absurd hanc h
  | cons front rest => simp [It3rator.extend, It3rator.deref, hanc]

theorem entry_extend {it : It3rator} (N : Forkable) (h : it.ancestry_ ≠ []) :
    (it.extend N).entry = it.entry := by
  cases hanc : it.ancestry_ with
  | nil => exact absurd hanc h
  | cons front rest => simp [It3rator.extend, It3rator.entry, hanc]

/-- An iterator of the parent before the fork point of `N` and the same
iterator seen from `N` are incremented alike. -/
theorem increment_extend {a b : It3rator} {N : Forkable} {τ k : Instant}
    (hinc : a.increment = some b) (hb : b.on_entry) (ha : a.deref = some τ)
    (hN : N.fork_time = some k) (hne : τ ≠ k) :
    (a.extend N).increment = some (b.extend N) := by
  obtain ⟨anc, j⟩ := a
  cases anc with
  | nil => simp [It3rator.increment] at hinc
  | cons front rest =>
    simp only [It3rator.deref] at ha
    simp only [It3rator.increment] at hinc
    split at hinc
    · simp at hinc
    · rename_i hj
      cases rest with
      | nil =>
        simp only at hinc
        have hbeq := CheckNormalizedIfEnd_eq_some hinc
        subst hbeq
        simp only [It3rator.extend, List.cons_append, List.nil_append, It3rator.increment, hj,
          if_false, ha, hN, hne]
        exact CheckNormalizedIfEnd_of_on_entry (on_entry_extend N hb)
      | cons child others =>
        simp only [ha] at hinc
        simp only [It3rator.extend, List.cons_append, It3rator.increment, hj, if_false, ha]
        cases hκ : child.fork_time with
        | none => simp [hκ] at hinc
        | some κ =>
          simp only [hκ] at hinc ⊢
          split at hinc
          · rename_i heq
            subst heq
            rw [if_pos rfl]
            rw [Option.bind_eq_some] at hinc
            obtain ⟨s, hs, hcheck⟩ := hinc
            have := CheckNormalizedIfEnd_eq_some hcheck
            subst this
            rw [skip_forks_extend_ne τ k N hN hne, hs]
            simp only [Option.map_some', Option.some_bind]
            exact CheckNormalizedIfEnd_of_on_entry (on_entry_extend N hb)
          · rename_i hneq
            simp only [hneq, if_false]
            have hbeq := CheckNormalizedIfEnd_eq_some hinc
            subst hbeq
            exact CheckNormalizedIfEnd_of_on_entry (on_entry_extend N hb)

/-- At its fork point, the iterator seen from `N` is incremented to the
beginning of the timeline of `N`. -/
theorem increment_extend_at_fork {a b : It3rator} {N : Forkable} {τ : Instant}
    (hinc : a.increment = some b) (hb : b.ancestry_.length = 1) (ha : a.deref = some τ)
    (hN : N.fork_time = some τ) :
    (a.extend N).increment = some ⟨[N], N.timeline_begin⟩ := by
  obtain ⟨anc, j⟩ := a
  cases anc with
  | nil => simp [It3rator.increment] at hinc
  | cons front rest =>
    simp only [It3rator.deref] at ha
    simp only [It3rator.increment] at hinc
    split at hinc
    · simp at hinc
    · rename_i hj
      cases rest with
      | nil =>
        simp [It3rator.extend, It3rator.increment, hj, ha, hN, It3rator.skip_forks,
          It3rator.CheckNormalizedIfEnd]
      | cons child others =>
        simp only [ha] at hinc
        simp only [It3rator.extend, List.cons_append, It3rator.increment, hj, if_false, ha]
        cases hκ : child.fork_time with
        | none => simp [hκ] at hinc
        | some κ =>
          simp only [hκ] at hinc ⊢
          split at hinc
          · rename_i heq
            subst heq
            rw [if_pos rfl]
            rw [Option.bind_eq_some] at hinc
            obtain ⟨s, hs, hcheck⟩ := hinc
            have := CheckNormalizedIfEnd_eq_some hcheck
            subst this
            rw [skip_forks_extend_eq τ N hN child others b hs hb]
            simp [It3rator.CheckNormalizedIfEnd]
          · have hbeq := CheckNormalizedIfEnd_eq_some hinc
            subst hbeq
            simp at hb
theorem increment_own (N : Forkable) (j : Nat) (h : j < N.timeline.length) :
    It3rator.increment ⟨[N], j⟩ = some ⟨[N], j + 1⟩ := by
  have : j ≠ N.timeline_end := ne_of_lt h
  simp [It3rator.increment, this, It3rator.CheckNormalizedIfEnd]

theorem own_chain_aux (N : Forkable) (n s : Nat) (h : s + n = N.timeline.length) :
    List.Chain' (fun a b => It3rator.increment a = some b)
      ((List.range' s n).map (fun j => (⟨[N], j⟩ : It3rator)) ++ [⟨[N], s + n⟩]) := by
  induction n generalizing s with
  | zero => simp
  | succ n ih =>
    rw [List.range'_succ, List.map_cons, List.cons_append, List.chain'_cons']
    refine ⟨?_, ?_⟩
    · intro y hy
      have hinc := increment_own N s (by omega)
      cases n with
      | zero =>
        simp at hy
        subst hy
        simpa using hinc
      | succ m =>
        simp [List.range'_succ] at hy
        subst hy
        exact hinc
    · have := ih (s + 1) (by omega)
      have e : s + 1 + n = s + (n + 1) := by omega
      rw [e] at this
      exact this

theorem own_chain (N : Forkable) :
    List.Chain' (fun a b => It3rator.increment a = some b) (N.own ++ [⟨[N], N.timeline_end⟩]) := by
  have := own_chain_aux N N.timeline.length 0 (by simp)
  simpa [Forkable.own, List.range_eq_range', timeline_end] using this

theorem own_map_deref (N : Forkable) : N.own.map It3rator.deref = N.timeline.map some := by
  apply List.ext_getElem
  · simp [Forkable.own]
  · intro i h1 h2
    simp [Forkable.own] at h1
    simp [Forkable.own, It3rator.deref, Forkable.time, List.getElem?_eq_getElem h1]

theorem on_entry_of_mem_own {N : Forkable} {c : It3rator} (h : c ∈ N.own) : c.on_entry := by
  simp only [Forkable.own, List.mem_map, List.mem_range] at h
  obtain ⟨j, hj, rfl⟩ := h
  exact ⟨N, [], rfl, hj⟩

theorem ancestry_of_mem_own {N : Forkable} {c : It3rator} (h : c ∈ N.own) :
    c.ancestry_ = [N] := by
  simp only [Forkable.own, List.mem_map, List.mem_range] at h
  obtain ⟨j, _, rfl⟩ := h
  rfl

theorem on_entry_of_mem_inherited {N : Forkable} {c : It3rator} (h : c ∈ N.inherited) :
    c.on_entry := by
  induction N generalizing c with
  | root tl => simp [Forkable.inherited] at h
  | fork tl p k pos ih =>
    simp only [Forkable.inherited, List.mem_map, List.mem_append] at h
    obtain ⟨d, hd, rfl⟩ := h
    apply on_entry_extend
    rcases hd with hd | hd
    · exact ih hd
    · split at hd
      · exact on_entry_of_mem_own (List.mem_of_mem_take hd)
      · simp at hd

theorem ancestry_ne_nil_of_on_entry {c : It3rator} (h : c.on_entry) : c.ancestry_ ≠ [] := by
  obtain ⟨f, r, hanc, _⟩ := h
  simp [hanc]

theorem map_deref_map_extend (N : Forkable) (l : List It3rator) (h : ∀ c ∈ l, c.on_entry) :
    (l.map (It3rator.extend N)).map It3rator.deref = l.map It3rator.deref := by
  rw [List.map_map]
  apply List.map_congr_left
  intro c hc
  exact deref_extend N (ancestry_ne_nil_of_on_entry (h c hc))

theorem inherited_map_deref (N : Forkable) :
    N.inherited.map It3rator.deref = N.inherited_times.map some := by
  induction N with
  | root tl => simp [Forkable.inherited, Forkable.inherited_times]
  | fork tl p k pos ih =>
    simp only [Forkable.inherited, Forkable.inherited_times]
    rw [map_deref_map_extend, List.map_append, List.map_append, ih]
    · congr 1
      split
      · rw [List.map_take, own_map_deref, ← List.map_take]
      · rfl
    · intro c hc
      rcases List.mem_append.mp hc with hc | hc
      · exact on_entry_of_mem_inherited hc
      · split at hc
        · exact on_entry_of_mem_own (List.mem_of_mem_take hc)
        · simp at hc

theorem sorted_getElem_le {tl : List Instant} (hs : tl.Pairwise (· < ·)) {i j : Nat}
    (hij : i ≤ j) (hi : i < tl.length) (hj : j < tl.length) : tl[i] ≤ tl[j] := by
  rcases Nat.eq_or_lt_of_le hij with h | h
  · subst h; exact le_refl _
  · exact le_of_lt (List.pairwise_iff_getElem.mp hs i j hi hj h)

/-- The times before the fork point of a well-formed trajectory and those of its own
timeline are strictly increasing, and the last one before the fork point is the fork time. -/
theorem inherited_times_sorted (N : Forkable) (h : N.WellFormed) :
    (N.inherited_times ++ N.timeline).Pairwise (· < ·) ∧
      (∀ k ∈ N.fork_time, (∀ x ∈ N.inherited_times, x ≤ k) ∧
        N.inherited_times.getLast? = some k) := by
  induction N with
  | root tl =>
    simpa [Forkable.inherited_times, Forkable.timeline, Forkable.fork_time] using h
  | fork tl p k pos ih =>
    obtain ⟨hs, hk, hp, hlink⟩ := h
    obtain ⟨ihs, ihk⟩ := ih hp
    have key : (∀ x ∈ (fork tl p k pos).inherited_times, x ≤ k) ∧
        (fork tl p k pos).inherited_times.getLast? = some k ∧
        (fork tl p k pos).inherited_times.Pairwise (· < ·) := by
      rcases hlink with hl | ⟨hl, hfk⟩
      · simp only [Forkable.time] at hl
        obtain ⟨hlt, hget⟩ := List.getElem?_eq_some_iff.mp hl
        simp only [Forkable.inherited_times, hlt, if_true]
        rw [List.pairwise_append] at ihs
        refine ⟨?_, ?_, ?_⟩
        · intro x hx
          rcases List.mem_append.mp hx with hx | hx
          · exact le_of_lt (hget ▸ ihs.2.2 x hx _ (List.getElem_mem hlt))
          · obtain ⟨i, hi, rfl⟩ := List.mem_iff_getElem.mp hx
            rw [List.getElem_take]
            rw [List.length_take] at hi
            rw [← hget]
            exact sorted_getElem_le ihs.2.1 (by omega) (by omega) hlt
        · rw [List.take_succ, List.getElem?_eq_getElem hlt, hget]
          simp
        · rw [List.pairwise_append]
          refine ⟨ihs.1, ihs.2.1.sublist (List.take_sublist _ _), ?_⟩
          intro a ha b hb
          exact ihs.2.2 a ha b (List.mem_of_mem_take hb)
      · have hnlt : ¬ pos < p.timeline.length := by
          simp [timeline_end] at hl; omega
        simp only [Forkable.inherited_times, hnlt, if_false, List.append_nil]
        obtain ⟨h1, h2⟩ := ihk k hfk
        exact ⟨h1, h2, (List.pairwise_append.mp ihs).1⟩
    refine ⟨?_, ?_⟩
    · rw [List.pairwise_append]
      refine ⟨key.2.2, hs, ?_⟩
      intro a ha b hb
      exact lt_of_le_of_lt (key.1 a ha) (hk b hb)
    · intro k' hk'
      simp [Forkable.fork_time] at hk'
      subst hk'
      exact ⟨key.1, key.2.1⟩
theorem chain'_and_pairwise {α : Type} {R S : α → α → Prop} {l : List α}
    (hR : List.Chain' R l) (hS : List.Pairwise S l) :
    List.Chain' (fun a b => R a b ∧ S a b ∧ b ∈ l) l := by
  induction l with
  | nil => simp
  | cons a l ih =>
    rw [List.chain'_cons'] at hR ⊢
    rw [List.pairwise_cons] at hS
    refine ⟨?_, ?_⟩
    · intro y hy
      have hyl : y ∈ l := List.mem_of_mem_head? hy
      exact ⟨hR.1 y hy, hS.1 y hyl, List.mem_cons_of_mem _ hyl⟩
    · exact (ih hR.2 hS.2).imp (fun _ _ h => ⟨h.1, h.2.1, List.mem_cons_of_mem _ h.2.2⟩)

theorem before_after_fork (p : Forkable) (pos : Nat) :
    p.before_fork pos ++ p.after_fork pos = p.sequence ++ [⟨[p], p.timeline_end⟩] := by
  unfold Forkable.before_fork Forkable.after_fork Forkable.sequence
  split
  · simp only [List.append_assoc]
    rw [← List.append_assoc (List.take _ _), List.take_append_drop]
  · simp

theorem inherited_eq (tl : List Instant) (p : Forkable) (k : Instant) (pos : Nat) :
    (fork tl p k pos).inherited = (p.before_fork pos).map (It3rator.extend (fork tl p k pos)) :=
  rfl

theorem on_entry_of_mem_before_fork {p : Forkable} {pos : Nat} {c : It3rator}
    (h : c ∈ p.before_fork pos) : c.on_entry := by
  rcases List.mem_append.mp h with hc | hc
  · exact on_entry_of_mem_inherited hc
  · split at hc
    · exact on_entry_of_mem_own (List.mem_of_mem_take hc)
    · simp at hc

theorem before_fork_map_deref (tl : List Instant) (p : Forkable) (k : Instant) (pos : Nat) :
    (p.before_fork pos).map It3rator.deref = (fork tl p k pos).inherited_times.map some := by
  rw [← inherited_map_deref, inherited_eq, map_deref_map_extend]
  intro c hc
  exact on_entry_of_mem_before_fork hc

theorem head?_after_fork (p : Forkable) (pos : Nat) :
    ∃ y, (p.after_fork pos).head? = some y ∧ y.ancestry_.length = 1 := by
  have hall : ∀ y ∈ p.after_fork pos, y.ancestry_ = [p] := by
    intro y hy
    unfold Forkable.after_fork at hy
    rcases List.mem_append.mp hy with hy | hy
    · split at hy
      · exact ancestry_of_mem_own (List.mem_of_mem_drop hy)
      · exact ancestry_of_mem_own hy
    · simp at hy
      subst hy
      rfl
  cases hh : p.after_fork pos with
  | nil => simp [Forkable.after_fork] at hh
  | cons y rest =>
    refine ⟨y, rfl, ?_⟩
    rw [hall y (by simp [hh])]
    rfl

theorem head?_own_append (N : Forkable) :
    (N.own ++ [(⟨[N], N.timeline_end⟩ : It3rator)]).head? = some ⟨[N], 0⟩ := by
  unfold Forkable.own timeline_end
  cases h : N.timeline.length with
  | zero => simp
  | succ n => simp [List.range_succ_eq_map]

/-- In the sequence of a well-formed trajectory followed by its end, each
iterator is incremented to the next one. -/
theorem sequence_chain (N : Forkable) (h : N.WellFormed) :
    List.Chain' (fun a b => It3rator.increment a = some b)
      (N.sequence ++ [⟨[N], N.timeline_end⟩]) := by
  induction N with
  | root tl => simpa [Forkable.sequence, Forkable.inherited] using own_chain (root tl)
  | fork tl p k pos ih =>
    have ihp := ih (WellFormed_parent h)
    rw [← before_after_fork p pos, List.chain'_append] at ihp
    obtain ⟨hpre, _, hlink⟩ := ihp
    obtain ⟨hsorted, hfk⟩ := inherited_times_sorted _ h
    obtain ⟨hle, hlast⟩ := hfk k rfl
    have hderef := before_fork_map_deref tl p k pos
    unfold Forkable.sequence
    rw [inherited_eq, List.append_assoc, List.chain'_append]
    refine ⟨?_, own_chain _, ?_⟩
    · rw [List.chain'_map]
      have hpw : List.Pairwise (fun a b : It3rator =>
          ∃ x y, a.deref = some x ∧ b.deref = some y ∧ x < y) (p.before_fork pos) := by
        have h1 : ((fork tl p k pos).inherited_times.map some).Pairwise
            (fun a b : Option Instant => ∃ x y, a = some x ∧ b = some y ∧ x < y) := by
          rw [List.pairwise_map]
          exact (List.pairwise_append.mp hsorted).1.imp (fun hxy => ⟨_, _, rfl, rfl, hxy⟩)
        rw [← hderef, List.pairwise_map] at h1
        exact h1
      refine (chain'_and_pairwise hpre hpw).imp ?_
      intro a b ⟨hinc, ⟨x, y, hx, hy, hxy⟩, hb⟩
      have hyk : y ≤ k := by
        have : b.deref ∈ (p.before_fork pos).map It3rator.deref := List.mem_map_of_mem _ hb
        rw [hderef, hy] at this
        simp at this
        exact hle y this
      exact increment_extend hinc (on_entry_of_mem_before_fork hb) hx rfl
        (ne_of_lt (lt_of_lt_of_le hxy hyk))
    · intro x' hx' y' hy'
      rw [head?_own_append] at hy'
      simp at hy'
      subst hy'
      rw [List.getLast?_map] at hx'
      simp only [Option.mem_def, Option.map_eq_some'] at hx'
      obtain ⟨x, hx, rfl⟩ := hx'
      obtain ⟨y, hy, hylen⟩ := head?_after_fork p pos
      have hinc := hlink x hx y hy
      have hxd : x.deref = some k := by
        have := congrArg List.getLast? hderef
        rw [List.getLast?_map, List.getLast?_map, hx, hlast] at this
        simpa using this
      exact increment_extend_at_fork hinc hylen hxd rfl
theorem root_ne_fork_root (X : Forkable) (tl : List Instant) (p : Forkable) (k : Instant)
    (pos : Nat) : X.root_ ≠ fork tl p k pos := by
  induction X with
  | root tl2 => simp [root_]
  | fork _ q _ _ ih => simpa [root_] using ih

theorem Wrap_loop_root (X : Forkable) (acc : List Forkable) :
    Wrap.loop X.root_ 0 X acc = It3rator.CheckNormalizedIfEnd ⟨X.ancestry ++ acc, 0⟩ := by
  induction X generalizing acc with
  | root tl => simp [Wrap.loop, root_, Forkable.ancestry]
  | fork tl p k pos ih =>
    unfold Wrap.loop
    rw [if_neg (root_ne_fork_root _ tl p k pos)]
    simp only
    have : (fork tl p k pos).root_ = p.root_ := rfl
    rw [this, ih]
    simp [Forkable.ancestry]

theorem begin_eq (N : Forkable) :
    N.begin = It3rator.CheckNormalizedIfEnd ⟨N.ancestry, 0⟩ := by
  simpa [Forkable.begin, Wrap, timeline_begin] using Wrap_loop_root N []

theorem before_fork_ne_nil (tl : List Instant) (p : Forkable) (k : Instant) (pos : Nat)
    (h : (fork tl p k pos).WellFormed) : p.before_fork pos ≠ [] := by
  intro hnil
  have hderef := before_fork_map_deref tl p k pos
  have hlast := ((inherited_times_sorted _ h).2 k rfl).2
  rw [hnil] at hderef
  simp at hderef
  rw [hderef] at hlast
  simp at hlast

theorem head?_sequence (N : Forkable) (h : N.WellFormed) :
    (N.sequence ++ [(⟨[N], N.timeline_end⟩ : It3rator)]).head? = some ⟨N.ancestry, 0⟩ := by
  induction N with
  | root tl =>
    simpa [Forkable.sequence, Forkable.inherited, Forkable.ancestry] using
      head?_own_append (root tl)
  | fork tl p k pos ih =>
    have ihp := ih (WellFormed_parent h)
    rw [← before_after_fork p pos] at ihp
    have hne := before_fork_ne_nil tl p k pos h
    cases hb : p.before_fork pos with
    | nil => exact absurd hb hne
    | cons b rest =>
      rw [hb] at ihp
      simp at ihp
      subst ihp
      simp [Forkable.sequence, inherited_eq, hb, It3rator.extend, Forkable.ancestry]

/-- In both builds `operator==` on two iterators of one trajectory compares
the sizes and the pointers of the ancestries and the positions. -/
theorem eq_members (debug : Bool) (address : Forkable → Nat) (a b : It3rator) (N : Forkable)
    (ha : a.ancestry_.getLast? = some N) (hb : b.ancestry_.getLast? = some N) :
    It3rator.eq debug (a.members address) (b.members address) =
      some (a.ancestry_.length == b.ancestry_.length && a.current_ == b.current_ &&
        a.ancestry_.map address == b.ancestry_.map address) := by
  have h1 : (a.members address).trajectory = some (address N) := by
    simp [It3rator.members, It3rator.Members.trajectory, List.getLast?_map, ha]
  have h2 : (b.members address).trajectory = some (address N) := by
    simp [It3rator.members, It3rator.Members.trajectory, List.getLast?_map, hb]
  unfold It3rator.eq
  rw [h1, h2]
  simp [It3rator.members]

theorem eq_self (debug : Bool) (e : It3rator) (N : Forkable)
    (he : e.ancestry_.getLast? = some N) :
    It3rator.eq debug (e.members depth) (e.members depth) = some true := by
  rw [eq_members debug depth e e N he he]
  simp

theorem iterate_of_chain (l : List It3rator) (e : It3rator) (N : Forkable)
    (he : e.ancestry_.getLast? = some N)
    (hchain : List.Chain' (fun a b => It3rator.increment a = some b) (l ++ [e]))
    (hne : ∀ c ∈ l, It3rator.eq true (c.members depth) (e.members depth) = some false)
    (fuel : Nat) (hfuel : l.length < fuel) (b : It3rator)
    (hb : (l ++ [e]).head? = some b) : iterate true fuel b e = some l := by
  induction l generalizing fuel b with
  | nil =>
    simp at hb
    subst hb
    cases fuel with
    | zero => simp at hfuel
    | succ n => simp [iterate, It3rator.ne, eq_self true e N he]
  | cons c l ih =>
    simp at hb
    subst hb
    cases fuel with
    | zero => simp at hfuel
    | succ n =>
      rw [List.cons_append, List.chain'_cons'] at hchain
      cases hh : (l ++ [e]).head? with
      | none => simp at hh
      | some next =>
        have hinc := hchain.1 next hh
        have hrec := ih hchain.2 (fun c hc => hne c (List.mem_cons_of_mem _ hc)) n
          (by simpa using hfuel) next hh
        simp [iterate, It3rator.ne, hne c (List.mem_cons_self _ _), hinc, hrec]

theorem eq_end_of_mem_sequence (debug : Bool) (N : Forkable) (c : It3rator)
    (h : c ∈ N.sequence) :
    It3rator.eq debug (c.members depth)
      (It3rator.members depth ⟨[N], N.timeline_end⟩) = some false := by
  rcases List.mem_append.mp h with hc | hc
  · cases N with
    | root tl => simp [Forkable.inherited] at hc
    | fork tl p k pos =>
      rw [inherited_eq, List.mem_map] at hc
      obtain ⟨d, hd, rfl⟩ := hc
      obtain ⟨f, r, hanc, _⟩ := on_entry_of_mem_before_fork hd
      rw [eq_members debug depth (It3rator.extend (fork tl p k pos) d)
        ⟨[fork tl p k pos], (fork tl p k pos).timeline_end⟩ (fork tl p k pos)
        (by simp [It3rator.extend]) rfl]
      simp [It3rator.extend, hanc]
  · simp only [Forkable.own, List.mem_map, List.mem_range] at hc
    obtain ⟨j, hj, rfl⟩ := hc
    have : j ≠ N.timeline_end := ne_of_lt hj
    rw [eq_members debug depth ⟨[N], j⟩ ⟨[N], N.timeline_end⟩ N rfl rfl]
    simp [this]

theorem on_entry_of_mem_sequence {N : Forkable} {c : It3rator} (h : c ∈ N.sequence) :
    c.on_entry := by
  rcases List.mem_append.mp h with hc | hc
  · exact on_entry_of_mem_inherited hc
  · exact on_entry_of_mem_own hc

/-- The iteration from `begin` to `end` of a well-formed trajectory meets
exactly the iterators of its sequence. -/
theorem traversal_eq_sequence (N : Forkable) (h : N.WellFormed) (fuel : Nat)
    (hfuel : N.sequence.length < fuel) : N.traversal fuel = some N.sequence := by
  have hhead := head?_sequence N h
  have hbegin : N.begin = some ⟨N.ancestry, 0⟩ := by
    rw [begin_eq]
    cases hs : N.sequence with
    | nil =>
      rw [hs] at hhead
      simp at hhead
      rw [← hhead.1]
      simp [It3rator.CheckNormalizedIfEnd]
    | cons c rest =>
      rw [hs] at hhead
      simp at hhead
      subst hhead
      exact CheckNormalizedIfEnd_of_on_entry
        (on_entry_of_mem_sequence (N := N) (by rw [hs]; exact List.mem_cons_self _ _))
  have hend : N.end_ = some ⟨[N], N.timeline_end⟩ := by
    simp [Forkable.end_, It3rator.CheckNormalizedIfEnd]
  unfold traversal
  rw [hbegin, hend]
  exact iterate_of_chain _ ⟨[N], N.timeline_end⟩ N rfl (sequence_chain N h)
    (eq_end_of_mem_sequence true N)
    fuel hfuel _ hhead

theorem filter_append_left {α : Type} (p : α → Bool) (l1 l2 : List α)
    (h1 : ∀ x ∈ l1, p x = true) (h2 : ∀ x ∈ l2, p x = false) :
    (l1 ++ l2).filter p = l1 := by
  have e2 : l2.filter p = [] := by
    rw [List.filter_eq_nil_iff]
    intro x hx
    simp [h2 x hx]
  rw [List.filter_append, List.filter_eq_self.mpr h1, e2, List.append_nil]
theorem sequence_map_deref (N : Forkable) :
    N.sequence.map It3rator.deref = (N.inherited_times ++ N.timeline).map some := by
  simp [Forkable.sequence, inherited_map_deref, own_map_deref]

theorem sequence_eq_before_fork (p : Forkable) (pos : Nat) :
    p.sequence = p.before_fork pos ++
      (if pos < p.timeline.length then p.own.drop (pos + 1) else p.own) := by
  have := before_after_fork p pos
  unfold Forkable.after_fork at this
  rw [← List.append_assoc] at this
  exact (List.append_cancel_right this).symm

/-- The iterators of the sequence of the parent that designate an entry at or
before the fork time are those up to the fork point. -/
theorem filter_sequence_of_parent (tl : List Instant) (p : Forkable) (k : Instant) (pos : Nat)
    (h : (fork tl p k pos).WellFormed) :
    p.sequence.filter (It3rator.at_or_before k) = p.before_fork pos := by
  obtain ⟨hle, hlast⟩ := (inherited_times_sorted _ h).2 k rfl
  have hderef := before_fork_map_deref tl p k pos
  have hsortedP := (inherited_times_sorted _ (WellFormed_parent h)).1
  have hpw : List.Pairwise (fun a b : It3rator =>
      ∃ x y, a.deref = some x ∧ b.deref = some y ∧ x < y) p.sequence := by
    have h1 : ((p.inherited_times ++ p.timeline).map some).Pairwise
        (fun a b : Option Instant => ∃ x y, a = some x ∧ b = some y ∧ x < y) := by
      rw [List.pairwise_map]
      exact hsortedP.imp (fun hxy => ⟨_, _, rfl, rfl, hxy⟩)
    rw [← sequence_map_deref, List.pairwise_map] at h1
    exact h1
  rw [sequence_eq_before_fork p pos] at hpw ⊢
  rw [List.pairwise_append] at hpw
  apply filter_append_left
  · intro c hc
    have : c.deref ∈ (p.before_fork pos).map It3rator.deref := List.mem_map_of_mem _ hc
    rw [hderef] at this
    simp only [List.mem_map] at this
    obtain ⟨x, hx, hxc⟩ := this
    simp [It3rator.at_or_before, ← hxc, hle x hx]
  · intro c hc
    cases hb : (p.before_fork pos).getLast? with
    | none =>
      rw [List.getLast?_eq_none_iff] at hb
      exact absurd hb (before_fork_ne_nil tl p k pos h)
    | some a =>
      have had : a.deref = some k := by
        have := congrArg List.getLast? hderef
        rw [List.getLast?_map, List.getLast?_map, hb, hlast] at this
        simpa using this
      obtain ⟨x, y, hx, hy, hxy⟩ := hpw.2.2 a (List.mem_of_getLast?_eq_some hb) c hc
      rw [had] at hx
      simp at hx
      subst hx
      simp [It3rator.at_or_before, hy, not_le.mpr hxy]

theorem filter_times_of_parent (tl : List Instant) (p : Forkable) (k : Instant) (pos : Nat)
    (h : (fork tl p k pos).WellFormed) :
    (p.inherited_times ++ p.timeline).filter (fun x => decide (x ≤ k)) =
      (fork tl p k pos).inherited_times := by
  apply List.map_injective_iff.mpr (Option.some_injective Instant)
  have e1 : ((p.inherited_times ++ p.timeline).filter (fun x => decide (x ≤ k))).map some =
      ((p.inherited_times ++ p.timeline).map some).filter
        (fun o => match o with | some x => decide (x ≤ k) | none => false) := by
    rw [List.filter_map]
    rfl
  rw [e1, ← sequence_map_deref, List.filter_map]
  have e2 : ((fun o : Option Instant => match o with | some x => decide (x ≤ k) | none => false) ∘
      It3rator.deref) = It3rator.at_or_before k := by
    funext c
    simp only [Function.comp, It3rator.at_or_before]
  rw [e2, filter_sequence_of_parent tl p k pos h, before_fork_map_deref tl p k pos]

/-- C2: for a fork `N` of `P` with key `k` in a well-formed tree (the times of
every timeline strictly increasing and after the fork time of its trajectory),
the iteration from `begin(N)` to `end(N)` returns and visits exactly the
entries of the iteration of `P` whose time is at most `k`, then the entries of
the own timeline of `N`, and the visited times are strictly increasing. -/
theorem traversal_of_fork (timeline : List Instant) (P : Forkable) (k : Instant)
    (position : Nat) (h : (fork timeline P k position).WellFormed) :
    ∃ (of_parent visited : List It3rator) (times_of_parent : List Instant),
      (∀ fuel, of_parent.length < fuel → P.traversal fuel = some of_parent) ∧
      (∀ fuel, visited.length < fuel →
        (fork timeline P k position).traversal fuel = some visited) ∧
      of_parent.map It3rator.deref = times_of_parent.map some ∧
      visited.map It3rator.entry =
        (of_parent.filter (It3rator.at_or_before k)).map It3rator.entry ++
          (List.range timeline.length).map
            (fun j => some (fork timeline P k position, j)) ∧
      visited.map It3rator.deref =
        (times_of_parent.filter (fun x => decide (x ≤ k)) ++ timeline).map some ∧
      (times_of_parent.filter (fun x => decide (x ≤ k)) ++ timeline).Pairwise (· < ·) := by
  refine ⟨P.sequence, (fork timeline P k position).sequence, P.inherited_times ++ P.timeline,
    ?_, ?_, ?_, ?_, ?_, ?_⟩
  · intro fuel hfuel
    exact traversal_eq_sequence P (WellFormed_parent h) fuel hfuel
  · intro fuel hfuel
    exact traversal_eq_sequence _ h fuel hfuel
  · exact sequence_map_deref P
  · rw [filter_sequence_of_parent timeline P k position h]
    unfold Forkable.sequence
    rw [inherited_eq, List.map_append, List.map_map]
    congr 1
    · apply List.map_congr_left
      intro c hc
      exact entry_extend _ (ancestry_ne_nil_of_on_entry (on_entry_of_mem_before_fork hc))
    · simp [Forkable.own, It3rator.entry, Forkable.timeline]
  · rw [filter_times_of_parent timeline P k position h]
    exact sequence_map_deref _
  · rw [filter_times_of_parent timeline P k position h]
    exact (inherited_times_sorted _ h).1

/-- Witness for C2: the child of the first scenario at the times 0 to 5. -/
theorem traversal_of_fork_witness :
    ∃ (of_parent visited : List It3rator) (times_of_parent : List Instant),
      (∀ fuel, of_parent.length < fuel → (root [0, 1, 2, 3]).traversal fuel = some of_parent) ∧
      (∀ fuel, visited.length < fuel →
        (fork [4, 5] (root [0, 1, 2, 3]) 1 1).traversal fuel = some visited) ∧
      of_parent.map It3rator.deref = times_of_parent.map some ∧
      visited.map It3rator.entry =
        (of_parent.filter (It3rator.at_or_before 1)).map It3rator.entry ++
          (List.range [(4 : Instant), 5].length).map
            (fun j => some (fork [4, 5] (root [0, 1, 2, 3]) 1 1, j)) ∧
      visited.map It3rator.deref =
        (times_of_parent.filter (fun x => decide (x ≤ 1)) ++ [4, 5]).map some ∧
      (times_of_parent.filter (fun x => decide (x ≤ 1)) ++ [4, 5]).Pairwise (· < ·) :=
  traversal_of_fork [4, 5] (root [0, 1, 2, 3]) 1 1 (by decide)
/-! ## Subtree serialization: writing then reading -/

open Tr4jectory

theorem trajectories_append (fp : List Nat) (ft : Instant) (ms1 ms2 : List Message)
    (f : Filling) :
    FillSubTreeFromMessage.trajectories fp ft (ms1 ++ ms2) f =
      (FillSubTreeFromMessage.trajectories fp ft ms1 f).bind
        (FillSubTreeFromMessage.trajectories fp ft ms2) := by
  induction ms1 generalizing f with
  | nil => simp [FillSubTreeFromMessage.trajectories]
  | cons child rest ih =>
    simp only [List.cons_append, FillSubTreeFromMessage.trajectories]
    repeat' split
    all_goals first | rfl | exact ih _

theorem litters_append (fp : List Nat) (ls1 ls2 : List Litter) (f : Filling) :
    FillSubTreeFromMessage.litters fp (ls1 ++ ls2) f =
      (FillSubTreeFromMessage.litters fp ls1 f).bind (FillSubTreeFromMessage.litters fp ls2) := by
  induction ls1 generalizing f with
  | nil => simp [FillSubTreeFromMessage.litters]
  | cons l rest ih =>
    cases l with
    | mk ft ms =>
      simp only [List.cons_append, FillSubTreeFromMessage.litters]
      split
      · rfl
      · exact ih _

theorem litters_singleton (fp : List Nat) (ft : Instant) (ms : List Message) (f : Filling) :
    FillSubTreeFromMessage.litters fp [Litter.mk ft ms] f =
      FillSubTreeFromMessage.trajectories fp ft ms f := by
  simp only [FillSubTreeFromMessage.litters]
  split <;> simp_all

theorem add_to_last_append (ls0 : List Litter) (ft : Instant) (ms : List Message) (m : Message) :
    Message.add_to_last (ls0 ++ [Litter.mk ft ms]) m = ls0 ++ [Litter.mk ft (ms ++ [m])] := by
  induction ls0 with
  | nil => simp [Message.add_to_last]
  | cons l rest ih =>
    cases rest with
    | nil => simp [Message.add_to_last]
    | cons l2 rest2 =>
      simp only [List.cons_append, Message.add_to_last] at ih ⊢
      rw [ih]

/-- Reading the litters after a trajectory was added to the last one, whose
fork time is `ft`, is reading the litters before, then that trajectory. -/
theorem litters_add_to_last (fp : List Nat) (ls : List Litter) (ft : Instant) (m : Message)
    (h : ls.getLast?.map Litter.fork_time = some ft) (f : Filling) :
    FillSubTreeFromMessage.litters fp (Message.add_to_last ls m) f =
        (FillSubTreeFromMessage.litters fp ls f).bind
          (FillSubTreeFromMessage.trajectories fp ft [m]) ∧
      (Message.add_to_last ls m).getLast?.map Litter.fork_time = some ft := by
  simp only [Option.map_eq_some'] at h
  obtain ⟨l, hl, hft⟩ := h
  obtain ⟨ls0, rfl⟩ := List.getLast?_eq_some_iff.mp hl
  cases l with
  | mk t ms =>
    simp only [Litter.fork_time] at hft
    subst hft
    rw [add_to_last_append]
    refine ⟨?_, by simp [Litter.fork_time]⟩
    rw [litters_append, litters_append]
    cases FillSubTreeFromMessage.litters fp ls0 f with
    | none => rfl
    | some g =>
      simp only [Option.some_bind]
      rw [litters_singleton, litters_singleton, trajectories_append]
theorem find_fork_eq_some {forks : List (Option Nat)} {a p : Nat}
    (h : find_fork forks a = some p) : p < forks.length ∧ forks[p]? = some (some a) := by
  unfold find_fork at h
  split at h
  · rename_i hlt
    simp at h
    subst h
    refine ⟨hlt, ?_⟩
    rw [List.getElem?_eq_getElem hlt]
    have := List.findIdx_getElem (w := hlt)
    simpa using this
  · simp at h

theorem find_fork_of_mem {forks : List (Option Nat)} {a : Nat} (h : some a ∈ forks) :
    ∃ p, find_fork forks a = some p := by
  unfold find_fork
  have : forks.findIdx (fun x => decide (x = some a)) < forks.length :=
    List.findIdx_lt_length_of_exists ⟨some a, h, by simp⟩
  exact ⟨_, if_pos this⟩

theorem mem_set_of_ne {α : Type} {l : List α} {p : Nat} {x y z : α} (hx : x ∈ l)
    (hp : l[p]? = some y) (hne : x ≠ y) : x ∈ l.set p z := by
  obtain ⟨i, hi⟩ := List.mem_iff_getElem?.mp hx
  have hip : p ≠ i := by
    intro e
    subst e
    rw [hp] at hi
    exact hne (Option.some.inj hi).symm
  apply List.mem_iff_getElem?.mpr
  exact ⟨i, by rw [List.getElem?_set_ne hip]; exact hi⟩

mutual
/-- `WriteSubTreeToMessage` keeps the length of `forks` and keeps every
pointer of `forks` that is not a descendant of the trajectory. -/
theorem Write_forks : ∀ (N : Tr4jectory) (message : Message) (forks : List (Option Nat)),
    (N.WriteSubTreeToMessage message forks).2.length = forks.length ∧
      ∀ a, some a ∈ forks → a ∉ N.descendants →
        some a ∈ (N.WriteSubTreeToMessage message forks).2
  | Tr4jectory.mk _ _ _ cs, message, forks => by
    simp only [WriteSubTreeToMessage, descendants]
    exact Write_loop_forks cs none message forks
/-- The loop of `WriteSubTreeToMessage` keeps the length of `forks` and keeps
every pointer of `forks` that is neither a child of the list nor one of their
descendants. -/
theorem Write_loop_forks : ∀ (cs : List (Instant × Tr4jectory)) (last : Option Instant)
    (message : Message) (forks : List (Option Nat)),
    (WriteSubTreeToMessage.loop cs last message forks).2.length = forks.length ∧
      ∀ a, some a ∈ forks → a ∉ descendants_of_children cs →
        some a ∈ (WriteSubTreeToMessage.loop cs last message forks).2
  | [], last, message, forks => by
    simp only [WriteSubTreeToMessage.loop]
    exact ⟨trivial, fun a ha _ => ha⟩
  | (k, c) :: rest, last, message, forks => by
    simp only [WriteSubTreeToMessage.loop, descendants_of_children]
    cases hf : find_fork forks c.address with
    | none =>
      simp only
      obtain ⟨h1, h2⟩ := Write_loop_forks rest last message forks
      refine ⟨h1, ?_⟩
      intro a ha hna
      exact h2 a ha (fun hmem => hna (List.mem_append_right _ hmem))
    | some p =>
      simp only
      obtain ⟨hp, hget⟩ := find_fork_eq_some hf
      obtain ⟨hc1, hc2⟩ := Write_forks c (Message.mk c.timeline [] []) (forks.set p none)
      obtain ⟨h1, h2⟩ := Write_loop_forks rest (some k)
        (((if last = some k then message.add_fork_position p
          else (message.add_fork_position p).add_children k)).add_trajectories
          (c.WriteSubTreeToMessage (Message.mk c.timeline [] []) (forks.set p none)).1)
        (c.WriteSubTreeToMessage (Message.mk c.timeline [] []) (forks.set p none)).2
      refine ⟨?_, ?_⟩
      · rw [h1, hc1, List.length_set]
      · intro a ha hna
        simp only [List.cons_append, List.mem_cons, List.mem_append, not_or] at hna
        apply h2 a _ hna.2.2
        apply hc2 a _ hna.2.1
        exact mem_set_of_ne ha hget (fun e => hna.1 (Option.some.inj e))
end
theorem emplace_append (k : Instant) (c : Tr4jectory) (l : List (Instant × Tr4jectory))
    (h : ∀ e ∈ l, e.1 ≤ k) : emplace k c l = l ++ [(k, c)] := by
  induction l with
  | nil => rfl
  | cons e rest ih =>
    obtain ⟨k2, c2⟩ := e
    have h1 : ¬ k < k2 := not_lt.mpr (h (k2, c2) (List.mem_cons_self _ _))
    simp only [emplace, h1, if_false, List.cons_append]
    rw [ih (fun e he => h e (List.mem_cons_of_mem _ he))]

/-- `NewFork` at the position that `timeline_find` returns for the key of a
child of a well-formed trajectory makes a fork with the key and the position
of that child. -/
theorem NewFork_at_find (a : Nat) (tl : List Instant) (own : Option (Instant × Nat))
    (done : List (Instant × Tr4jectory)) (k : Instant) (pos fresh : Nat)
    (hs : tl.Pairwise (· < ·)) (hown : ∀ o ∈ own, ∀ x ∈ tl, o.1 < x)
    (hlink : tl[pos]? = some k ∨ (pos = tl.length ∧ own.map Prod.fst = some k)) :
    Tr4jectory.NewFork (Tr4jectory.mk a tl own done) (tl.indexOf k) fresh =
      some (k, Tr4jectory.mk fresh [] (some (k, pos)) []) := by
  rcases hlink with hl | ⟨hl, hk⟩
  · obtain ⟨hlt, hget⟩ := List.getElem?_eq_some_iff.mp hl
    have hnd : tl.Nodup := hs.imp ne_of_lt
    have hidx : tl.indexOf k = pos := by
      rw [← hget]
      exact List.indexOf_getElem hnd pos hlt
    have hne : pos ≠ tl.length := ne_of_lt hlt
    simp [Tr4jectory.NewFork, hidx, Tr4jectory.timeline, hne, hl]
  · simp only [Option.map_eq_some'] at hk
    obtain ⟨o, ho, hok⟩ := hk
    obtain ⟨k2, p2⟩ := o
    simp only at hok
    subst hok
    have hnot : k2 ∉ tl := fun hm => lt_irrefl _ (hown (k2, p2) ho k2 hm)
    have hidx : tl.indexOf k2 = tl.length := List.indexOf_of_not_mem hnot
    subst ho
    simp [Tr4jectory.NewFork, hidx, Tr4jectory.timeline, Tr4jectory.fork, hl]

/-- One round of the inner loop of `FillSubTreeFromMessage`, for the message
of a child of a well-formed trajectory. -/
theorem trajectories_singleton (fp : List Nat) (f : Filling) (a : Nat) (tl : List Instant)
    (own : Option (Instant × Nat)) (done : List (Instant × Tr4jectory)) (k : Instant)
    (pos p : Nat) (cm : Message) (filled : Tr4jectory) (forks1 : List (Option Nat)) (fresh1 : Nat)
    (hthat : f.that = Tr4jectory.mk a tl own done)
    (hs : tl.Pairwise (· < ·)) (hown : ∀ o ∈ own, ∀ x ∈ tl, o.1 < x)
    (hlink : tl[pos]? = some k ∨ (pos = tl.length ∧ own.map Prod.fst = some k))
    (hfill : FillSubTreeFromMessage cm (Tr4jectory.mk f.fresh cm.timeline (some (k, pos)) [])
      f.forks (f.fresh + 1) = some (filled, forks1, fresh1))
    (hfp : fp[f.index]? = some p) (hp : p < forks1.length) (hdone : ∀ e ∈ done, e.1 ≤ k) :
    FillSubTreeFromMessage.trajectories fp k [cm] f =
      some ⟨Tr4jectory.mk a tl own (done ++ [(k, filled)]), forks1.set p (some f.fresh), fresh1,
        f.index + 1⟩ := by
  have hfpl : fp.length > 0 := by
    have := (List.getElem?_eq_some_iff.mp hfp).1
    omega
  simp only [FillSubTreeFromMessage.trajectories, hthat, Tr4jectory.timeline]
  rw [NewFork_at_find a tl own done k pos f.fresh hs hown hlink]
  simp only [read_timeline, hfill, hfpl, if_true, hfp, hp, with_child, Tr4jectory.address]
  rw [emplace_append k filled done hdone]
mutual
/-- Writing a well-formed trajectory whose descendants are all in `forks`, then
reading the message into a new trajectory with the same timeline and the same
key, gives the same trajectory up to the pointers. -/
theorem write_then_fill_aux : ∀ (N : Tr4jectory) (forks slots : List (Option Nat))
    (fresh address : Nat),
    N.WellFormed → N.descendants.Nodup → (∀ a ∈ N.descendants, some a ∈ forks) →
    forks.length ≤ slots.length →
    (N.WriteSubTreeToMessage (Message.mk N.timeline [] []) forks).1.timeline = N.timeline ∧
    ∃ N' slots' fresh',
      FillSubTreeFromMessage (N.WriteSubTreeToMessage (Message.mk N.timeline [] []) forks).1
          (Tr4jectory.mk address N.timeline N.fork []) slots fresh = some (N', slots', fresh') ∧
        N'.forget = N.forget ∧ slots'.length = slots.length
  | Tr4jectory.mk a0 tl own cs, forks, slots, fresh, address, hwf, hnd, hall, hlen => by
    obtain ⟨hs, hown, hsorted, hch⟩ := hwf
    obtain ⟨L', Pnew, hmsg, _, hfill⟩ := write_loop_then_fill cs tl [] [] none forks tl own
      hch hs hown hsorted hnd hall (by simp)
    simp only [List.nil_append] at hmsg
    simp only [WriteSubTreeToMessage, Tr4jectory.timeline, Tr4jectory.fork, hmsg,
      FillSubTreeFromMessage, Message.timeline, true_and]
    obtain ⟨f', hf', cs', hthat, hforget, _, hflen⟩ := hfill Pnew
      ⟨Tr4jectory.mk address tl own [], slots, fresh, 0⟩
      ⟨Tr4jectory.mk address tl own [], slots, fresh, 0⟩ address [] [] (by simp)
      (by simp [FillSubTreeFromMessage.litters]) rfl (by simp) rfl hlen
    rw [hf']
    refine ⟨_, _, _, rfl, ?_, hflen⟩
    rw [hthat]
    simp [Tr4jectory.forget, hforget]
/-- The loop of `WriteSubTreeToMessage` over well-formed children that are all
in `forks`, with their descendants, appends one position per child to the
message, and reading the message then emplaces the same children, up to the
pointers, after those already read. -/
theorem write_loop_then_fill : ∀ (cs : List (Instant × Tr4jectory)) (tl0 : List Instant)
    (L : List Litter) (P : List Nat) (last : Option Instant) (forks : List (Option Nat))
    (tl : List Instant) (own : Option (Instant × Nat)),
    WellFormed_children tl (own.map Prod.fst) cs → tl.Pairwise (· < ·) →
    (∀ o ∈ own, ∀ x ∈ tl, o.1 < x) → (cs.map Prod.fst).Pairwise (· ≤ ·) →
    (descendants_of_children cs).Nodup → (∀ a ∈ descendants_of_children cs, some a ∈ forks) →
    (∀ t, last = some t → L.getLast?.map Litter.fork_time = some t) →
    ∃ L' Pnew,
      (WriteSubTreeToMessage.loop cs last (Message.mk tl0 L P) forks).1 =
          Message.mk tl0 L' (P ++ Pnew) ∧
        Pnew.length = cs.length ∧
        ∀ (FP : List Nat) (f0 f : Filling) (a : Nat) (done : List (Instant × Tr4jectory))
          (rest_fp : List Nat),
          FP = P ++ Pnew ++ rest_fp → FillSubTreeFromMessage.litters FP L f0 = some f →
          f.that = Tr4jectory.mk a tl own done →
          (∀ e ∈ done, ∀ k ∈ cs.map Prod.fst, e.1 ≤ k) → f.index = P.length →
          forks.length ≤ f.forks.length →
          ∃ f', FillSubTreeFromMessage.litters FP L' f0 = some f' ∧
            ∃ cs', f'.that = Tr4jectory.mk a tl own (done ++ cs') ∧
              forget_children cs' = forget_children cs ∧
              f'.index = P.length + cs.length ∧ f'.forks.length = f.forks.length
  | [], tl0, L, P, last, forks, tl, own, _, _, _, _, _, _, _ => by
    refine ⟨L, [], by simp [WriteSubTreeToMessage.loop], rfl, ?_⟩
    intro FP f0 f a done rest_fp _ hf hthat _ hidx _
    exact ⟨f, hf, [], by simpa using hthat, rfl, by simpa using hidx, rfl⟩
  | (k, c) :: rest, tl0, L, P, last, forks, tl, own, hwf, hs, hown, hsorted, hnd, hall,
      hlast => by
    obtain ⟨hfork, hwfc, hwfrest⟩ := hwf
    obtain ⟨pos, hcfork, hlink⟩ : ∃ pos, c.fork = some (k, pos) ∧
        (tl[pos]? = some k ∨ (pos = tl.length ∧ own.map Prod.fst = some k)) := by
      cases hcf : c.fork with
      | none => simp [hcf] at hfork
      | some kp =>
        obtain ⟨key, pos⟩ := kp
        simp only [hcf] at hfork
        obtain ⟨rfl, hlink⟩ := hfork
        exact ⟨pos, rfl, hlink⟩
    simp only [descendants_of_children, List.cons_append] at hnd hall
    rw [List.nodup_cons, List.nodup_append] at hnd
    obtain ⟨hcnot, hndc, hndrest, hdisj⟩ := hnd
    simp only [List.map_cons, List.pairwise_cons] at hsorted
    obtain ⟨p, hfind⟩ := find_fork_of_mem (hall c.address (List.mem_cons_self _ _))
    obtain ⟨hp, hget⟩ := find_fork_eq_some hfind
    -- the trajectory written for the child
    have hallc : ∀ a ∈ c.descendants, some a ∈ forks.set p none := by
      intro a ha
      refine mem_set_of_ne (hall a (List.mem_cons_of_mem _ (List.mem_append_left _ ha))) hget ?_
      intro e
      exact hcnot (List.mem_append_left _ ((Option.some.inj e) ▸ ha))
    obtain ⟨hWlen, hWkeep⟩ := Write_forks c (Message.mk c.timeline [] []) (forks.set p none)
    have hallrest : ∀ a ∈ descendants_of_children rest,
        some a ∈ (c.WriteSubTreeToMessage (Message.mk c.timeline [] []) (forks.set p none)).2 := by
      intro a ha
      apply hWkeep a
      · refine mem_set_of_ne (hall a (List.mem_cons_of_mem _ (List.mem_append_right _ ha)))
          hget ?_
        intro e
        exact hcnot (List.mem_append_right _ ((Option.some.inj e) ▸ ha))
      · intro hac
        exact hdisj hac ha
    -- the litters after the round for the child
    have hL2 : ∀ (FP : List Nat) (f0 : Filling),
        FillSubTreeFromMessage.litters FP
            (if last = some k then L else L ++ [Litter.mk k []]) f0 =
          FillSubTreeFromMessage.litters FP L f0 ∧
        (if last = some k then L else L ++ [Litter.mk k []]).getLast?.map Litter.fork_time =
          some k := by
      intro FP f0
      split
      · rename_i hlk
        exact ⟨rfl, hlast k hlk⟩
      · refine ⟨?_, by simp [Litter.fork_time]⟩
        rw [litters_append]
        cases FillSubTreeFromMessage.litters FP L f0 with
        | none => rfl
        | some g =>
          simp only [Option.some_bind]
          rw [litters_singleton]
          simp [FillSubTreeFromMessage.trajectories]
    obtain ⟨L', Pnew, hmsg, hPlen, hfill⟩ := write_loop_then_fill rest tl0
      (Message.add_to_last (if last = some k then L else L ++ [Litter.mk k []])
        (c.WriteSubTreeToMessage (Message.mk c.timeline [] []) (forks.set p none)).1)
      (P ++ [p]) (some k)
      (c.WriteSubTreeToMessage (Message.mk c.timeline [] []) (forks.set p none)).2 tl own
      hwfrest hs hown hsorted.2 hndrest hallrest
      (fun t ht => by
        have := (litters_add_to_last [] _ k
          (c.WriteSubTreeToMessage (Message.mk c.timeline [] []) (forks.set p none)).1
          (hL2 [] ⟨c, [], 0, 0⟩).2 ⟨c, [], 0, 0⟩).2
        rw [← Option.some.inj ht]
        exact this)
    refine ⟨L', p :: Pnew, ?_, by simp [hPlen], ?_⟩
    · simp only [WriteSubTreeToMessage.loop, hfind]
      have e : ((if last = some k then (Message.mk tl0 L P).add_fork_position p
            else ((Message.mk tl0 L P).add_fork_position p).add_children k).add_trajectories
            (c.WriteSubTreeToMessage (Message.mk c.timeline [] []) (forks.set p none)).1) =
          Message.mk tl0 (Message.add_to_last (if last = some k then L else L ++ [Litter.mk k []])
            (c.WriteSubTreeToMessage (Message.mk c.timeline [] []) (forks.set p none)).1)
            (P ++ [p]) := by
        split <;> simp [Message.add_fork_position, Message.add_children,
          Message.add_trajectories]
      rw [e, hmsg]
      simp
    · intro FP f0 f a done rest_fp hFP hf hthat hdone hidx hflen
      obtain ⟨hwt, filled, slots1, fresh1, hfillc, hforgetc, hslots1⟩ :=
        write_then_fill_aux c (forks.set p none) f.forks (f.fresh + 1) f.fresh hwfc hndc hallc
          (by rw [List.length_set]; exact hflen)
      have hfillc2 : FillSubTreeFromMessage
          (c.WriteSubTreeToMessage (Message.mk c.timeline [] []) (forks.set p none)).1
          (Tr4jectory.mk f.fresh
            (c.WriteSubTreeToMessage (Message.mk c.timeline [] []) (forks.set p none)).1.timeline
            (some (k, pos)) []) f.forks (f.fresh + 1) = some (filled, slots1, fresh1) := by
        rw [hwt, ← hcfork]
        exact hfillc
      have hstep := trajectories_singleton FP f a tl own done k pos p _ filled slots1 fresh1
        hthat hs hown hlink hfillc2
        (by rw [hFP, hidx, List.append_assoc, List.getElem?_append_right (le_refl _)]; simp)
        (by omega)
        (fun e he => hdone e he k (by simp))
      have hlit := (litters_add_to_last FP _ k
          (c.WriteSubTreeToMessage (Message.mk c.timeline [] []) (forks.set p none)).1
          (hL2 FP f0).2 f0).1
      rw [(hL2 FP f0).1, hf, Option.some_bind, hstep] at hlit
      obtain ⟨f', hf', csr, hthat', hforget', hidx', hflen'⟩ := hfill FP f0 _ a
        (done ++ [(k, filled)]) rest_fp (by rw [hFP]; simp) hlit rfl
        (by
          intro e he k2 hk2
          rcases List.mem_append.mp he with he | he
          · exact hdone e he k2 (by simp [hk2])
          · simp at he
            subst he
            exact hsorted.1 k2 hk2)
        (by simp [hidx])
        (by simp only [List.length_set]; rw [hWlen, List.length_set, hslots1]; exact hflen)
      refine ⟨f', hf', (k, filled) :: csr, ?_, ?_, ?_, ?_⟩
      · rw [hthat']; simp
      · simp [forget_children, hforgetc, hforget']
      · rw [hidx']; simp; omega
      · rw [hflen']; simp [hslots1]
end
/-- C10, as the spec states it for every list of nodes of interest, fails: for
a root with timeline `[0, 1]` and one child forked at 0, written with an empty
list, the message has no litter and the trajectory read from it has no child. -/
theorem write_then_fill_without_nodes_of_interest :
    (Tr4jectory.mk 0 [0, 1] none [(0, Tr4jectory.mk 1 [] (some (0, 0)) [])]).WellFormed ∧
      FillSubTreeFromMessage
          ((Tr4jectory.mk 0 [0, 1] none
            [(0, Tr4jectory.mk 1 [] (some (0, 0)) [])]).WriteSubTreeToMessage
              (Message.mk [0, 1] [] []) []).1
          (Tr4jectory.mk 9 [0, 1] none []) [] 10 =
        some (Tr4jectory.mk 9 [0, 1] none [], [], 10) ∧
      (Tr4jectory.mk 9 [0, 1] none []).forget ≠
        (Tr4jectory.mk 0 [0, 1] none [(0, Tr4jectory.mk 1 [] (some (0, 0)) [])]).forget := by
  refine ⟨?_, ?_, ?_⟩
  · simp [Tr4jectory.WellFormed, WellFormed_children, Tr4jectory.fork]
  · rfl
  · simp [Tr4jectory.forget, forget_children]

/-- C10, amended: for every well-formed trajectory `N` and every list of nodes
of interest that contains every descendant of `N`, `WriteSubTreeToMessage`
followed by `FillSubTreeFromMessage` into a new trajectory with the same own
timeline and the same key (the own timeline of each reconstructed trajectory
being read before its children) returns, and yields a subtree equal to that of
`N` up to the pointers: the same children at every level, with the same
timelines, fork times and fork positions, in the same order. -/
theorem write_then_fill (N : Tr4jectory) (forks slots : List (Option Nat)) (fresh address : Nat)
    (hwf : N.WellFormed) (hnodup : N.descendants.Nodup)
    (hall : ∀ a ∈ N.descendants, some a ∈ forks) (hslots : forks.length ≤ slots.length) :
    ∃ N' slots' fresh',
      FillSubTreeFromMessage (N.WriteSubTreeToMessage (Message.mk N.timeline [] []) forks).1
          (Tr4jectory.mk address N.timeline N.fork []) slots fresh = some (N', slots', fresh') ∧
        N'.forget = N.forget := by
  obtain ⟨_, N', slots', fresh', h1, h2, _⟩ :=
    write_then_fill_aux N forks slots fresh address hwf hnodup hall hslots
  exact ⟨N', slots', fresh', h1, h2⟩

/-- Witness for the amended C10: the tree `serialized_root`, with forks at
equal times and a fork at the end of a timeline, and all its descendants of
interest. -/
theorem write_then_fill_witness :
    ∃ N' slots' fresh',
      FillSubTreeFromMessage
          (serialized_root.WriteSubTreeToMessage (Message.mk serialized_root.timeline [] [])
            [some 3, some 11, some 1, some 2, some 12]).1
          (Tr4jectory.mk 100 serialized_root.timeline serialized_root.fork [])
          [none, none, none, none, none] 101 = some (N', slots', fresh') ∧
        N'.forget = serialized_root.forget :=
  write_then_fill serialized_root [some 3, some 11, some 1, some 2, some 12]
    [none, none, none, none, none] 101 100
    (by simp [serialized_root, Tr4jectory.WellFormed, WellFormed_children, Tr4jectory.fork])
    (by decide) (by decide) (by decide)
/-! ## Position indices recorded by `WriteSubTreeToMessage` -/

theorem positions_of_litters_append (l1 l2 : List Litter) :
    Message.positions_of_litters (l1 ++ l2) =
      Message.positions_of_litters l1 ++ Message.positions_of_litters l2 := by
  induction l1 with
  | nil => simp [Message.positions_of_litters]
  | cons l rest ih =>
    cases l with
    | mk ft ms => simp [Message.positions_of_litters, ih]

theorem positions_of_messages_append (ms1 ms2 : List Message) :
    Message.positions_of_messages (ms1 ++ ms2) =
      Message.positions_of_messages ms1 ++ Message.positions_of_messages ms2 := by
  induction ms1 with
  | nil => simp [Message.positions_of_messages]
  | cons m rest ih => simp [Message.positions_of_messages, ih]

theorem positions_of_litters_add_to_last (ls : List Litter) (m : Message) (h : ls ≠ []) :
    Message.positions_of_litters (Message.add_to_last ls m) =
      Message.positions_of_litters ls ++ m.positions := by
  obtain ⟨ls0, l, rfl⟩ : ∃ ls0 l, ls = ls0 ++ [l] :=
    ⟨ls.dropLast, ls.getLast h, (List.dropLast_append_getLast h).symm⟩
  cases l with
  | mk ft ms =>
    rw [add_to_last_append, positions_of_litters_append, positions_of_litters_append]
    simp [Message.positions_of_litters, positions_of_messages_append,
      Message.positions_of_messages]

theorem add_to_last_ne_nil (ls : List Litter) (m : Message) (h : ls ≠ []) :
    Message.add_to_last ls m ≠ [] := by
  obtain ⟨ls0, l, rfl⟩ : ∃ ls0 l, ls = ls0 ++ [l] :=
    ⟨ls.dropLast, ls.getLast h, (List.dropLast_append_getLast h).symm⟩
  cases l with
  | mk ft ms =>
    rw [add_to_last_append]
    simp

theorem getElem?_set_none_of_some {forks : List (Option Nat)} {p q : Nat} {x : Nat}
    (h : (forks.set p none)[q]? = some (some x)) : q ≠ p ∧ forks[q]? = some (some x) := by
  by_cases hqp : p = q
  · subst hqp
    rw [List.getElem?_set] at h
    simp at h
  · rw [List.getElem?_set_ne hqp] at h
    exact ⟨fun e => hqp e.symm, h⟩
theorem perm_swap_middle {α : Type} (a x d : List α) :
    List.Perm (a ++ (x ++ d)) (x ++ (a ++ d)) := by
  rw [← List.append_assoc, ← List.append_assoc]
  exact List.Perm.append_right _ List.perm_append_comm

mutual
/-- The position indices that `WriteSubTreeToMessage` appends to the message,
`own` at the level of the trajectory and `deeper` below it: they are pairwise
distinct, each is a position where `forks` held the pointer to a descendant
(for `own`, to a child) and holds null afterwards, and `forks` is unchanged
elsewhere. -/
theorem Write_records_aux : ∀ (N : Tr4jectory) (tl0 : List Instant) (L : List Litter)
    (P : List Nat) (forks : List (Option Nat)),
    ∃ own deeper L',
      (N.WriteSubTreeToMessage (Message.mk tl0 L P) forks).1 = Message.mk tl0 L' (P ++ own) ∧
      Message.positions_of_litters L' = Message.positions_of_litters L ++ deeper ∧
      (own ++ deeper).Nodup ∧
      (∀ p ∈ own, ∃ e ∈ N.children_, forks[p]? = some (some e.2.address)) ∧
      (∀ p ∈ own ++ deeper, (∃ a ∈ N.descendants, forks[p]? = some (some a)) ∧
        (N.WriteSubTreeToMessage (Message.mk tl0 L P) forks).2[p]? = some none) ∧
      (∀ i, i ∉ own ++ deeper →
        (N.WriteSubTreeToMessage (Message.mk tl0 L P) forks).2[i]? = forks[i]?) ∧
      (N.WriteSubTreeToMessage (Message.mk tl0 L P) forks).2.length = forks.length
  | Tr4jectory.mk _ _ _ cs, tl0, L, P, forks => by
    simp only [WriteSubTreeToMessage, Tr4jectory.children_, descendants]
    exact Write_loop_records_aux cs none tl0 L P forks (fun h => absurd rfl h)
/-- The position indices that the loop of `WriteSubTreeToMessage` appends to
the message. -/
theorem Write_loop_records_aux : ∀ (cs : List (Instant × Tr4jectory)) (last : Option Instant)
    (tl0 : List Instant) (L : List Litter) (P : List Nat) (forks : List (Option Nat)),
    (last ≠ none → L ≠ []) →
    ∃ own deeper L',
      (WriteSubTreeToMessage.loop cs last (Message.mk tl0 L P) forks).1 =
        Message.mk tl0 L' (P ++ own) ∧
      Message.positions_of_litters L' = Message.positions_of_litters L ++ deeper ∧
      (own ++ deeper).Nodup ∧
      (∀ p ∈ own, ∃ e ∈ cs, forks[p]? = some (some e.2.address)) ∧
      (∀ p ∈ own ++ deeper, (∃ a ∈ descendants_of_children cs, forks[p]? = some (some a)) ∧
        (WriteSubTreeToMessage.loop cs last (Message.mk tl0 L P) forks).2[p]? = some none) ∧
      (∀ i, i ∉ own ++ deeper →
        (WriteSubTreeToMessage.loop cs last (Message.mk tl0 L P) forks).2[i]? = forks[i]?) ∧
      (WriteSubTreeToMessage.loop cs last (Message.mk tl0 L P) forks).2.length = forks.length
  | [], last, tl0, L, P, forks, _ => by
    refine ⟨[], [], L, ?_⟩
    simp [WriteSubTreeToMessage.loop]
  | (k, c) :: rest, last, tl0, L, P, forks, hlast => by
    cases hfind : find_fork forks c.address with
    | none =>
      obtain ⟨own, deeper, L', h1, h2, h3, h4, h5, h6, h7⟩ :=
        Write_loop_records_aux rest last tl0 L P forks hlast
      refine ⟨own, deeper, L', ?_⟩
      simp only [WriteSubTreeToMessage.loop, hfind]
      refine ⟨h1, h2, h3, ?_, ?_, h6, h7⟩
      · intro p hp
        obtain ⟨e, he, hep⟩ := h4 p hp
        exact ⟨e, List.mem_cons_of_mem _ he, hep⟩
      · intro p hp
        obtain ⟨⟨a, ha, hap⟩, hq⟩ := h5 p hp
        refine ⟨⟨a, ?_, hap⟩, hq⟩
        simp only [descendants_of_children]
        exact List.mem_append_right _ ha
    | some p =>
      obtain ⟨hp, hget⟩ := find_fork_eq_some hfind
      -- the child
      obtain ⟨ownc, deeperc, Lc, hc1, hc2, hc3, _, hc5, hc6, hc7⟩ :=
        Write_records_aux c c.timeline [] [] (forks.set p none)
      -- the rest
      have hL2 : (if last = some k then L else L ++ [Litter.mk k []]) ≠ [] := by
        split
        · rename_i hl
          exact hlast (by simp [hl])
        · simp
      have hpos2 : Message.positions_of_litters
          (if last = some k then L else L ++ [Litter.mk k []]) =
          Message.positions_of_litters L := by
        split
        · rfl
        · simp [positions_of_litters_append, Message.positions_of_litters,
            Message.positions_of_messages]
      obtain ⟨ownr, deeperr, L', hr1, hr2, hr3, hr4, hr5, hr6, hr7⟩ :=
        Write_loop_records_aux rest (some k) tl0
          (Message.add_to_last (if last = some k then L else L ++ [Litter.mk k []])
            (c.WriteSubTreeToMessage (Message.mk c.timeline [] []) (forks.set p none)).1)
          (P ++ [p])
          (c.WriteSubTreeToMessage (Message.mk c.timeline [] []) (forks.set p none)).2
          (fun _ => add_to_last_ne_nil _ _ hL2)
      have e : ((if last = some k then (Message.mk tl0 L P).add_fork_position p
            else ((Message.mk tl0 L P).add_fork_position p).add_children k).add_trajectories
            (c.WriteSubTreeToMessage (Message.mk c.timeline [] []) (forks.set p none)).1) =
          Message.mk tl0 (Message.add_to_last (if last = some k then L else L ++ [Litter.mk k []])
            (c.WriteSubTreeToMessage (Message.mk c.timeline [] []) (forks.set p none)).1)
            (P ++ [p]) := by
        split <;> simp [Message.add_fork_position, Message.add_children,
          Message.add_trajectories]
      simp only [WriteSubTreeToMessage.loop, hfind, e]
      -- facts on the lists of pointers
      have hposc : (c.WriteSubTreeToMessage (Message.mk c.timeline [] [])
          (forks.set p none)).1.positions = ownc ++ deeperc := by
        rw [hc1]
        simp [Message.positions, hc2, Message.positions_of_litters]
      have hcne : ∀ q ∈ ownc ++ deeperc, q ≠ p ∧ ∃ a ∈ c.descendants,
          forks[q]? = some (some a) := by
        intro q hq
        obtain ⟨⟨a, ha, haq⟩, _⟩ := hc5 q hq
        obtain ⟨h1, h2⟩ := getElem?_set_none_of_some haq
        exact ⟨h1, a, ha, h2⟩
      have hp2 : (c.WriteSubTreeToMessage (Message.mk c.timeline [] [])
          (forks.set p none)).2[p]? = some none := by
        by_cases hpc : p ∈ ownc ++ deeperc
        · exact (hc5 p hpc).2
        · rw [hc6 p hpc, List.getElem?_set]
          simp [hp]
      have hrne : ∀ q ∈ ownr ++ deeperr, q ≠ p ∧ q ∉ ownc ++ deeperc ∧
          (c.WriteSubTreeToMessage (Message.mk c.timeline [] []) (forks.set p none)).2[q]? =
            forks[q]? := by
        intro q hq
        obtain ⟨⟨a, _, haq⟩, _⟩ := hr5 q hq
        have hqp : q ≠ p := by
          intro e2
          rw [e2, hp2] at haq
          simp at haq
        have hqc : q ∉ ownc ++ deeperc := by
          intro hqc
          rw [(hc5 q hqc).2] at haq
          simp at haq
        refine ⟨hqp, hqc, ?_⟩
        rw [hc6 q hqc, List.getElem?_set_ne (fun e2 => hqp e2.symm)]
      refine ⟨p :: ownr, (ownc ++ deeperc) ++ deeperr, L', ?_, ?_, ?_, ?_, ?_, ?_, ?_⟩
      · rw [hr1]; simp
      · rw [hr2, positions_of_litters_add_to_last _ _ hL2, hpos2, hposc]
        simp
      · have hperm : List.Perm (p :: ownr ++ ((ownc ++ deeperc) ++ deeperr))
            (p :: ((ownc ++ deeperc) ++ (ownr ++ deeperr))) := by
          simp only [List.cons_append]
          exact List.Perm.cons _ (perm_swap_middle ownr (ownc ++ deeperc) deeperr)
        rw [hperm.nodup_iff, List.nodup_cons, List.nodup_append]
        refine ⟨?_, hc3, hr3, ?_⟩
        · intro hmem
          rcases List.mem_append.mp hmem with hmem | hmem
          · exact (hcne p hmem).1 rfl
          · exact (hrne p hmem).1 rfl
        · intro q hqc hqr
          exact (hrne q hqr).2.1 hqc
      · intro q hq
        rcases List.mem_cons.mp hq with hq | hq
        · subst hq
          exact ⟨(k, c), List.mem_cons_self _ _, hget⟩
        · obtain ⟨e2, he2, hget2⟩ := hr4 q hq
          refine ⟨e2, List.mem_cons_of_mem _ he2, ?_⟩
          rw [← (hrne q (List.mem_append_left _ hq)).2.2]
          exact hget2
      · intro q hq
        simp only [descendants_of_children]
        have hcases : q = p ∨ q ∈ ownc ++ deeperc ∨ q ∈ ownr ++ deeperr := by
          simp only [List.cons_append, List.mem_cons, List.mem_append] at hq ⊢
          tauto
        rcases hcases with hq1 | hq1 | hq1
        · subst hq1
          refine ⟨⟨c.address, by simp, hget⟩, ?_⟩
          by_cases hqr : q ∈ ownr ++ deeperr
          · exact (hr5 q hqr).2
          · rw [hr6 q hqr]
            exact hp2
        · obtain ⟨_, a, ha, haq⟩ := hcne q hq1
          refine ⟨⟨a, by simp [ha], haq⟩, ?_⟩
          by_cases hqr : q ∈ ownr ++ deeperr
          · exact (hr5 q hqr).2
          · rw [hr6 q hqr]
            exact (hc5 q hq1).2
        · obtain ⟨⟨a, ha, haq⟩, hnone⟩ := hr5 q hq1
          refine ⟨⟨a, by simp [ha], ?_⟩, hnone⟩
          rw [← (hrne q hq1).2.2]
          exact haq
      · intro i hi
        have hi1 : i ≠ p ∧ i ∉ ownc ++ deeperc ∧ i ∉ ownr ++ deeperr := by
          simp only [List.cons_append, List.mem_cons, List.mem_append] at hi ⊢
          tauto
        rw [hr6 i hi1.2.2, hc6 i hi1.2.1, List.getElem?_set_ne (fun e2 => hi1.1 e2.symm)]
      · rw [hr7, hc7, List.length_set]
end
/-- The position indices that `WriteSubTreeToMessage` appends to a message, at
the level of the trajectory (`own`) and below (`deeper`), are pairwise
distinct; each is an index at which the list held the pointer to a descendant
(for `own`, to a child of the trajectory) and holds null afterwards; every
other slot of the list is unchanged. -/
theorem Write_records (N : Tr4jectory) (message : Message)
    (forks : List (Option Nat)) :
    ∃ own deeper,
      (N.WriteSubTreeToMessage message forks).1.fork_position =
        message.fork_position ++ own ∧
      Message.positions_of_litters (N.WriteSubTreeToMessage message forks).1.children =
        Message.positions_of_litters message.children ++ deeper ∧
      (own ++ deeper).Nodup ∧
      (∀ p ∈ own, ∃ e ∈ N.children_, forks[p]? = some (some e.2.address)) ∧
      (∀ p ∈ own ++ deeper, (∃ a ∈ N.descendants, forks[p]? = some (some a)) ∧
        (N.WriteSubTreeToMessage message forks).2[p]? = some none) ∧
      (∀ i, i ∉ own ++ deeper → (N.WriteSubTreeToMessage message forks).2[i]? = forks[i]?) ∧
      (N.WriteSubTreeToMessage message forks).2.length = forks.length := by
  cases message with
  | mk tl0 L P =>
    obtain ⟨own, deeper, L', h1, h2, h3, h4, h5, h6, h7⟩ := Write_records_aux N tl0 L P forks
    refine ⟨own, deeper, ?_, ?_, h3, h4, h5, h6, h7⟩
    · rw [h1]; rfl
    · rw [h1]; exact h2

theorem findIdx_congr {α : Type} (q : α → Bool) (l l' : List α)
    (h : l.map q = l'.map q) : l.findIdx q = l'.findIdx q := by
  induction l generalizing l' with
  | nil =>
    cases l' with
    | nil => rfl
    | cons _ _ => simp at h
  | cons a rest ih =>
    cases l' with
    | nil => simp at h
    | cons b rest' =>
      simp only [List.map_cons, List.cons.injEq] at h
      simp only [List.findIdx_cons, h.1, ih rest' h.2]

theorem map_eq_of_getElem? {α β : Type} (q : α → β) (l l' : List α)
    (h : ∀ i : Nat, (l[i]?).map q = (l'[i]?).map q) :
    l.map q = l'.map q := by
  apply List.ext_getElem?
  intro i
  simp only [List.getElem?_map]
  exact h i

/-- Setting to null a slot that holds another pointer does not move the first
position of a pointer. -/
theorem findIdx_set_none (forks : List (Option Nat)) (p a b : Nat)
    (hget : forks[p]? = some (some b)) (hne : a ≠ b) :
    (forks.set p none).findIdx (fun x => decide (x = some a)) =
      forks.findIdx (fun x => decide (x = some a)) := by
  apply findIdx_congr
  apply map_eq_of_getElem?
  intro i
  by_cases hip : p = i
  · subst hip
    have hlt := (List.getElem?_eq_some_iff.mp hget).1
    rw [List.getElem?_set, hget]
    simp [hlt]
    exact fun e => hne e.symm
  · rw [List.getElem?_set_ne hip]

theorem findIdx_getElem?_of_mem (forks : List (Option Nat)) (a : Nat) (h : some a ∈ forks) :
    forks[forks.findIdx (fun x => decide (x = some a))]? = some (some a) := by
  obtain ⟨p, hp⟩ := find_fork_of_mem h
  have := (find_fork_eq_some hp).2
  unfold find_fork at hp
  split at hp
  · simp at hp
    rw [hp]
    exact this
  · simp at hp

theorem findIdx_ne_of_ne (forks : List (Option Nat)) (a b : Nat) (ha : some a ∈ forks)
    (hne : a ≠ b) :
    forks.findIdx (fun x => decide (x = some a)) ≠
      forks.findIdx (fun x => decide (x = some b)) := by
  intro e
  by_cases hb : some b ∈ forks
  · have h1 := findIdx_getElem?_of_mem forks a ha
    have h2 := findIdx_getElem?_of_mem forks b hb
    rw [e, h2] at h1
    simp at h1
    exact hne h1.symm
  · have h1 := findIdx_getElem?_of_mem forks a ha
    have hlt := (List.getElem?_eq_some_iff.mp h1).1
    have : forks.findIdx (fun x => decide (x = some b)) = forks.length := by
      rw [List.findIdx_eq_length]
      intro x hx
      simp
      intro e2
      exact hb (e2 ▸ hx)
    omega
/-- `WriteSubTreeToMessage` does not move the first position of a pointer that
is not a descendant of the trajectory. -/
theorem findIdx_Write (N : Tr4jectory) (message : Message) (forks : List (Option Nat)) (b : Nat)
    (hb : b ∉ N.descendants) :
    (N.WriteSubTreeToMessage message forks).2.findIdx (fun x => decide (x = some b)) =
      forks.findIdx (fun x => decide (x = some b)) := by
  cases message with
  | mk tl0 L P =>
    obtain ⟨own, deeper, L', _, _, _, _, h5, h6, _⟩ := Write_records_aux N tl0 L P forks
    apply findIdx_congr
    apply map_eq_of_getElem?
    intro i
    by_cases hi : i ∈ own ++ deeper
    · obtain ⟨⟨a, ha, hget⟩, hnone⟩ := h5 i hi
      rw [hget, hnone]
      simp
      intro e
      exact hb (e ▸ ha)
    · rw [h6 i hi]

theorem mem_descendants_of_children {k : Instant} {c : Tr4jectory}
    {cs : List (Instant × Tr4jectory)} (h : (k, c) ∈ cs) :
    c.address ∈ descendants_of_children cs ∧
      ∀ a ∈ c.descendants, a ∈ descendants_of_children cs := by
  induction cs with
  | nil => simp at h
  | cons e rest ih =>
    obtain ⟨k2, c2⟩ := e
    simp only [descendants_of_children]
    rcases List.mem_cons.mp h with h | h
    · simp only [Prod.mk.injEq] at h
      obtain ⟨_, rfl⟩ := h
      exact ⟨by simp, fun a ha => by simp [ha]⟩
    · obtain ⟨h1, h2⟩ := ih h
      exact ⟨by simp [h1], fun a ha => by simp [h2 a ha]⟩

theorem follow_mem_descendants (path : List Nat) (N D : Tr4jectory) (hne : path ≠ [])
    (h : follow path N = some D) : D.address ∈ N.descendants := by
  induction path generalizing N with
  | nil => exact absurd rfl hne
  | cons i rest ih =>
    cases N with
    | mk a tl f cs =>
      simp only [follow, Tr4jectory.children_] at h
      cases hc : cs[i]? with
      | none => simp [hc] at h
      | some e =>
        obtain ⟨k, c⟩ := e
        simp only [hc] at h
        have hmem : (k, c) ∈ cs := List.getElem?_mem hc
        obtain ⟨h1, h2⟩ := mem_descendants_of_children hmem
        simp only [descendants]
        by_cases hrest : rest = []
        · subst hrest
          simp only [follow, Option.some.injEq] at h
          subst h
          exact h1
        · exact h2 _ (ih c hrest h)

theorem follow_children_mem (path : List Nat) (cs : List (Instant × Tr4jectory)) (i : Nat)
    (D : Tr4jectory) (h : (cs[i]?).bind (fun e => follow path e.2) = some D) :
    D.address ∈ descendants_of_children cs := by
  cases hc : cs[i]? with
  | none => simp [hc] at h
  | some e =>
    obtain ⟨k, c⟩ := e
    simp only [hc, Option.some_bind] at h
    obtain ⟨h1, h2⟩ := mem_descendants_of_children (List.getElem?_mem hc)
    by_cases hpath : path = []
    · subst hpath
      simp only [follow, Option.some.injEq] at h
      subst h
      exact h1
    · exact h2 _ (follow_mem_descendants path c D hpath h)
mutual
/-- Writing a well-formed trajectory whose descendants are all in `forks`, then
reading the message into a new trajectory with the same timeline and the same
key, gives the same trajectory up to the pointers; the slot at the first
position of the pointer to a descendant holds the pointer to the trajectory
read along the same path, and the other slots are unchanged. -/
theorem write_then_fill_slots : ∀ (N : Tr4jectory) (forks slots : List (Option Nat))
    (fresh address : Nat),
    N.WellFormed → N.descendants.Nodup → (∀ a ∈ N.descendants, some a ∈ forks) →
    forks.length ≤ slots.length →
    (N.WriteSubTreeToMessage (Message.mk N.timeline [] []) forks).1.timeline = N.timeline ∧
    ∃ N' slots' fresh',
      FillSubTreeFromMessage (N.WriteSubTreeToMessage (Message.mk N.timeline [] []) forks).1
          (Tr4jectory.mk address N.timeline N.fork []) slots fresh = some (N', slots', fresh') ∧
        N'.forget = N.forget ∧ slots'.length = slots.length ∧ N'.address = address ∧
        (∀ path D, path ≠ [] → follow path N = some D →
          ∃ D', follow path N' = some D' ∧
            slots'[forks.findIdx (fun x => decide (x = some D.address))]? =
              some (some D'.address)) ∧
        (∀ i : Nat, (∀ a ∈ N.descendants,
            forks.findIdx (fun x => decide (x = some a)) ≠ i) → slots'[i]? = slots[i]?)
  | Tr4jectory.mk a0 tl own cs, forks, slots, fresh, address, hwf, hnd, hall, hlen => by
    obtain ⟨hs, hown, hsorted, hch⟩ := hwf
    obtain ⟨L', Pnew, hmsg, _, hfill⟩ := write_loop_then_fill_slots cs tl [] [] none forks tl own
      hch hs hown hsorted hnd hall (by simp)
    simp only [List.nil_append] at hmsg
    simp only [WriteSubTreeToMessage, Tr4jectory.timeline, Tr4jectory.fork, hmsg,
      FillSubTreeFromMessage, Message.timeline, true_and]
    obtain ⟨f', hf', cs', hthat, hforget, _, hflen, hR, hF⟩ := hfill Pnew
      ⟨Tr4jectory.mk address tl own [], slots, fresh, 0⟩
      ⟨Tr4jectory.mk address tl own [], slots, fresh, 0⟩ address [] [] (by simp)
      (by simp [FillSubTreeFromMessage.litters]) rfl (by simp) rfl hlen
    rw [hf']
    refine ⟨_, _, _, rfl, ?_, hflen, ?_, ?_, ?_⟩
    · rw [hthat]
      simp [Tr4jectory.forget, hforget]
    · rw [hthat]; rfl
    · intro path D hpath hfollow
      cases path with
      | nil => exact absurd rfl hpath
      | cons i rest =>
        have h1 : (cs[i]?).bind (fun e => follow rest e.2) = some D := by
          simp only [follow, Tr4jectory.children_] at hfollow
          cases hc : cs[i]? with
          | none => simp [hc] at hfollow
          | some e => simpa [hc] using hfollow
        obtain ⟨D', hD', hslot⟩ := hR i rest D h1
        refine ⟨D', ?_, hslot⟩
        rw [hthat]
        simp only [follow, Tr4jectory.children_, List.nil_append]
        cases hc : cs'[i]? with
        | none => simp [hc] at hD'
        | some e => simpa [hc] using hD'
    · intro i hi
      exact hF i hi
/-- The loop of `WriteSubTreeToMessage` over well-formed children that are all
in `forks`, with their descendants, appends one position per child to the
message, and reading the message then emplaces the same children, up to the
pointers, after those already read, and fills the slots of their
descendants. -/
theorem write_loop_then_fill_slots : ∀ (cs : List (Instant × Tr4jectory)) (tl0 : List Instant)
    (L : List Litter) (P : List Nat) (last : Option Instant) (forks : List (Option Nat))
    (tl : List Instant) (own : Option (Instant × Nat)),
    WellFormed_children tl (own.map Prod.fst) cs → tl.Pairwise (· < ·) →
    (∀ o ∈ own, ∀ x ∈ tl, o.1 < x) → (cs.map Prod.fst).Pairwise (· ≤ ·) →
    (descendants_of_children cs).Nodup → (∀ a ∈ descendants_of_children cs, some a ∈ forks) →
    (∀ t, last = some t → L.getLast?.map Litter.fork_time = some t) →
    ∃ L' Pnew,
      (WriteSubTreeToMessage.loop cs last (Message.mk tl0 L P) forks).1 =
          Message.mk tl0 L' (P ++ Pnew) ∧
        Pnew.length = cs.length ∧
        ∀ (FP : List Nat) (f0 f : Filling) (a : Nat) (done : List (Instant × Tr4jectory))
          (rest_fp : List Nat),
          FP = P ++ Pnew ++ rest_fp → FillSubTreeFromMessage.litters FP L f0 = some f →
          f.that = Tr4jectory.mk a tl own done →
          (∀ e ∈ done, ∀ k ∈ cs.map Prod.fst, e.1 ≤ k) → f.index = P.length →
          forks.length ≤ f.forks.length →
          ∃ f', FillSubTreeFromMessage.litters FP L' f0 = some f' ∧
            ∃ cs', f'.that = Tr4jectory.mk a tl own (done ++ cs') ∧
              forget_children cs' = forget_children cs ∧
              f'.index = P.length + cs.length ∧ f'.forks.length = f.forks.length ∧
              (∀ (i : Nat) path D, (cs[i]?).bind (fun e => follow path e.2) = some D →
                ∃ D', (cs'[i]?).bind (fun e => follow path e.2) = some D' ∧
                  f'.forks[forks.findIdx (fun x => decide (x = some D.address))]? =
                    some (some D'.address)) ∧
              (∀ i : Nat, (∀ a ∈ descendants_of_children cs,
                  forks.findIdx (fun x => decide (x = some a)) ≠ i) →
                f'.forks[i]? = f.forks[i]?)
  | [], tl0, L, P, last, forks, tl, own, _, _, _, _, _, _, _ => by
    refine ⟨L, [], by simp [WriteSubTreeToMessage.loop], rfl, ?_⟩
    intro FP f0 f a done rest_fp _ hf hthat _ hidx _
    refine ⟨f, hf, [], by simpa using hthat, rfl, by simpa using hidx, rfl, ?_, ?_⟩
    · intro i path D h
      simp at h
    · intro i _
      rfl
  | (k, c) :: rest, tl0, L, P, last, forks, tl, own, hwf, hs, hown, hsorted, hnd, hall,
      hlast => by
    obtain ⟨hfork, hwfc, hwfrest⟩ := hwf
    obtain ⟨pos, hcfork, hlink⟩ : ∃ pos, c.fork = some (k, pos) ∧
        (tl[pos]? = some k ∨ (pos = tl.length ∧ own.map Prod.fst = some k)) := by
      cases hcf : c.fork with
      | none => simp [hcf] at hfork
      | some kp =>
        obtain ⟨key, pos⟩ := kp
        simp only [hcf] at hfork
        obtain ⟨rfl, hlink⟩ := hfork
        exact ⟨pos, rfl, hlink⟩
    simp only [descendants_of_children, List.cons_append] at hnd hall
    rw [List.nodup_cons, List.nodup_append] at hnd
    obtain ⟨hcnot, hndc, hndrest, hdisj⟩ := hnd
    simp only [List.map_cons, List.pairwise_cons] at hsorted
    obtain ⟨p, hfind⟩ := find_fork_of_mem (hall c.address (List.mem_cons_self _ _))
    obtain ⟨hp, hget⟩ := find_fork_eq_some hfind
    -- the trajectory written for the child
    have hallc : ∀ a ∈ c.descendants, some a ∈ forks.set p none := by
      intro a ha
      refine mem_set_of_ne (hall a (List.mem_cons_of_mem _ (List.mem_append_left _ ha))) hget ?_
      intro e
      exact hcnot (List.mem_append_left _ ((Option.some.inj e) ▸ ha))
    obtain ⟨hWlen, hWkeep⟩ := Write_forks c (Message.mk c.timeline [] []) (forks.set p none)
    have hallrest : ∀ a ∈ descendants_of_children rest,
        some a ∈ (c.WriteSubTreeToMessage (Message.mk c.timeline [] []) (forks.set p none)).2 := by
      intro a ha
      apply hWkeep a
      · refine mem_set_of_ne (hall a (List.mem_cons_of_mem _ (List.mem_append_right _ ha)))
          hget ?_
        intro e
        exact hcnot (List.mem_append_right _ ((Option.some.inj e) ▸ ha))
      · intro hac
        exact hdisj hac ha
    -- the litters after the round for the child
    have hL2 : ∀ (FP : List Nat) (f0 : Filling),
        FillSubTreeFromMessage.litters FP
            (if last = some k then L else L ++ [Litter.mk k []]) f0 =
          FillSubTreeFromMessage.litters FP L f0 ∧
        (if last = some k then L else L ++ [Litter.mk k []]).getLast?.map Litter.fork_time =
          some k := by
      intro FP f0
      split
      · rename_i hlk
        exact ⟨rfl, hlast k hlk⟩
      · refine ⟨?_, by simp [Litter.fork_time]⟩
        rw [litters_append]
        cases FillSubTreeFromMessage.litters FP L f0 with
        | none => rfl
        | some g =>
          simp only [Option.some_bind]
          rw [litters_singleton]
          simp [FillSubTreeFromMessage.trajectories]
    obtain ⟨L', Pnew, hmsg, hPlen, hfill⟩ := write_loop_then_fill_slots rest tl0
      (Message.add_to_last (if last = some k then L else L ++ [Litter.mk k []])
        (c.WriteSubTreeToMessage (Message.mk c.timeline [] []) (forks.set p none)).1)
      (P ++ [p]) (some k)
      (c.WriteSubTreeToMessage (Message.mk c.timeline [] []) (forks.set p none)).2 tl own
      hwfrest hs hown hsorted.2 hndrest hallrest
      (fun t ht => by
        have := (litters_add_to_last [] _ k
          (c.WriteSubTreeToMessage (Message.mk c.timeline [] []) (forks.set p none)).1
          (hL2 [] ⟨c, [], 0, 0⟩).2 ⟨c, [], 0, 0⟩).2
        rw [← Option.some.inj ht]
        exact this)
    refine ⟨L', p :: Pnew, ?_, by simp [hPlen], ?_⟩
    · simp only [WriteSubTreeToMessage.loop, hfind]
      have e : ((if last = some k then (Message.mk tl0 L P).add_fork_position p
            else ((Message.mk tl0 L P).add_fork_position p).add_children k).add_trajectories
            (c.WriteSubTreeToMessage (Message.mk c.timeline [] []) (forks.set p none)).1) =
          Message.mk tl0 (Message.add_to_last (if last = some k then L else L ++ [Litter.mk k []])
            (c.WriteSubTreeToMessage (Message.mk c.timeline [] []) (forks.set p none)).1)
            (P ++ [p]) := by
        split <;> simp [Message.add_fork_position, Message.add_children,
          Message.add_trajectories]
      rw [e, hmsg]
      simp
    · intro FP f0 f a done rest_fp hFP hf hthat hdone hidx hflen
      obtain ⟨hwt, filled, slots1, fresh1, hfillc, hforgetc, hslots1, haddr, hRc, hFc⟩ :=
        write_then_fill_slots c (forks.set p none) f.forks (f.fresh + 1) f.fresh hwfc hndc hallc
          (by rw [List.length_set]; exact hflen)
      have hfillc2 : FillSubTreeFromMessage
          (c.WriteSubTreeToMessage (Message.mk c.timeline [] []) (forks.set p none)).1
          (Tr4jectory.mk f.fresh
            (c.WriteSubTreeToMessage (Message.mk c.timeline [] []) (forks.set p none)).1.timeline
            (some (k, pos)) []) f.forks (f.fresh + 1) = some (filled, slots1, fresh1) := by
        rw [hwt, ← hcfork]
        exact hfillc
      have hstep := trajectories_singleton FP f a tl own done k pos p _ filled slots1 fresh1
        hthat hs hown hlink hfillc2
        (by rw [hFP, hidx, List.append_assoc, List.getElem?_append_right (le_refl _)]; simp)
        (by omega)
        (fun e he => hdone e he k (by simp))
      have hlit := (litters_add_to_last FP _ k
          (c.WriteSubTreeToMessage (Message.mk c.timeline [] []) (forks.set p none)).1
          (hL2 FP f0).2 f0).1
      rw [(hL2 FP f0).1, hf, Option.some_bind, hstep] at hlit
      obtain ⟨f', hf', csr, hthat', hforget', hidx', hflen', hRr, hFr⟩ := hfill FP f0 _ a
        (done ++ [(k, filled)]) rest_fp (by rw [hFP]; simp) hlit rfl
        (by
          intro e he k2 hk2
          rcases List.mem_append.mp he with he | he
          · exact hdone e he k2 (by simp [hk2])
          · simp at he
            subst he
            exact hsorted.1 k2 hk2)
        (by simp [hidx])
        (by simp only [List.length_set]; rw [hWlen, List.length_set, hslots1]; exact hflen)
      have hpidx : p = forks.findIdx (fun x => decide (x = some c.address)) := by
        have hf2 := hfind
        unfold find_fork at hf2
        split at hf2
        · exact (Option.some.inj hf2).symm
        · simp at hf2
      have hposc : ∀ b ∈ c.descendants,
          (forks.set p none).findIdx (fun x => decide (x = some b)) =
            forks.findIdx (fun x => decide (x = some b)) := by
        intro b hb
        apply findIdx_set_none forks p b c.address hget
        intro e
        exact hcnot (List.mem_append_left _ (e ▸ hb))
      have hposr : ∀ b ∈ descendants_of_children rest,
          (c.WriteSubTreeToMessage (Message.mk c.timeline [] [])
              (forks.set p none)).2.findIdx (fun x => decide (x = some b)) =
            forks.findIdx (fun x => decide (x = some b)) := by
        intro b hb
        rw [findIdx_Write c _ _ b (fun hbc => hdisj hbc hb)]
        apply findIdx_set_none forks p b c.address hget
        intro e
        exact hcnot (List.mem_append_right _ (e ▸ hb))
      have hrest_ne : ∀ (a : Nat), some a ∈ forks → a ∉ descendants_of_children rest →
          ∀ b ∈ descendants_of_children rest,
            (c.WriteSubTreeToMessage (Message.mk c.timeline [] [])
              (forks.set p none)).2.findIdx (fun x => decide (x = some b)) ≠
            forks.findIdx (fun x => decide (x = some a)) := by
        intro a ha hna b hb
        rw [hposr b hb]
        exact (findIdx_ne_of_ne forks a b ha (fun e => hna (e ▸ hb))).symm
      have hslot_c : ∀ a ∈ c.descendants,
          f'.forks[forks.findIdx (fun x => decide (x = some a))]? =
            slots1[forks.findIdx (fun x => decide (x = some a))]? := by
        intro a ha
        rw [hFr _ (hrest_ne a (hall a (List.mem_cons_of_mem _ (List.mem_append_left _ ha)))
          (fun har => hdisj ha har))]
        have hne : p ≠ forks.findIdx (fun x => decide (x = some a)) := by
          rw [hpidx]
          apply findIdx_ne_of_ne forks c.address a (hall c.address (List.mem_cons_self _ _))
          intro e
          exact hcnot (List.mem_append_left _ (e ▸ ha))
        simp only [List.getElem?_set_ne hne]
      refine ⟨f', hf', (k, filled) :: csr, ?_, ?_, ?_, ?_, ?_, ?_⟩
      · rw [hthat']; simp
      · simp [forget_children, hforgetc, hforget']
      · rw [hidx']; simp; omega
      · rw [hflen']; simp [hslots1]
      · intro i path D h
        cases i with
        | zero =>
          simp only [List.getElem?_cons_zero, Option.some_bind] at h ⊢
          by_cases hpath : path = []
          · subst hpath
            simp only [follow, Option.some.injEq] at h
            subst h
            refine ⟨filled, rfl, ?_⟩
            have h3 : f'.forks[p]? = (slots1.set p (some f.fresh))[p]? := by
              apply hFr p
              intro b hb
              have h4 := hrest_ne c.address (hall c.address (List.mem_cons_self _ _))
                (fun har => hcnot (List.mem_append_right _ har)) b hb
              rw [← hpidx] at h4
              exact h4
            have h5 : p < slots1.length := by omega
            rw [← hpidx, h3, List.getElem?_set, haddr]
            simp [h5]
          · obtain ⟨D', hD', hslot⟩ := hRc path D hpath h
            refine ⟨D', hD', ?_⟩
            have hmem := follow_mem_descendants path c D hpath h
            rw [hslot_c D.address hmem, ← hposc D.address hmem]
            exact hslot
        | succ i =>
          simp only [List.getElem?_cons_succ] at h ⊢
          obtain ⟨D', hD', hslot⟩ := hRr i path D h
          refine ⟨D', hD', ?_⟩
          rw [← hposr D.address (follow_children_mem path rest i D h)]
          exact hslot
      · intro i hi
        simp only [descendants_of_children, List.cons_append, List.mem_cons,
          List.mem_append] at hi
        rw [hFr i (fun b hb => by rw [hposr b hb]; exact hi b (Or.inr (Or.inr hb)))]
        have hne : p ≠ i := by
          rw [hpidx]
          exact hi c.address (Or.inl rfl)
        simp only [List.getElem?_set_ne hne]
        exact hFc i (fun a ha => by rw [hposc a ha]; exact hi a (Or.inr (Or.inl ha)))
end
/-- C11, as the spec states it for every descendant in the list, fails: for a
root with a child and a grandchild where only the grandchild is of interest
(at index 0), the child is not written, so the grandchild is not either, and
slot 0 is left unset. -/
theorem fill_does_not_recover_below_unlisted_child :
    (Tr4jectory.mk 0 [0, 1] none
        [(0, Tr4jectory.mk 1 [2] (some (0, 0))
          [(2, Tr4jectory.mk 2 [] (some (2, 0)) [])])]).WellFormed ∧
      follow [0, 0] (Tr4jectory.mk 0 [0, 1] none
        [(0, Tr4jectory.mk 1 [2] (some (0, 0))
          [(2, Tr4jectory.mk 2 [] (some (2, 0)) [])])]) =
        some (Tr4jectory.mk 2 [] (some (2, 0)) []) ∧
      [some 2][0]? = some (some (Tr4jectory.mk 2 [] (some (2, 0)) []).address) ∧
      FillSubTreeFromMessage
          ((Tr4jectory.mk 0 [0, 1] none
            [(0, Tr4jectory.mk 1 [2] (some (0, 0))
              [(2, Tr4jectory.mk 2 [] (some (2, 0)) [])])]).WriteSubTreeToMessage
              (Message.mk [0, 1] [] []) [some 2]).1
          (Tr4jectory.mk 9 [0, 1] none []) [none] 10 =
        some (Tr4jectory.mk 9 [0, 1] none [], [none], 10) := by
  refine ⟨?_, rfl, rfl, rfl⟩
  simp [Tr4jectory.WellFormed, WellFormed_children, Tr4jectory.fork]

/-- C11, amended: for every well-formed trajectory `N`, every list of nodes of
interest that contains every descendant of `N`, and every descendant `D` of
`N`, reached by a path of ranks in `children_`, after `WriteSubTreeToMessage`
and `FillSubTreeFromMessage` (into a new trajectory with the same timeline and
key, with at least as many slots as list entries) the slot at the first index
of `D` in the list holds the pointer to the reconstructed trajectory reached
by the same path, in a tree that is the same up to the pointers. -/
theorem fill_recovers_nodes_of_interest (N : Tr4jectory) (forks slots : List (Option Nat))
    (fresh address : Nat) (path : List Nat) (D : Tr4jectory)
    (hwf : N.WellFormed) (hnodup : N.descendants.Nodup)
    (hall : ∀ a ∈ N.descendants, some a ∈ forks) (hslots : forks.length ≤ slots.length)
    (hpath : path ≠ []) (hD : follow path N = some D) :
    ∃ N' slots' fresh' D',
      FillSubTreeFromMessage (N.WriteSubTreeToMessage (Message.mk N.timeline [] []) forks).1
          (Tr4jectory.mk address N.timeline N.fork []) slots fresh = some (N', slots', fresh') ∧
        N'.forget = N.forget ∧ follow path N' = some D' ∧
        forks[forks.findIdx (fun x => decide (x = some D.address))]? = some (some D.address) ∧
        slots'[forks.findIdx (fun x => decide (x = some D.address))]? =
          some (some D'.address) := by
  obtain ⟨_, N', slots', fresh', h1, h2, _, _, hR, _⟩ :=
    write_then_fill_slots N forks slots fresh address hwf hnodup hall hslots
  obtain ⟨D', hD', hslot⟩ := hR path D hpath hD
  exact ⟨N', slots', fresh', D', h1, h2, hD', findIdx_getElem?_of_mem forks D.address
    (hall _ (follow_mem_descendants path N D hpath hD)), hslot⟩

/-- Witness for the amended C11: in the tree `serialized_root` with all its
descendants of interest, the grandchild with pointer 12, second child of the
first child, is of interest at index 4. -/
theorem fill_recovers_nodes_of_interest_witness :
    ∃ N' slots' fresh' D',
      FillSubTreeFromMessage
          (serialized_root.WriteSubTreeToMessage (Message.mk serialized_root.timeline [] [])
            [some 3, some 11, some 1, some 2, some 12]).1
          (Tr4jectory.mk 100 serialized_root.timeline serialized_root.fork [])
          [none, none, none, none, none] 101 = some (N', slots', fresh') ∧
        N'.forget = serialized_root.forget ∧ follow [0, 1] N' = some D' ∧
        [some 3, some 11, some 1, some 2, some 12][
          [some 3, some 11, some 1, some 2, some 12].findIdx
            (fun x => decide (x = some (Tr4jectory.mk 12 [7] (some (1, 0)) []).address))]? =
          some (some (Tr4jectory.mk 12 [7] (some (1, 0)) []).address) ∧
        slots'[[some 3, some 11, some 1, some 2, some 12].findIdx
            (fun x => decide (x = some (Tr4jectory.mk 12 [7] (some (1, 0)) []).address))]? =
          some (some D'.address) :=
  fill_recovers_nodes_of_interest serialized_root [some 3, some 11, some 1, some 2, some 12]
    [none, none, none, none, none] 101 100 [0, 1] (Tr4jectory.mk 12 [7] (some (1, 0)) [])
    (by simp [serialized_root, Tr4jectory.WellFormed, WellFormed_children, Tr4jectory.fork])
    (by decide) (by decide) (by decide) (by decide) rfl
/-! ## Messages without position indices -/

theorem descendants_of_children_emplace (k : Instant) (c : Tr4jectory)
    (cs : List (Instant × Tr4jectory)) :
    List.Perm (descendants_of_children (emplace k c cs))
      ((c.address :: c.descendants) ++ descendants_of_children cs) := by
  induction cs with
  | nil => simp [emplace, descendants_of_children]
  | cons e rest ih =>
    obtain ⟨k2, c2⟩ := e
    simp only [emplace]
    split
    · simp [descendants_of_children]
    · simp only [descendants_of_children]
      refine (List.Perm.append_left _ ih).trans ?_
      exact perm_swap_middle _ _ _

theorem length_emplace (k : Instant) (c : Tr4jectory) (cs : List (Instant × Tr4jectory)) :
    (emplace k c cs).length = cs.length + 1 := by
  induction cs with
  | nil => rfl
  | cons e rest ih =>
    obtain ⟨k2, c2⟩ := e
    simp only [emplace]
    split <;> simp [ih]

/-- `NewFork` at the position that `timeline_find` returns succeeds when the
trajectory is not a root or the time is in its timeline. -/
theorem NewFork_at_find_isSome (that : Tr4jectory) (ft : Instant) (fresh : Nat)
    (h : that.fork ≠ none ∨ ft ∈ that.timeline) :
    ∃ time, Tr4jectory.NewFork that (that.timeline.indexOf ft) fresh =
      some (time, Tr4jectory.mk fresh [] (some (time, that.timeline.indexOf ft)) []) := by
  unfold Tr4jectory.NewFork
  by_cases hmem : ft ∈ that.timeline
  · have hlt := List.indexOf_lt_length.mpr hmem
    rw [if_neg (ne_of_lt hlt), List.getElem?_eq_getElem hlt]
    exact ⟨_, rfl⟩
  · have hfork : that.fork ≠ none := by
      rcases h with h | h
      · exact h
      · exact absurd h hmem
    rw [if_pos (List.indexOf_of_not_mem hmem)]
    cases hf : that.fork with
    | none => exact absurd hf hfork
    | some o =>
      obtain ⟨time, p⟩ := o
      exact ⟨time, rfl⟩
theorem with_child_fields (that : Tr4jectory) (k : Instant) (c : Tr4jectory) :
    (that.with_child k c).address = that.address ∧
      (that.with_child k c).timeline = that.timeline ∧
      (that.with_child k c).fork = that.fork ∧
      (that.with_child k c).children_.length = that.children_.length + 1 ∧
      List.Perm (that.with_child k c).descendants
        ((c.address :: c.descendants) ++ that.descendants) := by
  cases that with
  | mk a tl f cs =>
    refine ⟨rfl, rfl, rfl, ?_, ?_⟩
    · simp [with_child, Tr4jectory.children_, length_emplace]
    · simp only [with_child, descendants]
      exact descendants_of_children_emplace k c cs

mutual
/-- Reading a legacy message into a trajectory that is not a root, or that has
the fork times of the litters in its timeline, returns, leaves the slots
unchanged and makes one new trajectory for each trajectory of the message. -/
theorem fill_legacy_aux : ∀ (m : Message) (that : Tr4jectory) (forks : List (Option Nat))
    (fresh : Nat), m.legacy →
    (that.fork ≠ none ∨
      ∀ l ∈ m.children, l.trajectories ≠ [] → l.fork_time ∈ that.timeline) →
    ∃ N', FillSubTreeFromMessage m that forks fresh = some (N', forks, fresh + m.count) ∧
      N'.address = that.address ∧ N'.timeline = that.timeline ∧ N'.fork = that.fork ∧
      N'.children_.length =
        that.children_.length + (m.children.map (fun l => l.trajectories.length)).sum ∧
      List.Perm N'.descendants (that.descendants ++ List.range' fresh m.count)
  | Message.mk _ cs fp, that, forks, fresh, hlegacy, hcond => by
    obtain ⟨hfp, hcs⟩ := hlegacy
    subst hfp
    obtain ⟨f', hf', h1, h2, h3, h4, h5, h6, h7⟩ :=
      litters_legacy_aux cs ⟨that, forks, fresh, 0⟩ hcs hcond
    simp only [FillSubTreeFromMessage, hf', Message.count, Message.children]
    exact ⟨f'.that, by rw [h1, h2], h3, h4, h5, h6, h7⟩
/-- The outer loop of `FillSubTreeFromMessage` on legacy litters. -/
theorem litters_legacy_aux : ∀ (ls : List Litter) (f : Filling), Message.legacy_litters ls →
    (f.that.fork ≠ none ∨
      ∀ l ∈ ls, l.trajectories ≠ [] → l.fork_time ∈ f.that.timeline) →
    ∃ f', FillSubTreeFromMessage.litters [] ls f = some f' ∧
      f'.forks = f.forks ∧ f'.fresh = f.fresh + Message.count_of_litters ls ∧
      f'.that.address = f.that.address ∧ f'.that.timeline = f.that.timeline ∧
      f'.that.fork = f.that.fork ∧
      f'.that.children_.length =
        f.that.children_.length + (ls.map (fun l => l.trajectories.length)).sum ∧
      List.Perm f'.that.descendants
        (f.that.descendants ++ List.range' f.fresh (Message.count_of_litters ls))
  | [], f, _, _ => by
    exact ⟨f, rfl, rfl, rfl, rfl, rfl, rfl, by simp, by simp [Message.count_of_litters]⟩
  | Litter.mk ft ms :: rest, f, hlegacy, hcond => by
    obtain ⟨hms, hrest⟩ := hlegacy
    obtain ⟨f1, hf1, a1, a2, a3, a4, a5, a6, a7⟩ := trajectories_legacy_aux ms ft f hms (by
      rcases hcond with h | h
      · exact Or.inl h
      · by_cases hm : ms = []
        · exact Or.inr (Or.inl hm)
        · exact Or.inr (Or.inr (h (Litter.mk ft ms) (List.mem_cons_self _ _) hm)))
    obtain ⟨f2, hf2, b1, b2, b3, b4, b5, b6, b7⟩ := litters_legacy_aux rest f1 hrest (by
      rcases hcond with h | h
      · exact Or.inl (by rw [a5]; exact h)
      · exact Or.inr (fun l hl hne => by rw [a4]; exact h l (List.mem_cons_of_mem _ hl) hne))
    refine ⟨f2, ?_, by rw [b1, a1], ?_, by rw [b3, a3], by rw [b4, a4], by rw [b5, a5], ?_, ?_⟩
    · simp only [FillSubTreeFromMessage.litters, hf1, hf2]
    · rw [b2, a2]; simp only [Message.count_of_litters]; omega
    · rw [b6, a6]; simp [Litter.trajectories]; omega
    · refine b7.trans ?_
      rw [a2]
      refine (List.Perm.append_right _ a7).trans ?_
      simp only [Message.count_of_litters, List.append_assoc]
      apply List.Perm.append_left
      rw [Nat.add_comm (Message.count_of_messages ms), ← List.range'_append_1]
/-- The inner loop of `FillSubTreeFromMessage` on legacy trajectories. -/
theorem trajectories_legacy_aux : ∀ (ms : List Message) (ft : Instant) (f : Filling),
    Message.legacy_messages ms →
    (f.that.fork ≠ none ∨ ms = [] ∨ ft ∈ f.that.timeline) →
    ∃ f', FillSubTreeFromMessage.trajectories [] ft ms f = some f' ∧
      f'.forks = f.forks ∧ f'.fresh = f.fresh + Message.count_of_messages ms ∧
      f'.that.address = f.that.address ∧ f'.that.timeline = f.that.timeline ∧
      f'.that.fork = f.that.fork ∧
      f'.that.children_.length = f.that.children_.length + ms.length ∧
      List.Perm f'.that.descendants
        (f.that.descendants ++ List.range' f.fresh (Message.count_of_messages ms))
  | [], ft, f, _, _ => by
    exact ⟨f, rfl, rfl, rfl, rfl, rfl, rfl, by simp, by simp [Message.count_of_messages]⟩
  | m :: rest, ft, f, hlegacy, hcond => by
    obtain ⟨hm, hrest⟩ := hlegacy
    obtain ⟨time, hnew⟩ := NewFork_at_find_isSome f.that ft f.fresh (by
      rcases hcond with h | h | h
      · exact Or.inl h
      · simp at h
      · exact Or.inr h)
    obtain ⟨filled, hfill, c1, c2, c3, c4, c5⟩ := fill_legacy_aux m
      ((Tr4jectory.mk f.fresh [] (some (time, f.that.timeline.indexOf ft)) []).read_timeline m)
      f.forks (f.fresh + 1) hm (Or.inl (by cases m; simp [read_timeline, Tr4jectory.fork]))
    obtain ⟨f2, hf2, b1, b2, b3, b4, b5, b6, b7⟩ := trajectories_legacy_aux rest ft
      ⟨f.that.with_child time filled, f.forks, f.fresh + 1 + m.count, f.index + 1⟩ hrest (by
        rcases hcond with h | h | h
        · exact Or.inl (by rw [(with_child_fields _ _ _).2.2.1]; exact h)
        · simp at h
        · exact Or.inr (Or.inr (by rw [(with_child_fields _ _ _).2.1]; exact h)))
    obtain ⟨w1, w2, w3, w4, w5⟩ := with_child_fields f.that time filled
    refine ⟨f2, ?_, b1, ?_, by rw [b3]; exact w1, by rw [b4]; exact w2, by rw [b5]; exact w3,
      ?_, ?_⟩
    · simp only [FillSubTreeFromMessage.trajectories, hnew, hfill, List.length_nil,
        gt_iff_lt, Nat.lt_irrefl, if_false, hf2]
    · rw [b2]; simp only [Message.count_of_messages]; omega
    · rw [b6, w4]; simp; omega
    · refine b7.trans ?_
      simp only
      refine (List.Perm.append_right _ w5).trans ?_
      have hc1 : filled.address = f.fresh := by
        rw [c1]; cases m; rfl
      have hc5 : List.Perm filled.descendants (List.range' (f.fresh + 1) m.count) := by
        refine c5.trans ?_
        cases m
        simp [read_timeline, descendants, descendants_of_children]
      have e : List.range' f.fresh (Message.count_of_messages (m :: rest)) =
          f.fresh :: (List.range' (f.fresh + 1) m.count ++
            List.range' (f.fresh + 1 + m.count) (Message.count_of_messages rest)) := by
        simp only [Message.count_of_messages]
        rw [show 1 + m.count + Message.count_of_messages rest =
          (Message.count_of_messages rest + m.count) + 1 by omega, List.range'_succ,
          ← List.range'_append_1]
      rw [e, hc1]
      simp only [List.cons_append, List.append_assoc]
      refine List.Perm.trans ?_ (List.perm_middle).symm
      apply List.Perm.cons
      refine (perm_swap_middle _ _ _).trans ?_
      exact List.Perm.append_left _ (List.Perm.append_right _ hc5)
end

/-- C13, as stated for every message without position indices, fails: reading a
legacy message with a litter at fork time 5 into a root whose timeline has no
entry at time 5 calls `NewFork` at the end of the timeline of a root, which
fails. -/
theorem fill_of_legacy_message_fails_at_unknown_fork_time :
    (Message.mk [] [Litter.mk 5 [Message.mk [] [] []]] []).legacy ∧
      FillSubTreeFromMessage (Message.mk [] [Litter.mk 5 [Message.mk [] [] []]] [])
        (Tr4jectory.mk 0 [0, 1] none []) [none] 1 = none := by
  refine ⟨?_, rfl⟩
  simp [Message.legacy, Message.legacy_litters, Message.legacy_messages]

/-! ## Tree surgery -/

theorem ancestry_length_pos (N : Forkable) : 0 < N.ancestry.length := by
  cases N <;> simp [Forkable.ancestry]

theorem ne_of_ancestry_length_lt (A N : Forkable)
    (h : A.ancestry.length < N.ancestry.length) : A ≠ N := by
  intro e
  rw [e] at h
  exact Nat.lt_irrefl _ h

/-- Under the invariants the loop of `Fork` stops at an ancestor and at a
position whose entry has the key of the trajectory as its time, and `Wrap`
finds that ancestor. -/
theorem Fork_loop_of_WellFormed (N : Forkable) (h : N.WellFormed) (k : Instant)
    (hk : N.fork_time = some k) :
    ∃ A q, Fork.loop N = some (A, q) ∧ A.time q = some k ∧
      A.ancestry.length < N.ancestry.length ∧
      ∀ acc, ∃ l, Wrap.loop A q N acc = some ⟨A :: l, q⟩ := by
  induction N generalizing k with
  | root tl => simp [Forkable.fork_time] at hk
  | fork tl p k2 pos ih =>
    simp only [Forkable.fork_time, Option.some.injEq] at hk
    subst hk
    obtain ⟨_, _, hp, hkey⟩ := h
    by_cases hc : pos = p.timeline_end ∧ p.is_root = false
    · have hpk : p.fork_time = some k2 := by
        rcases hkey with h1 | h1
        · rw [hc.1] at h1
          simp [Forkable.time, Forkable.timeline_end] at h1
        · exact h1.2
      obtain ⟨A, q, h1, h2, h3, h4⟩ := ih hp k2 hpk
      have hlen : A.ancestry.length < (fork tl p k2 pos).ancestry.length := by
        simp only [Forkable.ancestry, List.length_append, List.length_singleton]
        omega
      refine ⟨A, q, ?_, h2, hlen, ?_⟩
      · simp only [Fork.loop, hc, and_self, if_true]
        exact h1
      · intro acc
        unfold Wrap.loop
        rw [if_neg (ne_of_ancestry_length_lt _ _ hlen)]
        exact h4 _
    · have hpk : p.time pos = some k2 := by
        rcases hkey with h1 | h1
        · exact h1
        · exfalso
          apply hc
          refine ⟨h1.1, ?_⟩
          cases p with
          | root _ => simp [Forkable.fork_time] at h1
          | fork _ _ _ _ => rfl
      have hlen : p.ancestry.length < (fork tl p k2 pos).ancestry.length := by
        simp [Forkable.ancestry]
      refine ⟨p, pos, ?_, hpk, hlen, ?_⟩
      · simp only [Fork.loop, hc, if_false]
      · intro acc
        unfold Wrap.loop
        rw [if_neg (ne_of_ancestry_length_lt _ _ hlen)]
        simp only
        unfold Wrap.loop
        rw [if_pos rfl]
        refine ⟨fork tl p k2 pos :: acc, ?_⟩
        have hne : pos ≠ p.timeline_end := by
          intro e
          rw [e] at hpk
          simp [Forkable.time, Forkable.timeline_end] at hpk
        simp [It3rator.CheckNormalizedIfEnd, hne]

/-- Under the invariants `Fork` of a trajectory that is not a root returns an
iterator on an entry whose time is the key of the trajectory. -/
theorem Fork_of_WellFormed (N : Forkable) (h : N.WellFormed) (k : Instant)
    (hk : N.fork_time = some k) :
    ∃ fork_it, N.Fork = some fork_it ∧ fork_it.deref = some k := by
  obtain ⟨A, q, h1, h2, _, h4⟩ := Fork_loop_of_WellFormed N h k hk
  obtain ⟨l, hl⟩ := h4 []
  refine ⟨⟨A :: l, q⟩, ?_, ?_⟩
  · have hroot : N.is_root = false := by
      cases N with
      | root _ => simp [Forkable.fork_time] at hk
      | fork _ _ _ _ => rfl
    simp only [Forkable.Fork, hroot, h1, Wrap]
    simpa using hl
  · simpa [It3rator.deref] using h2

theorem Fork_of_root (tl : List Instant) : (Forkable.root tl).Fork = none := by
  simp [Forkable.Fork, Forkable.is_root]

theorem with_children_children_ (that : Tr4jectory) : that.with_children that.children_ = that := by
  cases that; rfl

theorem with_child_eq (that : Tr4jectory) (k : Instant) (c : Tr4jectory) :
    that.with_child k c = that.with_children (emplace k c that.children_) := by
  cases that; rfl

theorem with_children_with_children (that : Tr4jectory) (cs ds : List (Instant × Tr4jectory)) :
    (that.with_children cs).with_children ds = that.with_children ds := by
  cases that; rfl

theorem children_with_children (that : Tr4jectory) (cs : List (Instant × Tr4jectory)) :
    (that.with_children cs).children_ = cs := by
  cases that; rfl

/-- The loop of `DeleteFork` removes a child that was just emplaced, when no
other child has its pointer. -/
theorem DeleteFork_loop_emplace (k : Instant) (c : Tr4jectory)
    (cs : List (Instant × Tr4jectory)) (h : ∀ e ∈ cs, e.2.address ≠ c.address) :
    DeleteFork.loop k c.address (emplace k c cs) = some cs := by
  induction cs with
  | nil => simp [emplace, DeleteFork.loop]
  | cons e rest ih =>
    obtain ⟨k2, c2⟩ := e
    have h2 : c2.address ≠ c.address := h (k2, c2) (List.mem_cons_self _ _)
    simp only [emplace]
    split
    · simp [DeleteFork.loop]
    · simp only [DeleteFork.loop, h2, and_false, if_false]
      rw [ih (fun e he => h e (List.mem_cons_of_mem _ he))]
      rfl

/-- The loop of `DeleteFork` fails when no child has the pointer. -/
theorem DeleteFork_loop_none (t : Instant) (a : Nat) (cs : List (Instant × Tr4jectory))
    (h : ∀ e ∈ cs, e.2.address ≠ a) : DeleteFork.loop t a cs = none := by
  induction cs with
  | nil => rfl
  | cons e rest ih =>
    obtain ⟨k2, c2⟩ := e
    have h2 : c2.address ≠ a := h (k2, c2) (List.mem_cons_self _ _)
    simp only [DeleteFork.loop, h2, and_false, if_false]
    rw [ih (fun e he => h e (List.mem_cons_of_mem _ he))]
    rfl

/-- The loop of `DeleteFork` removes the entry of the child with the pointer,
when no other child has that pointer. -/
theorem DeleteFork_loop_eraseIdx (cs : List (Instant × Tr4jectory)) (i : Nat) (k : Instant)
    (c : Tr4jectory) (hi : cs[i]? = some (k, c))
    (hnodup : (cs.map (fun e => e.2.address)).Nodup) :
    DeleteFork.loop k c.address cs = some (cs.eraseIdx i) := by
  induction cs generalizing i with
  | nil => simp at hi
  | cons e rest ih =>
    obtain ⟨k2, c2⟩ := e
    rw [List.map_cons, List.nodup_cons] at hnodup
    cases i with
    | zero =>
      simp only [List.getElem?_cons_zero, Option.some.injEq, Prod.mk.injEq] at hi
      obtain ⟨rfl, rfl⟩ := hi
      simp [DeleteFork.loop]
    | succ j =>
      simp only [List.getElem?_cons_succ] at hi
      have hmem : c.address ∈ rest.map (fun e => e.2.address) :=
        List.mem_map.mpr ⟨(k, c), List.getElem?_mem hi, rfl⟩
      have h2 : c2.address ≠ c.address := by
        intro e
        apply hnodup.1
        simpa [e] using hmem
      simp only [DeleteFork.loop, h2, and_false, if_false, List.eraseIdx_cons_succ]
      rw [ih j hi hnodup.2]
      rfl

/-- `DeleteFork` with the pointer to a child of the trajectory, when the
pointers to the children are distinct and the child, seen through `parent_`,
satisfies the invariants and has the key of its entry. -/
theorem DeleteFork_of_child (P : Tr4jectory) (c : Pointer) (i : Nat) (k : Instant)
    (child : Tr4jectory) (hnodup : (P.children_.map (fun e => e.2.address)).Nodup)
    (hwf : c.pointee.WellFormed) (hkey : c.pointee.fork_time = some k)
    (hi : P.children_[i]? = some (k, child)) (ha : child.address = c.address) :
    DeleteFork P (some c) = some (P.with_children (P.children_.eraseIdx i), none) := by
  obtain ⟨fork_it, h1, h2⟩ := Fork_of_WellFormed c.pointee hwf k hkey
  simp only [DeleteFork, h1, h2, ← ha, DeleteFork_loop_eraseIdx _ i k child hi hnodup]

/-- C14: for every trajectory `P` (given by its two views, with the invariants
along its ancestors) and every valid fork position `pos` (an entry of the own
timeline of `P`, or its end when `P` is not a root), `NewFork` succeeds and
`DeleteFork` with the pointer that `NewFork` returned succeeds, sets the
pointer to null and leaves `P` as it was before the fork: the same children,
with the same keys, in the same order. -/
theorem DeleteFork_of_NewFork (P : Tr4jectory) (view : Forkable) (pos fresh : Nat)
    (hsees : P.seen_as view) (hwf : view.WellFormed)
    (hfresh : ∀ e ∈ P.children_, e.2.address ≠ fresh)
    (hpos : pos < P.timeline.length ∨ (pos = P.timeline.length ∧ P.is_root = false)) :
    ∃ time child pointee, Tr4jectory.NewFork P pos fresh = some (time, child) ∧
      Forkable.NewFork view pos = some pointee ∧ child.address = fresh ∧
      DeleteFork (P.with_child time child) (some ⟨fresh, pointee⟩) = some (P, none) := by
  obtain ⟨htl, hft, _⟩ := hsees
  have key : ∀ time, Tr4jectory.NewFork P pos fresh =
        some (time, Tr4jectory.mk fresh [] (some (time, pos)) []) →
      Forkable.NewFork view pos = some (Forkable.fork [] view time pos) →
      (view.time pos = some time ∨ (pos = view.timeline_end ∧ view.fork_time = some time)) →
      ∃ time child pointee, Tr4jectory.NewFork P pos fresh = some (time, child) ∧
        Forkable.NewFork view pos = some pointee ∧ child.address = fresh ∧
        DeleteFork (P.with_child time child) (some ⟨fresh, pointee⟩) = some (P, none) := by
    intro time h1 h2 h3
    refine ⟨time, _, _, h1, h2, rfl, ?_⟩
    have hwf2 : (Forkable.fork [] view time pos).WellFormed :=
      ⟨List.Pairwise.nil, by simp, hwf, h3⟩
    obtain ⟨fork_it, h4, h5⟩ := Fork_of_WellFormed _ hwf2 time rfl
    simp only [DeleteFork, h4, h5, with_child_eq, children_with_children]
    have h6 := DeleteFork_loop_emplace time (Tr4jectory.mk fresh [] (some (time, pos)) [])
      P.children_ hfresh
    simp only [Tr4jectory.address] at h6
    rw [h6]
    simp [with_children_with_children, with_children_children_]
  rcases hpos with hlt | ⟨heq, hroot⟩
  · apply key (P.timeline[pos])
    · simp [Tr4jectory.NewFork, ne_of_lt hlt, List.getElem?_eq_getElem hlt]
    · simp [Forkable.NewFork, Forkable.timeline_end, Forkable.time, htl, ne_of_lt hlt,
        List.getElem?_eq_getElem hlt]
    · left
      simp [Forkable.time, htl, List.getElem?_eq_getElem hlt]
  · cases hf : P.fork with
    | none => simp [Tr4jectory.is_root, hf] at hroot
    | some own =>
      obtain ⟨time, position⟩ := own
      have hft2 : view.fork_time = some time := by rw [hft, hf]; rfl
      have hend : pos = view.timeline_end := by rw [Forkable.timeline_end, htl]; exact heq
      apply key time
      · simp [Tr4jectory.NewFork, heq, hf]
      · simp [Forkable.NewFork, hend, hft2]
      · exact Or.inr ⟨hend, hft2⟩

/-- Witness for C14: a fork at the end of the timeline of a trajectory that is
forked at time 0 from a root and has a child already. -/
theorem DeleteFork_of_NewFork_witness :
    ∃ time child pointee,
      Tr4jectory.NewFork (Tr4jectory.mk 1 [1, 2] (some (0, 0))
        [(0, Tr4jectory.mk 11 [] (some (0, 2)) []), (1, Tr4jectory.mk 12 [7] (some (1, 0)) [])])
        2 13 = some (time, child) ∧
      Forkable.NewFork (Forkable.fork [1, 2] (Forkable.root [0, 3]) 0 0) 2 = some pointee ∧
      child.address = 13 ∧
      DeleteFork ((Tr4jectory.mk 1 [1, 2] (some (0, 0))
        [(0, Tr4jectory.mk 11 [] (some (0, 2)) []),
          (1, Tr4jectory.mk 12 [7] (some (1, 0)) [])]).with_child time child)
        (some ⟨13, pointee⟩) =
      some (Tr4jectory.mk 1 [1, 2] (some (0, 0))
        [(0, Tr4jectory.mk 11 [] (some (0, 2)) []), (1, Tr4jectory.mk 12 [7] (some (1, 0)) [])],
        none) :=
  DeleteFork_of_NewFork _ _ 2 13 ⟨rfl, rfl, rfl⟩ (by decide)
    (by simp [Tr4jectory.children_, Tr4jectory.address]) (Or.inr ⟨rfl, rfl⟩)

/-- C19: when the pointers to the children of `P` are distinct and a pointer
to a child of `P` points to an object that satisfies the invariants and has
the key of its entry, `DeleteFork(P, c)` fails if and only if no child of `P`
has the pointer `c` (so also when `c` points to a root or to a child of
another trajectory); when the entry of rank `i` has the pointer `c`,
`DeleteFork` removes exactly that entry, leaves every other entry unchanged
and in order, and sets the pointer of the caller to null. -/
theorem DeleteFork_fails_iff_not_child (P : Tr4jectory) (c : Pointer)
    (hnodup : (P.children_.map (fun e => e.2.address)).Nodup)
    (hpointee : ∀ e ∈ P.children_, e.2.address = c.address →
      c.pointee.WellFormed ∧ c.pointee.fork_time = some e.1) :
    (DeleteFork P (some c) = none ↔ ∀ e ∈ P.children_, e.2.address ≠ c.address) ∧
      ∀ i k child, P.children_[i]? = some (k, child) → child.address = c.address →
        DeleteFork P (some c) = some (P.with_children (P.children_.eraseIdx i), none) := by
  have hsucc : ∀ i k child, P.children_[i]? = some (k, child) → child.address = c.address →
      DeleteFork P (some c) = some (P.with_children (P.children_.eraseIdx i), none) := by
    intro i k child hi ha
    obtain ⟨h1, h2⟩ := hpointee (k, child) (List.getElem?_mem hi) ha
    exact DeleteFork_of_child P c i k child hnodup h1 h2 hi ha
  refine ⟨⟨?_, ?_⟩, hsucc⟩
  · intro hnone e he ha
    obtain ⟨i, hi⟩ := List.getElem?_of_mem he
    rw [hsucc i e.1 e.2 hi ha] at hnone
    simp at hnone
  · intro hno
    simp only [DeleteFork]
    cases c.pointee.Fork with
    | none => rfl
    | some fork_it =>
      simp only
      cases fork_it.deref with
      | none => rfl
      | some time => simp only [DeleteFork_loop_none time c.address P.children_ hno]

/-- Witness for C19: the second of the two children of `serialized_root`
forked at time 0. -/
theorem DeleteFork_fails_iff_not_child_witness :
    (DeleteFork serialized_root (some ⟨2, Forkable.fork [] (Forkable.root [0, 3]) 0 0⟩) = none ↔
        ∀ e ∈ serialized_root.children_,
          e.2.address ≠ (⟨2, Forkable.fork [] (Forkable.root [0, 3]) 0 0⟩ : Pointer).address) ∧
      ∀ i k child, serialized_root.children_[i]? = some (k, child) →
        child.address = (⟨2, Forkable.fork [] (Forkable.root [0, 3]) 0 0⟩ : Pointer).address →
        DeleteFork serialized_root (some ⟨2, Forkable.fork [] (Forkable.root [0, 3]) 0 0⟩) =
          some (serialized_root.with_children (serialized_root.children_.eraseIdx i), none) :=
  DeleteFork_fails_iff_not_child serialized_root ⟨2, Forkable.fork [] (Forkable.root [0, 3]) 0 0⟩
    (by simp [serialized_root, Tr4jectory.children_, Tr4jectory.address])
    (by
      intro e he ha
      simp only [serialized_root, Tr4jectory.children_, List.mem_cons, List.mem_singleton,
        List.not_mem_nil, or_false] at he
      rcases he with rfl | rfl | rfl
      · simp [Tr4jectory.address] at ha
      · exact ⟨by decide, rfl⟩
      · simp [Tr4jectory.address] at ha)

/-- The insertion of `emplace` splits the children in those before the new
entry, whose keys are not greater than the new key, and those after it, whose
keys are greater when the children are in the order of their keys. -/
theorem emplace_split (k : Instant) (c : Tr4jectory) (cs : List (Instant × Tr4jectory))
    (hsorted : (cs.map Prod.fst).Pairwise (· ≤ ·)) :
    ∃ before after, cs = before ++ after ∧ emplace k c cs = before ++ (k, c) :: after ∧
      (∀ e ∈ before, e.1 ≤ k) ∧ ∀ e ∈ after, k < e.1 := by
  induction cs with
  | nil => exact ⟨[], [], rfl, rfl, by simp, by simp⟩
  | cons e rest ih =>
    obtain ⟨k2, c2⟩ := e
    rw [List.map_cons, List.pairwise_cons] at hsorted
    by_cases hlt : k < k2
    · refine ⟨[], (k2, c2) :: rest, rfl, by simp [emplace, hlt], by simp, ?_⟩
      intro e he
      rcases List.mem_cons.mp he with rfl | he
      · exact hlt
      · exact lt_of_lt_of_le hlt (hsorted.1 e.1 (List.mem_map_of_mem _ he))
    · obtain ⟨before, after, h1, h2, h3, h4⟩ := ih hsorted.2
      refine ⟨(k2, c2) :: before, after, by rw [h1]; rfl, by simp [emplace, hlt, h2], ?_, h4⟩
      intro e he
      rcases List.mem_cons.mp he with rfl | he
      · exact not_lt.mp hlt
      · exact h3 e he

/-- C20: for every trajectory `P` (given by its two views, with its children
in the order of their keys) on which `NewFork(pos)` succeeds, the new child
has the new pointer, an empty timeline, no children, the position `pos` and
the parent `P`; its key is the time of the entry at `pos` or, when `pos` is the
end of the timeline of `P`, the own key of `P`; the children of `P` after the
call are the children before it, with their keys and in their order, with the
new entry after every entry whose key is not greater and before every entry
whose key is greater; the pointer, the timeline and the fork of `P` are
unchanged. -/
theorem NewFork_adds_one_child (P : Tr4jectory) (view : Forkable) (pos fresh : Nat)
    (time : Instant) (child : Tr4jectory) (hsees : P.seen_as view)
    (hsorted : (P.children_.map Prod.fst).Pairwise (· ≤ ·))
    (hnew : Tr4jectory.NewFork P pos fresh = some (time, child)) :
    child = Tr4jectory.mk fresh [] (some (time, pos)) [] ∧
      Forkable.NewFork view pos = some (Forkable.fork [] view time pos) ∧
      (if pos = P.timeline.length then P.fork.map Prod.fst = some time
        else P.timeline[pos]? = some time) ∧
      (P.with_child time child).address = P.address ∧
      (P.with_child time child).timeline = P.timeline ∧
      (P.with_child time child).fork = P.fork ∧
      ∃ before after, P.children_ = before ++ after ∧
        (P.with_child time child).children_ = before ++ (time, child) :: after ∧
        (∀ e ∈ before, e.1 ≤ time) ∧ ∀ e ∈ after, time < e.1 := by
  obtain ⟨htl, hft, _⟩ := hsees
  obtain ⟨w1, w2, w3, _, _⟩ := with_child_fields P time child
  have hsplit := emplace_split time child P.children_ hsorted
  rw [← children_with_children P (emplace time child P.children_), ← with_child_eq] at hsplit
  refine ⟨?_, ?_, ?_, w1, w2, w3, hsplit⟩
  · unfold Tr4jectory.NewFork at hnew
    split at hnew
    · split at hnew
      · simp at hnew
      · simp only [Option.some.injEq, Prod.mk.injEq] at hnew
        rw [← hnew.1, ← hnew.2]
    · split at hnew
      · simp at hnew
      · simp only [Option.some.injEq, Prod.mk.injEq] at hnew
        rw [← hnew.1, ← hnew.2]
  · unfold Tr4jectory.NewFork at hnew
    unfold Forkable.NewFork
    rw [Forkable.timeline_end, Forkable.time, htl, hft]
    split at hnew
    · rename_i hpos
      rw [if_pos hpos]
      split at hnew
      · simp at hnew
      · rename_i hf
        simp only [Option.some.injEq, Prod.mk.injEq] at hnew
        rw [hf, ← hnew.1]
        rfl
    · rename_i hpos
      rw [if_neg hpos]
      split at hnew
      · simp at hnew
      · rename_i hf
        simp only [Option.some.injEq, Prod.mk.injEq] at hnew
        rw [← hnew.1]
  · unfold Tr4jectory.NewFork at hnew
    split at hnew
    · rename_i hpos
      rw [if_pos hpos]
      split at hnew
      · simp at hnew
      · rename_i hf
        simp only [Option.some.injEq, Prod.mk.injEq] at hnew
        rw [hf, ← hnew.1]
        rfl
    · rename_i hpos
      rw [if_neg hpos]
      split at hnew
      · simp at hnew
      · rename_i hf
        simp only [Option.some.injEq, Prod.mk.injEq] at hnew
        rw [← hnew.1]
        exact hf

/-- Witness for C20: a fork at the first entry of `serialized_root`, which has
two children with the key 0 and one with the key 3. -/
theorem NewFork_adds_one_child_witness :
    (Tr4jectory.mk 4 [] (some (0, 0)) [] : Tr4jectory) = Tr4jectory.mk 4 [] (some (0, 0)) [] ∧
      Forkable.NewFork (Forkable.root [0, 3]) 0 =
        some (Forkable.fork [] (Forkable.root [0, 3]) 0 0) ∧
      (if 0 = serialized_root.timeline.length then
          serialized_root.fork.map Prod.fst = some (0 : Instant)
        else serialized_root.timeline[0]? = some (0 : Instant)) ∧
      (serialized_root.with_child 0 (Tr4jectory.mk 4 [] (some (0, 0)) [])).address =
        serialized_root.address ∧
      (serialized_root.with_child 0 (Tr4jectory.mk 4 [] (some (0, 0)) [])).timeline =
        serialized_root.timeline ∧
      (serialized_root.with_child 0 (Tr4jectory.mk 4 [] (some (0, 0)) [])).fork =
        serialized_root.fork ∧
      ∃ before after, serialized_root.children_ = before ++ after ∧
        (serialized_root.with_child 0 (Tr4jectory.mk 4 [] (some (0, 0)) [])).children_ =
          before ++ ((0 : Instant), Tr4jectory.mk 4 [] (some (0, 0)) []) :: after ∧
        (∀ e ∈ before, e.1 ≤ (0 : Instant)) ∧ ∀ e ∈ after, (0 : Instant) < e.1 :=
  NewFork_adds_one_child serialized_root (Forkable.root [0, 3]) 0 4 0
    (Tr4jectory.mk 4 [] (some (0, 0)) []) ⟨rfl, rfl, rfl⟩
    (by simp [serialized_root, Tr4jectory.children_]) rfl

/-- In children that are in the order of their keys, the entries before the
upper bound of `t` are the entries whose key is not greater than `t`. -/
theorem take_upper_bound (t : Instant) (cs : List (Instant × Tr4jectory))
    (hsorted : (cs.map Prod.fst).Pairwise (· ≤ ·)) :
    cs.take (upper_bound t cs) = cs.filter (fun e => decide (e.1 ≤ t)) := by
  induction cs with
  | nil => rfl
  | cons e rest ih =>
    rw [List.map_cons, List.pairwise_cons] at hsorted
    by_cases hlt : t < e.1
    · have hall : ∀ x ∈ rest, ¬ x.1 ≤ t := fun x hx hle =>
        absurd (lt_of_lt_of_le hlt (hsorted.1 x.1 (List.mem_map_of_mem _ hx))) (not_lt.mpr hle)
      have hnil : rest.filter (fun e => decide (e.1 ≤ t)) = [] := by
        rw [List.filter_eq_nil_iff]
        intro x hx
        simpa using hall x hx
      simp [upper_bound, List.findIdx_cons, hlt, List.filter_cons, not_le.mpr hlt, hnil]
    · have ih2 := ih hsorted.2
      simp only [upper_bound] at ih2
      simp [upper_bound, List.findIdx_cons, hlt, List.filter_cons, not_lt.mp hlt, ih2]

/-- In children that are in the order of their keys, the lower bound of `t` is
the first entry exactly when no key is less than `t`. -/
theorem lower_bound_eq_zero (t : Instant) (cs : List (Instant × Tr4jectory))
    (hsorted : (cs.map Prod.fst).Pairwise (· ≤ ·)) :
    0 = lower_bound t cs ↔ ∀ e ∈ cs, t ≤ e.1 := by
  cases cs with
  | nil => simp [lower_bound]
  | cons e rest =>
    rw [List.map_cons, List.pairwise_cons] at hsorted
    by_cases hle : t ≤ e.1
    · simp only [lower_bound, List.findIdx_cons, hle, decide_True, cond_true, true_iff]
      intro x hx
      rcases List.mem_cons.mp hx with rfl | hx
      · exact hle
      · exact le_trans hle (hsorted.1 x.1 (List.mem_map_of_mem _ hx))
    · simp only [lower_bound, List.findIdx_cons, hle, decide_False, cond_false]
      constructor
      · intro h
        omega
      · intro h
        exact absurd (h e (List.mem_cons_self _ _)) hle

/-- C16: when `DeleteAllForksAfter(N, t)` succeeds on a trajectory whose
children are in the order of their keys, the children of `N` are afterwards
the children whose key is not greater than `t`, in unchanged order and each
with its subtree unchanged; the pointer, the timeline and the fork of `N` are
unchanged. -/
theorem DeleteAllForksAfter_keeps_forks_up_to (N : Tr4jectory) (view : Forkable) (t : Instant)
    (N' : Tr4jectory) (hsorted : (N.children_.map Prod.fst).Pairwise (· ≤ ·))
    (h : DeleteAllForksAfter N view t = some N') :
    N'.children_ = N.children_.filter (fun e => decide (e.1 ≤ t)) ∧
      N'.address = N.address ∧ N'.timeline = N.timeline ∧ N'.fork = N.fork := by
  have h2 : N' = N.with_children (N.children_.take (upper_bound t N.children_)) := by
    unfold DeleteAllForksAfter at h
    simp only at h
    split at h
    · exact (Option.some.inj h).symm
    · split at h
      · simp at h
      · split at h
        · simp at h
        · split at h
          · exact (Option.some.inj h).symm
          · simp at h
  rw [h2, take_upper_bound t _ hsorted]
  cases N
  exact ⟨rfl, rfl, rfl, rfl⟩

/-- Witness for C16: on the first child of `serialized_root`, forked at time
0, with children at the keys 0 and 1, the forks after time 0 are deleted. -/
theorem DeleteAllForksAfter_keeps_forks_up_to_witness :
    (Tr4jectory.mk 1 [1, 2] (some (0, 0)) [(0, Tr4jectory.mk 11 [] (some (0, 2)) [])]).children_ =
        (Tr4jectory.mk 1 [1, 2] (some (0, 0))
          [(0, Tr4jectory.mk 11 [] (some (0, 2)) []),
            (1, Tr4jectory.mk 12 [7] (some (1, 0)) [])]).children_.filter
          (fun e => decide (e.1 ≤ 0)) ∧
      (Tr4jectory.mk 1 [1, 2] (some (0, 0)) [(0, Tr4jectory.mk 11 [] (some (0, 2)) [])]).address =
        (Tr4jectory.mk 1 [1, 2] (some (0, 0))
          [(0, Tr4jectory.mk 11 [] (some (0, 2)) []),
            (1, Tr4jectory.mk 12 [7] (some (1, 0)) [])]).address ∧
      (Tr4jectory.mk 1 [1, 2] (some (0, 0)) [(0, Tr4jectory.mk 11 [] (some (0, 2)) [])]).timeline =
        (Tr4jectory.mk 1 [1, 2] (some (0, 0))
          [(0, Tr4jectory.mk 11 [] (some (0, 2)) []),
            (1, Tr4jectory.mk 12 [7] (some (1, 0)) [])]).timeline ∧
      (Tr4jectory.mk 1 [1, 2] (some (0, 0)) [(0, Tr4jectory.mk 11 [] (some (0, 2)) [])]).fork =
        (Tr4jectory.mk 1 [1, 2] (some (0, 0))
          [(0, Tr4jectory.mk 11 [] (some (0, 2)) []),
            (1, Tr4jectory.mk 12 [7] (some (1, 0)) [])]).fork :=
  DeleteAllForksAfter_keeps_forks_up_to
    (Tr4jectory.mk 1 [1, 2] (some (0, 0))
      [(0, Tr4jectory.mk 11 [] (some (0, 2)) []), (1, Tr4jectory.mk 12 [7] (some (1, 0)) [])])
    (Forkable.fork [1, 2] (Forkable.root [0, 3]) 0 0) 0
    (Tr4jectory.mk 1 [1, 2] (some (0, 0)) [(0, Tr4jectory.mk 11 [] (some (0, 2)) [])])
    (by simp [Tr4jectory.children_]) rfl

/-- C17: for a trajectory whose ancestors satisfy the invariants,
`DeleteAllForksAfter(N, t)` fails if and only if `N` is not a root and `t` is
before the time of the entry that `Fork(N)` designates, which is the key of
`N` among the children of its parent; so it never fails on a root, and it
succeeds when `t` is that time. -/
theorem DeleteAllForksAfter_fails_iff (N : Tr4jectory) (view : Forkable) (t : Instant)
    (hwf : view.WellFormed) :
    (DeleteAllForksAfter N view t = none ↔
        view.is_root = false ∧
          ∃ fork_it fork_time, view.Fork = some fork_it ∧ fork_it.deref = some fork_time ∧
            t < fork_time) ∧
      (view.is_root = false →
        ∃ fork_it fork_time, view.Fork = some fork_it ∧ fork_it.deref = some fork_time ∧
          view.fork_time = some fork_time) := by
  cases view with
  | root tl => simp [DeleteAllForksAfter, Forkable.is_root]
  | fork tl p k pos =>
    obtain ⟨fork_it, h1, h2⟩ := Fork_of_WellFormed _ hwf k rfl
    refine ⟨?_, fun _ => ⟨fork_it, k, h1, h2, rfl⟩⟩
    have hd : DeleteAllForksAfter N (Forkable.fork tl p k pos) t =
        if k ≤ t then
          some (N.with_children (N.children_.take (upper_bound t N.children_)))
        else none := by
      simp only [DeleteAllForksAfter, Forkable.is_root, h1, h2, Bool.false_eq_true, if_false]
    rw [hd]
    by_cases hle : k ≤ t
    · rw [if_pos hle]
      constructor
      · intro h
        simp at h
      · rintro ⟨_, it, ft, e1, e2, hlt⟩
        rw [h1] at e1
        rw [← Option.some.inj e1, h2] at e2
        rw [Option.some.inj e2] at hle
        exact absurd hlt (not_lt.mpr hle)
    · rw [if_neg hle]
      exact ⟨fun _ => ⟨rfl, fork_it, k, h1, h2, not_le.mp hle⟩, fun _ => rfl⟩

/-- Witness for C17: the first child of `serialized_root`, forked at time 0. -/
theorem DeleteAllForksAfter_fails_iff_witness :
    (DeleteAllForksAfter (Tr4jectory.mk 1 [1, 2] (some (0, 0)) [])
          (Forkable.fork [1, 2] (Forkable.root [0, 3]) 0 0) (-1) = none ↔
        (Forkable.fork [1, 2] (Forkable.root [0, 3]) 0 0).is_root = false ∧
          ∃ fork_it fork_time,
            (Forkable.fork [1, 2] (Forkable.root [0, 3]) 0 0).Fork = some fork_it ∧
              fork_it.deref = some fork_time ∧ -1 < fork_time) ∧
      ((Forkable.fork [1, 2] (Forkable.root [0, 3]) 0 0).is_root = false →
        ∃ fork_it fork_time,
          (Forkable.fork [1, 2] (Forkable.root [0, 3]) 0 0).Fork = some fork_it ∧
            fork_it.deref = some fork_time ∧
            (Forkable.fork [1, 2] (Forkable.root [0, 3]) 0 0).fork_time = some fork_time) :=
  DeleteAllForksAfter_fails_iff (Tr4jectory.mk 1 [1, 2] (some (0, 0)) [])
    (Forkable.fork [1, 2] (Forkable.root [0, 3]) 0 0) (-1) (by decide)

/-- C18: on a trajectory whose children are in the order of their keys,
`CheckNoForksBefore(N, t)` succeeds if and only if `N` is a root and no child
of `N` has a key less than `t`; it fails on every trajectory that is not a
root; and when it succeeds the trajectory is as it was. -/
theorem CheckNoForksBefore_succeeds_iff (N : Tr4jectory) (t : Instant)
    (hsorted : (N.children_.map Prod.fst).Pairwise (· ≤ ·)) :
    ((CheckNoForksBefore N t).isSome ↔ N.is_root = true ∧ ∀ e ∈ N.children_, t ≤ e.1) ∧
      (N.is_root = false → CheckNoForksBefore N t = none) ∧
      ∀ N', CheckNoForksBefore N t = some N' → N' = N := by
  have hlb := lower_bound_eq_zero t N.children_ hsorted
  refine ⟨?_, ?_, ?_⟩
  · unfold CheckNoForksBefore
    by_cases hroot : N.is_root = false
    · simp [hroot]
    · have hr : N.is_root = true := by simpa using hroot
      by_cases h0 : 0 = lower_bound t N.children_
      · rw [if_neg hroot, if_pos h0]
        exact ⟨fun _ => ⟨hr, hlb.mp h0⟩, fun _ => rfl⟩
      · rw [if_neg hroot, if_neg h0]
        constructor
        · intro h
          simp at h
        · intro h
          exact absurd (hlb.mpr h.2) h0
  · intro hroot
    simp [CheckNoForksBefore, hroot]
  · intro N' h
    unfold CheckNoForksBefore at h
    split at h
    · simp at h
    · split at h
      · exact (Option.some.inj h).symm
      · simp at h

/-- Witness for C18: `serialized_root`, whose children have the keys 0, 0 and
3. -/
theorem CheckNoForksBefore_succeeds_iff_witness :
    ((CheckNoForksBefore serialized_root 0).isSome ↔
        serialized_root.is_root = true ∧ ∀ e ∈ serialized_root.children_, 0 ≤ e.1) ∧
      (serialized_root.is_root = false → CheckNoForksBefore serialized_root 0 = none) ∧
      ∀ N', CheckNoForksBefore serialized_root 0 = some N' → N' = serialized_root :=
  CheckNoForksBefore_succeeds_iff serialized_root 0
    (by simp [serialized_root, Tr4jectory.children_])

theorem length_move_forks (a b : Nat) (cs : List (Instant × Tr4jectory)) :
    (move_forks a b cs).length = cs.length := by
  induction cs with
  | nil => rfl
  | cons e rest ih =>
    obtain ⟨k, c⟩ := e
    cases c with
    | mk ad tl f ds =>
      cases f with
      | none => simp [move_forks, ih]
      | some own =>
        obtain ⟨key, position⟩ := own
        simp [move_forks, ih]

/-- What `move_forks` does to the child of each rank: the key in the children,
the pointer, the timeline, the children and the own key are unchanged, and the
position `a` in the timeline of the parent becomes `b`. -/
theorem getElem?_move_forks (a b : Nat) (cs : List (Instant × Tr4jectory)) (j : Nat)
    (k : Instant) (c : Tr4jectory) (h : cs[j]? = some (k, c)) :
    ∃ c', (move_forks a b cs)[j]? = some (k, c') ∧ c'.address = c.address ∧
      c'.timeline = c.timeline ∧ c'.children_ = c.children_ ∧
      c'.fork = c.fork.map (fun own => (own.1, if own.2 = a then b else own.2)) := by
  induction cs generalizing j with
  | nil => simp at h
  | cons e rest ih =>
    obtain ⟨k2, c2⟩ := e
    cases j with
    | zero =>
      simp only [List.getElem?_cons_zero, Option.some.injEq, Prod.mk.injEq] at h
      obtain ⟨rfl, rfl⟩ := h
      cases c2 with
      | mk ad tl f ds =>
        cases f with
        | none =>
          exact ⟨Tr4jectory.mk ad tl none ds, by simp [move_forks], rfl, rfl, rfl, rfl⟩
        | some own =>
          obtain ⟨key, position⟩ := own
          exact ⟨Tr4jectory.mk ad tl (some (key, if position = a then b else position)) ds,
            by simp [move_forks], rfl, rfl, rfl, rfl⟩
    | succ i =>
      simp only [List.getElem?_cons_succ] at h
      obtain ⟨c', h1, h2⟩ := ih i h
      refine ⟨c', ?_, h2⟩
      cases c2 with
      | mk ad tl f ds =>
        cases f with
        | none => simpa [move_forks] using h1
        | some own =>
          obtain ⟨key, position⟩ := own
          simpa [move_forks] using h1

/-- Moving the forks at the end `n` of a timeline that is not empty to its
beginning and then the forks at the beginning to the end moves the forks at the
beginning to the end and leaves the others where they are. -/
theorem move_forks_move_forks (n : Nat) (hn : n ≠ 0) (cs : List (Instant × Tr4jectory)) :
    move_forks 0 n (move_forks n 0 cs) = move_forks 0 n cs := by
  induction cs with
  | nil => rfl
  | cons e rest ih =>
    obtain ⟨k, c⟩ := e
    cases c with
    | mk ad tl f ds =>
      cases f with
      | none => simp [move_forks, ih]
      | some own =>
        obtain ⟨key, position⟩ := own
        simp only [move_forks, ih, List.cons.injEq, Prod.mk.injEq, mk.injEq, Option.some.injEq,
          true_and, and_true]
        by_cases h1 : position = n
        · simp [h1, hn]
        · simp [h1]

/-- C15, as stated for every child of `N`, fails: `N` is forked at the last
entry of `P`, at time 3, and its first time is 3; its child is forked at the
first entry of `N`, position 0; after `DetachForkWithCopiedBegin` and
`AttachForkToCopiedBegin` the child is forked at the end of the timeline of
`N`, position 2. -/
theorem attach_of_detach_moves_fork_at_begin :
    (DetachForkWithCopiedBegin
        (Tr4jectory.mk 1 [3, 4] (some (3, 1)) [(3, Tr4jectory.mk 2 [] (some (3, 0)) [])])
        (Tr4jectory.mk 0 [0, 3] none
          [(3, Tr4jectory.mk 1 [3, 4] (some (3, 1)) [(3, Tr4jectory.mk 2 [] (some (3, 0)) [])])])
        0).bind (fun detached => AttachForkToCopiedBegin detached.2 detached.1) =
      some (Tr4jectory.mk 0 [0, 3] none
        [(3, Tr4jectory.mk 1 [3, 4] (some (3, 1))
          [(3, Tr4jectory.mk 2 [] (some (3, 2)) [])])]) := rfl

/-- C15, amended: for every trajectory `N` that is not a root, has a timeline
that is not empty, is the child of rank `i` of `P`, forked at the last entry of
`P`, with its first time equal to its key, `DetachForkWithCopiedBegin(N)`
followed by `P.AttachForkToCopiedBegin(N)` succeeds; `N` is again a child of
`P`, after the other children of `P` with keys not greater, with the same key,
the same position, the same pointer and the same timeline; and the child of
each rank of `N` has the same key, pointer, timeline and children, and the same
position in the timeline of `N` unless that position was the first entry, in
which case the position is now the end of the timeline of `N`. -/
theorem attach_of_detach (N P : Tr4jectory) (i : Nat) (key : Instant) (rest : List Instant)
    (hchild : P.children_[i]? = some (key, N))
    (hfork : N.fork = some (key, P.timeline.length - 1)) (hP : P.timeline ≠ [])
    (hN : N.timeline = key :: rest) :
    ∃ N' P' N'', DetachForkWithCopiedBegin N P i = some (N', P') ∧
      AttachForkToCopiedBegin P' N' =
        some (P.with_children (emplace key N'' (P.children_.eraseIdx i))) ∧
      N''.address = N.address ∧ N''.timeline = N.timeline ∧ N''.fork = N.fork ∧
      N''.children_.length = N.children_.length ∧
      ∀ (j : Nat) (k : Instant) (c : Tr4jectory), N.children_[j]? = some (k, c) →
        ∃ c', N''.children_[j]? = some (k, c') ∧ c'.address = c.address ∧
          c'.timeline = c.timeline ∧ c'.children_ = c.children_ ∧
          c'.fork = c.fork.map
            (fun own => (own.1, if own.2 = 0 then N.timeline.length else own.2)) := by
  have hroot : N.is_root = false := by simp [Tr4jectory.is_root, hfork]
  have hlen : N.timeline.length ≠ 0 := by simp [hN]
  have hPe : P.timeline.isEmpty = false := by
    cases hp : P.timeline with
    | nil => exact absurd hp hP
    | cons _ _ => rfl
  refine ⟨Tr4jectory.mk N.address N.timeline none (move_forks N.timeline.length 0 N.children_),
    P.with_children (P.children_.eraseIdx i),
    Tr4jectory.mk N.address N.timeline N.fork (move_forks 0 N.timeline.length N.children_),
    ?_, ?_, rfl, rfl, rfl,
    length_move_forks _ _ _, fun j k c h => getElem?_move_forks _ _ _ j k c h⟩
  · simp only [DetachForkWithCopiedBegin, hroot, Bool.false_eq_true, if_false]
  · cases P with
    | mk pa ptl pf pcs =>
      cases N with
      | mk na ntl nf ncs =>
        simp only [Tr4jectory.timeline, Tr4jectory.fork] at hPe hfork hN hlen
        subst hfork
        subst hN
        have hmove := move_forks_move_forks (key :: rest).length hlen ncs
        simp only [AttachForkToCopiedBegin, Tr4jectory.is_root, Tr4jectory.fork, with_children,
          Tr4jectory.timeline, Tr4jectory.children_, Tr4jectory.address, Option.isNone_none,
          Bool.true_eq_false, if_false, hPe, with_child, hmove]
        rfl

/-- Witness for the amended C15: the trajectories of the counterexample, with
another child of `N`, forked at its second entry. -/
theorem attach_of_detach_witness :
    ∃ N' P' N'',
      DetachForkWithCopiedBegin
          (Tr4jectory.mk 1 [3, 4] (some (3, 1))
            [(3, Tr4jectory.mk 2 [] (some (3, 0)) []), (4, Tr4jectory.mk 5 [] (some (4, 1)) [])])
          (Tr4jectory.mk 0 [0, 3] none
            [(3, Tr4jectory.mk 1 [3, 4] (some (3, 1))
              [(3, Tr4jectory.mk 2 [] (some (3, 0)) []),
                (4, Tr4jectory.mk 5 [] (some (4, 1)) [])])]) 0 = some (N', P') ∧
      AttachForkToCopiedBegin P' N' =
        some ((Tr4jectory.mk 0 [0, 3] none
            [(3, Tr4jectory.mk 1 [3, 4] (some (3, 1))
              [(3, Tr4jectory.mk 2 [] (some (3, 0)) []),
                (4, Tr4jectory.mk 5 [] (some (4, 1)) [])])]).with_children
          (emplace 3 N'' ((Tr4jectory.mk 0 [0, 3] none
            [(3, Tr4jectory.mk 1 [3, 4] (some (3, 1))
              [(3, Tr4jectory.mk 2 [] (some (3, 0)) []),
                (4, Tr4jectory.mk 5 [] (some (4, 1)) [])])]).children_.eraseIdx 0))) ∧
      N''.address = (Tr4jectory.mk 1 [3, 4] (some (3, 1))
            [(3, Tr4jectory.mk 2 [] (some (3, 0)) []),
              (4, Tr4jectory.mk 5 [] (some (4, 1)) [])]).address ∧
      N''.timeline = (Tr4jectory.mk 1 [3, 4] (some (3, 1))
            [(3, Tr4jectory.mk 2 [] (some (3, 0)) []),
              (4, Tr4jectory.mk 5 [] (some (4, 1)) [])]).timeline ∧
      N''.fork = (Tr4jectory.mk 1 [3, 4] (some (3, 1))
            [(3, Tr4jectory.mk 2 [] (some (3, 0)) []),
              (4, Tr4jectory.mk 5 [] (some (4, 1)) [])]).fork ∧
      N''.children_.length = (Tr4jectory.mk 1 [3, 4] (some (3, 1))
            [(3, Tr4jectory.mk 2 [] (some (3, 0)) []),
              (4, Tr4jectory.mk 5 [] (some (4, 1)) [])]).children_.length ∧
      ∀ (j : Nat) (k : Instant) (c : Tr4jectory), (Tr4jectory.mk 1 [3, 4] (some (3, 1))
            [(3, Tr4jectory.mk 2 [] (some (3, 0)) []),
              (4, Tr4jectory.mk 5 [] (some (4, 1)) [])]).children_[j]? = some (k, c) →
        ∃ c', N''.children_[j]? = some (k, c') ∧ c'.address = c.address ∧
          c'.timeline = c.timeline ∧ c'.children_ = c.children_ ∧
          c'.fork = c.fork.map
            (fun own => (own.1, if own.2 = 0 then (Tr4jectory.mk 1 [3, 4] (some (3, 1))
              [(3, Tr4jectory.mk 2 [] (some (3, 0)) []),
                (4, Tr4jectory.mk 5 [] (some (4, 1)) [])]).timeline.length else own.2)) :=
  attach_of_detach
    (Tr4jectory.mk 1 [3, 4] (some (3, 1))
      [(3, Tr4jectory.mk 2 [] (some (3, 0)) []), (4, Tr4jectory.mk 5 [] (some (4, 1)) [])])
    (Tr4jectory.mk 0 [0, 3] none
      [(3, Tr4jectory.mk 1 [3, 4] (some (3, 1))
        [(3, Tr4jectory.mk 2 [] (some (3, 0)) []), (4, Tr4jectory.mk 5 [] (some (4, 1)) [])])])
    0 3 [4] rfl rfl (by simp [Tr4jectory.timeline]) rfl

/-! ## `Empty`, `begin` and the end of the iteration -/

/-- C26: `Empty(N)` is true if and only if `N` is a root and its own timeline
is empty; it is false for every trajectory that is not a root, also for one
whose own timeline and whose ancestors' timelines are all empty, as the fork
of an empty root with an empty timeline, whose `Size` is 0. -/
theorem Empty_iff_root_and_timeline_empty (N : Forkable) :
    (N.Empty = true ↔ N.is_root = true ∧ N.timeline = []) ∧
      (N.is_root = false → N.Empty = false) ∧
      (fork [] (root []) 0 0).Size = 0 ∧ (fork [] (root []) 0 0).Empty = false := by
  refine ⟨?_, ?_, rfl, rfl⟩
  · simp [Forkable.Empty, Forkable.timeline_empty, and_comm]
  · intro h
    simp [Forkable.Empty, h]

theorem head?_ancestry (N : Forkable) : N.ancestry.head? = some N.root_ := by
  induction N with
  | root tl => rfl
  | fork tl p k pos ih =>
    cases hp : p.ancestry with
    | nil => exact absurd (ancestry_length_pos p) (by simp [hp])
    | cons a rest =>
      rw [hp] at ih
      simpa [Forkable.ancestry, hp, root_] using ih

theorem getLast?_ancestry (N : Forkable) : N.ancestry.getLast? = some N := by
  cases N <;> simp [Forkable.ancestry]

/-- The ancestry of a trajectory runs along the `parent_` pointers. -/
theorem ancestry_chain (N : Forkable) :
    List.Chain' (fun a b : Forkable => b.parent_ = some a) N.ancestry := by
  induction N with
  | root tl => simp [Forkable.ancestry]
  | fork tl p k pos ih =>
    simp only [Forkable.ancestry]
    rw [List.chain'_append]
    refine ⟨ih, by simp, ?_⟩
    intro x hx y hy
    rw [getLast?_ancestry] at hx
    simp only [Option.mem_def, Option.some.injEq] at hx
    simp only [List.head?_cons, Option.mem_def, Option.some.injEq] at hy
    subst hx
    subst hy
    rfl

/-- C27: for every trajectory `N` whose root has a timeline that is not empty,
`begin(N)` is the iterator on the first entry of the timeline of the root,
with an ancestry that runs along the `parent_` pointers from the root down to
`N`; so the trajectories with the same root begin on the same entry. -/
theorem begin_is_on_first_entry_of_root (N : Forkable) (h : N.root_.timeline ≠ []) :
    N.begin = some ⟨N.ancestry, 0⟩ ∧ N.ancestry.head? = some N.root_ ∧
      N.ancestry.getLast? = some N ∧
      List.Chain' (fun a b : Forkable => b.parent_ = some a) N.ancestry ∧
      It3rator.entry ⟨N.ancestry, 0⟩ = some (N.root_, 0) ∧
      It3rator.deref ⟨N.ancestry, 0⟩ = N.root_.timeline.head? ∧
      ∀ M : Forkable, M.root_ = N.root_ →
        M.begin.bind It3rator.entry = N.begin.bind It3rator.entry := by
  have key : ∀ M : Forkable, M.root_.timeline ≠ [] → M.begin = some ⟨M.ancestry, 0⟩ := by
    intro M hM
    rw [begin_eq]
    apply CheckNormalizedIfEnd_of_on_entry
    cases ha : M.ancestry with
    | nil => exact absurd (ancestry_length_pos M) (by simp [ha])
    | cons a rest =>
      have hh := head?_ancestry M
      rw [ha] at hh
      simp only [List.head?_cons, Option.some.injEq] at hh
      subst hh
      exact ⟨M.root_, rest, rfl, List.length_pos.mpr hM⟩
  have hentry : ∀ M : Forkable, It3rator.entry ⟨M.ancestry, 0⟩ = some (M.root_, 0) := by
    intro M
    simp [It3rator.entry, head?_ancestry]
  refine ⟨key N h, head?_ancestry N, getLast?_ancestry N, ancestry_chain N, hentry N, ?_, ?_⟩
  · cases ha : N.ancestry with
    | nil => exact absurd (ancestry_length_pos N) (by simp [ha])
    | cons a rest =>
      have hh := head?_ancestry N
      rw [ha] at hh
      simp only [List.head?_cons, Option.some.injEq] at hh
      subst hh
      cases hr : N.root_.timeline with
      | nil => exact absurd hr h
      | cons t ts => simp [It3rator.deref, Forkable.time, hr]
  · intro M hM
    rw [key N h, key M (by rw [hM]; exact h)]
    simp only [Option.some_bind, hentry, hM]

/-- Witness for C27: the fork at the end of the timeline of the child of the
first scenario begins on the entry of the root at time 0. -/
theorem begin_is_on_first_entry_of_root_witness :
    (fork [] (fork [4, 5] (root [0, 1, 2, 3]) 1 1) 1 2).begin =
        some ⟨(fork [] (fork [4, 5] (root [0, 1, 2, 3]) 1 1) 1 2).ancestry, 0⟩ ∧
      (fork [] (fork [4, 5] (root [0, 1, 2, 3]) 1 1) 1 2).ancestry.head? =
        some (fork [] (fork [4, 5] (root [0, 1, 2, 3]) 1 1) 1 2).root_ ∧
      (fork [] (fork [4, 5] (root [0, 1, 2, 3]) 1 1) 1 2).ancestry.getLast? =
        some (fork [] (fork [4, 5] (root [0, 1, 2, 3]) 1 1) 1 2) ∧
      List.Chain' (fun a b : Forkable => b.parent_ = some a)
        (fork [] (fork [4, 5] (root [0, 1, 2, 3]) 1 1) 1 2).ancestry ∧
      It3rator.entry ⟨(fork [] (fork [4, 5] (root [0, 1, 2, 3]) 1 1) 1 2).ancestry, 0⟩ =
        some ((fork [] (fork [4, 5] (root [0, 1, 2, 3]) 1 1) 1 2).root_, 0) ∧
      It3rator.deref ⟨(fork [] (fork [4, 5] (root [0, 1, 2, 3]) 1 1) 1 2).ancestry, 0⟩ =
        (fork [] (fork [4, 5] (root [0, 1, 2, 3]) 1 1) 1 2).root_.timeline.head? ∧
      ∀ M : Forkable, M.root_ = (fork [] (fork [4, 5] (root [0, 1, 2, 3]) 1 1) 1 2).root_ →
        M.begin.bind It3rator.entry =
          (fork [] (fork [4, 5] (root [0, 1, 2, 3]) 1 1) 1 2).begin.bind It3rator.entry :=
  begin_is_on_first_entry_of_root (fork [] (fork [4, 5] (root [0, 1, 2, 3]) 1 1) 1 2)
    (by decide)

/-- C28 fails on the code: `operator++` fails on the iterator `end(N)` of
every trajectory, as claimed; but in the first scenario at the times 0 to 5
`Find(C, 3)` returns an iterator that is not `end(C)`, on the entry of the
root at 3, after the fork point of `C`, and `operator++` fails on it, at the
`CHECK` of `CheckNormalizedIfEnd`. -/
theorem increment_of_Find_after_fork_point :
    (∀ (N : Forkable) (e : It3rator), N.end_ = some e → e.increment = none) ∧
      (fork [4, 5] (root [0, 1, 2, 3]) 1 1).WellFormed ∧
      (fork [4, 5] (root [0, 1, 2, 3]) 1 1).Find 3 =
        some ⟨[root [0, 1, 2, 3], fork [4, 5] (root [0, 1, 2, 3]) 1 1], 3⟩ ∧
      (fork [4, 5] (root [0, 1, 2, 3]) 1 1).end_ =
        some ⟨[fork [4, 5] (root [0, 1, 2, 3]) 1 1], 2⟩ ∧
      (∀ debug, It3rator.eq debug
        (It3rator.members Forkable.depth
          ⟨[root [0, 1, 2, 3], fork [4, 5] (root [0, 1, 2, 3]) 1 1], 3⟩)
        (It3rator.members Forkable.depth ⟨[fork [4, 5] (root [0, 1, 2, 3]) 1 1], 2⟩) =
          some false) ∧
      It3rator.deref ⟨[root [0, 1, 2, 3], fork [4, 5] (root [0, 1, 2, 3]) 1 1], 3⟩ = some 3 ∧
      It3rator.increment ⟨[root [0, 1, 2, 3], fork [4, 5] (root [0, 1, 2, 3]) 1 1], 3⟩ = none ∧
      It3rator.CheckNormalizedIfEnd
        ⟨[root [0, 1, 2, 3], fork [4, 5] (root [0, 1, 2, 3]) 1 1], 4⟩ = none := by
  refine ⟨?_, by decide, by decide, by decide, by decide, by decide, by decide, by decide⟩
  intro N e he
  have := CheckNormalizedIfEnd_eq_some he
  subst this
  simp [It3rator.increment]

/-! ## `operator++` and `operator--` along the sequence -/

theorem chain'_exists_next {α : Type} {R : α → α → Prop} (l : List α) (e : α)
    (h : List.Chain' R (l ++ [e])) : ∀ c ∈ l, ∃ c' ∈ l ++ [e], R c c' := by
  induction l with
  | nil => simp
  | cons a rest ih =>
    intro c hc
    rw [List.cons_append, List.chain'_cons'] at h
    rcases List.mem_cons.mp hc with rfl | hc
    · cases hr : rest ++ [e] with
      | nil => simp at hr
      | cons b tail =>
        refine ⟨b, ?_, h.1 b (by simp [hr])⟩
        rw [List.cons_append, hr]
        simp
    · obtain ⟨c', hc', hR⟩ := ih h.2 c hc
      exact ⟨c', List.mem_cons_of_mem _ hc', hR⟩

theorem chain'_exists_previous {α : Type} {R : α → α → Prop} (l : List α)
    (h : List.Chain' R l) : ∀ c ∈ l.tail, ∃ c' ∈ l, R c' c := by
  induction l with
  | nil => simp
  | cons a rest ih =>
    intro c hc
    rw [List.chain'_cons'] at h
    simp only [List.tail_cons] at hc
    cases rest with
    | nil => simp at hc
    | cons b tail =>
      rcases List.mem_cons.mp hc with rfl | hc
      · exact ⟨a, by simp, h.1 c (by simp)⟩
      · obtain ⟨c', hc', hR⟩ := ih h.2 c (by simpa using hc)
        exact ⟨c', List.mem_cons_of_mem _ hc', hR⟩

theorem chain'_and {α : Type} {R S : α → α → Prop} {l : List α}
    (hR : List.Chain' R l) (hS : List.Chain' S l) :
    List.Chain' (fun a b => R a b ∧ S a b) l := by
  induction l with
  | nil => simp
  | cons a l ih =>
    rw [List.chain'_cons'] at hR hS ⊢
    exact ⟨fun y hy => ⟨hR.1 y hy, hS.1 y hy⟩, ih hR.2 hS.2⟩

/-- The loop of `operator++` pops the chain nodes that follow `child` and are
forked at the current time, and stops at the beginning of the timeline of the
last of them. -/
theorem skip_forks_eq_drop (t : Instant) (child : Forkable) (others : List Forkable)
    (r : It3rator) (h : It3rator.skip_forks t child others = some r) :
    r = ⟨(child :: others).drop
      (others.takeWhile (fun x => decide (x.fork_time = some t))).length, 0⟩ := by
  induction others generalizing child with
  | nil =>
    simp only [It3rator.skip_forks, Option.some.injEq] at h
    rw [← h]
    rfl
  | cons next rest ih =>
    simp only [It3rator.skip_forks] at h
    cases hk : next.fork_time with
    | none => simp [hk] at h
    | some k =>
      simp only [hk] at h
      split at h
      · rename_i heq
        subst heq
        have := ih next h
        rw [this]
        simp [List.takeWhile_cons, hk]
      · rename_i hne
        simp only [Option.some.injEq] at h
        rw [← h]
        have : ¬ k = t := fun e => hne e.symm
        simp [List.takeWhile_cons, hk, this, Forkable.timeline_begin]

theorem climb_append (a : Forkable) (anc : List Forkable) (N : Forkable) :
    It3rator.climb a (anc ++ [N]) = (It3rator.climb a anc).map (It3rator.extend N) := by
  induction a generalizing anc with
  | root tl => simp [It3rator.climb]
  | fork tl p k pos ih =>
    simp only [It3rator.climb]
    split
    · rw [← List.cons_append, ih]
    · simp [It3rator.extend]

/-- An iterator of the parent and the same iterator seen from `N` are
decremented alike. -/
theorem decrement_extend (b : It3rator) (N : Forkable) (hb : b.ancestry_ ≠ []) :
    (b.extend N).decrement = b.decrement.map (It3rator.extend N) := by
  obtain ⟨anc, j⟩ := b
  cases anc with
  | nil => exact absurd rfl hb
  | cons front rest =>
    simp only [It3rator.decrement, It3rator.extend, List.cons_append]
    split
    · rw [← List.cons_append, climb_append]
    · simp [It3rator.extend]

theorem decrement_own (N : Forkable) (j : Nat) :
    It3rator.decrement ⟨[N], j + 1⟩ = some ⟨[N], j⟩ := by
  simp [It3rator.decrement, Forkable.timeline_begin]

theorem own_chain_decrement_aux (N : Forkable) (n s : Nat) :
    List.Chain' (fun a b => It3rator.decrement b = some a)
      ((List.range' s n).map (fun j => (⟨[N], j⟩ : It3rator)) ++ [⟨[N], s + n⟩]) := by
  induction n generalizing s with
  | zero => simp
  | succ n ih =>
    rw [List.range'_succ, List.map_cons, List.cons_append, List.chain'_cons']
    refine ⟨?_, ?_⟩
    · intro y hy
      cases n with
      | zero =>
        simp at hy
        subst hy
        exact decrement_own N s
      | succ m =>
        simp [List.range'_succ] at hy
        subst hy
        exact decrement_own N s
    · have := ih (s + 1)
      have e : s + 1 + n = s + (n + 1) := by omega
      rw [e] at this
      exact this

theorem own_chain_decrement (N : Forkable) :
    List.Chain' (fun a b => It3rator.decrement b = some a)
      (N.own ++ [⟨[N], N.timeline_end⟩]) := by
  have := own_chain_decrement_aux N N.timeline.length 0
  simpa [Forkable.own, List.range_eq_range', timeline_end] using this

theorem head?_after_fork_of_lt (p : Forkable) (pos : Nat) (h : pos < p.timeline.length) :
    (p.after_fork pos).head? = some ⟨[p], pos + 1⟩ := by
  unfold Forkable.after_fork Forkable.own
  rw [if_pos h]
  by_cases h2 : pos + 1 < p.timeline.length
  · rw [List.head?_append_of_ne_nil]
    · rw [← List.map_drop, List.head?_map, List.head?_drop]
      simp [h2]
    · simp
      omega
  · have e : pos + 1 = p.timeline.length := by omega
    rw [List.drop_of_length_le (by simp; omega)]
    simp [timeline_end, e]

/-- At the beginning of the timeline of a fork, `operator--` goes where
`operator--` of the parent goes from the entry after the fork point. -/
theorem decrement_at_fork (tl : List Instant) (p : Forkable) (k : Instant) (pos : Nat)
    (h : (fork tl p k pos).WellFormed) (x y : It3rator)
    (hy : (p.after_fork pos).head? = some y) (hdec : y.decrement = some x) :
    It3rator.decrement ⟨[fork tl p k pos], 0⟩ = some (x.extend (fork tl p k pos)) := by
  by_cases hlt : pos < p.timeline.length
  · rw [head?_after_fork_of_lt p pos hlt] at hy
    simp only [Option.some.injEq] at hy
    subst hy
    rw [decrement_own] at hdec
    simp only [Option.some.injEq] at hdec
    subst hdec
    have hne : pos ≠ p.timeline_end := ne_of_lt hlt
    simp [It3rator.decrement, Forkable.timeline_begin, It3rator.climb, hne, It3rator.extend]
  · obtain ⟨_, _, _, hkey⟩ := h
    have hsent : pos = p.timeline_end ∧ p.fork_time = some k := by
      rcases hkey with h1 | h1
      · exfalso
        apply hlt
        simp only [Forkable.time] at h1
        exact (List.getElem?_eq_some_iff.mp h1).1
      · exact h1
    have hroot : p.is_root = false := by
      cases p with
      | root _ => simp [Forkable.fork_time] at hsent
      | fork _ _ _ _ => rfl
    have hy2 : (p.after_fork pos).head? = some ⟨[p], 0⟩ := by
      unfold Forkable.after_fork
      rw [if_neg hlt]
      exact head?_own_append p
    rw [hy2] at hy
    simp only [Option.some.injEq] at hy
    subst hy
    have hclimb : It3rator.climb p [p] = some x := by
      simpa [It3rator.decrement, Forkable.timeline_begin] using hdec
    have := climb_append p [p] (fork tl p k pos)
    rw [hclimb] at this
    simpa [It3rator.decrement, Forkable.timeline_begin, It3rator.climb, hsent.1, hroot] using this

/-- In the sequence of a well-formed trajectory followed by its end, each
iterator is decremented to the previous one. -/
theorem sequence_chain_decrement (N : Forkable) (h : N.WellFormed) :
    List.Chain' (fun a b => It3rator.decrement b = some a)
      (N.sequence ++ [⟨[N], N.timeline_end⟩]) := by
  induction N with
  | root tl =>
    simpa [Forkable.sequence, Forkable.inherited] using own_chain_decrement (root tl)
  | fork tl p k pos ih =>
    have ihp := ih (WellFormed_parent h)
    rw [← before_after_fork p pos, List.chain'_append] at ihp
    obtain ⟨hpre, _, hlink⟩ := ihp
    unfold Forkable.sequence
    rw [inherited_eq, List.append_assoc, List.chain'_append]
    refine ⟨?_, own_chain_decrement _, ?_⟩
    · rw [List.chain'_map]
      refine hpre.imp ?_
      intro a b hdec
      have hb : b.ancestry_ ≠ [] := by
        intro e
        simp [It3rator.decrement, e] at hdec
      rw [decrement_extend b _ hb, hdec]
      rfl
    · intro x' hx' y' hy'
      rw [head?_own_append] at hy'
      simp at hy'
      subst hy'
      rw [List.getLast?_map] at hx'
      simp only [Option.mem_def, Option.map_eq_some'] at hx'
      obtain ⟨x, hx, rfl⟩ := hx'
      obtain ⟨y, hy, _⟩ := head?_after_fork p pos
      exact decrement_at_fork tl p k pos h x y hy (hlink x hx y hy)

/-- C29: for every well-formed trajectory `N`, with its iterators those that
the iteration from `begin(N)` to `end(N)` meets, then `end(N)`: every iterator
`c` that is not `end(N)` is incremented to an iterator that is decremented to
`c`, and every iterator `c` that is not on the first entry of the timeline of
the root is decremented to an iterator that is incremented to `c`. -/
theorem decrement_mirrors_increment (N : Forkable) (h : N.WellFormed) :
    N.traversal (N.sequence.length + 1) = some N.sequence ∧
      (∀ c ∈ N.sequence, ∃ c', c.increment = some c' ∧ c'.decrement = some c) ∧
      ∀ c ∈ N.sequence ++ [⟨[N], N.timeline_end⟩], c ≠ ⟨N.ancestry, 0⟩ →
        ∃ c', c.decrement = some c' ∧ c'.increment = some c := by
  have hchain := chain'_and (sequence_chain N h) (sequence_chain_decrement N h)
  refine ⟨traversal_eq_sequence N h _ (Nat.lt_succ_self _), ?_, ?_⟩
  · intro c hc
    obtain ⟨c', _, h1, h2⟩ := chain'_exists_next _ _ hchain c hc
    exact ⟨c', h1, h2⟩
  · intro c hc hne
    have hhead := head?_sequence N h
    cases hL : N.sequence ++ [(⟨[N], N.timeline_end⟩ : It3rator)] with
    | nil => simp at hL
    | cons first rest =>
      rw [hL] at hhead hc hchain
      simp only [List.head?_cons, Option.some.injEq] at hhead
      subst hhead
      rcases List.mem_cons.mp hc with rfl | hc
      · exact absurd rfl hne
      · obtain ⟨c', _, h1, h2⟩ := chain'_exists_previous _ hchain c (by simpa using hc)
        exact ⟨c', h2, h1⟩

/-- Witness for C29: a trajectory with timeline `[6]` forked at the end of the
empty timeline of `S`, itself forked at the end of the timeline of the child
`C` of the first scenario: three trajectories forked at time 1. -/
theorem decrement_mirrors_increment_witness :
    (fork [6] (fork [] (fork [4, 5] (root [0, 1, 2, 3]) 1 1) 1 2) 1 0).traversal
        ((fork [6] (fork [] (fork [4, 5] (root [0, 1, 2, 3]) 1 1) 1 2) 1 0).sequence.length + 1) =
        some (fork [6] (fork [] (fork [4, 5] (root [0, 1, 2, 3]) 1 1) 1 2) 1 0).sequence ∧
      (∀ c ∈ (fork [6] (fork [] (fork [4, 5] (root [0, 1, 2, 3]) 1 1) 1 2) 1 0).sequence,
        ∃ c', c.increment = some c' ∧ c'.decrement = some c) ∧
      ∀ c ∈ (fork [6] (fork [] (fork [4, 5] (root [0, 1, 2, 3]) 1 1) 1 2) 1 0).sequence ++
          [⟨[fork [6] (fork [] (fork [4, 5] (root [0, 1, 2, 3]) 1 1) 1 2) 1 0],
            (fork [6] (fork [] (fork [4, 5] (root [0, 1, 2, 3]) 1 1) 1 2) 1 0).timeline_end⟩],
        c ≠ ⟨(fork [6] (fork [] (fork [4, 5] (root [0, 1, 2, 3]) 1 1) 1 2) 1 0).ancestry, 0⟩ →
        ∃ c', c.decrement = some c' ∧ c'.increment = some c :=
  decrement_mirrors_increment (fork [6] (fork [] (fork [4, 5] (root [0, 1, 2, 3]) 1 1) 1 2) 1 0)
    (by decide)

/-- C30: for every iterator `c` that the iteration from `begin(N)` to `end(N)`
of a well-formed trajectory meets, on an entry at time `t`: when the next
trajectory `child` of its ancestry is forked at `t`, `operator++` pops the
front of the ancestry, then every trajectory whose successor in the ancestry
is forked at `t` too, and stops at the beginning (position 0) of the timeline
of the first trajectory whose successor is not forked at `t`, or of the last
trajectory of the ancestry; otherwise `operator++` goes to the next position of the same
timeline with the same ancestry. -/
theorem increment_at_fork_time (N : Forkable) (h : N.WellFormed) (c : It3rator)
    (hc : c ∈ N.sequence) :
    ∃ front rest t, c.ancestry_ = front :: rest ∧ front.time c.current_ = some t ∧
      (∀ child others, rest = child :: others → child.fork_time = some t →
        c.increment = some ⟨(child :: others).drop
          (others.takeWhile (fun x => decide (x.fork_time = some t))).length,
          0⟩) ∧
      ((∀ child ∈ rest.head?, child.fork_time ≠ some t) →
        c.increment = some ⟨c.ancestry_, c.current_ + 1⟩) := by
  obtain ⟨c', _, hinc⟩ := chain'_exists_next _ _ (sequence_chain N h) c hc
  obtain ⟨front, rest, hanc, hlt⟩ := on_entry_of_mem_sequence hc
  obtain ⟨anc, cur⟩ := c
  simp only at hanc hlt
  subst hanc
  have ht : front.time cur = some (front.timeline[cur]) := by
    simp [Forkable.time, List.getElem?_eq_getElem hlt]
  have hne : cur ≠ front.timeline_end := ne_of_lt hlt
  refine ⟨front, rest, front.timeline[cur], rfl, ht, ?_, ?_⟩
  · intro child others hrest hchild
    subst hrest
    simp only [It3rator.increment, hne, if_false, ht, hchild, if_true] at hinc ⊢
    rw [Option.bind_eq_some] at hinc
    obtain ⟨s, hs, hcheck⟩ := hinc
    have := CheckNormalizedIfEnd_eq_some hcheck
    subst this
    rw [hs, Option.some_bind, hcheck]
    exact congrArg some (skip_forks_eq_drop _ child others _ hs)
  · intro hchild
    cases rest with
    | nil =>
      simp only [It3rator.increment, hne, if_false] at hinc ⊢
      rw [hinc]
      exact congrArg some (CheckNormalizedIfEnd_eq_some hinc)
    | cons child others =>
      have hch := hchild child (by simp)
      simp only [It3rator.increment, hne, if_false, ht] at hinc ⊢
      cases hk : child.fork_time with
      | none => simp [hk] at hinc
      | some k =>
        have hne2 : ¬ front.timeline[cur] = k := by
          intro e
          apply hch
          rw [hk, e]
        simp only [hk, hne2, if_false] at hinc ⊢
        rw [hinc]
        exact congrArg some (CheckNormalizedIfEnd_eq_some hinc)

/-- Witness for C30: in the ancestry root, `C`, `S`, `T` with the three forks
at time 1, the iterator on the entry of the root at time 1. -/
theorem increment_at_fork_time_witness :
    ∃ front rest t,
      (⟨[root [0, 1, 2, 3], fork [4, 5] (root [0, 1, 2, 3]) 1 1,
          fork [] (fork [4, 5] (root [0, 1, 2, 3]) 1 1) 1 2,
          fork [6] (fork [] (fork [4, 5] (root [0, 1, 2, 3]) 1 1) 1 2) 1 0], 1⟩ :
          It3rator).ancestry_ = front :: rest ∧
      front.time (⟨[root [0, 1, 2, 3], fork [4, 5] (root [0, 1, 2, 3]) 1 1,
          fork [] (fork [4, 5] (root [0, 1, 2, 3]) 1 1) 1 2,
          fork [6] (fork [] (fork [4, 5] (root [0, 1, 2, 3]) 1 1) 1 2) 1 0], 1⟩ :
          It3rator).current_ = some t ∧
      (∀ child others, rest = child :: others → child.fork_time = some t →
        It3rator.increment ⟨[root [0, 1, 2, 3], fork [4, 5] (root [0, 1, 2, 3]) 1 1,
          fork [] (fork [4, 5] (root [0, 1, 2, 3]) 1 1) 1 2,
          fork [6] (fork [] (fork [4, 5] (root [0, 1, 2, 3]) 1 1) 1 2) 1 0], 1⟩ =
        some ⟨(child :: others).drop
          (others.takeWhile (fun x => decide (x.fork_time = some t))).length,
          0⟩) ∧
      ((∀ child ∈ rest.head?, child.fork_time ≠ some t) →
        It3rator.increment ⟨[root [0, 1, 2, 3], fork [4, 5] (root [0, 1, 2, 3]) 1 1,
          fork [] (fork [4, 5] (root [0, 1, 2, 3]) 1 1) 1 2,
          fork [6] (fork [] (fork [4, 5] (root [0, 1, 2, 3]) 1 1) 1 2) 1 0], 1⟩ =
        some ⟨(⟨[root [0, 1, 2, 3], fork [4, 5] (root [0, 1, 2, 3]) 1 1,
          fork [] (fork [4, 5] (root [0, 1, 2, 3]) 1 1) 1 2,
          fork [6] (fork [] (fork [4, 5] (root [0, 1, 2, 3]) 1 1) 1 2) 1 0], 1⟩ :
          It3rator).ancestry_, 1 + 1⟩) :=
  increment_at_fork_time (fork [6] (fork [] (fork [4, 5] (root [0, 1, 2, 3]) 1 1) 1 2) 1 0)
    (by decide)
    ⟨[root [0, 1, 2, 3], fork [4, 5] (root [0, 1, 2, 3]) 1 1,
      fork [] (fork [4, 5] (root [0, 1, 2, 3]) 1 1) 1 2,
      fork [6] (fork [] (fork [4, 5] (root [0, 1, 2, 3]) 1 1) 1 2) 1 0], 1⟩
    (by decide)

/-! ## `AttachForkToCopiedBegin` and `DetachForkWithCopiedBegin` -/

theorem run_toOption (P S : Tr4jectory) :
    (AttachForkToCopiedBegin.run P S).toOption = AttachForkToCopiedBegin P S := by
  unfold AttachForkToCopiedBegin.run AttachForkToCopiedBegin
  split
  · rfl
  · split <;> rfl

/-- C23: `AttachForkToCopiedBegin(P, S)` fails if and only if `S` is not a
root or the timeline of `S` is empty; when it fails, at one of its first two
statements, `P` is as it was; when `S` is a root with a timeline that is not
empty, it succeeds. -/
theorem AttachForkToCopiedBegin_fails_iff (P S : Tr4jectory) :
    (AttachForkToCopiedBegin P S = none ↔ S.is_root = false ∨ S.timeline = []) ∧
      (S.is_root = false ∨ S.timeline = [] → AttachForkToCopiedBegin.run P S = Except.error P) ∧
      (S.is_root = true → S.timeline ≠ [] →
        ∃ P', AttachForkToCopiedBegin P S = some P' ∧
          AttachForkToCopiedBegin.run P S = Except.ok P') := by
  unfold AttachForkToCopiedBegin.run AttachForkToCopiedBegin
  by_cases hroot : S.is_root = false
  · simp [hroot]
  · have hr : S.is_root = true := by simpa using hroot
    cases htl : S.timeline with
    | nil => simp [hr]
    | cons t ts => simp [hr]

/-- C24: when `AttachForkToCopiedBegin(P, S)` succeeds on a trajectory `P`
whose children are in the order of their keys, the children of `P` are
afterwards the children before the call, unchanged and in their order, with
one new entry after every entry whose key is not greater and before every
entry whose key is greater; the key of the new entry is the time of the first
entry of `S`, and the new child has the pointer and the timeline of `S`, that
key, and as its position the last entry of the timeline of `P`, or its end
when it is empty; the child of each rank of `S` has the same key, pointer,
timeline, own key and children, and the same position unless that was the
first entry of `S`, in which case it is now the end of the timeline of `S`;
the pointer, the timeline and the fork of `P` are unchanged. -/
theorem AttachForkToCopiedBegin_adds_fork (P S P' : Tr4jectory)
    (hsorted : (P.children_.map Prod.fst).Pairwise (· ≤ ·))
    (h : AttachForkToCopiedBegin P S = some P') :
    ∃ time S' before after, S.timeline.head? = some time ∧
      P.children_ = before ++ after ∧ P'.children_ = before ++ (time, S') :: after ∧
      (∀ e ∈ before, e.1 ≤ time) ∧ (∀ e ∈ after, time < e.1) ∧
      P'.address = P.address ∧ P'.timeline = P.timeline ∧ P'.fork = P.fork ∧
      S'.address = S.address ∧ S'.timeline = S.timeline ∧
      S'.fork = some (time,
        if P.timeline = [] then P.timeline.length else P.timeline.length - 1) ∧
      S'.children_.length = S.children_.length ∧
      ∀ (j : Nat) (k : Instant) (c : Tr4jectory), S.children_[j]? = some (k, c) →
        ∃ c', S'.children_[j]? = some (k, c') ∧ c'.address = c.address ∧
          c'.timeline = c.timeline ∧ c'.children_ = c.children_ ∧
          c'.fork = c.fork.map
            (fun own => (own.1, if own.2 = 0 then S.timeline.length else own.2)) := by
  unfold AttachForkToCopiedBegin at h
  split at h
  · simp at h
  · split at h
    · simp at h
    · rename_i time ts htl
      simp only [Option.some.injEq] at h
      subst h
      obtain ⟨w1, w2, w3, _, _⟩ := with_child_fields P time
        (Tr4jectory.mk S.address S.timeline
          (some (time, if P.timeline.isEmpty then P.timeline.length else P.timeline.length - 1))
          (move_forks 0 S.timeline.length S.children_))
      obtain ⟨before, after, h1, h2, h3, h4⟩ := emplace_split time
        (Tr4jectory.mk S.address S.timeline
          (some (time, if P.timeline.isEmpty then P.timeline.length else P.timeline.length - 1))
          (move_forks 0 S.timeline.length S.children_)) P.children_ hsorted
      refine ⟨time, Tr4jectory.mk S.address S.timeline
          (some (time, if P.timeline.isEmpty then P.timeline.length else P.timeline.length - 1))
          (move_forks 0 S.timeline.length S.children_),
        before, after, by simp [htl], h1, ?_, h3, h4, w1, w2, w3, rfl, rfl, ?_,
        length_move_forks _ _ _, fun j k c hj => getElem?_move_forks _ _ _ j k c hj⟩
      · rw [with_child_eq, children_with_children]
        exact h2
      · simp only [Tr4jectory.fork, List.isEmpty_iff]

/-- Witness for C24: a root with the timeline `[3, 4]` and children at its two
entries, attached to `serialized_root`, whose timeline is `[0, 3]` and which
has a child with the key 3 already. -/
theorem AttachForkToCopiedBegin_adds_fork_witness :
    ∃ time S' before after,
      (Tr4jectory.mk 20 [3, 4] none
        [(3, Tr4jectory.mk 21 [] (some (3, 0)) []),
          (4, Tr4jectory.mk 22 [] (some (4, 1)) [])]).timeline.head? = some time ∧
      serialized_root.children_ = before ++ after ∧
      (serialized_root.with_child 3 (Tr4jectory.mk 20 [3, 4] (some (3, 1))
        [(3, Tr4jectory.mk 21 [] (some (3, 2)) []),
          (4, Tr4jectory.mk 22 [] (some (4, 1)) [])])).children_ =
        before ++ (time, S') :: after ∧
      (∀ e ∈ before, e.1 ≤ time) ∧ (∀ e ∈ after, time < e.1) ∧
      (serialized_root.with_child 3 (Tr4jectory.mk 20 [3, 4] (some (3, 1))
        [(3, Tr4jectory.mk 21 [] (some (3, 2)) []),
          (4, Tr4jectory.mk 22 [] (some (4, 1)) [])])).address = serialized_root.address ∧
      (serialized_root.with_child 3 (Tr4jectory.mk 20 [3, 4] (some (3, 1))
        [(3, Tr4jectory.mk 21 [] (some (3, 2)) []),
          (4, Tr4jectory.mk 22 [] (some (4, 1)) [])])).timeline = serialized_root.timeline ∧
      (serialized_root.with_child 3 (Tr4jectory.mk 20 [3, 4] (some (3, 1))
        [(3, Tr4jectory.mk 21 [] (some (3, 2)) []),
          (4, Tr4jectory.mk 22 [] (some (4, 1)) [])])).fork = serialized_root.fork ∧
      S'.address = (Tr4jectory.mk 20 [3, 4] none
        [(3, Tr4jectory.mk 21 [] (some (3, 0)) []),
          (4, Tr4jectory.mk 22 [] (some (4, 1)) [])]).address ∧
      S'.timeline = (Tr4jectory.mk 20 [3, 4] none
        [(3, Tr4jectory.mk 21 [] (some (3, 0)) []),
          (4, Tr4jectory.mk 22 [] (some (4, 1)) [])]).timeline ∧
      S'.fork = some (time,
        if serialized_root.timeline = [] then serialized_root.timeline.length
        else serialized_root.timeline.length - 1) ∧
      S'.children_.length = (Tr4jectory.mk 20 [3, 4] none
        [(3, Tr4jectory.mk 21 [] (some (3, 0)) []),
          (4, Tr4jectory.mk 22 [] (some (4, 1)) [])]).children_.length ∧
      ∀ (j : Nat) (k : Instant) (c : Tr4jectory),
        (Tr4jectory.mk 20 [3, 4] none
          [(3, Tr4jectory.mk 21 [] (some (3, 0)) []),
            (4, Tr4jectory.mk 22 [] (some (4, 1)) [])]).children_[j]? = some (k, c) →
        ∃ c', S'.children_[j]? = some (k, c') ∧ c'.address = c.address ∧
          c'.timeline = c.timeline ∧ c'.children_ = c.children_ ∧
          c'.fork = c.fork.map
            (fun own => (own.1, if own.2 = 0 then (Tr4jectory.mk 20 [3, 4] none
              [(3, Tr4jectory.mk 21 [] (some (3, 0)) []),
                (4, Tr4jectory.mk 22 [] (some (4, 1)) [])]).timeline.length else own.2)) :=
  AttachForkToCopiedBegin_adds_fork serialized_root
    (Tr4jectory.mk 20 [3, 4] none
      [(3, Tr4jectory.mk 21 [] (some (3, 0)) []), (4, Tr4jectory.mk 22 [] (some (4, 1)) [])])
    (serialized_root.with_child 3 (Tr4jectory.mk 20 [3, 4] (some (3, 1))
      [(3, Tr4jectory.mk 21 [] (some (3, 2)) []), (4, Tr4jectory.mk 22 [] (some (4, 1)) [])]))
    (by simp [serialized_root, Tr4jectory.children_]) rfl

/-- C25: `DetachForkWithCopiedBegin(N)` fails when `N` is a root; when `N` is
not a root, with its entry at the rank `i` of the children of its parent `P`,
it succeeds and returns `N` as a root, with no fork, with its pointer and its
timeline; the children of `P` are afterwards the children before the call
without the entry of rank `i`, unchanged and in their order, and the pointer,
the timeline and the fork of `P` are unchanged; the child of each rank of `N`
has the same key, pointer, timeline, own key and children, and the same
position unless that was the end of the timeline of `N`, in which case it is
now its beginning. -/
theorem DetachForkWithCopiedBegin_returns_root (N P : Tr4jectory) (i : Nat) :
    (N.is_root = true → DetachForkWithCopiedBegin N P i = none) ∧
      (N.is_root = false →
        ∃ N' P', DetachForkWithCopiedBegin N P i = some (N', P') ∧
          N'.is_root = true ∧ N'.fork = none ∧ N'.address = N.address ∧
          N'.timeline = N.timeline ∧
          P'.children_ = P.children_.eraseIdx i ∧ P'.address = P.address ∧
          P'.timeline = P.timeline ∧ P'.fork = P.fork ∧
          N'.children_.length = N.children_.length ∧
          ∀ (j : Nat) (k : Instant) (c : Tr4jectory), N.children_[j]? = some (k, c) →
            ∃ c', N'.children_[j]? = some (k, c') ∧ c'.address = c.address ∧
              c'.timeline = c.timeline ∧ c'.children_ = c.children_ ∧
              c'.fork = c.fork.map
                (fun own => (own.1, if own.2 = N.timeline.length then 0 else own.2))) := by
  refine ⟨fun h => by simp [DetachForkWithCopiedBegin, h], fun h => ?_⟩
  refine ⟨Tr4jectory.mk N.address N.timeline none (move_forks N.timeline.length 0 N.children_),
    P.with_children (P.children_.eraseIdx i), by simp [DetachForkWithCopiedBegin, h], rfl, rfl,
    rfl, rfl, children_with_children _ _, ?_, ?_, ?_, length_move_forks _ _ _,
    fun j k c hj => getElem?_move_forks _ _ _ j k c hj⟩ <;> cases P <;> rfl

/-! ## The fork-time invariant of the trees built by the tree surgery -/

/-- Under the fork-time link the loop of `Fork` stops at an ancestor and at a
position whose entry has the key of the trajectory as its time, and `Wrap`
finds that ancestor. -/
theorem Fork_loop_of_Linked (N : Forkable) (h : Forkable.Linked N) (k : Instant)
    (hk : N.fork_time = some k) :
    ∃ A q, Fork.loop N = some (A, q) ∧ A.time q = some k ∧
      A.ancestry.length < N.ancestry.length ∧
      ∀ acc, ∃ l, Wrap.loop A q N acc = some ⟨A :: l, q⟩ := by
  induction N generalizing k with
  | root tl => simp [Forkable.fork_time] at hk
  | fork tl p k2 pos ih =>
    simp only [Forkable.fork_time, Option.some.injEq] at hk
    subst hk
    obtain ⟨hp, hkey⟩ := h
    by_cases hc : pos = p.timeline_end ∧ p.is_root = false
    · have hpk : p.fork_time = some k2 := by
        rcases hkey with h1 | h1
        · rw [hc.1] at h1
          simp [Forkable.time, Forkable.timeline_end] at h1
        · exact h1.2
      obtain ⟨A, q, h1, h2, h3, h4⟩ := ih hp k2 hpk
      have hlen : A.ancestry.length < (fork tl p k2 pos).ancestry.length := by
        simp only [Forkable.ancestry, List.length_append, List.length_singleton]
        omega
      refine ⟨A, q, ?_, h2, hlen, ?_⟩
      · simp only [Fork.loop, hc, and_self, if_true]
        exact h1
      · intro acc
        unfold Wrap.loop
        rw [if_neg (ne_of_ancestry_length_lt _ _ hlen)]
        exact h4 _
    · have hpk : p.time pos = some k2 := by
        rcases hkey with h1 | h1
        · exact h1
        · exfalso
          apply hc
          refine ⟨h1.1, ?_⟩
          cases p with
          | root _ => simp [Forkable.fork_time] at h1
          | fork _ _ _ _ => rfl
      have hlen : p.ancestry.length < (fork tl p k2 pos).ancestry.length := by
        simp [Forkable.ancestry]
      refine ⟨p, pos, ?_, hpk, hlen, ?_⟩
      · simp only [Fork.loop, hc, if_false]
      · intro acc
        unfold Wrap.loop
        rw [if_neg (ne_of_ancestry_length_lt _ _ hlen)]
        simp only
        unfold Wrap.loop
        rw [if_pos rfl]
        refine ⟨fork tl p k2 pos :: acc, ?_⟩
        have hne : pos ≠ p.timeline_end := by
          intro e
          rw [e] at hpk
          simp [Forkable.time, Forkable.timeline_end] at hpk
        simp [It3rator.CheckNormalizedIfEnd, hne]

/-- Under the fork-time link `Fork` of a trajectory that is not a root returns
an iterator on an entry whose time is the key of the trajectory. -/
theorem Fork_of_Linked (N : Forkable) (h : Forkable.Linked N) (k : Instant)
    (hk : N.fork_time = some k) :
    ∃ fork_it, N.Fork = some fork_it ∧ fork_it.deref = some k := by
  obtain ⟨A, q, h1, h2, _, h4⟩ := Fork_loop_of_Linked N h k hk
  obtain ⟨l, hl⟩ := h4 []
  refine ⟨⟨A :: l, q⟩, ?_, ?_⟩
  · have hroot : N.is_root = false := by
      cases N with
      | root _ => simp [Forkable.fork_time] at hk
      | fork _ _ _ _ => rfl
    simp only [Forkable.Fork, hroot, h1, Wrap]
    simpa using hl
  · simpa [It3rator.deref] using h2

/-- The fork-time link of one child: its own key is the key `k` of its entry,
and it is forked at an entry of `tl` at time `k`, or at the end of `tl` with
`k` the key `own`. -/
theorem Linked_children_cons (tl : List Instant) (own : Option Instant) (k : Instant)
    (c : Tr4jectory) (rest : List (Instant × Tr4jectory)) :
    Linked_children tl own ((k, c) :: rest) ↔
      (∃ position, c.fork = some (k, position) ∧
        (tl[position]? = some k ∨ (position = tl.length ∧ own = some k))) ∧
      Tr4jectory.Linked c ∧ Linked_children tl own rest := by
  simp only [Linked_children]
  cases hf : c.fork with
  | none => simp
  | some f =>
    obtain ⟨key, position⟩ := f
    simp only [Option.some.injEq, Prod.mk.injEq]
    constructor
    · rintro ⟨⟨rfl, h1⟩, h2⟩
      exact ⟨⟨position, ⟨rfl, rfl⟩, h1⟩, h2⟩
    · rintro ⟨⟨p, ⟨rfl, rfl⟩, h1⟩, h2⟩
      exact ⟨⟨rfl, h1⟩, h2⟩

theorem Linked_iff (t : Tr4jectory) :
    Tr4jectory.Linked t ↔ Linked_children t.timeline (t.fork.map Prod.fst) t.children_ := by
  cases t
  simp [Tr4jectory.Linked, Tr4jectory.timeline, Tr4jectory.fork, Tr4jectory.children_]

theorem Linked_children_sublist (tl : List Instant) (own : Option Instant)
    (l l' : List (Instant × Tr4jectory)) (hsub : l'.Sublist l)
    (h : Linked_children tl own l) : Linked_children tl own l' := by
  induction hsub with
  | slnil => exact h
  | cons a _ ih =>
    obtain ⟨k, c⟩ := a
    rw [Linked_children_cons] at h
    exact ih h.2.2
  | cons₂ a _ ih =>
    obtain ⟨k, c⟩ := a
    rw [Linked_children_cons] at h ⊢
    exact ⟨h.1, h.2.1, ih h.2.2⟩

theorem Linked_children_emplace (tl : List Instant) (own : Option Instant) (k : Instant)
    (c : Tr4jectory) (cs : List (Instant × Tr4jectory))
    (hc : Linked_children tl own [(k, c)]) (h : Linked_children tl own cs) :
    Linked_children tl own (emplace k c cs) := by
  rw [Linked_children_cons] at hc
  induction cs with
  | nil =>
    simp only [emplace]
    rw [Linked_children_cons]
    exact ⟨hc.1, hc.2.1, h⟩
  | cons e rest ih =>
    obtain ⟨k2, c2⟩ := e
    simp only [emplace]
    split
    · rw [Linked_children_cons]
      exact ⟨hc.1, hc.2.1, h⟩
    · rw [Linked_children_cons] at h ⊢
      exact ⟨h.1, h.2.1, ih h.2.2⟩

theorem Linked_children_getElem (tl : List Instant) (own : Option Instant)
    (cs : List (Instant × Tr4jectory)) (i : Nat) (k : Instant) (c : Tr4jectory)
    (h : Linked_children tl own cs) (hi : cs[i]? = some (k, c)) :
    (∃ position, c.fork = some (k, position) ∧
        (tl[position]? = some k ∨ (position = tl.length ∧ own = some k))) ∧
      Tr4jectory.Linked c := by
  induction cs generalizing i with
  | nil => simp at hi
  | cons e rest ih =>
    obtain ⟨k2, c2⟩ := e
    rw [Linked_children_cons] at h
    cases i with
    | zero =>
      simp only [List.getElem?_cons_zero, Option.some.injEq, Prod.mk.injEq] at hi
      obtain ⟨rfl, rfl⟩ := hi
      exact ⟨h.1, h.2.1⟩
    | succ j => exact ih j h.2.2 (by simpa using hi)

theorem Linked_children_set (tl : List Instant) (own : Option Instant)
    (cs : List (Instant × Tr4jectory)) (i : Nat) (k : Instant) (c c' : Tr4jectory)
    (h : Linked_children tl own cs) (hi : cs[i]? = some (k, c)) (hf : c'.fork = c.fork)
    (hc : Tr4jectory.Linked c') : Linked_children tl own (cs.set i (k, c')) := by
  induction cs generalizing i with
  | nil => simp at hi
  | cons e rest ih =>
    obtain ⟨k2, c2⟩ := e
    rw [Linked_children_cons] at h
    cases i with
    | zero =>
      simp only [List.getElem?_cons_zero, Option.some.injEq, Prod.mk.injEq] at hi
      obtain ⟨rfl, rfl⟩ := hi
      rw [List.set_cons_zero, Linked_children_cons, hf]
      exact ⟨h.1, hc, h.2.2⟩
    | succ j =>
      rw [List.set_cons_succ, Linked_children_cons]
      exact ⟨h.1, h.2.1, ih j h.2.2 (by simpa using hi)⟩

/-- The fork-time link is kept when the positions of the children are changed
by `move_forks` and the new timeline and key keep the link of each child at
its new position. -/
theorem Linked_children_move_forks (tl tl' : List Instant) (own own' : Option Instant)
    (a b : Nat) (cs : List (Instant × Tr4jectory))
    (hmove : ∀ (position : Nat) (k : Instant),
      (tl[position]? = some k ∨ (position = tl.length ∧ own = some k)) →
      (tl'[if position = a then b else position]? = some k ∨
        ((if position = a then b else position) = tl'.length ∧ own' = some k)))
    (h : Linked_children tl own cs) : Linked_children tl' own' (move_forks a b cs) := by
  induction cs with
  | nil => simp [move_forks, Linked_children]
  | cons e rest ih =>
    obtain ⟨k, c⟩ := e
    rw [Linked_children_cons] at h
    obtain ⟨⟨position, hf, hlink⟩, hc, hrest⟩ := h
    cases c with
    | mk ad ctl f ds =>
      simp only [Tr4jectory.fork] at hf
      subst hf
      simp only [move_forks]
      rw [Linked_children_cons]
      refine ⟨⟨_, rfl, hmove position k hlink⟩, ?_, ih hrest⟩
      simpa [Tr4jectory.Linked] using hc

theorem timeline_with_children (t : Tr4jectory) (cs : List (Instant × Tr4jectory)) :
    (t.with_children cs).timeline = t.timeline := by
  cases t; rfl

theorem fork_with_children (t : Tr4jectory) (cs : List (Instant × Tr4jectory)) :
    (t.with_children cs).fork = t.fork := by
  cases t; rfl

theorem Linked_with_children (t : Tr4jectory) (cs : List (Instant × Tr4jectory))
    (h : Linked_children t.timeline (t.fork.map Prod.fst) cs) :
    Tr4jectory.Linked (t.with_children cs) := by
  rw [Linked_iff, timeline_with_children, fork_with_children, children_with_children]
  exact h

theorem Linked_follow (path : List Nat) (T P : Tr4jectory) (h : Tr4jectory.Linked T)
    (hP : follow path T = some P) : Tr4jectory.Linked P := by
  induction path generalizing T with
  | nil =>
    simp only [follow, Option.some.injEq] at hP
    rw [← hP]
    exact h
  | cons i path ih =>
    simp only [follow] at hP
    cases hi : T.children_[i]? with
    | none => simp [hi] at hP
    | some e =>
      obtain ⟨k, c⟩ := e
      simp only [hi] at hP
      rw [Linked_iff] at h
      exact ih c (Linked_children_getElem _ _ _ i k c h hi).2 hP

/-- The fork-time link of a tree is kept when the trajectory at the end of a
path is replaced by a trajectory with the same fork that has the link. -/
theorem Linked_update (path : List Nat) (T P P' : Tr4jectory) (h : Tr4jectory.Linked T)
    (hP : follow path T = some P) (hf : P'.fork = P.fork) (hP' : Tr4jectory.Linked P') :
    Tr4jectory.Linked (update path P' T) ∧ (update path P' T).fork = T.fork := by
  induction path generalizing T with
  | nil =>
    simp only [follow, Option.some.injEq] at hP
    subst hP
    exact ⟨hP', hf⟩
  | cons i path ih =>
    simp only [follow] at hP
    cases hi : T.children_[i]? with
    | none => simp [hi] at hP
    | some e =>
      obtain ⟨k, c⟩ := e
      simp only [hi] at hP
      rw [Linked_iff] at h
      obtain ⟨h1, h2⟩ := ih c (Linked_children_getElem _ _ _ i k c h hi).2 hP
      simp only [update, hi]
      exact ⟨Linked_with_children _ _ (Linked_children_set _ _ _ i k c _ h hi h2 h1),
        fork_with_children _ _⟩

theorem Linked_Append (P : Tr4jectory) (time : Instant) (h : Tr4jectory.Linked P) :
    Tr4jectory.Linked (P.Append time) ∧ (P.Append time).fork = P.fork := by
  refine ⟨?_, rfl⟩
  rw [Linked_iff] at h
  simp only [Tr4jectory.Append, Tr4jectory.Linked]
  refine Linked_children_move_forks _ _ _ _ _ _ _ ?_ h
  intro position k hlink
  rcases hlink with h1 | ⟨h1, h2⟩
  · have hlt : position < P.timeline.length := (List.getElem?_eq_some_iff.mp h1).1
    rw [if_neg (ne_of_lt hlt)]
    left
    rw [List.getElem?_append_left hlt]
    exact h1
  · right
    rw [if_pos h1]
    exact ⟨by simp, h2⟩

theorem Linked_NewFork (P : Tr4jectory) (timeline_it fresh : Nat) (time : Instant)
    (child : Tr4jectory) (h : Tr4jectory.Linked P)
    (hnew : Tr4jectory.NewFork P timeline_it fresh = some (time, child)) :
    Tr4jectory.Linked (P.with_child time child) ∧ (P.with_child time child).fork = P.fork := by
  rw [Linked_iff] at h
  rw [with_child_eq]
  refine ⟨Linked_with_children _ _ (Linked_children_emplace _ _ _ _ _ ?_ h),
    fork_with_children _ _⟩
  rw [Linked_children_cons]
  unfold Tr4jectory.NewFork at hnew
  split at hnew
  · rename_i hpos
    cases hf : P.fork with
    | none => simp [hf] at hnew
    | some own =>
      obtain ⟨key, position⟩ := own
      simp only [hf, Option.some.injEq, Prod.mk.injEq] at hnew
      obtain ⟨rfl, rfl⟩ := hnew
      exact ⟨⟨timeline_it, rfl, Or.inr ⟨hpos, rfl⟩⟩, by simp [Tr4jectory.Linked, Linked_children],
        trivial⟩
  · cases ht : P.timeline[timeline_it]? with
    | none => simp [ht] at hnew
    | some t =>
      simp only [ht, Option.some.injEq, Prod.mk.injEq] at hnew
      obtain ⟨rfl, rfl⟩ := hnew
      exact ⟨⟨timeline_it, rfl, Or.inl ht⟩, by simp [Tr4jectory.Linked, Linked_children],
        trivial⟩

theorem DeleteFork_loop_sublist (time : Instant) (a : Nat) (cs erased : List (Instant × Tr4jectory))
    (h : DeleteFork.loop time a cs = some erased) : erased.Sublist cs := by
  induction cs generalizing erased with
  | nil => simp [DeleteFork.loop] at h
  | cons e rest ih =>
    obtain ⟨k, c⟩ := e
    simp only [DeleteFork.loop] at h
    split at h
    · simp only [Option.some.injEq] at h
      subst h
      exact List.sublist_cons_self _ _
    · rw [Option.map_eq_some'] at h
      obtain ⟨l, hl, rfl⟩ := h
      exact (ih l hl).cons₂ _

theorem Linked_DeleteFork (P P' : Tr4jectory) (trajectory handle : Option Pointer)
    (h : Tr4jectory.Linked P) (hdel : DeleteFork P trajectory = some (P', handle)) :
    Tr4jectory.Linked P' ∧ P'.fork = P.fork := by
  rw [Linked_iff] at h
  unfold DeleteFork at hdel
  split at hdel
  · simp at hdel
  · split at hdel
    · simp at hdel
    · split at hdel
      · simp at hdel
      · split at hdel
        · simp at hdel
        · rename_i children hloop
          simp only [Option.some.injEq, Prod.mk.injEq] at hdel
          rw [← hdel.1]
          exact ⟨Linked_with_children _ _
            (Linked_children_sublist _ _ _ _ (DeleteFork_loop_sublist _ _ _ _ hloop) h),
            fork_with_children _ _⟩

theorem Linked_DeleteAllForksAfter (P P' : Tr4jectory) (view : Forkable) (time : Instant)
    (h : Tr4jectory.Linked P) (hdel : DeleteAllForksAfter P view time = some P') :
    Tr4jectory.Linked P' ∧ P'.fork = P.fork := by
  rw [Linked_iff] at h
  have h2 : P' = P.with_children (P.children_.take (upper_bound time P.children_)) := by
    unfold DeleteAllForksAfter at hdel
    simp only at hdel
    split at hdel
    · exact (Option.some.inj hdel).symm
    · split at hdel
      · simp at hdel
      · split at hdel
        · simp at hdel
        · split at hdel
          · exact (Option.some.inj hdel).symm
          · simp at hdel
  rw [h2]
  exact ⟨Linked_with_children _ _
    (Linked_children_sublist _ _ _ _ (List.take_sublist _ _) h), fork_with_children _ _⟩

theorem Linked_AttachForkToCopiedBegin (P S P' : Tr4jectory) (h : Tr4jectory.Linked P)
    (hS : Tr4jectory.Linked S) (hpre : S.timeline.head? = P.last_time)
    (hatt : AttachForkToCopiedBegin P S = some P') :
    Tr4jectory.Linked P' ∧ P'.fork = P.fork := by
  rw [Linked_iff] at h hS
  unfold AttachForkToCopiedBegin at hatt
  split at hatt
  · simp at hatt
  · rename_i hroot
    have hSf : S.fork = none := by
      simpa [Tr4jectory.is_root] using hroot
    split at hatt
    · simp at hatt
    · rename_i time ts htl
      simp only [Option.some.injEq] at hatt
      subst hatt
      rw [with_child_eq]
      refine ⟨Linked_with_children _ _ (Linked_children_emplace _ _ _ _ _ ?_ h),
        fork_with_children _ _⟩
      rw [Linked_children_cons]
      refine ⟨⟨_, rfl, ?_⟩, ?_, trivial⟩
      · simp only [htl, List.head?_cons, Tr4jectory.last_time] at hpre
        cases hlast : P.timeline.getLast? with
        | none =>
          have hnil : P.timeline = [] := List.getLast?_eq_none_iff.mp hlast
          simp only [hlast] at hpre
          right
          simp [hnil, ← hpre]
        | some t =>
          simp only [hlast, Option.some.injEq] at hpre
          subst hpre
          have hne : P.timeline ≠ [] := by
            intro e
            simp [e] at hlast
          left
          have he : P.timeline.isEmpty = false := by
            cases hp : P.timeline with
            | nil => exact absurd hp hne
            | cons _ _ => rfl
          simp only [he, Bool.false_eq_true, if_false]
          rw [List.getLast?_eq_getElem?] at hlast
          exact hlast
      · simp only [Tr4jectory.Linked, Option.map_some']
        refine Linked_children_move_forks _ _ _ _ _ _ _ ?_ hS
        intro position k hlink
        rw [hSf] at hlink
        rcases hlink with h1 | ⟨_, h2⟩
        · by_cases h0 : position = 0
          · subst h0
            right
            rw [htl] at h1
            simp only [List.getElem?_cons_zero, Option.some.injEq] at h1
            simp [h1]
          · left
            rw [if_neg h0]
            exact h1
        · simp at h2

theorem Linked_DetachForkWithCopiedBegin (P N N' P' : Tr4jectory) (i : Nat) (k : Instant)
    (h : Tr4jectory.Linked P) (hi : P.children_[i]? = some (k, N))
    (hpre : N.timeline.head? = N.fork.map Prod.fst)
    (hdet : DetachForkWithCopiedBegin N P i = some (N', P')) :
    (Tr4jectory.Linked P' ∧ P'.fork = P.fork) ∧ Tr4jectory.Linked N' ∧ N'.fork = none := by
  rw [Linked_iff] at h
  have hN := (Linked_children_getElem _ _ _ i k N h hi).2
  rw [Linked_iff] at hN
  unfold DetachForkWithCopiedBegin at hdet
  split at hdet
  · simp at hdet
  · simp only [Option.some.injEq, Prod.mk.injEq] at hdet
    obtain ⟨rfl, rfl⟩ := hdet
    refine ⟨⟨Linked_with_children _ _
      (Linked_children_sublist _ _ _ _ (List.eraseIdx_sublist _ _) h), fork_with_children _ _⟩,
      ?_, rfl⟩
    simp only [Tr4jectory.Linked, Option.map_none']
    refine Linked_children_move_forks _ _ _ _ _ _ _ ?_ hN
    intro position k2 hlink
    rcases hlink with h1 | ⟨h1, h2⟩
    · have hlt : position < N.timeline.length := (List.getElem?_eq_some_iff.mp h1).1
      rw [if_neg (ne_of_lt hlt)]
      exact Or.inl h1
    · left
      rw [if_pos h1, ← List.head?_eq_getElem?, hpre, h2]

/-- Every tree built by the tree surgery is a root and has the fork-time
link. -/
theorem Linked_of_Built (T : Tr4jectory) (h : Built T) :
    Tr4jectory.Linked T ∧ T.fork = none := by
  induction h with
  | root address timeline => exact ⟨by simp [Tr4jectory.Linked, Linked_children], rfl⟩
  | Append T P path time _ hP ih =>
    obtain ⟨h1, h2⟩ := Linked_Append P time (Linked_follow path T P ih.1 hP)
    obtain ⟨h3, h4⟩ := Linked_update path T P _ ih.1 hP h2 h1
    exact ⟨h3, h4.trans ih.2⟩
  | NewFork T P path timeline_it fresh time child _ hP hnew ih =>
    obtain ⟨h1, h2⟩ := Linked_NewFork P timeline_it fresh time child
      (Linked_follow path T P ih.1 hP) hnew
    obtain ⟨h3, h4⟩ := Linked_update path T P _ ih.1 hP h2 h1
    exact ⟨h3, h4.trans ih.2⟩
  | DeleteFork T P P' path trajectory handle _ hP hdel ih =>
    obtain ⟨h1, h2⟩ := Linked_DeleteFork P P' trajectory handle
      (Linked_follow path T P ih.1 hP) hdel
    obtain ⟨h3, h4⟩ := Linked_update path T P _ ih.1 hP h2 h1
    exact ⟨h3, h4.trans ih.2⟩
  | DeleteAllForksAfter T P P' path view time _ hP hdel ih =>
    obtain ⟨h1, h2⟩ := Linked_DeleteAllForksAfter P P' view time
      (Linked_follow path T P ih.1 hP) hdel
    obtain ⟨h3, h4⟩ := Linked_update path T P _ ih.1 hP h2 h1
    exact ⟨h3, h4.trans ih.2⟩
  | AttachForkToCopiedBegin T S P P' path _ _ hP hpre hatt ihT ihS =>
    obtain ⟨h1, h2⟩ := Linked_AttachForkToCopiedBegin P S P'
      (Linked_follow path T P ihT.1 hP) ihS.1 hpre hatt
    obtain ⟨h3, h4⟩ := Linked_update path T P _ ihT.1 hP h2 h1
    exact ⟨h3, h4.trans ihT.2⟩
  | DetachForkWithCopiedBegin T P N N' P' path i k _ hP hi hpre hdet ih =>
    obtain ⟨⟨h1, h2⟩, _⟩ := Linked_DetachForkWithCopiedBegin P N N' P' i k
      (Linked_follow path T P ih.1 hP) hi hpre hdet
    obtain ⟨h3, h4⟩ := Linked_update path T P _ ih.1 hP h2 h1
    exact ⟨h3, h4.trans ih.2⟩
  | detached T P N N' P' path i k _ hP hi hpre hdet ih =>
    exact (Linked_DetachForkWithCopiedBegin P N N' P' i k
      (Linked_follow path T P ih.1 hP) hi hpre hdet).2

theorem follow_append (path : List Nat) (i : Nat) (T P : Tr4jectory) (k : Instant)
    (N : Tr4jectory) (hP : follow path T = some P) (hN : P.children_[i]? = some (k, N)) :
    follow (path ++ [i]) T = some N := by
  induction path generalizing T with
  | nil =>
    simp only [follow, Option.some.injEq] at hP
    subst hP
    simp [follow, hN]
  | cons j path ih =>
    simp only [follow] at hP
    cases hj : T.children_[j]? with
    | none => simp [hj] at hP
    | some e =>
      obtain ⟨k2, c⟩ := e
      simp only [hj] at hP
      simp only [List.cons_append, follow, hj]
      exact ih c hP

/-- In a tree with the fork-time link, the trajectory at the end of a path,
seen through its `parent_` pointer, has the fork-time link along its
ancestors. -/
theorem view_at_of_Linked (path : List Nat) (T P : Tr4jectory) (V : Forkable)
    (h : Tr4jectory.Linked T) (hV : Forkable.Linked V) (hsees : T.seen_as V)
    (hP : follow path T = some P) :
    ∃ W, view_at path V T = some W ∧ P.seen_as W ∧ Forkable.Linked W := by
  induction path generalizing T V with
  | nil =>
    simp only [follow, Option.some.injEq] at hP
    subst hP
    exact ⟨V, rfl, hsees, hV⟩
  | cons i path ih =>
    simp only [follow] at hP
    cases hi : T.children_[i]? with
    | none => simp [hi] at hP
    | some e =>
      obtain ⟨k, c⟩ := e
      simp only [hi] at hP
      rw [Linked_iff] at h
      obtain ⟨⟨position, hf, hlink⟩, hc⟩ := Linked_children_getElem _ _ _ i k c h hi
      obtain ⟨htl, hft, _⟩ := hsees
      have hview : child_view V c = Forkable.fork c.timeline V k position := by
        simp [child_view, hf]
      have hVc : Forkable.Linked (child_view V c) := by
        rw [hview]
        refine ⟨hV, ?_⟩
        rcases hlink with h1 | ⟨h1, h2⟩
        · left
          rw [Forkable.time, htl]
          exact h1
        · right
          rw [Forkable.timeline_end, htl, hft]
          exact ⟨h1, h2⟩
      have hsc : c.seen_as (child_view V c) := by
        rw [hview]
        simp [Tr4jectory.seen_as, Forkable.timeline, Forkable.fork_time,
          Forkable.position_in_parent_timeline_, hf]
      simp only [view_at, hi]
      exact ih c (child_view V c) hc hVc hsc hP

/-- C21: in every tree built from a root by `NewFork`, `DeleteFork`,
`DeleteAllForksAfter`, by `AttachForkToCopiedBegin` and
`DetachForkWithCopiedBegin` used under their documented preconditions, and by
appending to timelines, for every trajectory `N` that is not the root, with
the key `k` in the children of its parent `P`: `Fork(N)`, on `N` as seen
through its `parent_` pointers, returns an iterator on an entry whose time is
`k`. -/
theorem key_is_time_of_Fork (T : Tr4jectory) (hT : Built T) (path : List Nat)
    (P N : Tr4jectory) (i : Nat) (k : Instant) (hP : follow path T = some P)
    (hN : P.children_[i]? = some (k, N)) :
    ∃ view fork_it, view_at (path ++ [i]) (Forkable.root T.timeline) T = some view ∧
      N.seen_as view ∧ view.is_root = false ∧ view.fork_time = some k ∧
      view.Fork = some fork_it ∧ fork_it.deref = some k := by
  obtain ⟨hL, hroot⟩ := Linked_of_Built T hT
  have hsees : T.seen_as (Forkable.root T.timeline) := by
    simp [Tr4jectory.seen_as, Forkable.timeline, Forkable.fork_time,
      Forkable.position_in_parent_timeline_, hroot]
  obtain ⟨W, hW, hNW, hWL⟩ := view_at_of_Linked (path ++ [i]) T N (Forkable.root T.timeline)
    hL trivial hsees (follow_append path i T P k N hP hN)
  have hPL := Linked_follow path T P hL hP
  rw [Linked_iff] at hPL
  obtain ⟨⟨position, hf, _⟩, _⟩ := Linked_children_getElem _ _ _ i k N hPL hN
  have hk : W.fork_time = some k := by
    rw [hNW.2.1, hf]
    rfl
  have hnr : W.is_root = false := by
    cases W with
    | root _ => simp [Forkable.fork_time] at hk
    | fork _ _ _ _ => rfl
  obtain ⟨fork_it, h1, h2⟩ := Fork_of_Linked W hWL k hk
  exact ⟨W, fork_it, hW, hNW, hnr, hk, h1, h2⟩

/-- Witness for C21: a root with the timeline `[0, 3]`, a child forked at its
entry at time 3, and a child of that child forked at the end of its empty
timeline, with the key 3. -/
theorem key_is_time_of_Fork_witness :
    ∃ view fork_it,
      view_at ([0] ++ [0])
          (Forkable.root (update [0]
            ((Tr4jectory.mk 1 [] (some (3, 1)) []).with_child 3
              (Tr4jectory.mk 2 [] (some (3, 0)) []))
            (update [] ((Tr4jectory.mk 0 [0, 3] none []).with_child 3
              (Tr4jectory.mk 1 [] (some (3, 1)) []))
              (Tr4jectory.mk 0 [0, 3] none []))).timeline)
          (update [0]
            ((Tr4jectory.mk 1 [] (some (3, 1)) []).with_child 3
              (Tr4jectory.mk 2 [] (some (3, 0)) []))
            (update [] ((Tr4jectory.mk 0 [0, 3] none []).with_child 3
              (Tr4jectory.mk 1 [] (some (3, 1)) []))
              (Tr4jectory.mk 0 [0, 3] none []))) = some view ∧
      (Tr4jectory.mk 2 [] (some (3, 0)) []).seen_as view ∧ view.is_root = false ∧
      view.fork_time = some 3 ∧ view.Fork = some fork_it ∧ fork_it.deref = some 3 :=
  key_is_time_of_Fork _
    (Built.NewFork _ (Tr4jectory.mk 1 [] (some (3, 1)) []) [0] 0 2 3
      (Tr4jectory.mk 2 [] (some (3, 0)) [])
      (Built.NewFork _ (Tr4jectory.mk 0 [0, 3] none []) [] 1 1 3
        (Tr4jectory.mk 1 [] (some (3, 1)) []) (Built.root 0 [0, 3]) rfl rfl)
      rfl rfl)
    [0] ((Tr4jectory.mk 1 [] (some (3, 1)) []).with_child 3
      (Tr4jectory.mk 2 [] (some (3, 0)) []))
    (Tr4jectory.mk 2 [] (some (3, 0)) []) 0 3 rfl rfl

/-! ## The ownership invariant in the store -/

theorem Store.set_same (s : Store) (a : Nat) (o : Object) : (s.set a o) a = some o := by
  simp [Store.set]

theorem Store.set_other (s : Store) (a x : Nat) (o : Object) (h : x ≠ a) :
    (s.set a o) x = s x := by
  simp [Store.set, h]

theorem Store.skeleton_lookup {s s' : Store}
    (h : ∀ a, (s' a).map Object.skeleton = (s a).map Object.skeleton) {a : Nat} {o' : Object}
    (ha : s' a = some o') : ∃ o, s a = some o ∧ o.skeleton = o'.skeleton := by
  have := h a
  rw [ha] at this
  cases hs : s a with
  | none => simp [hs] at this
  | some o =>
    refine ⟨o, rfl, ?_⟩
    simpa [hs] using this.symm

theorem Store.skeleton_symm {s s' : Store}
    (h : ∀ a, (s' a).map Object.skeleton = (s a).map Object.skeleton) :
    ∀ a, (s a).map Object.skeleton = (s' a).map Object.skeleton := fun a => (h a).symm

theorem Store.skeleton_trans {s s' s'' : Store}
    (h : ∀ a, (s' a).map Object.skeleton = (s a).map Object.skeleton)
    (h' : ∀ a, (s'' a).map Object.skeleton = (s' a).map Object.skeleton) :
    ∀ a, (s'' a).map Object.skeleton = (s a).map Object.skeleton :=
  fun a => (h' a).trans (h a)

/-- The ownership invariant depends on the members `parent_`,
`position_in_parent_children_` and `children_` only. -/
theorem Store.Owned_of_skeleton {s s' : Store}
    (h : ∀ a, (s' a).map Object.skeleton = (s a).map Object.skeleton) (hs : Store.Owned s) :
    Store.Owned s' := by
  intro P o' hP
  obtain ⟨o, ho, hsk⟩ := Store.skeleton_lookup h hP
  obtain ⟨h1, h2⟩ := hs P o ho
  have hch : o'.children_ = o.children_ := by
    have := congrArg (fun x => x.2.2) hsk
    simpa [Object.skeleton] using this.symm
  rw [hch]
  refine ⟨?_, h2⟩
  intro e he
  obtain ⟨oc, hoc, hp, hb⟩ := h1 e he
  obtain ⟨oc', hoc', hsk'⟩ := Store.skeleton_lookup (Store.skeleton_symm h) hoc
  refine ⟨oc', hoc', ?_, ?_⟩
  · have := congrArg (fun x => x.1) hsk'
    simp only [Object.skeleton] at this
    rw [this]
    exact hp
  · have := congrArg (fun x => x.2.1) hsk'
    simp only [Object.skeleton] at this
    rw [this]
    exact hb

/-- The ownership invariant is kept when an object without children is put at
an address where there is no object. -/
theorem Store.Owned_set_fresh (s : Store) (fresh : Nat) (o : Object) (hs : Store.Owned s)
    (hfresh : s fresh = none) (ho : o.children_ = []) : Store.Owned (s.set fresh o) := by
  intro P op hP
  by_cases hPf : P = fresh
  · subst hPf
    rw [Store.set_same] at hP
    simp only [Option.some.injEq] at hP
    subst hP
    simp [ho]
  · rw [Store.set_other _ _ _ _ hPf] at hP
    obtain ⟨h1, h2⟩ := hs P op hP
    refine ⟨?_, h2⟩
    intro e he
    obtain ⟨oc, hoc, hp, hb⟩ := h1 e he
    have hne : e.2 ≠ fresh := by
      intro e2
      rw [e2, hfresh] at hoc
      simp at hoc
    exact ⟨oc, by rw [Store.set_other _ _ _ _ hne]; exact hoc, hp, hb⟩

/-- The ownership invariant is kept when the object at `a` is replaced by an
object whose entries are old entries or own pointers to objects that point
back, without a pointer owned twice, and whose own pointers are unchanged
unless no entry owns the pointer `a`. -/
theorem Store.Owned_set (s : Store) (a : Nat) (o o' : Object) (hs : Store.Owned s)
    (ha : s a = some o)
    (hchildren : ∀ e ∈ o'.children_, e ∈ o.children_ ∨
      ∃ oc, (s.set a o') e.2 = some oc ∧ oc.parent_ = some a ∧
        oc.position_in_parent_children_ = some e.2)
    (hnodup : (o'.children_.map Prod.snd).Nodup)
    (hptr : (o'.parent_ = o.parent_ ∧
        o'.position_in_parent_children_ = o.position_in_parent_children_) ∨
      ∀ P op, s P = some op → a ∉ op.children_.map Prod.snd) :
    Store.Owned (s.set a o') := by
  have key : ∀ P op, s P = some op → ∀ e ∈ op.children_,
      ∃ oc, (s.set a o') e.2 = some oc ∧ oc.parent_ = some P ∧
        oc.position_in_parent_children_ = some e.2 := by
    intro P op hP e he
    obtain ⟨oc, hoc, hp, hb⟩ := (hs P op hP).1 e he
    by_cases hea : e.2 = a
    · rcases hptr with ⟨h1, h2⟩ | h1
      · rw [hea, ha] at hoc
        simp only [Option.some.injEq] at hoc
        subst hoc
        refine ⟨o', by rw [hea, Store.set_same], by rw [h1]; exact hp, ?_⟩
        rw [h2]
        exact hb
      · exfalso
        apply h1 P op hP
        rw [← hea]
        exact List.mem_map_of_mem _ he
    · exact ⟨oc, by rw [Store.set_other _ _ _ _ hea]; exact hoc, hp, hb⟩
  intro P op hP
  by_cases hPa : P = a
  · subst hPa
    rw [Store.set_same] at hP
    simp only [Option.some.injEq] at hP
    subst hP
    refine ⟨?_, hnodup⟩
    intro e he
    rcases hchildren e he with h1 | h1
    · exact key P o ha e h1
    · exact h1
  · rw [Store.set_other _ _ _ _ hPa] at hP
    exact ⟨key P op hP, (hs P op hP).2⟩

theorem Store.mem_emplace (k : Instant) (c : Nat) (cs : List (Instant × Nat))
    (e : Instant × Nat) : e ∈ Store.emplace k c cs ↔ e = (k, c) ∨ e ∈ cs := by
  induction cs with
  | nil => simp [Store.emplace]
  | cons x rest ih =>
    obtain ⟨k2, c2⟩ := x
    simp only [Store.emplace]
    split
    · simp
    · simp only [List.mem_cons, ih]
      tauto

theorem Store.nodup_emplace (k : Instant) (c : Nat) (cs : List (Instant × Nat))
    (hc : c ∉ cs.map Prod.snd) (h : (cs.map Prod.snd).Nodup) :
    ((Store.emplace k c cs).map Prod.snd).Nodup := by
  induction cs with
  | nil => simp [Store.emplace]
  | cons x rest ih =>
    obtain ⟨k2, c2⟩ := x
    simp only [List.map_cons, List.mem_cons, not_or, List.nodup_cons] at hc h
    simp only [Store.emplace]
    split
    · simp only [List.map_cons, List.nodup_cons, List.mem_cons, not_or]
      exact ⟨⟨hc.1, hc.2⟩, h.1, h.2⟩
    · simp only [List.map_cons, List.nodup_cons]
      refine ⟨?_, ih hc.2 h.2⟩
      intro hmem
      rw [List.mem_map] at hmem
      obtain ⟨e, he, he2⟩ := hmem
      rw [Store.mem_emplace] at he
      rcases he with rfl | he
      · exact hc.1 he2
      · exact h.1 (List.mem_map.mpr ⟨e, he, he2⟩)

theorem Store.erased_by_DeleteFork_sublist (time : Instant) (a : Nat)
    (cs erased : List (Instant × Nat)) (h : Store.DeleteFork.loop time a cs = some erased) :
    erased.Sublist cs := by
  induction cs generalizing erased with
  | nil => simp [Store.DeleteFork.loop] at h
  | cons e rest ih =>
    obtain ⟨k, c⟩ := e
    simp only [Store.DeleteFork.loop] at h
    split at h
    · simp only [Option.some.injEq] at h
      subst h
      exact List.sublist_cons_self _ _
    · rw [Option.map_eq_some'] at h
      obtain ⟨l, hl, rfl⟩ := h
      exact (ih l hl).cons₂ _

/-- The ownership invariant is kept when entries of the children of an object
are erased. -/
theorem Store.Owned_set_sublist (s : Store) (a : Nat) (o : Object)
    (cs : List (Instant × Nat)) (hs : Store.Owned s) (ha : s a = some o)
    (hsub : cs.Sublist o.children_) :
    Store.Owned (s.set a { o with children_ := cs }) := by
  refine Store.Owned_set s a o _ hs ha (fun e he => Or.inl (hsub.subset he)) ?_
    (Or.inl ⟨rfl, rfl⟩)
  exact ((hsub.map Prod.snd).nodup (hs a o ha).2)

/-- The loops over the children of `AttachForkToCopiedBegin` and
`DetachForkWithCopiedBegin` change no member but
`position_in_parent_timeline_`. -/
theorem Store.move_forks_skeleton (current replacement : Nat) (cs : List (Instant × Nat))
    (s s1 : Store) (h : Store.move_forks current replacement cs s = some s1) :
    ∀ a, (s1 a).map Object.skeleton = (s a).map Object.skeleton := by
  induction cs generalizing s with
  | nil =>
    simp only [Store.move_forks, Option.some.injEq] at h
    subst h
    intro a
    rfl
  | cons e rest ih =>
    obtain ⟨k, child⟩ := e
    simp only [Store.move_forks] at h
    cases hc : s child with
    | none => simp [hc] at h
    | some co =>
      simp only [hc] at h
      intro a
      rw [ih _ h a]
      split
      · by_cases hac : a = child
        · subst hac
          rw [Store.set_same, hc]
          rfl
        · rw [Store.set_other _ _ _ _ hac]
      · rfl

theorem Store.Owned_NewFork (s s' : Store) (that timeline_it fresh : Nat)
    (hs : Store.Owned s) (h : s.NewFork that timeline_it fresh = some s') : Store.Owned s' := by
  unfold Store.NewFork at h
  cases hthat : s that with
  | none => simp [hthat] at h
  | some o =>
    cases hfresh : s fresh with
    | some _ => simp [hthat, hfresh] at h
    | none =>
      simp only [hthat, hfresh] at h
      split at h
      · simp at h
      · rename_i time _
        simp only [Option.some.injEq] at h
        have hne : that ≠ fresh := by
          intro e
          rw [e, hfresh] at hthat
          simp at hthat
        have hs' : s' = (s.set fresh ⟨some that, some fresh, some timeline_it, [], []⟩).set that
            { o with children_ := Store.emplace time fresh o.children_ } := by
          rw [← h]
          funext x
          by_cases h1 : x = fresh
          · subst h1
            simp [Store.set, Ne.symm hne]
          · by_cases h2 : x = that
            · subst h2
              simp [Store.set, h1]
            · simp [Store.set, h1, h2]
        rw [hs']
        have hA := Store.Owned_set_fresh s fresh ⟨some that, some fresh, some timeline_it, [], []⟩
          hs hfresh rfl
        refine Store.Owned_set _ that o _ hA (by rw [Store.set_other _ _ _ _ hne]; exact hthat)
          ?_ ?_ (Or.inl ⟨rfl, rfl⟩)
        · intro e he
          rw [Store.mem_emplace] at he
          rcases he with rfl | he
          · right
            refine ⟨⟨some that, some fresh, some timeline_it, [], []⟩, ?_, rfl, rfl⟩
            rw [Store.set_other _ _ _ _ (Ne.symm hne), Store.set_same]
          · exact Or.inl he
        · apply Store.nodup_emplace _ _ _ _ (hs that o hthat).2
          intro hmem
          rw [List.mem_map] at hmem
          obtain ⟨e, he, he2⟩ := hmem
          obtain ⟨oc, hoc, _⟩ := (hs that o hthat).1 e he
          rw [he2, hfresh] at hoc
          simp at hoc

theorem Store.Owned_DeleteFork (s s' : Store) (fuel that : Nat) (trajectory handle : Option Nat)
    (hs : Store.Owned s) (h : s.DeleteFork fuel that trajectory = some (s', handle)) :
    Store.Owned s' := by
  unfold Store.DeleteFork at h
  split at h
  · simp at h
  · split at h
    · simp at h
    · split at h
      · rename_i time o htime hthat
        split at h
        · simp at h
        · rename_i children hloop
          simp only [Option.some.injEq, Prod.mk.injEq] at h
          rw [← h.1]
          exact Store.Owned_set_sublist s that o children hs hthat
            (Store.erased_by_DeleteFork_sublist _ _ _ _ hloop)
      · simp at h

theorem Store.Owned_DeleteAllForksAfter (s s' : Store) (fuel that : Nat) (time : Instant)
    (hs : Store.Owned s) (h : s.DeleteAllForksAfter fuel that time = some s') :
    Store.Owned s' := by
  unfold Store.DeleteAllForksAfter at h
  cases hthat : s that with
  | none => simp [hthat] at h
  | some o =>
    have hs' : s' = s.set that
        { o with
          children_ := o.children_.take (o.children_.findIdx (fun e => decide (time < e.1))) } := by
      simp only [hthat] at h
      split at h
      · exact (Option.some.inj h).symm
      · split at h
        · simp at h
        · split at h
          · simp at h
          · split at h
            · exact (Option.some.inj h).symm
            · simp at h
    rw [hs']
    exact Store.Owned_set_sublist s that o _ hs hthat (List.take_sublist _ _)

theorem Store.Owned_AttachForkToCopiedBegin (s s' : Store) (that fork : Nat)
    (hs : Store.Owned s) (h : s.AttachForkToCopiedBegin that fork = some s') :
    Store.Owned s' := by
  unfold Store.AttachForkToCopiedBegin at h
  cases hfork : s fork with
  | none => simp [hfork] at h
  | some fo =>
    simp only [hfork] at h
    split at h
    · simp at h
    · rename_i hroot
      split at h
      · simp at h
      · rename_i time ts htl
        split at h
        · simp at h
        · rename_i s1 hmove
          split at h
          · simp at h
          · rename_i o hthat
            split at h
            · rename_i fo2 o2 hfo2 ho2
              simp only [Option.some.injEq] at h
              have hsk := Store.move_forks_skeleton _ _ _ _ _ hmove
              have hs1 : Store.Owned s1 := Store.Owned_of_skeleton hsk hs
              obtain ⟨fo1, hfo1, hsk1⟩ := Store.skeleton_lookup (Store.skeleton_symm hsk) hfork
              have hfo1root : fo1.parent_ = none := by
                have := congrArg (fun x => x.1) hsk1
                simp only [Object.skeleton] at this
                rw [this]
                simpa using hroot
              have hnowhere : ∀ P op, s1 P = some op → fork ∉ op.children_.map Prod.snd := by
                intro P op hP hmem
                rw [List.mem_map] at hmem
                obtain ⟨e, he, he2⟩ := hmem
                obtain ⟨oc, hoc, hp, _⟩ := (hs1 P op hP).1 e he
                rw [he2, hfo1] at hoc
                simp only [Option.some.injEq] at hoc
                subst hoc
                rw [hfo1root] at hp
                simp at hp
              by_cases htf : that = fork
              · subst htf
                rw [hfo1] at hthat
                simp only [Option.some.injEq] at hthat
                subst hthat
                rw [Store.set_same] at hfo2
                simp only [Option.some.injEq] at hfo2
                subst hfo2
                have hs' : s' = s1.set that
                    { fo1 with
                      children_ := Store.emplace time that fo1.children_
                      parent_ := some that
                      position_in_parent_children_ := some that
                      position_in_parent_timeline_ :=
                        some (if fo1.timeline.isEmpty then fo1.timeline.length
                          else fo1.timeline.length - 1) } := by
                  rw [← h]
                  rw [Store.set_same] at ho2
                  simp only [Option.some.injEq] at ho2
                  subst ho2
                  funext x
                  by_cases hx : x = that
                  · subst hx
                    simp [Store.set]
                  · simp [Store.set, hx]
                rw [hs']
                refine Store.Owned_set s1 that fo1 _ hs1 hfo1 ?_ ?_ (Or.inr hnowhere)
                · intro e he
                  simp only at he
                  rw [Store.mem_emplace] at he
                  rcases he with rfl | he
                  · right
                    exact ⟨_, Store.set_same _ _ _, rfl, rfl⟩
                  · exact Or.inl he
                · exact Store.nodup_emplace _ _ _ (hnowhere that fo1 hfo1) (hs1 that fo1 hfo1).2
              · rw [Store.set_other _ _ _ _ (Ne.symm htf), hfo1] at hfo2
                simp only [Option.some.injEq] at hfo2
                subst hfo2
                rw [Store.set_same] at ho2
                simp only [Option.some.injEq] at ho2
                subst ho2
                have hs' : s' = (s1.set fork
                    { fo1 with
                      parent_ := some that
                      position_in_parent_children_ := some fork
                      position_in_parent_timeline_ :=
                        some (if o.timeline.isEmpty then o.timeline.length
                          else o.timeline.length - 1) }).set that
                    { o with children_ := Store.emplace time fork o.children_ } := by
                  rw [← h]
                  funext x
                  by_cases hx : x = fork
                  · subst hx
                    simp [Store.set, Ne.symm htf]
                  · by_cases hx2 : x = that
                    · subst hx2
                      simp [Store.set, hx]
                    · simp [Store.set, hx, hx2]
                rw [hs']
                have hA := Store.Owned_set s1 fork fo1
                  { fo1 with
                    parent_ := some that
                    position_in_parent_children_ := some fork
                    position_in_parent_timeline_ :=
                      some (if o.timeline.isEmpty then o.timeline.length
                        else o.timeline.length - 1) } hs1 hfo1 (fun e he => Or.inl he)
                  (hs1 fork fo1 hfo1).2 (Or.inr hnowhere)
                refine Store.Owned_set _ that o _ hA
                  (by rw [Store.set_other _ _ _ _ htf]; exact hthat) ?_ ?_ (Or.inl ⟨rfl, rfl⟩)
                · intro e he
                  simp only at he
                  rw [Store.mem_emplace] at he
                  rcases he with rfl | he
                  · right
                    refine ⟨{ fo1 with
                      parent_ := some that
                      position_in_parent_children_ := some fork
                      position_in_parent_timeline_ :=
                        some (if o.timeline.isEmpty then o.timeline.length
                          else o.timeline.length - 1) }, ?_, rfl, rfl⟩
                    rw [Store.set_other _ _ _ _ (Ne.symm htf), Store.set_same]
                  · exact Or.inl he
                · exact Store.nodup_emplace _ _ _ (hnowhere that o hthat) (hs1 that o hthat).2
            · simp at h

theorem Store.not_mem_eraseP (l : List (Instant × Nat)) (x : Nat)
    (h : (l.map Prod.snd).Nodup) :
    x ∉ (l.eraseP (fun e => e.2 == x)).map Prod.snd := by
  induction l with
  | nil => simp
  | cons e rest ih =>
    rw [List.map_cons, List.nodup_cons] at h
    by_cases he : e.2 = x
    · rw [List.eraseP_cons_of_pos (by simpa using he)]
      rw [← he]
      exact h.1
    · rw [List.eraseP_cons_of_neg (by simpa using he)]
      simp only [List.map_cons, List.mem_cons, not_or]
      exact ⟨fun e2 => he e2.symm, ih h.2⟩

theorem Store.Owned_DetachForkWithCopiedBegin (s s' : Store) (that owned_this : Nat)
    (hs : Store.Owned s) (h : s.DetachForkWithCopiedBegin that = some (s', owned_this)) :
    Store.Owned s' := by
  unfold Store.DetachForkWithCopiedBegin at h
  cases hthat : s that with
  | none => simp [hthat] at h
  | some o =>
    simp only [hthat] at h
    split at h
    · rename_i parent entry hparent hentry
      split at h
      · simp at h
      · rename_i s1 hmove
        split at h
        · simp at h
        · rename_i po hpo
          split at h
          · simp at h
          · rename_i o2 ho2
            simp only [Option.some.injEq, Prod.mk.injEq] at h
            rw [← h.1]
            have hsk := Store.move_forks_skeleton _ _ _ _ _ hmove
            have hs1 : Store.Owned s1 := Store.Owned_of_skeleton hsk hs
            obtain ⟨o1, ho1, hsk1⟩ := Store.skeleton_lookup (Store.skeleton_symm hsk) hthat
            have hp1 : o1.parent_ = some parent := by
              have := congrArg (fun x => x.1) hsk1
              simp only [Object.skeleton] at this
              rw [this]
              exact hparent
            have hb1 : o1.position_in_parent_children_ = some entry := by
              have := congrArg (fun x => x.2.1) hsk1
              simp only [Object.skeleton] at this
              rw [this]
              exact hentry
            have hs2 := Store.Owned_set_sublist s1 parent po
              (po.children_.eraseP (fun e => e.2 == entry)) hs1 hpo (List.eraseP_sublist _)
            refine Store.Owned_set _ that o2 _ hs2 ho2 (fun e he => Or.inl he)
              (hs2 that o2 ho2).2 (Or.inr ?_)
            intro P op hP hmem
            rw [List.mem_map] at hmem
            obtain ⟨e, he, he2⟩ := hmem
            by_cases hPp : P = parent
            · subst hPp
              rw [Store.set_same] at hP
              simp only [Option.some.injEq] at hP
              subst hP
              simp only at he
              have he' := (List.eraseP_sublist po.children_).subset he
              obtain ⟨oc, hoc, _, hb⟩ := (hs1 P po hpo).1 e he'
              rw [he2, ho1] at hoc
              simp only [Option.some.injEq] at hoc
              subst hoc
              rw [hb1, he2] at hb
              simp only [Option.some.injEq] at hb
              subst hb
              exact Store.not_mem_eraseP po.children_ entry (hs1 P po hpo).2
                (List.mem_map.mpr ⟨e, he, he2⟩)
            · rw [Store.set_other _ _ _ _ hPp] at hP
              obtain ⟨oc, hoc, hp, _⟩ := (hs1 P op hP).1 e he
              rw [he2, ho1] at hoc
              simp only [Option.some.injEq] at hoc
              subst hoc
              rw [hp1] at hp
              simp only [Option.some.injEq] at hp
              exact hPp hp.symm
    · simp at h

/-- Every store that the tree surgery reaches has the ownership invariant. -/
theorem Store.Owned_of_Reachable (guarded : Bool) (s : Store)
    (h : Store.Reachable guarded s) : Store.Owned s := by
  induction h with
  | empty =>
    intro P o hP
    simp [Store.empty] at hP
  | root s fresh timeline _ hfresh ih => exact Store.Owned_set_fresh s fresh _ ih hfresh rfl
  | timelines s s' _ hsk ih => exact Store.Owned_of_skeleton hsk ih
  | NewFork s s' that timeline_it fresh _ hop ih =>
    exact Store.Owned_NewFork s s' that timeline_it fresh ih hop
  | DeleteFork s s' fuel that trajectory handle _ hop ih =>
    exact Store.Owned_DeleteFork s s' fuel that trajectory handle ih hop
  | DeleteAllForksAfter s s' fuel that time _ hop ih =>
    exact Store.Owned_DeleteAllForksAfter s s' fuel that time ih hop
  | AttachForkToCopiedBegin s s' that fork _ _ hop ih =>
    exact Store.Owned_AttachForkToCopiedBegin s s' that fork ih hop
  | DetachForkWithCopiedBegin s s' that owned_this _ hop ih =>
    exact Store.Owned_DetachForkWithCopiedBegin s s' that owned_this ih hop

/-! ## The termination of `root` in the store -/

theorem Store.root_parentless (fuel : Nat) (s : Store) (a r : Nat)
    (h : s.root fuel a = some r) : ∃ o, s r = some o ∧ o.parent_ = none := by
  induction fuel generalizing a with
  | zero => simp [Store.root] at h
  | succ n ih =>
    simp only [Store.root] at h
    cases ha : s a with
    | none => simp [ha] at h
    | some o =>
      simp only [ha] at h
      cases hp : o.parent_ with
      | none =>
        simp only [hp, Option.some.injEq] at h
        subst h
        exact ⟨o, ha, hp⟩
      | some p =>
        simp only [hp] at h
        exact ih p h

theorem Store.root_succ (fuel : Nat) (s : Store) (a r : Nat) (h : s.root fuel a = some r) :
    s.root (fuel + 1) a = some r := by
  induction fuel generalizing a with
  | zero => simp [Store.root] at h
  | succ n ih =>
    rw [Store.root] at h ⊢
    cases ha : s a with
    | none => simp [ha] at h
    | some o =>
      simp only [ha] at h ⊢
      cases hp : o.parent_ with
      | none => simpa [hp] using h
      | some p =>
        simp only [hp] at h ⊢
        exact ih p h

theorem Store.root_mono (fuel n : Nat) (s : Store) (a r : Nat) (h : s.root fuel a = some r) :
    s.root (fuel + n) a = some r := by
  induction n with
  | zero => exact h
  | succ m ih => exact Store.root_succ _ s a r ih

/-- The loop of `root` goes the same way in a store whose objects have the
same parents. -/
theorem Store.root_congr (s s' : Store)
    (hframe : ∀ x o, s x = some o → ∃ o', s' x = some o' ∧ o'.parent_ = o.parent_)
    (fuel : Nat) (a r : Nat) (h : s.root fuel a = some r) : s'.root fuel a = some r := by
  induction fuel generalizing a with
  | zero => simp [Store.root] at h
  | succ n ih =>
    rw [Store.root] at h ⊢
    cases ha : s a with
    | none => simp [ha] at h
    | some o =>
      obtain ⟨o', ho', hp'⟩ := hframe a o ha
      simp only [ha] at h
      simp only [ho', hp']
      cases hp : o.parent_ with
      | none => simpa [hp] using h
      | some p =>
        simp only [hp] at h ⊢
        exact ih p h

/-- After a root `fork` got a parent, the loop of `root` goes the same way
from the objects whose root is not `fork`. -/
theorem Store.root_avoid (s s' : Store) (fork : Nat) (fo : Object) (hfork : s fork = some fo)
    (hroot : fo.parent_ = none)
    (hframe : ∀ x, x ≠ fork → ∀ o, s x = some o → ∃ o', s' x = some o' ∧ o'.parent_ = o.parent_)
    (fuel : Nat) (a r : Nat) (h : s.root fuel a = some r) (hr : r ≠ fork) :
    s'.root fuel a = some r := by
  induction fuel generalizing a with
  | zero => simp [Store.root] at h
  | succ n ih =>
    rw [Store.root] at h ⊢
    by_cases haf : a = fork
    · subst haf
      simp only [hfork, hroot, Option.some.injEq] at h
      exact absurd h.symm hr
    · cases ha : s a with
      | none => simp [ha] at h
      | some o =>
        obtain ⟨o', ho', hp'⟩ := hframe a haf o ha
        simp only [ha] at h
        simp only [ho', hp']
        cases hp : o.parent_ with
        | none => simpa [hp] using h
        | some p =>
          simp only [hp] at h ⊢
          exact ih p h

/-- After the root `fork` got the parent `that`, the loop of `root` from an
object whose root was `fork` goes on to the root of `that`. -/
theorem Store.root_through (s s' : Store) (that fork : Nat) (fo' : Object)
    (hfork' : s' fork = some fo')
    (hparent : fo'.parent_ = some that)
    (hframe : ∀ x, x ≠ fork → ∀ o, s x = some o → ∃ o', s' x = some o' ∧ o'.parent_ = o.parent_)
    (fuel2 r2 : Nat) (h2 : s'.root fuel2 that = some r2)
    (fuel : Nat) (a : Nat) (h : s.root fuel a = some fork) :
    s'.root (fuel + fuel2) a = some r2 := by
  induction fuel generalizing a with
  | zero => simp [Store.root] at h
  | succ n ih =>
    rw [Store.root] at h
    have e : n + 1 + fuel2 = (n + fuel2) + 1 := by omega
    rw [e, Store.root]
    by_cases haf : a = fork
    · subst haf
      simp only [hfork', hparent]
      have := Store.root_mono fuel2 n s' that r2 h2
      rw [Nat.add_comm] at this
      exact this
    · cases ha : s a with
      | none => simp [ha] at h
      | some o =>
        obtain ⟨o', ho', hp'⟩ := hframe a haf o ha
        simp only [ha] at h
        simp only [ho', hp']
        cases hp : o.parent_ with
        | none =>
          simp only [hp, Option.some.injEq] at h
          exact absurd h haf
        | some p =>
          simp only [hp] at h ⊢
          exact ih p h

/-- After the parent of `that` is cleared, the loop of `root` still
returns. -/
theorem Store.root_cut (s s' : Store) (that : Nat) (o2 : Object) (hthat : s' that = some o2)
    (hroot : o2.parent_ = none)
    (hframe : ∀ x, x ≠ that → ∀ o, s x = some o → ∃ o', s' x = some o' ∧ o'.parent_ = o.parent_)
    (fuel : Nat) (a r : Nat) (h : s.root fuel a = some r) : ∃ r', s'.root fuel a = some r' := by
  induction fuel generalizing a with
  | zero => simp [Store.root] at h
  | succ n ih =>
    rw [Store.root] at h
    rw [Store.root]
    by_cases hat : a = that
    · subst hat
      simp [hthat, hroot]
    · cases ha : s a with
      | none => simp [ha] at h
      | some o =>
        obtain ⟨o', ho', hp'⟩ := hframe a hat o ha
        simp only [ha] at h
        simp only [ho', hp']
        cases hp : o.parent_ with
        | none => exact ⟨a, rfl⟩
        | some p =>
          simp only [hp] at h ⊢
          exact ih p h

theorem Store.parent_of_skeleton {s s' : Store}
    (h : ∀ a, (s' a).map Object.skeleton = (s a).map Object.skeleton) (x : Nat) (o : Object)
    (hx : s x = some o) : ∃ o', s' x = some o' ∧ o'.parent_ = o.parent_ := by
  obtain ⟨o', ho', hsk⟩ := Store.skeleton_lookup (Store.skeleton_symm h) hx
  refine ⟨o', ho', ?_⟩
  have := congrArg (fun x => x.1) hsk
  simpa [Object.skeleton] using this

theorem Store.frame_set (s : Store) (a : Nat) (o o' : Object) (ha : s a = some o)
    (hp : o'.parent_ = o.parent_) :
    (∀ x ox, s x = some ox → ∃ ox', (s.set a o') x = some ox' ∧ ox'.parent_ = ox.parent_) ∧
      ∀ x ox', (s.set a o') x = some ox' → ∃ ox, s x = some ox := by
  refine ⟨?_, ?_⟩
  · intro x ox hx
    by_cases hxa : x = a
    · subst hxa
      rw [ha] at hx
      simp only [Option.some.injEq] at hx
      subst hx
      exact ⟨o', Store.set_same _ _ _, hp⟩
    · exact ⟨ox, by rw [Store.set_other _ _ _ _ hxa]; exact hx, rfl⟩
  · intro x ox' hx
    by_cases hxa : x = a
    · subst hxa
      exact ⟨o, ha⟩
    · rw [Store.set_other _ _ _ _ hxa] at hx
      exact ⟨ox', hx⟩

/-- The loop of `root` returns from every object of a store when it did so
before a call that changed no parent and made no object. -/
theorem Store.rooted_of_frame (s s' : Store)
    (hframe : ∀ x o, s x = some o → ∃ o', s' x = some o' ∧ o'.parent_ = o.parent_)
    (hdom : ∀ x o', s' x = some o' → ∃ o, s x = some o)
    (h : ∀ a o, s a = some o → ∃ fuel r, s.root fuel a = some r) :
    ∀ a o, s' a = some o → ∃ fuel r, s'.root fuel a = some r := by
  intro a o' ha
  obtain ⟨o, ho⟩ := hdom a o' ha
  obtain ⟨fuel, r, hr⟩ := h a o ho
  exact ⟨fuel, r, Store.root_congr s s' hframe fuel a r hr⟩

theorem Store.rooted_NewFork (s s' : Store) (that timeline_it fresh : Nat)
    (hop : s.NewFork that timeline_it fresh = some s')
    (h : ∀ a o, s a = some o → ∃ fuel r, s.root fuel a = some r) :
    ∀ a o, s' a = some o → ∃ fuel r, s'.root fuel a = some r := by
  unfold Store.NewFork at hop
  cases hthat : s that with
  | none => simp [hthat] at hop
  | some o =>
    cases hfresh : s fresh with
    | some _ => simp [hthat, hfresh] at hop
    | none =>
      simp only [hthat, hfresh] at hop
      split at hop
      · simp at hop
      · rename_i time _
        simp only [Option.some.injEq] at hop
        have hne : that ≠ fresh := by
          intro e
          rw [e, hfresh] at hthat
          simp at hthat
        have hframe : ∀ x ox, s x = some ox →
            ∃ ox', s' x = some ox' ∧ ox'.parent_ = ox.parent_ := by
          intro x ox hx
          have hxf : x ≠ fresh := by
            intro e
            rw [e, hfresh] at hx
            simp at hx
          rw [← hop]
          by_cases hxt : x = that
          · subst hxt
            rw [hthat] at hx
            simp only [Option.some.injEq] at hx
            subst hx
            exact ⟨{ o with children_ := Store.emplace time fresh o.children_ },
              by simp [Store.set, hxf], rfl⟩
          · exact ⟨ox, by simp [Store.set, hxf, hxt, hx], rfl⟩
        intro a oa ha
        by_cases haf : a = fresh
        · subst haf
          obtain ⟨fuel, r, hr⟩ := h that o hthat
          refine ⟨fuel + 1, r, ?_⟩
          have hr' := Store.root_congr s s' hframe fuel that r hr
          have hs'a : s' a = some ⟨some that, some a, some timeline_it, [], []⟩ := by
            rw [← hop]
            simp [Store.set]
          rw [Store.root]
          simp only [hs'a]
          exact hr'
        · have hsa : ∃ ox, s a = some ox := by
            rw [← hop] at ha
            by_cases hat : a = that
            · subst hat
              exact ⟨o, hthat⟩
            · simp only [Store.set, haf, hat, if_false] at ha
              exact ⟨oa, ha⟩
          obtain ⟨ox, hox⟩ := hsa
          obtain ⟨fuel, r, hr⟩ := h a ox hox
          exact ⟨fuel, r, Store.root_congr s s' hframe fuel a r hr⟩

theorem Store.rooted_DeleteFork (s s' : Store) (fuel that : Nat)
    (trajectory handle : Option Nat)
    (hop : s.DeleteFork fuel that trajectory = some (s', handle))
    (h : ∀ a o, s a = some o → ∃ fuel r, s.root fuel a = some r) :
    ∀ a o, s' a = some o → ∃ fuel r, s'.root fuel a = some r := by
  unfold Store.DeleteFork at hop
  split at hop
  · simp at hop
  · split at hop
    · simp at hop
    · split at hop
      · rename_i time o htime hthat
        split at hop
        · simp at hop
        · rename_i children hloop
          simp only [Option.some.injEq, Prod.mk.injEq] at hop
          rw [← hop.1]
          obtain ⟨h1, h2⟩ := Store.frame_set s that o { o with children_ := children } hthat rfl
          exact Store.rooted_of_frame s _ h1 h2 h
      · simp at hop

theorem Store.rooted_DeleteAllForksAfter (s s' : Store) (fuel that : Nat) (time : Instant)
    (hop : s.DeleteAllForksAfter fuel that time = some s')
    (h : ∀ a o, s a = some o → ∃ fuel r, s.root fuel a = some r) :
    ∀ a o, s' a = some o → ∃ fuel r, s'.root fuel a = some r := by
  unfold Store.DeleteAllForksAfter at hop
  cases hthat : s that with
  | none => simp [hthat] at hop
  | some o =>
    have hs' : s' = s.set that
        { o with
          children_ := o.children_.take (o.children_.findIdx (fun e => decide (time < e.1))) } := by
      simp only [hthat] at hop
      split at hop
      · exact (Option.some.inj hop).symm
      · split at hop
        · simp at hop
        · split at hop
          · simp at hop
          · split at hop
            · exact (Option.some.inj hop).symm
            · simp at hop
    rw [hs']
    obtain ⟨h1, h2⟩ := Store.frame_set s that o
      { o with
        children_ := o.children_.take (o.children_.findIdx (fun e => decide (time < e.1))) }
      hthat rfl
    exact Store.rooted_of_frame s _ h1 h2 h

theorem Store.rooted_AttachForkToCopiedBegin (s s' : Store) (that fork : Nat)
    (hguard : ∀ fuel, s.root fuel that ≠ some fork)
    (hop : s.AttachForkToCopiedBegin that fork = some s')
    (h : ∀ a o, s a = some o → ∃ fuel r, s.root fuel a = some r) :
    ∀ a o, s' a = some o → ∃ fuel r, s'.root fuel a = some r := by
  unfold Store.AttachForkToCopiedBegin at hop
  cases hfork : s fork with
  | none => simp [hfork] at hop
  | some fo =>
    simp only [hfork] at hop
    split at hop
    · simp at hop
    · rename_i hroot
      have hforoot : fo.parent_ = none := by simpa using hroot
      split at hop
      · simp at hop
      · rename_i time ts htl
        split at hop
        · simp at hop
        · rename_i s1 hmove
          split at hop
          · simp at hop
          · rename_i o hthat
            split at hop
            · rename_i fo2 o2 hfo2 ho2
              simp only [Option.some.injEq] at hop
              have hsk := Store.move_forks_skeleton _ _ _ _ _ hmove
              obtain ⟨othat, hothat, _⟩ := Store.skeleton_lookup hsk hthat
              have hframe : ∀ x, x ≠ fork → ∀ ox, s x = some ox →
                  ∃ ox', s' x = some ox' ∧ ox'.parent_ = ox.parent_ := by
                intro x hx ox hox
                obtain ⟨ox1, hox1, hp1⟩ := Store.parent_of_skeleton hsk x ox hox
                rw [← hop, Store.set_other _ _ _ _ hx]
                by_cases hxt : x = that
                · subst hxt
                  rw [hthat] at hox1
                  simp only [Option.some.injEq] at hox1
                  subst hox1
                  exact ⟨_, Store.set_same _ _ _, hp1⟩
                · exact ⟨ox1, by rw [Store.set_other _ _ _ _ hxt]; exact hox1, hp1⟩
              have hfork' : ∃ fo', s' fork = some fo' ∧ fo'.parent_ = some that := by
                rw [← hop]
                exact ⟨_, Store.set_same _ _ _, rfl⟩
              obtain ⟨fo', hfo', hparent⟩ := hfork'
              have hdom : ∀ x ox', s' x = some ox' → ∃ ox, s x = some ox := by
                intro x ox' hx
                by_cases hxf : x = fork
                · subst hxf
                  exact ⟨fo, hfork⟩
                · rw [← hop, Store.set_other _ _ _ _ hxf] at hx
                  by_cases hxt : x = that
                  · subst hxt
                    exact ⟨othat, hothat⟩
                  · rw [Store.set_other _ _ _ _ hxt] at hx
                    obtain ⟨ox, hox, _⟩ := Store.skeleton_lookup hsk hx
                    exact ⟨ox, hox⟩
              obtain ⟨fuel0, r0, hr0⟩ := h that othat hothat
              have hr0' := Store.root_avoid s s' fork fo hfork hforoot hframe fuel0 that r0 hr0
                (fun e => hguard fuel0 (by rw [hr0, e]))
              intro a oa ha
              obtain ⟨ox, hox⟩ := hdom a oa ha
              obtain ⟨fuel, r, hr⟩ := h a ox hox
              by_cases hrf : r = fork
              · subst hrf
                exact ⟨fuel + fuel0, r0, Store.root_through s s' that r fo' hfo' hparent hframe
                  fuel0 r0 hr0' fuel a hr⟩
              · exact ⟨fuel, r, Store.root_avoid s s' fork fo hfork hforoot hframe fuel a r hr hrf⟩
            · simp at hop

theorem Store.rooted_DetachForkWithCopiedBegin (s s' : Store) (that owned_this : Nat)
    (hop : s.DetachForkWithCopiedBegin that = some (s', owned_this))
    (h : ∀ a o, s a = some o → ∃ fuel r, s.root fuel a = some r) :
    ∀ a o, s' a = some o → ∃ fuel r, s'.root fuel a = some r := by
  unfold Store.DetachForkWithCopiedBegin at hop
  cases hthat : s that with
  | none => simp [hthat] at hop
  | some o =>
    simp only [hthat] at hop
    split at hop
    · rename_i parent entry hparent hentry
      split at hop
      · simp at hop
      · rename_i s1 hmove
        split at hop
        · simp at hop
        · rename_i po hpo
          split at hop
          · simp at hop
          · rename_i o2 ho2
            simp only [Option.some.injEq, Prod.mk.injEq] at hop
            have hsk := Store.move_forks_skeleton _ _ _ _ _ hmove
            obtain ⟨opar, hopar, _⟩ := Store.skeleton_lookup hsk hpo
            have hframe : ∀ x, x ≠ that → ∀ ox, s x = some ox →
                ∃ ox', s' x = some ox' ∧ ox'.parent_ = ox.parent_ := by
              intro x hx ox hox
              obtain ⟨ox1, hox1, hp1⟩ := Store.parent_of_skeleton hsk x ox hox
              rw [← hop.1, Store.set_other _ _ _ _ hx]
              by_cases hxp : x = parent
              · subst hxp
                rw [hpo] at hox1
                simp only [Option.some.injEq] at hox1
                subst hox1
                exact ⟨_, Store.set_same _ _ _, hp1⟩
              · exact ⟨ox1, by rw [Store.set_other _ _ _ _ hxp]; exact hox1, hp1⟩
            have hthat' : ∃ o', s' that = some o' ∧ o'.parent_ = none := by
              rw [← hop.1]
              exact ⟨_, Store.set_same _ _ _, rfl⟩
            obtain ⟨o', ho', hnone⟩ := hthat'
            have hdom : ∀ x ox', s' x = some ox' → ∃ ox, s x = some ox := by
              intro x ox' hx
              by_cases hxt : x = that
              · subst hxt
                exact ⟨o, hthat⟩
              · rw [← hop.1, Store.set_other _ _ _ _ hxt] at hx
                by_cases hxp : x = parent
                · subst hxp
                  exact ⟨opar, hopar⟩
                · rw [Store.set_other _ _ _ _ hxp] at hx
                  obtain ⟨ox, hox, _⟩ := Store.skeleton_lookup hsk hx
                  exact ⟨ox, hox⟩
            intro a oa ha
            obtain ⟨ox, hox⟩ := hdom a oa ha
            obtain ⟨fuel, r, hr⟩ := h a ox hox
            obtain ⟨r', hr'⟩ := Store.root_cut s s' that o' ho' hnone hframe fuel a r hr
            exact ⟨fuel, r', hr'⟩
    · simp at hop

/-- In every store that the tree surgery reaches without attaching a root to
a trajectory of its own tree, the loop of `root` returns from every object. -/
theorem Store.rooted_of_Reachable (s : Store) (h : Store.Reachable true s) :
    ∀ a o, s a = some o → ∃ fuel r, s.root fuel a = some r := by
  induction h with
  | empty =>
    intro a o ha
    simp [Store.empty] at ha
  | root s fresh timeline _ hfresh ih =>
    intro a o ha
    by_cases haf : a = fresh
    · subst haf
      exact ⟨1, a, by simp [Store.root, Store.set]⟩
    · rw [Store.set_other _ _ _ _ haf] at ha
      obtain ⟨fuel, r, hr⟩ := ih a o ha
      refine ⟨fuel, r, Store.root_congr s _ ?_ fuel a r hr⟩
      intro x ox hx
      have hxf : x ≠ fresh := by
        intro e
        rw [e, hfresh] at hx
        simp at hx
      exact ⟨ox, by rw [Store.set_other _ _ _ _ hxf]; exact hx, rfl⟩
  | timelines s s' _ hsk ih =>
    refine Store.rooted_of_frame s s' (Store.parent_of_skeleton hsk) ?_ ih
    intro x ox' hx
    obtain ⟨ox, hox, _⟩ := Store.skeleton_lookup hsk hx
    exact ⟨ox, hox⟩
  | NewFork s s' that timeline_it fresh _ hop ih =>
    exact Store.rooted_NewFork s s' that timeline_it fresh hop ih
  | DeleteFork s s' fuel that trajectory handle _ hop ih =>
    exact Store.rooted_DeleteFork s s' fuel that trajectory handle hop ih
  | DeleteAllForksAfter s s' fuel that time _ hop ih =>
    exact Store.rooted_DeleteAllForksAfter s s' fuel that time hop ih
  | AttachForkToCopiedBegin s s' that fork _ hguard hop ih =>
    exact Store.rooted_AttachForkToCopiedBegin s s' that fork (hguard rfl) hop ih
  | DetachForkWithCopiedBegin s s' that owned_this _ hop ih =>
    exact Store.rooted_DetachForkWithCopiedBegin s s' that owned_this hop ih

theorem Store.Reachable_root_and_fork (guarded : Bool) :
    Store.Reachable guarded Store.root_and_fork := by
  have h1 : Store.Reachable guarded (Store.empty.set 0 ⟨none, none, none, [0], []⟩) :=
    Store.Reachable.root Store.empty 0 [0] Store.Reachable.empty rfl
  have h2 : ∃ s2, (Store.empty.set 0 ⟨none, none, none, [0], []⟩).NewFork 0 0 1 = some s2 ∧
      s2 = Store.root_and_fork := by
    refine ⟨_, rfl, ?_⟩
    funext a
    by_cases h0 : a = 0
    · subst h0
      rfl
    · by_cases h1 : a = 1
      · subst h1
        rfl
      · simp [Store.set, Store.empty, Store.root_and_fork, h0, h1]
  obtain ⟨s2, hs2, he⟩ := h2
  rw [← he]
  exact Store.Reachable.NewFork _ s2 0 0 1 h1 hs2

theorem Store.Attach_root_and_fork :
    Store.root_and_fork.AttachForkToCopiedBegin 1 0 = some Store.attached_to_own_fork := by
  have h : ∃ s3, Store.root_and_fork.AttachForkToCopiedBegin 1 0 = some s3 ∧
      s3 = Store.attached_to_own_fork := by
    refine ⟨_, rfl, ?_⟩
    funext a
    by_cases h0 : a = 0
    · subst h0
      rfl
    · by_cases h1 : a = 1
      · subst h1
        rfl
      · simp [Store.set, Store.root_and_fork, Store.attached_to_own_fork, h0, h1]
  obtain ⟨s3, hs3, he⟩ := h
  rw [hs3, he]

/-- C22, as stated for every sequence of calls, fails: a root with the
timeline `[0]` is forked at its first entry by `NewFork`, and the root is
attached to that fork by `AttachForkToCopiedBegin`, which checks only that it
is a root with a timeline that is not empty; afterwards each of the two
objects is the parent of the other, no object is without parent, and the loop
of `root` does not return, whatever the number of objects it may visit. -/
theorem root_does_not_return_after_attaching_to_own_fork :
    Store.Reachable false Store.attached_to_own_fork ∧
      (∀ a o, Store.attached_to_own_fork a = some o → o.parent_ ≠ none) ∧
      ∀ fuel, Store.attached_to_own_fork.root fuel 0 = none ∧
        Store.attached_to_own_fork.root fuel 1 = none := by
  refine ⟨?_, ?_, ?_⟩
  · exact Store.Reachable.AttachForkToCopiedBegin _ _ 1 0 (Store.Reachable_root_and_fork false)
      (fun h => by cases h) Store.Attach_root_and_fork
  · intro a o ha
    by_cases h0 : a = 0
    · subst h0
      simp only [Store.attached_to_own_fork, if_true, Option.some.injEq] at ha
      rw [← ha]
      simp
    · by_cases h1 : a = 1
      · subst h1
        simp only [Store.attached_to_own_fork, Option.some.injEq] at ha
        simp at ha
        rw [← ha]
        simp
      · simp [Store.attached_to_own_fork, h0, h1] at ha
  · intro fuel
    induction fuel with
    | zero => exact ⟨rfl, rfl⟩
    | succ n ih =>
      refine ⟨?_, ?_⟩
      · rw [Store.root]
        exact ih.2
      · rw [Store.root]
        exact ih.1

/-- C22, amended: in every store that the tree surgery reaches by `NewFork`,
`DeleteFork`, `DeleteAllForksAfter`, `AttachForkToCopiedBegin` and
`DetachForkWithCopiedBegin`, every pointer owned by an entry of the children
of the object at `P` points to an object whose `parent_` is `P` and whose
`position_in_parent_children_` designates that entry, and no two entries own
the same pointer; and when `AttachForkToCopiedBegin` was never applied to a
trajectory and the root of that same trajectory, `root` returns from every
object, with enough objects to visit, and returns an object without parent,
which is what `is_root` tests. -/
theorem ownership_invariant (guarded : Bool) (s : Store) (h : Store.Reachable guarded s) :
    (∀ P o, s P = some o →
        (∀ e ∈ o.children_, ∃ oc, s e.2 = some oc ∧ oc.parent_ = some P ∧
          oc.position_in_parent_children_ = some e.2) ∧
        (o.children_.map Prod.snd).Nodup) ∧
      (guarded = true → ∀ a o, s a = some o →
        ∃ fuel r ro, s.root fuel a = some r ∧ s r = some ro ∧ ro.parent_ = none) := by
  refine ⟨Store.Owned_of_Reachable guarded s h, ?_⟩
  intro hg a o ha
  subst hg
  obtain ⟨fuel, r, hr⟩ := Store.rooted_of_Reachable s h a o ha
  obtain ⟨ro, hro, hp⟩ := Store.root_parentless fuel s a r hr
  exact ⟨fuel, r, ro, hr, hro, hp⟩

/-- Witness for the amended C22: the store with a root and its fork. -/
theorem ownership_invariant_witness :
    (∀ P o, Store.root_and_fork P = some o →
        (∀ e ∈ o.children_, ∃ oc, Store.root_and_fork e.2 = some oc ∧ oc.parent_ = some P ∧
          oc.position_in_parent_children_ = some e.2) ∧
        (o.children_.map Prod.snd).Nodup) ∧
      (true = true → ∀ a o, Store.root_and_fork a = some o →
        ∃ fuel r ro, Store.root_and_fork.root fuel a = some r ∧
          Store.root_and_fork r = some ro ∧ ro.parent_ = none) :=
  ownership_invariant true Store.root_and_fork (Store.Reachable_root_and_fork true)

/-! ## Comparison of iterators, and the consistency of the searches -/

/-- C34 fails on the code: in the first scenario at the times 0 to 5,
`Find(C, 2)` is not `end(C)`, it is the iterator with ancestry `[root, C]` on
the entry of the root at 2, after the fork point of `C`; `LowerBound(C, 2)` is
the iterator with ancestry `[C]` on the entry of `C` at 4, the first entry of
the sequence of `C` at or after 2; the two do not compare equal. -/
theorem Find_and_LowerBound_after_fork_point :
    (fork [4, 5] (root [0, 1, 2, 3]) 1 1).WellFormed ∧
      (fork [4, 5] (root [0, 1, 2, 3]) 1 1).Find 2 =
        some ⟨[root [0, 1, 2, 3], fork [4, 5] (root [0, 1, 2, 3]) 1 1], 2⟩ ∧
      (fork [4, 5] (root [0, 1, 2, 3]) 1 1).end_ =
        some ⟨[fork [4, 5] (root [0, 1, 2, 3]) 1 1], 2⟩ ∧
      (∀ debug, It3rator.eq debug
        (It3rator.members Forkable.depth
          ⟨[root [0, 1, 2, 3], fork [4, 5] (root [0, 1, 2, 3]) 1 1], 2⟩)
        (It3rator.members Forkable.depth ⟨[fork [4, 5] (root [0, 1, 2, 3]) 1 1], 2⟩) =
          some false) ∧
      (fork [4, 5] (root [0, 1, 2, 3]) 1 1).LowerBound 2 =
        some ⟨[fork [4, 5] (root [0, 1, 2, 3]) 1 1], 0⟩ ∧
      It3rator.deref ⟨[fork [4, 5] (root [0, 1, 2, 3]) 1 1], 0⟩ = some 4 ∧
      (∀ debug, It3rator.eq debug
        (It3rator.members Forkable.depth ⟨[fork [4, 5] (root [0, 1, 2, 3]) 1 1], 0⟩)
        (It3rator.members Forkable.depth
          ⟨[root [0, 1, 2, 3], fork [4, 5] (root [0, 1, 2, 3]) 1 1], 2⟩) = some false) ∧
      ((fork [4, 5] (root [0, 1, 2, 3]) 1 1).traversal 5).map (List.map It3rator.deref) =
        some [some 0, some 1, some 4, some 5] := by
  decide

/-! ## The iterators of a trajectory -/

theorem chain_parent_cons (tl : List Instant) (p : Forkable) (k : Instant) (pos : Nat)
    (anc : List Forkable)
    (h : List.Chain' (fun a b : Forkable => b.parent_ = some a) (fork tl p k pos :: anc)) :
    List.Chain' (fun a b : Forkable => b.parent_ = some a) (p :: fork tl p k pos :: anc) :=
  List.Chain'.cons rfl h

theorem getLast?_cons_cons {α : Type} (a b : α) (l : List α) :
    (a :: b :: l).getLast? = (b :: l).getLast? := by
  simp [List.getLast?_cons_cons]

theorem of_trajectory_suffix (N : Forkable) (pre : List Forkable) (a : Forkable)
    (rest : List Forkable) (pos : Nat)
    (hlast : (pre ++ a :: rest).getLast? = some N)
    (hchain : List.Chain' (fun a b : Forkable => b.parent_ = some a) (pre ++ a :: rest))
    (hpos : pos ≤ a.timeline_end) : It3rator.of_trajectory N ⟨a :: rest, pos⟩ := by
  refine ⟨?_, ?_, ?_⟩
  · rw [List.getLast?_append_of_ne_nil _ (by simp)] at hlast
    exact hlast
  · exact (List.chain'_append.mp hchain).2.1
  · intro front hf
    simp only [List.head?_cons, Option.mem_def, Option.some.injEq] at hf
    subst hf
    exact hpos

theorem of_trajectory_NormalizeIfEnd (N : Forkable) (it c : It3rator)
    (h : It3rator.of_trajectory N it) (hc : it.NormalizeIfEnd = some c) :
    It3rator.of_trajectory N c := by
  obtain ⟨h1, h2, h3⟩ := h
  unfold It3rator.NormalizeIfEnd at hc
  split at hc
  · simp at hc
  · rename_i front rest hanc
    split at hc
    · simp only [Option.some.injEq] at hc
      subst hc
      have hback : (front :: rest).getLast (List.cons_ne_nil front rest) = N := by
        rw [hanc, List.getLast?_eq_getLast _ (List.cons_ne_nil front rest)] at h1
        exact Option.some.inj h1
      rw [hback]
      refine ⟨rfl, by simp, ?_⟩
      intro f hf
      simp only [List.head?_cons, Option.mem_def, Option.some.injEq] at hf
      subst hf
      exact Nat.le_refl _
    · simp only [Option.some.injEq] at hc
      subst hc
      exact ⟨h1, h2, h3⟩

theorem of_trajectory_CheckNormalizedIfEnd (N : Forkable) (it c : It3rator)
    (h : It3rator.of_trajectory N it) (hc : it.CheckNormalizedIfEnd = some c) :
    It3rator.of_trajectory N c := by
  rw [CheckNormalizedIfEnd_eq_some hc]
  exact h

theorem of_trajectory_Find_loop (N : Forkable) (t : Instant) (a : Forkable)
    (anc : List Forkable) (hlast : (a :: anc).getLast? = some N)
    (hchain : List.Chain' (fun a b : Forkable => b.parent_ = some a) (a :: anc)) :
    It3rator.of_trajectory N (Find.loop t a anc) := by
  induction a generalizing anc with
  | root tl =>
    unfold Find.loop
    split
    · exact of_trajectory_suffix N [] _ anc _ hlast hchain
        (by simpa [Forkable.timeline_find, Forkable.timeline_end] using List.indexOf_le_length)
    · exact of_trajectory_suffix N [] _ anc _ hlast hchain (Nat.le_refl _)
  | fork tl p k pos ih =>
    unfold Find.loop
    split
    · exact of_trajectory_suffix N [] _ anc _ hlast hchain
        (by simpa [Forkable.timeline_find, Forkable.timeline_end] using List.indexOf_le_length)
    · exact ih _ (by rw [getLast?_cons_cons]; exact hlast) (chain_parent_cons _ _ _ _ _ hchain)

theorem descend_eq (otherwise : It3rator) (anc : List Forkable) (fps : List (Option Nat))
    (c : It3rator) (h : LowerBound.descend otherwise anc fps = some c) :
    c = otherwise ∨ ∃ pre a rest, anc = pre ++ a :: rest ∧ c = ⟨a :: rest, 0⟩ := by
  induction anc generalizing fps with
  | nil =>
    cases fps with
    | nil =>
      simp only [LowerBound.descend, Option.some.injEq] at h
      exact Or.inl h.symm
    | cons _ _ => simp [LowerBound.descend] at h
  | cons a anc ih =>
    cases fps with
    | nil => simp [LowerBound.descend] at h
    | cons fp fps =>
      unfold LowerBound.descend at h
      split at h
      · simp only [Option.some.injEq] at h
        exact Or.inr ⟨[], a, anc, rfl, h.symm⟩
      · rcases ih fps h with h1 | ⟨pre, b, rest, h1, h2⟩
        · exact Or.inl h1
        · exact Or.inr ⟨a :: pre, b, rest, by rw [h1]; rfl, h2⟩

theorem of_trajectory_LowerBound_loop (N : Forkable) (t : Instant) (a : Forkable)
    (anc : List Forkable) (fps : List (Option Nat)) (c : It3rator)
    (hlast : (a :: anc).getLast? = some N)
    (hchain : List.Chain' (fun a b : Forkable => b.parent_ = some a) (a :: anc))
    (h : LowerBound.loop t a anc fps = some c) : It3rator.of_trajectory N c := by
  induction a generalizing anc fps with
  | root tl =>
    unfold LowerBound.loop at h
    split at h
    · simp only at h
      split at h
      · simp at h
      · split at h
        · simp at h
        · rcases descend_eq _ _ _ _ h with h1 | ⟨pre, b, rest, h1, h2⟩
          · rw [h1]
            exact of_trajectory_suffix N [] _ anc _ hlast hchain (Nat.le_refl _)
          · rw [h2]
            refine of_trajectory_suffix N (root tl :: pre) b rest 0 ?_ ?_ (Nat.zero_le _)
            · rw [List.cons_append, ← h1]
              exact hlast
            · rw [List.cons_append, ← h1]
              exact hchain
        · simp only [Option.some.injEq] at h
          rw [← h]
          exact of_trajectory_suffix N [] _ anc _ hlast hchain (lower_bound_le _ _)
    · simp only [Option.some.injEq] at h
      rw [← h]
      exact of_trajectory_suffix N [] _ anc _ hlast hchain (Nat.zero_le _)
  | fork tl p k pos ih =>
    unfold LowerBound.loop at h
    split at h
    · simp only at h
      split at h
      · simp at h
      · split at h
        · simp at h
        · rcases descend_eq _ _ _ _ h with h1 | ⟨pre, b, rest, h1, h2⟩
          · rw [h1]
            exact of_trajectory_suffix N [] _ anc _ hlast hchain (Nat.le_refl _)
          · rw [h2]
            refine of_trajectory_suffix N (fork tl p k pos :: pre) b rest 0 ?_ ?_ (Nat.zero_le _)
            · rw [List.cons_append, ← h1]
              exact hlast
            · rw [List.cons_append, ← h1]
              exact hchain
        · simp only [Option.some.injEq] at h
          rw [← h]
          exact of_trajectory_suffix N [] _ anc _ hlast hchain (lower_bound_le _ _)
    · exact ih _ _ (by rw [getLast?_cons_cons]; exact hlast)
        (chain_parent_cons _ _ _ _ _ hchain) h

theorem of_trajectory_Wrap_loop (N : Forkable) (A : Forkable) (q : Nat) (X : Forkable)
    (acc : List Forkable) (c : It3rator) (hq : q ≤ A.timeline_end)
    (hlast : (X :: acc).getLast? = some N)
    (hchain : List.Chain' (fun a b : Forkable => b.parent_ = some a) (X :: acc))
    (h : Wrap.loop A q X acc = some c) : It3rator.of_trajectory N c := by
  induction X generalizing acc with
  | root tl =>
    unfold Wrap.loop at h
    split at h
    · rename_i heq
      rw [CheckNormalizedIfEnd_eq_some h]
      exact of_trajectory_suffix N [] _ acc _ hlast hchain (by rw [← heq]; exact hq)
    · simp at h
  | fork tl p k pos ih =>
    unfold Wrap.loop at h
    split at h
    · rename_i heq
      rw [CheckNormalizedIfEnd_eq_some h]
      exact of_trajectory_suffix N [] _ acc _ hlast hchain (by rw [← heq]; exact hq)
    · exact ih _ (by rw [getLast?_cons_cons]; exact hlast)
        (chain_parent_cons _ _ _ _ _ hchain) h

theorem skip_forks_suffix (t : Instant) (child : Forkable) (others : List Forkable)
    (c : It3rator) (h : It3rator.skip_forks t child others = some c) :
    ∃ pre a rest, child :: others = pre ++ a :: rest ∧ c = ⟨a :: rest, 0⟩ := by
  induction others generalizing child with
  | nil =>
    simp only [It3rator.skip_forks, Option.some.injEq] at h
    exact ⟨[], child, [], rfl, h.symm⟩
  | cons next rest ih =>
    unfold It3rator.skip_forks at h
    split at h
    · simp at h
    · split at h
      · obtain ⟨pre, a, r, h1, h2⟩ := ih next h
        exact ⟨child :: pre, a, r, by rw [h1]; rfl, h2⟩
      · simp only [Option.some.injEq] at h
        exact ⟨[], child, next :: rest, rfl, h.symm⟩

theorem of_trajectory_increment (N : Forkable) (it c : It3rator)
    (h : It3rator.of_trajectory N it) (hc : it.increment = some c) :
    It3rator.of_trajectory N c := by
  obtain ⟨anc, cur⟩ := it
  obtain ⟨h1, h2, h3⟩ := h
  simp only at h1 h2 h3
  cases anc with
  | nil => simp [It3rator.increment] at hc
  | cons front rest =>
    have hle : cur ≤ front.timeline_end := h3 front rfl
    unfold It3rator.increment at hc
    simp only at hc
    split at hc
    · simp at hc
    · rename_i hne
      have hsucc : cur + 1 ≤ front.timeline_end := by omega
      have hstep : It3rator.of_trajectory N ⟨front :: rest, cur + 1⟩ :=
        of_trajectory_suffix N [] front rest _ h1 h2 hsucc
      cases rest with
      | nil =>
        simp only at hc
        rw [CheckNormalizedIfEnd_eq_some hc]
        exact hstep
      | cons child others =>
        simp only at hc
        split at hc
        · split at hc
          · obtain ⟨r, hs, hr⟩ := Option.bind_eq_some.mp hc
            · rw [CheckNormalizedIfEnd_eq_some hr]
              obtain ⟨pre, a, r2, e1, e2⟩ := skip_forks_suffix _ _ _ _ hs
              rw [e2]
              refine of_trajectory_suffix N (front :: pre) a r2 0 ?_ ?_ (Nat.zero_le _)
              · rw [List.cons_append, ← e1]
                exact h1
              · rw [List.cons_append, ← e1]
                exact h2
          · rw [CheckNormalizedIfEnd_eq_some hc]
            exact hstep
        · simp at hc

theorem Positioned_of_Linked (N : Forkable) (h : Forkable.Linked N) : N.Positioned := by
  induction N with
  | root tl => trivial
  | fork tl p k pos ih =>
    refine ⟨ih h.1, ?_⟩
    rcases h.2 with hl | ⟨hl, _⟩
    · simp only [Forkable.time] at hl
      exact le_of_lt (List.getElem?_eq_some_iff.mp hl).1
    · exact le_of_eq hl

/-- The trajectories of a chain of parents that ends at a trajectory whose
fork points are positions have fork points that are positions. -/
theorem Positioned_of_chain (N : Forkable) (hN : N.Positioned) (a : Forkable)
    (rest : List Forkable) (hlast : (a :: rest).getLast? = some N)
    (hchain : List.Chain' (fun a b : Forkable => b.parent_ = some a) (a :: rest)) :
    a.Positioned := by
  induction rest generalizing a with
  | nil =>
    simp only [List.getLast?_singleton, Option.some.injEq] at hlast
    rw [hlast]
    exact hN
  | cons b r ih =>
    have hb : b.Positioned :=
      ih b (by rw [getLast?_cons_cons] at hlast; exact hlast) (List.Chain'.tail hchain)
    have hpar : b.parent_ = some a := (List.chain'_cons.mp hchain).1
    cases b with
    | root _ => simp [Forkable.parent_] at hpar
    | fork tl p k pos =>
      simp only [Forkable.parent_, Option.some.injEq] at hpar
      subst hpar
      exact hb.1

/-- The trajectories of a chain of parents that ends at a linked trajectory
are linked. -/
theorem Linked_of_chain (N : Forkable) (hN : Forkable.Linked N) (a : Forkable)
    (rest : List Forkable) (hlast : (a :: rest).getLast? = some N)
    (hchain : List.Chain' (fun a b : Forkable => b.parent_ = some a) (a :: rest)) :
    Forkable.Linked a := by
  induction rest generalizing a with
  | nil =>
    simp only [List.getLast?_singleton, Option.some.injEq] at hlast
    rw [hlast]
    exact hN
  | cons b r ih =>
    have hb : Forkable.Linked b :=
      ih b (by rw [getLast?_cons_cons] at hlast; exact hlast) (List.Chain'.tail hchain)
    have hpar : b.parent_ = some a := (List.chain'_cons.mp hchain).1
    cases b with
    | root _ => simp [Forkable.parent_] at hpar
    | fork tl p k pos =>
      simp only [Forkable.parent_, Option.some.injEq] at hpar
      subst hpar
      exact hb.1

/-- The iterator that the loop of `operator--` returns is an iterator of the
trajectory; it is on an entry or at the end of the timeline of a root. -/
theorem of_trajectory_climb (N : Forkable) (a : Forkable) (rest : List Forkable)
    (c : It3rator) (ha : a.Positioned) (hlast : (a :: rest).getLast? = some N)
    (hchain : List.Chain' (fun a b : Forkable => b.parent_ = some a) (a :: rest))
    (hc : It3rator.climb a (a :: rest) = some c) :
    It3rator.of_trajectory N c ∧
      (c.on_entry ∨ ∃ tl tl2 k others,
        c.ancestry_ = root tl :: fork tl2 (root tl) k (root tl).timeline_end :: others ∧
        c.current_ = (root tl).timeline_end) := by
  induction a generalizing rest with
  | root tl => simp [It3rator.climb] at hc
  | fork tl p k pos ih =>
    unfold It3rator.climb at hc
    split at hc
    · exact ih _ ha.1 (by rw [getLast?_cons_cons]; exact hlast)
        (chain_parent_cons _ _ _ _ _ hchain) hc
    · rename_i hcond
      simp only [Option.some.injEq] at hc
      subst hc
      refine ⟨of_trajectory_suffix N [] p _ pos
        (by rw [List.nil_append, getLast?_cons_cons]; exact hlast)
        (chain_parent_cons _ _ _ _ _ hchain) ha.2, ?_⟩
      by_cases hend : pos = p.timeline_end
      · right
        cases p with
        | root tl2 =>
          subst hend
          exact ⟨tl2, tl, k, rest, rfl, rfl⟩
        | fork _ _ _ _ => exact absurd ⟨hend, rfl⟩ hcond
      · left
        exact ⟨p, _, rfl, lt_of_le_of_ne ha.2 hend⟩

/-- The iterator that the loop of `operator--` returns in a linked trajectory
is on an entry. -/
theorem climb_on_entry (a : Forkable) (anc : List Forkable) (c : It3rator)
    (ha : Forkable.Linked a) (hc : It3rator.climb a anc = some c) : c.on_entry := by
  induction a generalizing anc with
  | root tl => simp [It3rator.climb] at hc
  | fork tl p k pos ih =>
    unfold It3rator.climb at hc
    split at hc
    · exact ih _ ha.1 hc
    · rename_i hcond
      simp only [Option.some.injEq] at hc
      subst hc
      refine ⟨p, _, rfl, ?_⟩
      rcases ha.2 with hl | ⟨hl, hk⟩
      · simp only [Forkable.time] at hl
        exact (List.getElem?_eq_some_iff.mp hl).1
      · exfalso
        apply hcond
        refine ⟨hl, ?_⟩
        cases p with
        | root _ => simp [Forkable.fork_time] at hk
        | fork _ _ _ _ => rfl

theorem climb_isSome (tl : List Instant) (p : Forkable) (k : Instant) (pos : Nat)
    (anc : List Forkable) : ∃ c, It3rator.climb (fork tl p k pos) anc = some c := by
  induction p generalizing tl k pos anc with
  | root tl2 => simp [It3rator.climb, Forkable.is_root]
  | fork tl2 p2 k2 pos2 ih =>
    unfold It3rator.climb
    split
    · exact ih tl2 k2 pos2 _
    · exact ⟨_, rfl⟩

theorem of_trajectory_decrement (N : Forkable) (hN : N.Positioned) (it c : It3rator)
    (h : It3rator.of_trajectory N it) (hc : it.decrement = some c) :
    It3rator.of_trajectory N c ∧
      (c.on_entry ∨ ∃ tl tl2 k others,
        c.ancestry_ = root tl :: fork tl2 (root tl) k (root tl).timeline_end :: others ∧
        c.current_ = (root tl).timeline_end) := by
  obtain ⟨anc, cur⟩ := it
  obtain ⟨h1, h2, h3⟩ := h
  simp only at h1 h2 h3
  cases anc with
  | nil => simp [It3rator.decrement] at hc
  | cons front rest =>
    have hle : cur ≤ front.timeline_end := h3 front rfl
    unfold It3rator.decrement at hc
    simp only at hc
    split at hc
    · exact of_trajectory_climb N front rest c (Positioned_of_chain N hN front rest h1 h2)
        h1 h2 hc
    · rename_i hne
      simp only [Option.some.injEq] at hc
      subst hc
      simp only [Forkable.timeline_begin] at hne
      simp only [Forkable.timeline_end] at hle
      exact ⟨of_trajectory_suffix N [] front rest _ h1 h2
        (by simp only [Forkable.timeline_end]; omega),
        Or.inl ⟨front, rest, rfl, by simp only; omega⟩⟩

theorem decrement_on_entry (N : Forkable) (hN : Forkable.Linked N) (it c : It3rator)
    (h : It3rator.of_trajectory N it) (hc : it.decrement = some c) : c.on_entry := by
  obtain ⟨anc, cur⟩ := it
  obtain ⟨h1, h2, h3⟩ := h
  simp only at h1 h2 h3
  cases anc with
  | nil => simp [It3rator.decrement] at hc
  | cons front rest =>
    have hle : cur ≤ front.timeline_end := h3 front rfl
    unfold It3rator.decrement at hc
    simp only at hc
    split at hc
    · exact climb_on_entry front _ c (Linked_of_chain N hN front rest h1 h2) hc
    · rename_i hne
      simp only [Option.some.injEq] at hc
      subst hc
      simp only [Forkable.timeline_begin] at hne
      simp only [Forkable.timeline_end] at hle
      exact ⟨front, rest, rfl, by simp only; omega⟩

theorem decrement_eq_none_iff (it : It3rator) :
    it.decrement = none ↔
      it.ancestry_ = [] ∨ ∃ tl rest, it.ancestry_ = root tl :: rest ∧ it.current_ = 0 := by
  obtain ⟨anc, cur⟩ := it
  cases anc with
  | nil => simp [It3rator.decrement]
  | cons front rest =>
    unfold It3rator.decrement
    simp only [Forkable.timeline_begin]
    split
    · rename_i h0
      cases front with
      | root tl => simp [It3rator.climb, h0]
      | fork tl p k pos =>
        obtain ⟨c, hc⟩ := climb_isSome tl p k pos (fork tl p k pos :: rest)
        simp [hc]
    · rename_i h0
      simp [h0]

theorem Fork_loop_position_le (N : Forkable) (hN : N.Positioned) (A : Forkable) (q : Nat)
    (h : Fork.loop N = some (A, q)) : q ≤ A.timeline_end := by
  induction N with
  | root tl => simp [Fork.loop] at h
  | fork tl p k pos ih =>
    unfold Fork.loop at h
    split at h
    · exact ih hN.1 h
    · simp only [Option.some.injEq, Prod.mk.injEq] at h
      rw [← h.1, ← h.2]
      exact hN.2

theorem of_trajectory_Fork (N : Forkable) (hN : N.Positioned) (c : It3rator)
    (h : N.Fork = some c) : It3rator.of_trajectory N c := by
  unfold Forkable.Fork at h
  split at h
  · simp at h
  · split at h
    · simp at h
    · rename_i A q hloop
      exact of_trajectory_Wrap_loop N A q N [] c (Fork_loop_position_le N hN A q hloop)
        rfl (List.chain'_singleton N) h

theorem of_trajectory_begin (N : Forkable) (c : It3rator) (h : N.begin = some c) :
    It3rator.of_trajectory N c :=
  of_trajectory_Wrap_loop N N.root_ 0 N [] c (Nat.zero_le _) rfl (List.chain'_singleton N) h

theorem of_trajectory_end (N : Forkable) (c : It3rator) (h : N.end_ = some c) :
    It3rator.of_trajectory N c := by
  unfold Forkable.end_ at h
  rw [CheckNormalizedIfEnd_eq_some h]
  exact of_trajectory_suffix N [] N [] _ rfl (List.chain'_singleton N) (Nat.le_refl _)

theorem of_trajectory_Find (N : Forkable) (t : Instant) (c : It3rator)
    (h : N.Find t = some c) : It3rator.of_trajectory N c :=
  of_trajectory_NormalizeIfEnd N _ c
    (of_trajectory_Find_loop N t N [] rfl (List.chain'_singleton N)) h

theorem of_trajectory_LowerBound (N : Forkable) (t : Instant) (c : It3rator)
    (h : N.LowerBound t = some c) : It3rator.of_trajectory N c := by
  unfold Forkable.LowerBound at h
  cases hl : LowerBound.loop t N [] [none] with
  | none => simp [hl] at h
  | some r =>
    simp only [hl, Option.some_bind] at h
    exact of_trajectory_NormalizeIfEnd N r c
      (of_trajectory_LowerBound_loop N t N [] _ r rfl (List.chain'_singleton N) hl) h

/-- Claim C35.  Every iterator that `begin`, `end`, `Find`, `LowerBound` and
`Fork` return for the trajectory `N`, and every iterator that `operator++` and
`operator--` return for an iterator of `N`, is an iterator of `N`: its
ancestry is not empty, ends with `N`, each of its elements is the parent of
the next, and its position is a position of the timeline of the front of the
ancestry, the end included.  For `Fork` and `operator--`, which read the fork
points stored in the trajectories, the fork point of each trajectory along the
ancestors of `N` is a position of the timeline of its parent, the end
included. -/
theorem iterators_are_of_trajectory (N : Forkable) :
    (∀ it, It3rator.of_trajectory N it →
      it.ancestry_ ≠ [] ∧ it.ancestry_.getLast? = some N ∧
        List.Chain' (fun a b : Forkable => b.parent_ = some a) it.ancestry_ ∧
        ∃ front rest, it.ancestry_ = front :: rest ∧ it.current_ ≤ front.timeline.length) ∧
      (∀ c, N.begin = some c → It3rator.of_trajectory N c) ∧
      (∀ c, N.end_ = some c → It3rator.of_trajectory N c) ∧
      (∀ t c, N.Find t = some c → It3rator.of_trajectory N c) ∧
      (∀ t c, N.LowerBound t = some c → It3rator.of_trajectory N c) ∧
      (∀ it c, It3rator.of_trajectory N it → it.increment = some c →
        It3rator.of_trajectory N c) ∧
      (N.Positioned →
        (∀ c, N.Fork = some c → It3rator.of_trajectory N c) ∧
        ∀ it c, It3rator.of_trajectory N it → it.decrement = some c →
          It3rator.of_trajectory N c) := by
  refine ⟨?_, of_trajectory_begin N, of_trajectory_end N, of_trajectory_Find N,
    of_trajectory_LowerBound N, of_trajectory_increment N, fun hN =>
      ⟨of_trajectory_Fork N hN, fun it c h hc => (of_trajectory_decrement N hN it c h hc).1⟩⟩
  intro it ⟨h1, h2, h3⟩
  cases hanc : it.ancestry_ with
  | nil => simp [hanc] at h1
  | cons front rest =>
    rw [hanc] at h1 h2 h3
    exact ⟨List.cons_ne_nil _ _, h1, h2, front, rest, rfl, h3 front rfl⟩

/-- The iterators that the fork of the scenario, forked at time 1 of the root
with times 0, 1, 2, 3 and with own times 4, 5, gets from `begin`, `end`,
`Find`, `LowerBound`, `Fork`, `operator++` and `operator--` are iterators of
that fork. -/
theorem iterators_are_of_trajectory_witness :
    (fork [4, 5] (root [0, 1, 2, 3]) 1 1).Positioned ∧
      (fork [4, 5] (root [0, 1, 2, 3]) 1 1).begin =
        some ⟨[root [0, 1, 2, 3], fork [4, 5] (root [0, 1, 2, 3]) 1 1], 0⟩ ∧
      (fork [4, 5] (root [0, 1, 2, 3]) 1 1).Fork =
        some ⟨[root [0, 1, 2, 3], fork [4, 5] (root [0, 1, 2, 3]) 1 1], 1⟩ ∧
      It3rator.increment ⟨[root [0, 1, 2, 3], fork [4, 5] (root [0, 1, 2, 3]) 1 1], 1⟩ =
        some ⟨[fork [4, 5] (root [0, 1, 2, 3]) 1 1], 0⟩ ∧
      It3rator.decrement ⟨[fork [4, 5] (root [0, 1, 2, 3]) 1 1], 0⟩ =
        some ⟨[root [0, 1, 2, 3], fork [4, 5] (root [0, 1, 2, 3]) 1 1], 1⟩ ∧
      It3rator.of_trajectory (fork [4, 5] (root [0, 1, 2, 3]) 1 1)
        ⟨[root [0, 1, 2, 3], fork [4, 5] (root [0, 1, 2, 3]) 1 1], 0⟩ ∧
      It3rator.of_trajectory (fork [4, 5] (root [0, 1, 2, 3]) 1 1)
        ⟨[root [0, 1, 2, 3], fork [4, 5] (root [0, 1, 2, 3]) 1 1], 1⟩ ∧
      It3rator.of_trajectory (fork [4, 5] (root [0, 1, 2, 3]) 1 1)
        ⟨[fork [4, 5] (root [0, 1, 2, 3]) 1 1], 0⟩ :=
  have hpositioned : (fork [4, 5] (root [0, 1, 2, 3]) 1 1).Positioned :=
    ⟨trivial, by decide⟩
  have h := iterators_are_of_trajectory (fork [4, 5] (root [0, 1, 2, 3]) 1 1)
  have hbegin := h.2.1 _ (by decide)
  have hfork := (h.2.2.2.2.2.2 hpositioned).1 _ (by decide)
  ⟨hpositioned, by decide, by decide, by decide, by decide, hbegin, hfork,
    h.2.2.2.2.2.1 _ _ hfork (by decide)⟩

theorem root_is_root (N : Forkable) : ∃ tl, N.root_ = root tl := by
  induction N with
  | root tl => exact ⟨tl, rfl⟩
  | fork tl p k pos ih => exact ih

theorem decrement_of_begin (N : Forkable) (b : It3rator) (h : N.begin = some b) :
    b.decrement = none := by
  rw [begin_eq] at h
  rw [CheckNormalizedIfEnd_eq_some h, decrement_eq_none_iff]
  right
  obtain ⟨tl, htl⟩ := root_is_root N
  have hhead := head?_ancestry N
  rw [htl] at hhead
  cases hanc : N.ancestry with
  | nil => simp [hanc] at hhead
  | cons a rest =>
    rw [hanc] at hhead
    simp only [List.head?_cons, Option.some.injEq] at hhead
    exact ⟨tl, rest, by rw [hhead], rfl⟩

/-! ## `NewFork` at the end of the timeline of a root -/

theorem NewFork_run_toOption (P : Tr4jectory) (pos fresh : Nat) :
    (NewFork.run P pos fresh).toOption =
      (Tr4jectory.NewFork P pos fresh).map (fun e => P.with_child e.1 e.2) := by
  unfold NewFork.run Tr4jectory.NewFork
  split
  · cases P.fork with
    | none => rfl
    | some o => rfl
  · cases P.timeline[pos]? with
    | none => rfl
    | some t => rfl

/-- Claim C37.  `NewFork(P, pos)` with `pos` the end of the timeline of a root
`P` fails, at `CHECK(!is_root())`, which is before the child is emplaced: `P`
and its children are as they were.  In particular every `NewFork` on a root
with an empty timeline fails, since the end is the only position of an empty
timeline.  The same holds in the view from the child and in the store of
objects. -/
theorem NewFork_at_end_of_root_fails (P : Tr4jectory) (fresh : Nat) (h : P.is_root = true) :
    Tr4jectory.NewFork P P.timeline.length fresh = none ∧
      NewFork.run P P.timeline.length fresh = Except.error P ∧
      (∀ P', NewFork.run P P.timeline.length fresh = Except.error P' →
        P'.children_ = P.children_) ∧
      (P.timeline = [] → ∀ pos, pos ≤ P.timeline.length →
        Tr4jectory.NewFork P pos fresh = none ∧ NewFork.run P pos fresh = Except.error P) ∧
      (∀ tl : List Instant, Forkable.NewFork (root tl) (root tl).timeline_end = none) ∧
      (∀ (s : Store) (that : Nat) (o : Object), s that = some o → o.parent_ = none →
        Store.NewFork s that o.timeline.length fresh = none) := by
  have hfork : P.fork = none := by
    simpa [Tr4jectory.is_root] using h
  have h1 : Tr4jectory.NewFork P P.timeline.length fresh = none := by
    simp [Tr4jectory.NewFork, hfork]
  have h2 : NewFork.run P P.timeline.length fresh = Except.error P := by
    simp [NewFork.run, hfork]
  refine ⟨h1, h2, ?_, ?_, ?_, ?_⟩
  · intro P' hP'
    rw [h2] at hP'
    cases hP'
    rfl
  · intro htl pos hpos
    have : pos = P.timeline.length := by
      rw [htl] at hpos ⊢
      simpa using hpos
    rw [this]
    exact ⟨h1, h2⟩
  · intro tl
    simp [Forkable.NewFork, Forkable.fork_time]
  · intro s that o hs ho
    unfold Store.NewFork
    rw [hs]
    cases s fresh with
    | none => simp [ho]
    | some _ => rfl

/-- A root with entries at times 0 and 1 and a child forked at time 0:
`NewFork` at the end of its timeline fails and leaves the child in place,
whereas `NewFork` at its first entry adds a child. -/
theorem NewFork_at_end_of_root_fails_witness :
    (Tr4jectory.mk 0 [0, 1] none [(0, Tr4jectory.mk 1 [] (some (0, 0)) [])]).is_root = true ∧
      NewFork.run (Tr4jectory.mk 0 [0, 1] none [(0, Tr4jectory.mk 1 [] (some (0, 0)) [])]) 2 2 =
        Except.error (Tr4jectory.mk 0 [0, 1] none [(0, Tr4jectory.mk 1 [] (some (0, 0)) [])]) ∧
      Tr4jectory.NewFork
        (Tr4jectory.mk 0 [0, 1] none [(0, Tr4jectory.mk 1 [] (some (0, 0)) [])]) 0 2 =
          some (0, Tr4jectory.mk 2 [] (some (0, 0)) []) :=
  ⟨rfl, (NewFork_at_end_of_root_fails
    (Tr4jectory.mk 0 [0, 1] none [(0, Tr4jectory.mk 1 [] (some (0, 0)) [])]) 2 rfl).2.1, rfl⟩

/-! ## Reading a litter whose fork time is not in the timeline -/

theorem emplace_perm (k : Instant) (c : Tr4jectory) (cs : List (Instant × Tr4jectory)) :
    List.Perm (emplace k c cs) ((k, c) :: cs) := by
  induction cs with
  | nil => simp [emplace]
  | cons e rest ih =>
    obtain ⟨k2, c2⟩ := e
    simp only [emplace]
    split
    · exact List.Perm.refl _
    · exact (List.Perm.cons _ ih).trans (List.Perm.swap _ _ _)

theorem children_with_child (that : Tr4jectory) (k : Instant) (c : Tr4jectory) :
    (that.with_child k c).children_ = emplace k c that.children_ := by
  cases that
  rfl

/-- The inner loop of `FillSubTreeFromMessage` leaves the timeline and the
fork of the trajectory that it fills unchanged. -/
theorem trajectories_frame (fp : List Nat) (ft : Instant) (ms : List Message) (f g : Filling)
    (h : FillSubTreeFromMessage.trajectories fp ft ms f = some g) :
    g.that.timeline = f.that.timeline ∧ g.that.fork = f.that.fork := by
  induction ms generalizing f with
  | nil =>
    simp only [FillSubTreeFromMessage.trajectories, Option.some.injEq] at h
    subst h
    exact ⟨rfl, rfl⟩
  | cons m rest ih =>
    unfold FillSubTreeFromMessage.trajectories at h
    split at h
    · simp at h
    · split at h
      · simp at h
      · split at h
        · split at h
          · simp at h
          · split at h
            · have := ih _ h
              simp only [with_child_fields] at this
              exact this
            · simp at h
        · have := ih _ h
          simp only [with_child_fields] at this
          exact this

/-- The outer loop of `FillSubTreeFromMessage` leaves the timeline and the
fork of the trajectory that it fills unchanged. -/
theorem litters_frame (fp : List Nat) (ls : List Litter) (f g : Filling)
    (h : FillSubTreeFromMessage.litters fp ls f = some g) :
    g.that.timeline = f.that.timeline ∧ g.that.fork = f.that.fork := by
  induction ls generalizing f with
  | nil =>
    simp only [FillSubTreeFromMessage.litters, Option.some.injEq] at h
    subst h
    exact ⟨rfl, rfl⟩
  | cons l rest ih =>
    cases l with
    | mk ft ms =>
      unfold FillSubTreeFromMessage.litters at h
      split at h
      · simp at h
      · rename_i filled hfilled
        have h1 := trajectories_frame fp ft ms f filled hfilled
        have h2 := ih _ h
        exact ⟨h2.1.trans h1.1, h2.2.trans h1.2⟩

/-- `FillSubTreeFromMessage` leaves the timeline and the fork of the
trajectory that it fills unchanged. -/
theorem fill_frame (m : Message) (that : Tr4jectory) (forks : List (Option Nat)) (fresh : Nat)
    (r : Tr4jectory × List (Option Nat) × Nat)
    (h : FillSubTreeFromMessage m that forks fresh = some r) :
    r.1.timeline = that.timeline ∧ r.1.fork = that.fork := by
  cases m with
  | mk tl children fp =>
    unfold FillSubTreeFromMessage at h
    split at h
    · simp at h
    · rename_i filled hfilled
      simp only [Option.some.injEq] at h
      subst h
      exact litters_frame fp children _ filled hfilled

theorem NewFork_at_unknown_fork_time (that : Tr4jectory) (ft key : Instant) (p fresh : Nat)
    (hft : ft ∉ that.timeline) (hfork : that.fork = some (key, p)) :
    Tr4jectory.NewFork that (that.timeline.indexOf ft) fresh =
      some (key, Tr4jectory.mk fresh [] (some (key, that.timeline.length)) []) := by
  unfold Tr4jectory.NewFork
  rw [List.indexOf_of_not_mem hft, if_pos rfl, hfork]

/-- The children that the inner loop of `FillSubTreeFromMessage` makes, in a
trajectory that is not a root, for a litter whose fork time is not in the
timeline. -/
theorem trajectories_at_unknown_fork_time (fp : List Nat) (ft key : Instant) (p : Nat)
    (ms : List Message) (f g : Filling) (hft : ft ∉ f.that.timeline)
    (hfork : f.that.fork = some (key, p))
    (h : FillSubTreeFromMessage.trajectories fp ft ms f = some g) :
    ∃ added : List Tr4jectory, added.length = ms.length ∧
      (∀ c ∈ added, c.fork = some (key, f.that.timeline.length)) ∧
      List.Perm g.that.children_ (f.that.children_ ++ added.map (fun c => (key, c))) := by
  induction ms generalizing f with
  | nil =>
    simp only [FillSubTreeFromMessage.trajectories, Option.some.injEq] at h
    subst h
    exact ⟨[], rfl, by simp, by simp⟩
  | cons m rest ih =>
    unfold FillSubTreeFromMessage.trajectories at h
    rw [NewFork_at_unknown_fork_time f.that ft key p f.fresh hft hfork] at h
    simp only at h
    split at h
    · simp at h
    · rename_i filled forks1 fresh1 hfilled
      have hframe := fill_frame _ _ _ _ _ hfilled
      have hfilled_fork : filled.fork = some (key, f.that.timeline.length) := by
        rw [hframe.2]
        rfl
      have hstep : ∀ f2 : Filling, f2.that = f.that.with_child key filled →
          FillSubTreeFromMessage.trajectories fp ft rest f2 = some g →
          ∃ added : List Tr4jectory, added.length = (m :: rest).length ∧
            (∀ c ∈ added, c.fork = some (key, f.that.timeline.length)) ∧
            List.Perm g.that.children_ (f.that.children_ ++ added.map (fun c => (key, c))) := by
        intro f2 hf2 hg
        have htl : f2.that.timeline = f.that.timeline := by
          rw [hf2]
          exact (with_child_fields _ _ _).2.1
        obtain ⟨added, h1, h2, h3⟩ := ih f2 (by rw [htl]; exact hft)
          (by rw [hf2, (with_child_fields _ _ _).2.2.1]; exact hfork) hg
        refine ⟨filled :: added, by simp [h1], ?_, ?_⟩
        · intro c hc
          rcases List.mem_cons.mp hc with hc | hc
          · rw [hc]
            exact hfilled_fork
          · rw [← htl]
            exact h2 c hc
        · rw [hf2, children_with_child] at h3
          refine h3.trans ?_
          refine (List.Perm.append_right _ (emplace_perm key filled f.that.children_)).trans ?_
          simp only [List.map_cons, List.cons_append]
          exact List.perm_middle.symm
      split at h
      · split at h
        · simp at h
        · split at h
          · exact hstep _ rfl h
          · simp at h
      · exact hstep _ rfl h

theorem trajectories_at_unknown_fork_time_of_root (fp : List Nat) (ft : Instant) (m : Message)
    (ms : List Message) (f : Filling) (hft : ft ∉ f.that.timeline)
    (hroot : f.that.fork = none) :
    FillSubTreeFromMessage.trajectories fp ft (m :: ms) f = none := by
  unfold FillSubTreeFromMessage.trajectories
  have : Tr4jectory.NewFork f.that (f.that.timeline.indexOf ft) f.fresh = none := by
    unfold Tr4jectory.NewFork
    rw [List.indexOf_of_not_mem hft, if_pos rfl, hroot]
  rw [this]

/-- Claim C38.  `FillSubTreeFromMessage` on a litter with trajectories whose
fork time is not the time of an entry of the timeline of the trajectory being
filled: when that trajectory is a root, the loop over the litter fails, and so
does `FillSubTreeFromMessage` for every message with such a litter; when it is
not a root, `NewFork` makes the child at the end of the timeline with the key
of the trajectory being filled, whatever the fork time of the litter, and when
the loop over the litter returns, the children are those before it and one
child for each trajectory of the litter, each under that key and forked at the
end of the timeline. -/
theorem fill_at_unknown_fork_time (fp : List Nat) (ft : Instant) (m : Message)
    (ms : List Message) (f : Filling) (hft : ft ∉ f.that.timeline) :
    (f.that.is_root = true →
        FillSubTreeFromMessage.trajectories fp ft (m :: ms) f = none ∧
        ∀ tl before after forks fresh,
          FillSubTreeFromMessage (Message.mk tl (before ++ Litter.mk ft (m :: ms) :: after) fp)
            f.that forks fresh = none) ∧
      ∀ key p, f.that.fork = some (key, p) →
        Tr4jectory.NewFork f.that (f.that.timeline.indexOf ft) f.fresh =
          some (key, Tr4jectory.mk f.fresh [] (some (key, f.that.timeline.length)) []) ∧
        ∀ g, FillSubTreeFromMessage.trajectories fp ft (m :: ms) f = some g →
          ∃ added : List Tr4jectory, added.length = (m :: ms).length ∧
            (∀ c ∈ added, c.fork = some (key, f.that.timeline.length)) ∧
            List.Perm g.that.children_ (f.that.children_ ++ added.map (fun c => (key, c))) := by
  constructor
  · intro hroot
    have hfork : f.that.fork = none := by
      simpa [Tr4jectory.is_root] using hroot
    refine ⟨trajectories_at_unknown_fork_time_of_root fp ft m ms f hft hfork, ?_⟩
    intro tl before after forks fresh
    unfold FillSubTreeFromMessage
    rw [litters_append]
    cases hb : FillSubTreeFromMessage.litters fp before ⟨f.that, forks, fresh, 0⟩ with
    | none => rfl
    | some g =>
      have hframe := litters_frame fp before _ g hb
      simp only at hframe
      simp only [Option.some_bind]
      unfold FillSubTreeFromMessage.litters
      rw [trajectories_at_unknown_fork_time_of_root fp ft m ms g
        (by rw [hframe.1]; exact hft) (by rw [hframe.2]; exact hfork)]
  · intro key p hfork
    exact ⟨NewFork_at_unknown_fork_time f.that ft key p f.fresh hft hfork,
      fun g hg => trajectories_at_unknown_fork_time fp ft key p (m :: ms) f g hft hfork hg⟩

/-- A litter at time 7 read into the fork of the scenario, whose timeline has
the times 4 and 5 and whose key is 1: the child is made at the end of the
timeline, position 2, under the key 1; read into a root with the same
timeline, the message fails. -/
theorem fill_at_unknown_fork_time_witness :
    (7 : Instant) ∉ (Tr4jectory.mk 1 [4, 5] (some (1, 1)) []).timeline ∧
      FillSubTreeFromMessage (Message.mk [4, 5] [Litter.mk 7 [Message.mk [8] [] []]] [])
          (Tr4jectory.mk 1 [4, 5] (some (1, 1)) []) [] 2 =
        some (Tr4jectory.mk 1 [4, 5] (some (1, 1))
          [(1, Tr4jectory.mk 2 [8] (some (1, 2)) [])], [], 3) ∧
      FillSubTreeFromMessage (Message.mk [4, 5] [Litter.mk 7 [Message.mk [8] [] []]] [])
          (Tr4jectory.mk 1 [4, 5] none []) [] 2 = none ∧
      Tr4jectory.NewFork (Tr4jectory.mk 1 [4, 5] (some (1, 1)) [])
          ((Tr4jectory.mk 1 [4, 5] (some (1, 1)) []).timeline.indexOf 7) 2 =
        some (1, Tr4jectory.mk 2 [] (some (1, 2)) []) :=
  ⟨by decide, rfl, rfl,
    ((fill_at_unknown_fork_time [] 7 (Message.mk [8] [] []) []
      ⟨Tr4jectory.mk 1 [4, 5] (some (1, 1)) [], [], 2, 0⟩ (by decide)).2 1 1 rfl).1⟩

/-! ## Children that are not nodes of interest -/

theorem find_fork_of_not_mem {forks : List (Option Nat)} {a : Nat} (h : some a ∉ forks) :
    find_fork forks a = none := by
  cases hf : find_fork forks a with
  | none => rfl
  | some p =>
    have := (find_fork_eq_some hf).2
    exact absurd (List.getElem?_mem this) h

/-- `WriteSubTreeToMessage` only sets slots to null: a pointer that the list
holds afterwards was in the list before. -/
theorem mem_of_mem_Write (N : Tr4jectory) (message : Message) (forks : List (Option Nat))
    (a : Nat) (h : some a ∈ (N.WriteSubTreeToMessage message forks).2) : some a ∈ forks := by
  cases message with
  | mk tl0 L P =>
    obtain ⟨own, deeper, L', _, _, _, _, h5, h6, _⟩ := Write_records_aux N tl0 L P forks
    obtain ⟨i, hi⟩ := List.mem_iff_getElem?.mp h
    by_cases hmem : i ∈ own ++ deeper
    · rw [(h5 i hmem).2] at hi
      simp at hi
    · rw [h6 i hmem] at hi
      exact List.getElem?_mem hi

/-- The loop of `WriteSubTreeToMessage` skips a child whose pointer is not in
the list: it does what it does for the children without that child. -/
theorem Write_loop_skips (cs : List (Instant × Tr4jectory)) (last : Option Instant)
    (message : Message) (forks : List (Option Nat)) (i : Nat) (k : Instant) (c : Tr4jectory)
    (hc : cs[i]? = some (k, c)) (hmem : some c.address ∉ forks) :
    WriteSubTreeToMessage.loop cs last message forks =
      WriteSubTreeToMessage.loop (cs.eraseIdx i) last message forks := by
  induction cs generalizing i last message forks with
  | nil => simp at hc
  | cons e rest ih =>
    obtain ⟨k0, c0⟩ := e
    cases i with
    | zero =>
      simp only [List.getElem?_cons_zero, Option.some.injEq, Prod.mk.injEq] at hc
      obtain ⟨rfl, rfl⟩ := hc
      simp only [List.eraseIdx_cons_zero]
      rw [WriteSubTreeToMessage.loop, find_fork_of_not_mem hmem]
    | succ j =>
      simp only [List.getElem?_cons_succ] at hc
      simp only [List.eraseIdx_cons_succ]
      rw [WriteSubTreeToMessage.loop, WriteSubTreeToMessage.loop]
      cases hf : find_fork forks c0.address with
      | none => exact ih last message forks j hc hmem
      | some p =>
        simp only
        apply ih _ _ _ j hc
        intro hin
        have := mem_of_mem_Write _ _ _ _ hin
        exact hmem ((List.mem_or_eq_of_mem_set this).resolve_right (by simp))

theorem descendants_of_children_eraseIdx (cs : List (Instant × Tr4jectory)) (i : Nat)
    (k : Instant) (c : Tr4jectory) (hc : cs[i]? = some (k, c)) :
    List.Perm (descendants_of_children cs)
      ((c.address :: c.descendants) ++ descendants_of_children (cs.eraseIdx i)) := by
  induction cs generalizing i with
  | nil => simp at hc
  | cons e rest ih =>
    obtain ⟨k0, c0⟩ := e
    cases i with
    | zero =>
      simp only [List.getElem?_cons_zero, Option.some.injEq, Prod.mk.injEq] at hc
      obtain ⟨rfl, rfl⟩ := hc
      simp [descendants_of_children]
    | succ j =>
      simp only [List.getElem?_cons_succ] at hc
      simp only [List.eraseIdx_cons_succ, descendants_of_children]
      refine (List.Perm.append_left _ (ih j hc)).trans ?_
      exact perm_swap_middle _ _ _

/-- Claim C33.  `WriteSubTreeToMessage` on a trajectory `N` with a child `c`
whose pointer is not in `forks` writes the message and leaves the list that it
writes and leaves for `N` without `c`: nothing of `c` and of the trajectories
below `c` is in the message.  When the pointers below `N` are pairwise
distinct, every slot that holds the pointer to a trajectory below `c` holds it
afterwards. -/
theorem WriteSubTreeToMessage_skips_child (N : Tr4jectory) (message : Message)
    (forks : List (Option Nat)) (i : Nat) (k : Instant) (c : Tr4jectory)
    (hc : N.children_[i]? = some (k, c)) (hmem : some c.address ∉ forks) :
    N.WriteSubTreeToMessage message forks =
        (N.with_children (N.children_.eraseIdx i)).WriteSubTreeToMessage message forks ∧
      (N.descendants.Nodup →
        ∀ (j a : Nat), a ∈ c.descendants → forks[j]? = some (some a) →
          (N.WriteSubTreeToMessage message forks).2[j]? = some (some a) ∧
          j ∉ (N.WriteSubTreeToMessage message forks).1.fork_position.drop
            message.fork_position.length ∧
          j ∉ (Message.positions_of_litters
            (N.WriteSubTreeToMessage message forks).1.children).drop
              (Message.positions_of_litters message.children).length) := by
  cases N with
  | mk addr tl f cs =>
    simp only [Tr4jectory.children_] at hc
    have heq : (Tr4jectory.mk addr tl f cs).WriteSubTreeToMessage message forks =
        ((Tr4jectory.mk addr tl f cs).with_children
          ((Tr4jectory.mk addr tl f cs).children_.eraseIdx i)).WriteSubTreeToMessage
          message forks := by
      simp only [with_children, Tr4jectory.children_, WriteSubTreeToMessage]
      exact Write_loop_skips cs none message forks i k c hc hmem
    refine ⟨heq, ?_⟩
    intro hnodup j a ha hget
    rw [heq]
    simp only [with_children, Tr4jectory.children_]
    obtain ⟨own, deeper, h1, h2, _, _, h5, h6, _⟩ :=
      Write_records (Tr4jectory.mk addr tl f (cs.eraseIdx i)) message forks
    have hperm := descendants_of_children_eraseIdx cs i k c hc
    simp only [descendants] at hnodup
    have hnd := (List.Perm.nodup_iff hperm).mp hnodup
    have hdisj := (List.nodup_append.mp hnd).2.2
    have hj : j ∉ own ++ deeper := by
      intro hin
      obtain ⟨⟨b, hb, hgetb⟩, _⟩ := h5 j hin
      rw [hget] at hgetb
      simp only [Option.some.injEq] at hgetb
      subst hgetb
      simp only [descendants] at hb
      exact hdisj (List.mem_cons_of_mem _ ha) hb
    refine ⟨by rw [h6 j hj]; exact hget, ?_, ?_⟩
    · rw [h1, List.drop_left]
      exact fun hin => hj (List.mem_append_left _ hin)
    · rw [h2, List.drop_left]
      exact fun hin => hj (List.mem_append_right _ hin)

/-- A root with two children forked at time 0, the first with a child of its
own; the list holds the pointers to that grandchild and to the second child,
not to the first child: the message has the second child only, and the slot of
the grandchild is not null. -/
theorem WriteSubTreeToMessage_skips_child_witness :
    some 1 ∉ [some 3, some 2] ∧
      (Tr4jectory.mk 0 [0, 1] none
          [(0, Tr4jectory.mk 1 [5] (some (0, 0)) [(5, Tr4jectory.mk 3 [] (some (5, 0)) [])]),
            (0, Tr4jectory.mk 2 [6] (some (0, 0)) [])]).WriteSubTreeToMessage
          (Message.mk [0, 1] [] []) [some 3, some 2] =
        (Message.mk [0, 1] [Litter.mk 0 [Message.mk [6] [] []]] [1], [some 3, none]) ∧
      (Tr4jectory.mk 0 [0, 1] none
          [(0, Tr4jectory.mk 1 [5] (some (0, 0)) [(5, Tr4jectory.mk 3 [] (some (5, 0)) [])]),
            (0, Tr4jectory.mk 2 [6] (some (0, 0)) [])]).WriteSubTreeToMessage
          (Message.mk [0, 1] [] []) [some 3, some 2] =
        ((Tr4jectory.mk 0 [0, 1] none
          [(0, Tr4jectory.mk 1 [5] (some (0, 0)) [(5, Tr4jectory.mk 3 [] (some (5, 0)) [])]),
            (0, Tr4jectory.mk 2 [6] (some (0, 0)) [])]).with_children
          [(0, Tr4jectory.mk 2 [6] (some (0, 0)) [])]).WriteSubTreeToMessage
          (Message.mk [0, 1] [] []) [some 3, some 2] :=
  ⟨by decide, rfl,
    (WriteSubTreeToMessage_skips_child
      (Tr4jectory.mk 0 [0, 1] none
        [(0, Tr4jectory.mk 1 [5] (some (0, 0)) [(5, Tr4jectory.mk 3 [] (some (5, 0)) [])]),
          (0, Tr4jectory.mk 2 [6] (some (0, 0)) [])])
      (Message.mk [0, 1] [] []) [some 3, some 2] 0 0
      (Tr4jectory.mk 1 [5] (some (0, 0)) [(5, Tr4jectory.mk 3 [] (some (5, 0)) [])])
      rfl (by decide)).1⟩

/-! ## The litters that `WriteSubTreeToMessage` writes -/

theorem trajectories_of_litters_append (A B : List Litter) :
    Message.trajectories_of_litters (A ++ B) =
      Message.trajectories_of_litters A ++ Message.trajectories_of_litters B := by
  induction A with
  | nil => rfl
  | cons l rest ih =>
    cases l with
    | mk t ms => simp [Message.trajectories_of_litters, ih]

theorem grouped_litters_append (A B : List Litter) :
    Message.grouped_litters (A ++ B) ↔ Message.grouped_litters A ∧ Message.grouped_litters B := by
  induction A with
  | nil => simp [Message.grouped_litters]
  | cons l rest ih =>
    cases l with
    | mk t ms => simp [Message.grouped_litters, ih, and_assoc]

theorem grouped_messages_append (A B : List Message) :
    Message.grouped_messages (A ++ B) ↔
      Message.grouped_messages A ∧ Message.grouped_messages B := by
  induction A with
  | nil => simp [Message.grouped_messages]
  | cons m rest ih => simp [Message.grouped_messages, ih, and_assoc]

/-- One round of the loop of `WriteSubTreeToMessage` for a child that is
written keeps the message grouped. -/
theorem grouped_so_far_step (last : Option Instant) (L : List Litter) (P : List Nat)
    (k : Instant) (m : Message) (p : Nat) (h : Message.grouped_so_far last L P)
    (hk : ∀ t ∈ last, t ≤ k) (hm : m.grouped) :
    Message.grouped_so_far (some k)
        (Message.add_to_last (if last = some k then L else L ++ [Litter.mk k []]) m)
        (P ++ [p]) ∧
      Message.trajectories_of_litters
          (Message.add_to_last (if last = some k then L else L ++ [Litter.mk k []]) m) =
        Message.trajectories_of_litters L ++ [(k, m)] := by
  obtain ⟨h1, h2, h3, h4, h5⟩ := h
  by_cases hl : last = some k
  · rw [if_pos hl]
    rcases h5 with ⟨_, hnone⟩ | ⟨L0, t, ms, hL, hlast⟩
    · rw [hnone] at hl
      cases hl
    · rw [hlast] at hl
      simp only [Option.some.injEq] at hl
      subst hl
      subst hL
      rw [add_to_last_append]
      rw [grouped_litters_append] at h4
      rw [trajectories_of_litters_append] at h3
      refine ⟨⟨?_, ?_, ?_, ?_, Or.inr ⟨L0, t, ms ++ [m], rfl, rfl⟩⟩, ?_⟩
      · simpa [Litter.fork_time] using h1
      · intro l hmem
        rcases List.mem_append.mp hmem with hmem | hmem
        · exact h2 l (List.mem_append_left _ hmem)
        · simp only [List.mem_singleton] at hmem
          subst hmem
          simp [Litter.trajectories]
      · rw [trajectories_of_litters_append]
        simp only [Message.trajectories_of_litters, List.length_append, List.length_map,
          List.length_cons, List.length_nil] at h3 ⊢
        omega
      · rw [grouped_litters_append]
        refine ⟨h4.1, ?_⟩
        simp only [Message.grouped_litters, and_true] at h4 ⊢
        rw [grouped_messages_append]
        exact ⟨h4.2, hm, trivial⟩
      · simp [trajectories_of_litters_append, Message.trajectories_of_litters]
  · rw [if_neg hl]
    have e := add_to_last_append L k [] m
    simp only [List.nil_append] at e
    rw [e]
    refine ⟨⟨?_, ?_, ?_, ?_, Or.inr ⟨L, k, [m], rfl, rfl⟩⟩, ?_⟩
    · rw [List.map_append, List.pairwise_append]
      refine ⟨h1, by simp, ?_⟩
      intro a ha b hb
      simp only [List.map_cons, List.map_nil, List.mem_singleton, Litter.fork_time] at hb
      subst hb
      rcases h5 with ⟨hnil, _⟩ | ⟨L0, t, ms, hL, hlast⟩
      · rw [hnil] at ha
        simp at ha
      · have htk : t ≤ b := hk t hlast
        have hne : t ≠ b := fun e2 => hl (by rw [hlast, e2])
        have htb : t < b := lt_of_le_of_ne htk hne
        rw [hL, List.map_append, List.pairwise_append] at h1
        rw [hL, List.map_append] at ha
        rcases List.mem_append.mp ha with ha | ha
        · exact lt_trans (h1.2.2 a ha t (by simp [Litter.fork_time])) htb
        · simp only [List.map_cons, List.map_nil, List.mem_singleton,
            Litter.fork_time] at ha
          rw [ha]
          exact htb
    · intro l hmem
      rcases List.mem_append.mp hmem with hmem | hmem
      · exact h2 l hmem
      · simp only [List.mem_singleton] at hmem
        subst hmem
        simp [Litter.trajectories]
    · rw [trajectories_of_litters_append]
      simp only [Message.trajectories_of_litters, List.length_append, List.length_map,
        List.length_cons, List.length_nil]
      omega
    · rw [grouped_litters_append]
      refine ⟨h4, ?_⟩
      simp only [Message.grouped_litters, Message.grouped_messages, and_true]
      exact hm
    · simp [trajectories_of_litters_append, Message.trajectories_of_litters]

mutual
/-- The message that `WriteSubTreeToMessage` writes for a trajectory whose
children are in the order of their keys at every level. -/
theorem Write_groups : ∀ (N : Tr4jectory) (tl0 : List Instant) (forks : List (Option Nat)),
    N.Ordered →
    (N.WriteSubTreeToMessage (Message.mk tl0 [] []) forks).1.grouped ∧
      ∃ written : List ((Instant × Tr4jectory) × List (Option Nat)),
        (written.map Prod.fst).Sublist N.children_ ∧
        (∀ w ∈ written, some w.1.2.address ∈ forks) ∧
        Message.trajectories_of_litters
            (N.WriteSubTreeToMessage (Message.mk tl0 [] []) forks).1.children =
          written.map (fun w =>
            (w.1.1, (w.1.2.WriteSubTreeToMessage (Message.mk w.1.2.timeline [] []) w.2).1))
  | Tr4jectory.mk _ _ _ cs, tl0, forks, hN => by
    obtain ⟨hsorted, hord⟩ := hN
    obtain ⟨L', P', last', written, h1, h2, h3, h4, h5⟩ :=
      Write_loop_groups cs none tl0 [] [] forks hord hsorted (by simp)
        ⟨by simp, by simp, rfl, trivial, Or.inl ⟨rfl, rfl⟩⟩
    simp only [WriteSubTreeToMessage, Tr4jectory.children_]
    rw [h1]
    refine ⟨⟨h2.1, h2.2.1, h2.2.2.1, h2.2.2.2.1⟩, written, h3, h4, ?_⟩
    simpa [Message.children, Message.trajectories_of_litters] using h5
/-- The loop of `WriteSubTreeToMessage` keeps the message grouped. -/
theorem Write_loop_groups : ∀ (cs : List (Instant × Tr4jectory)) (last : Option Instant)
    (tl0 : List Instant) (L : List Litter) (P : List Nat) (forks : List (Option Nat)),
    Ordered_children cs → (cs.map Prod.fst).Pairwise (· ≤ ·) →
    (∀ t ∈ last, ∀ e ∈ cs, t ≤ e.1) → Message.grouped_so_far last L P →
    ∃ (L' : List Litter) (P' : List Nat) (last' : Option Instant)
      (written : List ((Instant × Tr4jectory) × List (Option Nat))),
      (WriteSubTreeToMessage.loop cs last (Message.mk tl0 L P) forks).1 = Message.mk tl0 L' P' ∧
      Message.grouped_so_far last' L' P' ∧
      (written.map Prod.fst).Sublist cs ∧
      (∀ w ∈ written, some w.1.2.address ∈ forks) ∧
      Message.trajectories_of_litters L' =
        Message.trajectories_of_litters L ++ written.map (fun w =>
          (w.1.1, (w.1.2.WriteSubTreeToMessage (Message.mk w.1.2.timeline [] []) w.2).1))
  | [], last, tl0, L, P, forks, _, _, _, hinv => by
    exact ⟨L, P, last, [], by simp [WriteSubTreeToMessage.loop], hinv, by simp, by simp,
      by simp⟩
  | (k, c) :: rest, last, tl0, L, P, forks, hord, hsorted, hlast, hinv => by
    obtain ⟨hordc, hordr⟩ := hord
    rw [List.map_cons, List.pairwise_cons] at hsorted
    cases hfind : find_fork forks c.address with
    | none =>
      obtain ⟨L', P', last', written, h1, h2, h3, h4, h5⟩ :=
        Write_loop_groups rest last tl0 L P forks hordr hsorted.2
          (fun t ht e he => hlast t ht e (List.mem_cons_of_mem _ he)) hinv
      refine ⟨L', P', last', written, ?_, h2, List.Sublist.cons _ h3, h4, h5⟩
      simp only [WriteSubTreeToMessage.loop, hfind]
      exact h1
    | some p =>
      obtain ⟨hp, hget⟩ := find_fork_eq_some hfind
      have hm := (Write_groups c c.timeline (forks.set p none) hordc).1
      have hstep := grouped_so_far_step last L P k
        (c.WriteSubTreeToMessage (Message.mk c.timeline [] []) (forks.set p none)).1 p hinv
        (fun t ht => hlast t ht (k, c) (List.mem_cons_self _ _)) hm
      obtain ⟨L', P', last', written, h1, h2, h3, h4, h5⟩ :=
        Write_loop_groups rest (some k) tl0
          (Message.add_to_last (if last = some k then L else L ++ [Litter.mk k []])
            (c.WriteSubTreeToMessage (Message.mk c.timeline [] []) (forks.set p none)).1)
          (P ++ [p])
          (c.WriteSubTreeToMessage (Message.mk c.timeline [] []) (forks.set p none)).2
          hordr hsorted.2
          (fun t ht e he => by
            simp only [Option.mem_def, Option.some.injEq] at ht
            rw [← ht]
            exact hsorted.1 e.1 (List.mem_map_of_mem _ he))
          hstep.1
      have e : ((if last = some k then (Message.mk tl0 L P).add_fork_position p
            else ((Message.mk tl0 L P).add_fork_position p).add_children k).add_trajectories
            (c.WriteSubTreeToMessage (Message.mk c.timeline [] []) (forks.set p none)).1) =
          Message.mk tl0 (Message.add_to_last (if last = some k then L else L ++ [Litter.mk k []])
            (c.WriteSubTreeToMessage (Message.mk c.timeline [] []) (forks.set p none)).1)
            (P ++ [p]) := by
        split <;> simp [Message.add_fork_position, Message.add_children,
          Message.add_trajectories]
      refine ⟨L', P', last', ((k, c), forks.set p none) :: written, ?_, h2, ?_, ?_, ?_⟩
      · simp only [WriteSubTreeToMessage.loop, hfind, e]
        exact h1
      · simp only [List.map_cons]
        exact List.Sublist.cons₂ _ h3
      · intro w hw
        rcases List.mem_cons.mp hw with hw | hw
        · rw [hw]
          exact List.getElem?_mem hget
        · have := mem_of_mem_Write _ _ _ _ (h4 w hw)
          exact (List.mem_or_eq_of_mem_set this).resolve_right (by simp)
      · rw [h5, hstep.2]
        simp
end

theorem fork_time_of_mem_trajectories_of_litters (L : List Litter) (e : Instant × Message)
    (h : e ∈ Message.trajectories_of_litters L) : e.1 ∈ L.map Litter.fork_time := by
  induction L with
  | nil => simp [Message.trajectories_of_litters] at h
  | cons l rest ih =>
    cases l with
    | mk t ms =>
      simp only [Message.trajectories_of_litters, List.mem_append, List.mem_map] at h
      rcases h with ⟨m, _, hm⟩ | h
      · rw [← hm]
        simp [Litter.fork_time]
      · exact List.mem_cons_of_mem _ (ih h)

/-- When the fork times of the litters are strictly increasing, a litter holds
all the trajectories of its fork time, in the order of the message. -/
theorem trajectories_of_litter (L : List Litter)
    (hL : (L.map Litter.fork_time).Pairwise (· < ·)) (l : Litter) (hl : l ∈ L) :
    l.trajectories.map (fun m => (l.fork_time, m)) =
      (Message.trajectories_of_litters L).filter (fun e => decide (e.1 = l.fork_time)) := by
  induction L with
  | nil => simp at hl
  | cons l0 rest ih =>
    cases l0 with
    | mk t ms =>
      rw [List.map_cons, List.pairwise_cons] at hL
      simp only [Message.trajectories_of_litters, List.filter_append]
      rcases List.mem_cons.mp hl with hl | hl
      · subst hl
        have h1 : (ms.map (fun m => (t, m))).filter
            (fun e => decide (e.1 = (Litter.mk t ms).fork_time)) = ms.map (fun m => (t, m)) := by
          rw [List.filter_eq_self]
          intro e he
          obtain ⟨m, _, hm⟩ := List.mem_map.mp he
          simp [← hm, Litter.fork_time]
        have h2 : (Message.trajectories_of_litters rest).filter
            (fun e => decide (e.1 = (Litter.mk t ms).fork_time)) = [] := by
          rw [List.filter_eq_nil_iff]
          intro e he
          have := hL.1 e.1 (fork_time_of_mem_trajectories_of_litters rest e he)
          simp only [Litter.fork_time, decide_eq_true_eq]
          exact fun e2 => absurd this (by rw [e2]; exact lt_irrefl _)
        rw [h1, h2]
        simp [Litter.trajectories, Litter.fork_time]
      · have hlt : t < l.fork_time := hL.1 _ (List.mem_map_of_mem _ hl)
        have h1 : (ms.map (fun m => (t, m))).filter
            (fun e => decide (e.1 = l.fork_time)) = [] := by
          rw [List.filter_eq_nil_iff]
          intro e he
          obtain ⟨m, _, hm⟩ := List.mem_map.mp he
          simp only [← hm, decide_eq_true_eq]
          exact ne_of_lt hlt
        rw [h1, List.nil_append]
        exact ih hL.2 hl

/-- Claim C32.  The message that `WriteSubTreeToMessage` writes in a new
message, for a trajectory whose children are in the order of their keys at
every level, is grouped: at every level the fork times of the litters are
strictly increasing, every litter has a trajectory, and there are as many
position indices as trajectories in the litters.  The trajectories of the
litters, read litter after litter, are the messages of the children that are
written, which are among those with a pointer in `forks`, in the order of
`children_` and each under its key; each litter holds all the written children
of its fork time. -/
theorem WriteSubTreeToMessage_groups (N : Tr4jectory) (tl0 : List Instant)
    (forks : List (Option Nat)) (h : N.Ordered) :
    (N.WriteSubTreeToMessage (Message.mk tl0 [] []) forks).1.grouped ∧
      ∃ written : List ((Instant × Tr4jectory) × List (Option Nat)),
        (written.map Prod.fst).Sublist N.children_ ∧
        (∀ w ∈ written, some w.1.2.address ∈ forks) ∧
        Message.trajectories_of_litters
            (N.WriteSubTreeToMessage (Message.mk tl0 [] []) forks).1.children =
          written.map (fun w =>
            (w.1.1, (w.1.2.WriteSubTreeToMessage (Message.mk w.1.2.timeline [] []) w.2).1)) ∧
        ∀ l ∈ (N.WriteSubTreeToMessage (Message.mk tl0 [] []) forks).1.children,
          l.trajectories.map (fun m => (l.fork_time, m)) =
            (written.map (fun w =>
              (w.1.1, (w.1.2.WriteSubTreeToMessage (Message.mk w.1.2.timeline [] [])
                w.2).1))).filter (fun e => decide (e.1 = l.fork_time)) := by
  obtain ⟨hg, written, h1, h2, h3⟩ := Write_groups N tl0 forks h
  refine ⟨hg, written, h1, h2, h3, ?_⟩
  intro l hl
  rw [← h3]
  cases hm : (N.WriteSubTreeToMessage (Message.mk tl0 [] []) forks).1 with
  | mk tl L P =>
    rw [hm] at hg hl
    exact trajectories_of_litter L hg.1 l hl

/-- A root with three children, two forked at time 0 and one at time 1, all
with their pointers in the list: the message has a litter at time 0 with the
first two children in their order and a litter at time 1 with the third, and
three position indices. -/
theorem WriteSubTreeToMessage_groups_witness :
    (Tr4jectory.mk 0 [0, 1] none
        [(0, Tr4jectory.mk 1 [5] (some (0, 0)) []), (0, Tr4jectory.mk 2 [6] (some (0, 0)) []),
          (1, Tr4jectory.mk 3 [7] (some (1, 1)) [])]).Ordered ∧
      (Tr4jectory.mk 0 [0, 1] none
        [(0, Tr4jectory.mk 1 [5] (some (0, 0)) []), (0, Tr4jectory.mk 2 [6] (some (0, 0)) []),
          (1, Tr4jectory.mk 3 [7] (some (1, 1)) [])]).WriteSubTreeToMessage
          (Message.mk [0, 1] [] []) [some 3, some 2, some 1] =
        (Message.mk [0, 1]
          [Litter.mk 0 [Message.mk [5] [] [], Message.mk [6] [] []],
            Litter.mk 1 [Message.mk [7] [] []]] [2, 1, 0], [none, none, none]) ∧
      ((Tr4jectory.mk 0 [0, 1] none
        [(0, Tr4jectory.mk 1 [5] (some (0, 0)) []), (0, Tr4jectory.mk 2 [6] (some (0, 0)) []),
          (1, Tr4jectory.mk 3 [7] (some (1, 1)) [])]).WriteSubTreeToMessage
          (Message.mk [0, 1] [] []) [some 3, some 2, some 1]).1.grouped :=
  have hordered : (Tr4jectory.mk 0 [0, 1] none
      [(0, Tr4jectory.mk 1 [5] (some (0, 0)) []), (0, Tr4jectory.mk 2 [6] (some (0, 0)) []),
        (1, Tr4jectory.mk 3 [7] (some (1, 1)) [])]).Ordered := by
    simp [Tr4jectory.Ordered, Tr4jectory.Ordered_children]
  ⟨hordered, rfl, (WriteSubTreeToMessage_groups _ _ _ hordered).1⟩

/-! ## `ContinuousTrajectory::ForgetBefore` -/

/-- In a list of series with their `t_max` in order, the series from the first
one that does not end before `time` are those that do not end before `time`. -/
theorem drop_findIdx_eq_filter (series : List Series) (time : Instant)
    (h : (series.map Series.t_max).Pairwise (· ≤ ·)) :
    series.drop (series.findIdx (fun left => decide (¬ left.t_max < time))) =
      series.filter (fun left => decide (¬ left.t_max < time)) := by
  induction series with
  | nil => rfl
  | cons s rest ih =>
    rw [List.map_cons, List.pairwise_cons] at h
    rw [List.findIdx_cons]
    by_cases hs : s.t_max < time
    · have hfalse : decide (¬ s.t_max < time) = false := by simpa using hs
      simp only [hfalse, cond_false, List.drop_succ_cons]
      rw [List.filter_cons_of_neg (by simp [hs])]
      exact ih h.2
    · have htrue : decide (¬ s.t_max < time) = true := by simpa using hs
      simp only [htrue, cond_true, List.drop_zero]
      symm
      rw [List.filter_eq_self]
      intro a ha
      rcases List.mem_cons.mp ha with ha | ha
      · rw [ha]
        exact htrue
      · have := h.1 a.t_max (List.mem_map_of_mem _ ha)
        simp only [decide_eq_true_eq, not_lt] at hs ⊢
        exact le_trans hs this

theorem FindSeriesForInstant_eq_none_iff (that : ContinuousTrajectory) (time : Instant) :
    that.FindSeriesForInstant time = none ↔ ∀ s ∈ that.series_, s.t_max < time := by
  unfold ContinuousTrajectory.FindSeriesForInstant
  simp only
  split
  · rename_i h
    rw [List.findIdx_eq_length] at h
    simp only [true_iff]
    intro s hs
    simpa using h s hs
  · rename_i h
    refine ⟨fun h0 => by simp at h0, fun hall => absurd ?_ h⟩
    rw [List.findIdx_eq_length]
    intro s hs
    simpa using hall s hs

theorem FindSeriesForInstant_lt (that : ContinuousTrajectory) (time : Instant) (it : Nat)
    (h : that.FindSeriesForInstant time = some it) :
    it = that.series_.findIdx (fun left => decide (¬ left.t_max < time)) ∧
      it < that.series_.length := by
  unfold ContinuousTrajectory.FindSeriesForInstant at h
  simp only at h
  split at h
  · simp at h
  · rename_i hne
    simp only [Option.some.injEq] at h
    subst h
    exact ⟨rfl, lt_of_le_of_ne (List.findIdx_le_length _) hne⟩

/-- Claim C39.  `ForgetBefore(t)` on a trajectory that satisfies the invariant
of the class fails exactly when every series has its `t_max` before `t`, in
particular when there is no series; when it returns, the series are those
whose `t_max` is not before `t`, in their order, there is at least one, the
trajectory is not empty, `t_min()` is `t`, `last_points_` is unchanged, the
invariant holds and the branch taken is not the one that clears everything:
after the `erase` of a call in which `FindSeriesForInstant` returned,
`series_` is never empty. -/
theorem ForgetBefore_never_empties (that : ContinuousTrajectory) (time : Instant)
    (h : that.Consistent) :
    (that.ForgetBefore time = none ↔ ∀ s ∈ that.series_, s.t_max < time) ∧
      (that.series_ = [] → that.ForgetBefore time = none) ∧
      (∀ r, that.ForgetBefore time = some r →
        r.series_ = that.series_.filter (fun s => decide (¬ s.t_max < time)) ∧
        r.series_ ≠ [] ∧ r.empty = false ∧ r.t_min = some time ∧
        r.last_points_ = that.last_points_ ∧ r.Consistent ∧
        ContinuousTrajectory.ForgetBefore.run that time = some (r, false)) ∧
      (∀ r, ContinuousTrajectory.ForgetBefore.run that time ≠ some (r, true)) ∧
      ∀ it, that.FindSeriesForInstant time = some it →
        (that.series_.drop it).isEmpty = false := by
  have hdrop : ∀ it, that.FindSeriesForInstant time = some it →
      (that.series_.drop it).isEmpty = false := by
    intro it hit
    have hlt := (FindSeriesForInstant_lt that time it hit).2
    cases hd : that.series_.drop it with
    | nil =>
      rw [List.drop_eq_nil_iff] at hd
      omega
    | cons _ _ => rfl
  have hrun : ∀ r b, ContinuousTrajectory.ForgetBefore.run that time = some (r, b) →
      b = false ∧ r.series_ = that.series_.filter (fun s => decide (¬ s.t_max < time)) ∧
        r.series_ ≠ [] ∧ r.first_time_ = some time ∧ r.last_points_ = that.last_points_ := by
    intro r b hr
    unfold ContinuousTrajectory.ForgetBefore.run at hr
    split at hr
    · simp at hr
    · rename_i it hit
      have hne := hdrop it hit
      simp only [hne, Bool.false_eq_true, if_false] at hr
      split at hr
      · simp at hr
      · simp only [Option.some.injEq, Prod.mk.injEq] at hr
        obtain ⟨hr1, hr2⟩ := hr
        subst hr1
        refine ⟨hr2.symm, ?_, ?_, rfl, rfl⟩
        · simp only
          rw [(FindSeriesForInstant_lt that time it hit).1]
          exact drop_findIdx_eq_filter that.series_ time h.1
        · simp only
          intro hnil
          rw [hnil] at hne
          simp at hne
  have hiff : that.ForgetBefore time = none ↔ ∀ s ∈ that.series_, s.t_max < time := by
    rw [← FindSeriesForInstant_eq_none_iff]
    unfold ContinuousTrajectory.ForgetBefore ContinuousTrajectory.ForgetBefore.run
    cases hfind : that.FindSeriesForInstant time with
    | none => simp
    | some it =>
      have hne := hdrop it hfind
      have hlt := (FindSeriesForInstant_lt that time it hfind).2
      have hsome := h.2 (by
        intro hnil
        rw [hnil] at hlt
        simp at hlt)
      cases hft : that.first_time_ with
      | none => simp [hft] at hsome
      | some t0 => simp [hne]
  refine ⟨hiff, ?_, ?_, ?_, hdrop⟩
  · intro hnil
    rw [hiff, hnil]
    simp
  · intro r hr
    unfold ContinuousTrajectory.ForgetBefore at hr
    obtain ⟨⟨r2, b⟩, hrb, hfst⟩ := Option.map_eq_some'.mp hr
    simp only at hfst
    subst hfst
    obtain ⟨hb, h1, h2, h3, h4⟩ := hrun r2 b hrb
    subst hb
    have hempty : r2.empty = false := by
      unfold ContinuousTrajectory.empty
      cases hs : r2.series_ with
      | nil => exact absurd hs h2
      | cons _ _ => rfl
    refine ⟨h1, h2, hempty, ?_, h4, ⟨?_, ?_⟩, hrb⟩
    · simp [ContinuousTrajectory.t_min, hempty, h3]
    · rw [h1]
      exact List.Pairwise.sublist (List.Sublist.map _ (List.filter_sublist _)) h.1
    · intro _
      simp [h3]
  · intro r hr
    have := (hrun r true hr).1
    simp at this

/-- Three series that end at times 8, 16 and 24, the first point at time 0:
`ForgetBefore(10)` removes the first series and sets `t_min()` to 10;
`ForgetBefore(25)` fails. -/
theorem ForgetBefore_never_empties_witness :
    ContinuousTrajectory.Consistent ⟨[⟨0, 8⟩, ⟨8, 16⟩, ⟨16, 24⟩], some 0, [24]⟩ ∧
      ContinuousTrajectory.ForgetBefore ⟨[⟨0, 8⟩, ⟨8, 16⟩, ⟨16, 24⟩], some 0, [24]⟩ 10 =
        some ⟨[⟨8, 16⟩, ⟨16, 24⟩], some 10, [24]⟩ ∧
      ContinuousTrajectory.ForgetBefore ⟨[⟨0, 8⟩, ⟨8, 16⟩, ⟨16, 24⟩], some 0, [24]⟩ 25 = none ∧
      ContinuousTrajectory.t_min ⟨[⟨8, 16⟩, ⟨16, 24⟩], some 10, [24]⟩ = some 10 :=
  ⟨by decide, by decide, by decide,
    ((ForgetBefore_never_empties ⟨[⟨0, 8⟩, ⟨8, 16⟩, ⟨16, 24⟩], some 0, [24]⟩ 10
      (by decide)).2.2.1 ⟨[⟨8, 16⟩, ⟨16, 24⟩], some 10, [24]⟩ (by decide)).2.2.2.1⟩

/-! ## Iterators of the trees built by the tree surgery -/

theorem follow_of_view_at (path : List Nat) (T : Tr4jectory) (V W : Forkable)
    (h : view_at path V T = some W) : ∃ P, follow path T = some P := by
  induction path generalizing T V with
  | nil => exact ⟨T, rfl⟩
  | cons i path ih =>
    simp only [view_at] at h
    cases hi : T.children_[i]? with
    | none => simp [hi] at h
    | some e =>
      obtain ⟨k, c⟩ := e
      simp only [hi] at h
      simp only [follow, hi]
      exact ih c _ h

/-- In a tree built by the tree surgery, every trajectory, seen through its
`parent_` pointers, has the fork-time link along its ancestors. -/
theorem Linked_view_of_Built (T : Tr4jectory) (hT : Built T) (path : List Nat) (N : Forkable)
    (hN : view_at path (Forkable.root T.timeline) T = some N) : Forkable.Linked N := by
  obtain ⟨hL, hroot⟩ := Linked_of_Built T hT
  have hsees : T.seen_as (Forkable.root T.timeline) := by
    simp [Tr4jectory.seen_as, Forkable.timeline, Forkable.fork_time,
      Forkable.position_in_parent_timeline_, hroot]
  obtain ⟨P, hP⟩ := follow_of_view_at path T _ N hN
  obtain ⟨W, hW, _, hWL⟩ := view_at_of_Linked path T P (Forkable.root T.timeline)
    hL trivial hsees hP
  rw [hN] at hW
  cases hW
  exact hWL

theorem normalized_of_on_entry (c : It3rator) (h : c.on_entry) : c.normalized := by
  obtain ⟨front, rest, hanc, hlt⟩ := h
  intro f hf hend
  rw [hanc] at hf
  simp only [List.head?_cons, Option.mem_def, Option.some.injEq] at hf
  subst hf
  simp only [Forkable.timeline_end] at hend
  omega

/-- C9: every iterator returned by `begin`, `end`, `Find`, `LowerBound`,
`operator++` or `operator--` is normalized: if its position is the end of the
timeline of the front of its ancestry, then its ancestry has length 1.  `end`
and `Find` always return, `LowerBound` returns for every well-formed
trajectory; `operator--`, which has no check of its own, is applied to an
iterator of a trajectory of a tree built by the tree surgery. -/
theorem returned_iterators_are_normalized :
    (∀ (N : Forkable) (c : It3rator), N.begin = some c → c.normalized) ∧
    (∀ N : Forkable, ∃ c, N.end_ = some c ∧ c.normalized) ∧
    (∀ (N : Forkable) (t : Instant), ∃ c, N.Find t = some c ∧ c.normalized) ∧
    (∀ (N : Forkable) (t : Instant) (c : It3rator), N.LowerBound t = some c → c.normalized) ∧
    (∀ (N : Forkable) (t : Instant), N.WellFormed → ∃ c, N.LowerBound t = some c) ∧
    (∀ it c : It3rator, it.increment = some c → c.normalized) ∧
    (∀ (T : Tr4jectory) (path : List Nat) (N : Forkable), Built T →
      view_at path (Forkable.root T.timeline) T = some N →
      ∀ it c : It3rator, It3rator.of_trajectory N it → it.decrement = some c →
        c.normalized) := by
  refine ⟨?_, ?_, ?_, ?_, ?_, ?_, ?_⟩
  · intro N c h
    exact Wrap_loop_normalized _ _ _ _ _ h
  · intro N
    refine ⟨⟨[N], N.timeline_end⟩, ?_, ?_⟩
    · simp [Forkable.end_, It3rator.CheckNormalizedIfEnd]
    · intro f _ _; rfl
  · intro N t
    obtain ⟨c, hc⟩ := NormalizeIfEnd_isSome (Find_loop_ne_nil t N [])
    exact ⟨c, hc, NormalizeIfEnd_normalized hc⟩
  · intro N t c h
    unfold Forkable.LowerBound at h
    cases hl : LowerBound.loop t N [] [none] with
    | none => simp [hl] at h
    | some d =>
      simp [hl] at h
      exact NormalizeIfEnd_normalized h
  · intro N t h
    exact LowerBound_isSome N h t
  · intro it c h
    exact increment_normalized h
  · intro T path N hT hN it c hit hc
    exact normalized_of_on_entry c
      (decrement_on_entry N (Linked_view_of_Built T hT path N hN) it c hit hc)

/-- Witness for C9 on the first scenario of section 8, with times 0 to 5, and
for `operator--` on the tree built by `NewFork` at the entry at time 1 of a
root with the times 0 to 3: the iterators returned there are normalized. -/
theorem returned_iterators_are_normalized_witness :
    (fork [4, 5] (root [0, 1, 2, 3]) 1 1).begin =
        some ⟨[root [0, 1, 2, 3], fork [4, 5] (root [0, 1, 2, 3]) 1 1], 0⟩ ∧
      It3rator.normalized ⟨[root [0, 1, 2, 3], fork [4, 5] (root [0, 1, 2, 3]) 1 1], 0⟩ ∧
      (fork [4, 5] (root [0, 1, 2, 3]) 1 1).LowerBound 2 =
        some ⟨[fork [4, 5] (root [0, 1, 2, 3]) 1 1], 0⟩ ∧
      It3rator.normalized ⟨[fork [4, 5] (root [0, 1, 2, 3]) 1 1], 0⟩ ∧
      It3rator.increment ⟨[root [0, 1, 2, 3], fork [4, 5] (root [0, 1, 2, 3]) 1 1], 1⟩ =
        some ⟨[fork [4, 5] (root [0, 1, 2, 3]) 1 1], 0⟩ ∧
      view_at [0] (Forkable.root [0, 1, 2, 3])
          (update [] ((Tr4jectory.mk 0 [0, 1, 2, 3] none []).with_child 1
            (Tr4jectory.mk 1 [] (some (1, 1)) [])) (Tr4jectory.mk 0 [0, 1, 2, 3] none [])) =
        some (fork [] (root [0, 1, 2, 3]) 1 1) ∧
      It3rator.decrement ⟨[fork [] (root [0, 1, 2, 3]) 1 1], 0⟩ =
        some ⟨[root [0, 1, 2, 3], fork [] (root [0, 1, 2, 3]) 1 1], 1⟩ ∧
      It3rator.normalized ⟨[root [0, 1, 2, 3], fork [] (root [0, 1, 2, 3]) 1 1], 1⟩ :=
  ⟨by decide,
    returned_iterators_are_normalized.1 (fork [4, 5] (root [0, 1, 2, 3]) 1 1) _ (by decide),
    by decide,
    returned_iterators_are_normalized.2.2.2.1 (fork [4, 5] (root [0, 1, 2, 3]) 1 1) 2 _ (by decide),
    by decide,
    rfl,
    by decide,
    returned_iterators_are_normalized.2.2.2.2.2.2 _ [0] (fork [] (root [0, 1, 2, 3]) 1 1)
      (Built.NewFork _ (Tr4jectory.mk 0 [0, 1, 2, 3] none []) [] 1 1 1
        (Tr4jectory.mk 1 [] (some (1, 1)) []) (Built.root 0 [0, 1, 2, 3]) rfl rfl)
      rfl ⟨[fork [] (root [0, 1, 2, 3]) 1 1], 0⟩ _
      ⟨rfl, List.chain'_singleton _, fun front hf => Nat.zero_le _⟩ (by decide)⟩

/-- Outside the trees built under the documented preconditions:
`AttachForkToCopiedBegin` of a root with entries at times 5 and 6 to a root
with an empty timeline, which has no last entry that the first entry of the
attached root could be a copy of, makes a child forked at the end of the
timeline of that root; `operator--` on the iterator at the first entry of the
child then returns the iterator at the end of the timeline of the empty
root. -/
theorem decrement_stops_at_end_of_empty_root :
    AttachForkToCopiedBegin (Tr4jectory.mk 0 [] none []) (Tr4jectory.mk 1 [5, 6] none []) =
        some (Tr4jectory.mk 0 [] none [(5, Tr4jectory.mk 1 [5, 6] (some (5, 0)) [])]) ∧
      (Tr4jectory.mk 1 [5, 6] none []).timeline.head? ≠
        (Tr4jectory.mk 0 [] none []).last_time ∧
      (Tr4jectory.mk 1 [5, 6] (some (5, 0)) []).seen_as (fork [5, 6] (root []) 5 0) ∧
      ¬ Forkable.Linked (fork [5, 6] (root []) 5 0) ∧
      It3rator.decrement ⟨[fork [5, 6] (root []) 5 0], 0⟩ =
        some ⟨[root [], fork [5, 6] (root []) 5 0], 0⟩ ∧
      ¬ It3rator.on_entry ⟨[root [], fork [5, 6] (root []) 5 0], 0⟩ := by
  refine ⟨rfl, by decide, ⟨rfl, rfl, rfl⟩, ?_, by decide, ?_⟩
  · rintro ⟨_, h | ⟨_, h⟩⟩
    · simp [Forkable.time, Forkable.timeline] at h
    · simp [Forkable.fork_time] at h
  · rintro ⟨front, rest, h1, h2⟩
    simp only [List.cons.injEq] at h1
    obtain ⟨h1, _⟩ := h1
    subst h1
    simp [Forkable.timeline] at h2

/-- Claim C36.  In a tree built by the tree surgery, for an iterator of a
trajectory `N` of the tree, `operator--` fails exactly when the iterator is at
the beginning of the timeline of a root, as `begin()` of `N` and `end()` of an
empty root are; in every other case it returns an iterator, and that iterator
is on an entry and is an iterator of `N`. -/
theorem decrement_fails_iff_at_begin_of_root (T : Tr4jectory) (hT : Built T)
    (path : List Nat) (N : Forkable)
    (hN : view_at path (Forkable.root T.timeline) T = some N)
    (it : It3rator) (h : It3rator.of_trajectory N it) :
    (it.decrement = none ↔
        ∃ tl rest, it.ancestry_ = root tl :: rest ∧ it.current_ = (root tl).timeline_begin) ∧
      ((¬ ∃ tl rest, it.ancestry_ = root tl :: rest ∧ it.current_ = (root tl).timeline_begin) →
        ∃ c, it.decrement = some c ∧ c.on_entry ∧ It3rator.of_trajectory N c) ∧
      (∀ b, N.begin = some b → b.decrement = none) ∧
      (root []).end_ = some ⟨[root []], 0⟩ ∧
      It3rator.decrement ⟨[root []], 0⟩ = none := by
  have hlinked := Linked_view_of_Built T hT path N hN
  have hne : it.ancestry_ ≠ [] := by
    intro hnil
    have := h.1
    simp [hnil] at this
  have hiff : it.decrement = none ↔
      ∃ tl rest, it.ancestry_ = root tl :: rest ∧ it.current_ = (root tl).timeline_begin := by
    rw [decrement_eq_none_iff]
    simp only [Forkable.timeline_begin]
    constructor
    · rintro (h0 | h0)
      · exact absurd h0 hne
      · exact h0
    · exact Or.inr
  refine ⟨hiff, ?_, decrement_of_begin N, rfl, rfl⟩
  intro hnot
  cases hd : it.decrement with
  | none => exact absurd (hiff.mp hd) hnot
  | some c =>
    exact ⟨c, rfl, decrement_on_entry N hlinked it c h hd,
      (of_trajectory_decrement N (Positioned_of_Linked N hlinked) it c h hd).1⟩

/-- In the tree built by `NewFork` at the entry at time 1 of a root with the
times 0 to 3, followed by an entry at time 4 appended to the fork:
`operator--` at the first entry of the fork returns the iterator at the fork
point in the root, which is on an entry, and fails at `begin()` of the
fork. -/
theorem decrement_fails_iff_at_begin_of_root_witness :
    view_at [0] (Forkable.root [0, 1, 2, 3])
          (update [0] ((Tr4jectory.mk 1 [] (some (1, 1)) []).Append 4)
            (update [] ((Tr4jectory.mk 0 [0, 1, 2, 3] none []).with_child 1
              (Tr4jectory.mk 1 [] (some (1, 1)) [])) (Tr4jectory.mk 0 [0, 1, 2, 3] none []))) =
        some (fork [4] (root [0, 1, 2, 3]) 1 1) ∧
      It3rator.of_trajectory (fork [4] (root [0, 1, 2, 3]) 1 1)
        ⟨[fork [4] (root [0, 1, 2, 3]) 1 1], 0⟩ ∧
      It3rator.decrement ⟨[fork [4] (root [0, 1, 2, 3]) 1 1], 0⟩ =
        some ⟨[root [0, 1, 2, 3], fork [4] (root [0, 1, 2, 3]) 1 1], 1⟩ ∧
      It3rator.decrement ⟨[root [0, 1, 2, 3], fork [4] (root [0, 1, 2, 3]) 1 1], 0⟩ = none ∧
      ∃ c, It3rator.decrement ⟨[fork [4] (root [0, 1, 2, 3]) 1 1], 0⟩ = some c ∧
        c.on_entry ∧ It3rator.of_trajectory (fork [4] (root [0, 1, 2, 3]) 1 1) c :=
  have hit : It3rator.of_trajectory (fork [4] (root [0, 1, 2, 3]) 1 1)
      ⟨[fork [4] (root [0, 1, 2, 3]) 1 1], 0⟩ :=
    ⟨rfl, List.chain'_singleton _, fun front hf => Nat.zero_le _⟩
  ⟨rfl, hit, by decide, by decide,
    (decrement_fails_iff_at_begin_of_root _
      (Built.Append _ (Tr4jectory.mk 1 [] (some (1, 1)) []) [0] 4
        (Built.NewFork _ (Tr4jectory.mk 0 [0, 1, 2, 3] none []) [] 1 1 1
          (Tr4jectory.mk 1 [] (some (1, 1)) []) (Built.root 0 [0, 1, 2, 3]) rfl rfl) rfl)
      [0] (fork [4] (root [0, 1, 2, 3]) 1 1) rfl _ hit).2.1
      (by rintro ⟨tl, rest, h1, _⟩; simp at h1)⟩

/-! ## The comparison of iterators -/

/-- An ancestry that ends with `N` and runs along the `parent_` pointers is
the end of the chain of the ancestors of `N`. -/
theorem ancestry_suffix (N : Forkable) (l : List Forkable) (hlast : l.getLast? = some N)
    (hchain : List.Chain' (fun a b : Forkable => b.parent_ = some a) l) :
    List.IsSuffix l N.ancestry := by
  induction N generalizing l with
  | root tl =>
    obtain ⟨ys, rfl⟩ := List.getLast?_eq_some_iff.mp hlast
    cases hys : ys.getLast? with
    | none =>
      rw [List.getLast?_eq_none_iff] at hys
      subst hys
      exact List.suffix_refl _
    | some M =>
      have := (List.chain'_append.mp hchain).2.2 M hys (root tl) rfl
      simp [Forkable.parent_] at this
  | fork tl p k pos ih =>
    obtain ⟨ys, rfl⟩ := List.getLast?_eq_some_iff.mp hlast
    cases hys : ys.getLast? with
    | none =>
      rw [List.getLast?_eq_none_iff] at hys
      subst hys
      simp only [Forkable.ancestry, List.nil_append]
      exact List.suffix_append _ _
    | some M =>
      have hpar := (List.chain'_append.mp hchain).2.2 M hys (fork tl p k pos) rfl
      simp only [Forkable.parent_, Option.some.injEq] at hpar
      subst hpar
      have hsuf := ih ys hys (List.chain'_append.mp hchain).1
      obtain ⟨pre, hpre⟩ := hsuf
      exact ⟨pre, by simp only [Forkable.ancestry, ← hpre, List.append_assoc]⟩

/-- Two iterators of one trajectory whose ancestries have the same length
have the same ancestry. -/
theorem ancestry_eq_of_length_eq (N : Forkable) (a b : It3rator)
    (ha : It3rator.of_trajectory N a) (hb : It3rator.of_trajectory N b)
    (hlen : a.ancestry_.length = b.ancestry_.length) : a.ancestry_ = b.ancestry_ := by
  have h1 := List.suffix_iff_eq_drop.mp (ancestry_suffix N _ ha.1 ha.2.1)
  have h2 := List.suffix_iff_eq_drop.mp (ancestry_suffix N _ hb.1 hb.2.1)
  rw [h1, h2, hlen]

/-- For two iterators of one trajectory, `operator==` is the equality of the
iterators, in both builds and whatever the addresses of the objects. -/
theorem eq_of_trajectory (debug : Bool) (N : Forkable) (address : Forkable → Nat)
    (a b : It3rator) (ha : It3rator.of_trajectory N a) (hb : It3rator.of_trajectory N b) :
    It3rator.eq debug (a.members address) (b.members address) = some (decide (a = b)) := by
  rw [eq_members debug address a b N ha.1 hb.1]
  congr 1
  by_cases hab : a = b
  · subst hab
    simp
  · rw [decide_eq_false hab]
    by_cases hlen : a.ancestry_.length = b.ancestry_.length
    · have hanc := ancestry_eq_of_length_eq N a b ha hb hlen
      have hcur : a.current_ ≠ b.current_ := by
        intro hcur
        apply hab
        cases a
        cases b
        simp only at hanc hcur
        rw [hanc, hcur]
      simp [hcur]
    · simp [hlen]

/-- C31, as stated for every pair of iterators, fails in a build with
`DCHECK`s: `begin()` of the root of the first scenario and `begin()` of its
child both designate the first entry of the root, the first is an iterator of
the root and the second of the child, and `DCHECK_EQ(trajectory(),
right.trajectory())` fails when they are compared; without `DCHECK`s they
compare unequal. -/
theorem eq_of_begin_of_root_and_of_child :
    (root [0, 1, 2, 3]).begin = some ⟨[root [0, 1, 2, 3]], 0⟩ ∧
      (fork [4, 5] (root [0, 1, 2, 3]) 1 1).begin =
        some ⟨[root [0, 1, 2, 3], fork [4, 5] (root [0, 1, 2, 3]) 1 1], 0⟩ ∧
      It3rator.entry ⟨[root [0, 1, 2, 3]], 0⟩ =
        It3rator.entry ⟨[root [0, 1, 2, 3], fork [4, 5] (root [0, 1, 2, 3]) 1 1], 0⟩ ∧
      It3rator.members Forkable.depth ⟨[root [0, 1, 2, 3]], 0⟩ = ⟨[0], 0⟩ ∧
      It3rator.members Forkable.depth
        ⟨[root [0, 1, 2, 3], fork [4, 5] (root [0, 1, 2, 3]) 1 1], 0⟩ = ⟨[0, 1], 0⟩ ∧
      It3rator.eq true ⟨[0], 0⟩ ⟨[0, 1], 0⟩ = none ∧
      It3rator.eq false ⟨[0], 0⟩ ⟨[0, 1], 0⟩ = some false ∧
      ∀ root_address child_address : Nat, root_address ≠ child_address →
        It3rator.eq true ⟨[root_address], 0⟩ ⟨[root_address, child_address], 0⟩ = none := by
  refine ⟨by decide, by decide, by decide, by decide, by decide, by decide, by decide, ?_⟩
  intro r c hne
  simp [It3rator.eq, It3rator.Members.trajectory, hne]

/-- Claim C31, amended.  For two iterators of the same object, that is, when
the `DCHECK_EQ` of `operator==` passes, in both builds: `operator==` returns
true if and only if the ancestries hold the same pointers and the positions
are equal; it returns false when the ancestries have different lengths,
whatever the positions; and `operator!=` is its negation.  Without `DCHECK`s
every two iterators are compared in that way; with `DCHECK`s the comparison of
two iterators that are not iterators of the same object fails.  For two
iterators of one trajectory of the model, `operator==` is their equality. -/
theorem eq_iff_same_ancestry_and_position (debug : Bool) (left right : It3rator.Members)
    (h : left.trajectory.isSome = true ∧ left.trajectory = right.trajectory) :
    (It3rator.eq debug left right = some true ↔
        left.ancestry_ = right.ancestry_ ∧ left.current_ = right.current_) ∧
      (It3rator.eq debug left right = some false ↔
        ¬ (left.ancestry_ = right.ancestry_ ∧ left.current_ = right.current_)) ∧
      (left.ancestry_.length ≠ right.ancestry_.length →
        ∀ position : Nat, It3rator.eq debug ⟨left.ancestry_, position⟩ right = some false) ∧
      It3rator.ne debug left right = (It3rator.eq debug left right).map (fun equal => !equal) ∧
      (∀ l r : It3rator.Members, It3rator.eq false l r =
        some (decide (l.ancestry_ = r.ancestry_ ∧ l.current_ = r.current_))) ∧
      (∀ l r : It3rator.Members,
        ¬ (l.trajectory.isSome = true ∧ l.trajectory = r.trajectory) →
          It3rator.eq true l r = none ∧ It3rator.ne true l r = none) ∧
      (∀ (N : Forkable) (address : Forkable → Nat) (a b : It3rator),
        It3rator.of_trajectory N a → It3rator.of_trajectory N b →
          It3rator.eq debug (a.members address) (b.members address) = some (decide (a = b))) := by
  have hcompare : ∀ l r : It3rator.Members,
      (l.ancestry_.length == r.ancestry_.length && l.current_ == r.current_ &&
        l.ancestry_ == r.ancestry_) =
        decide (l.ancestry_ = r.ancestry_ ∧ l.current_ = r.current_) := by
    intro l r
    by_cases hanc : l.ancestry_ = r.ancestry_
    · by_cases hcur : l.current_ = r.current_
      · simp [hanc, hcur]
      · simp [hanc, hcur]
    · simp [hanc]
  have heq : It3rator.eq debug left right =
      some (decide (left.ancestry_ = right.ancestry_ ∧ left.current_ = right.current_)) := by
    unfold It3rator.eq
    rw [if_neg (fun hc => hc.2 h), hcompare]
  refine ⟨?_, ?_, ?_, rfl, ?_, ?_, ?_⟩
  · rw [heq]
    simp
  · rw [heq]
    simp
  · intro hlen position
    unfold It3rator.eq
    rw [if_neg (fun hc => hc.2 h)]
    simp [hlen]
  · intro l r
    unfold It3rator.eq
    rw [if_neg (fun hc => by simp at hc), hcompare]
  · intro l r hlr
    have : It3rator.eq true l r = none := by
      unfold It3rator.eq
      rw [if_pos ⟨rfl, hlr⟩]
    exact ⟨this, by rw [It3rator.ne, this]; rfl⟩
  · intro N address a b ha hb
    exact eq_of_trajectory debug N address a b ha hb

/-- In the first scenario, with the root at address 0 and the child at
address 1: `Find(C, 2)`, with the ancestry `[root, C]`, and `end(C)`, with the
ancestry `[C]`, are both at position 2 and compare unequal. -/
theorem eq_iff_same_ancestry_and_position_witness :
    ((⟨[0, 1], 2⟩ : It3rator.Members).trajectory.isSome = true ∧
        (⟨[0, 1], 2⟩ : It3rator.Members).trajectory =
          (⟨[1], 2⟩ : It3rator.Members).trajectory) ∧
      It3rator.eq true ⟨[0, 1], 2⟩ ⟨[1], 2⟩ = some false ∧
      It3rator.eq true ⟨[0, 1], 2⟩ ⟨[0, 1], 2⟩ = some true ∧
      ∀ position : Nat, It3rator.eq true ⟨[0, 1], position⟩ ⟨[1], 2⟩ = some false :=
  ⟨by decide, by decide, by decide,
    (eq_iff_same_ancestry_and_position true ⟨[0, 1], 2⟩ ⟨[1], 2⟩ (by decide)).2.2.1
      (by decide)⟩

/-! ## The children that `WriteSubTreeToMessage` records -/

theorem mem_iff_findIdx_lt (forks : List (Option Nat)) (a : Nat) :
    some a ∈ forks ↔ forks.findIdx (fun x => decide (x = some a)) < forks.length := by
  constructor
  · intro h
    exact List.findIdx_lt_length_of_exists ⟨some a, h, by simp⟩
  · intro h
    have := List.findIdx_getElem (w := h)
    simp only [decide_eq_true_eq] at this
    rw [← this]
    exact List.getElem_mem _

theorem fork_position_of_round (message : Message) (p : Nat) (last : Option Instant)
    (k : Instant) (m : Message) :
    ((if last = some k then message.add_fork_position p
      else (message.add_fork_position p).add_children k).add_trajectories m).fork_position =
      message.fork_position ++ [p] := by
  cases message
  split <;> rfl

/-- The position indices that the loop of `WriteSubTreeToMessage` appends at
the level of the trajectory, when the pointers below it are pairwise distinct:
for each child whose pointer is in the list, in the order of the children, the
first index of that pointer. -/
theorem Write_loop_fork_position (cs : List (Instant × Tr4jectory)) (last : Option Instant)
    (message : Message) (forks : List (Option Nat))
    (hnodup : (descendants_of_children cs).Nodup) :
    (WriteSubTreeToMessage.loop cs last message forks).1.fork_position =
      message.fork_position ++
        (cs.filter (fun e => decide (some e.2.address ∈ forks))).map
          (fun e => forks.findIdx (fun x => decide (x = some e.2.address))) := by
  induction cs generalizing last message forks with
  | nil => simp [WriteSubTreeToMessage.loop]
  | cons e rest ih =>
    obtain ⟨k, c⟩ := e
    simp only [descendants_of_children] at hnodup
    have hrest : (descendants_of_children rest).Nodup := (List.nodup_append.mp hnodup).2.1
    have hdisj := (List.nodup_append.mp hnodup).2.2
    cases hfind : find_fork forks c.address with
    | none =>
      have hmem : some c.address ∉ forks := by
        intro hin
        obtain ⟨p, hp⟩ := find_fork_of_mem hin
        rw [hfind] at hp
        cases hp
      rw [WriteSubTreeToMessage.loop]
      simp only [hfind]
      rw [ih last message forks hrest, List.filter_cons_of_neg (by simpa using hmem)]
    | some p =>
      obtain ⟨hp, hget⟩ := find_fork_eq_some hfind
      have hmem : some c.address ∈ forks := List.getElem?_mem hget
      have hpidx : p = forks.findIdx (fun x => decide (x = some c.address)) := by
        unfold find_fork at hfind
        split at hfind
        · simp only [Option.some.injEq] at hfind
          exact hfind.symm
        · simp at hfind
      rw [WriteSubTreeToMessage.loop]
      simp only [hfind]
      rw [ih _ _ _ hrest, fork_position_of_round,
        List.filter_cons_of_pos (by simpa using hmem), List.map_cons, ← hpidx,
        List.append_assoc, List.singleton_append]
      have hidx : ∀ e ∈ rest,
          (c.WriteSubTreeToMessage (Message.mk c.timeline [] []) (forks.set p none)).2.findIdx
              (fun x => decide (x = some e.2.address)) =
            forks.findIdx (fun x => decide (x = some e.2.address)) := by
        intro e he
        obtain ⟨k2, c2⟩ := e
        have hin := (mem_descendants_of_children he).1
        have hnot : c2.address ∉ c.address :: c.descendants :=
          fun hc => hdisj hc hin
        simp only [List.mem_cons, not_or] at hnot
        rw [findIdx_Write c _ _ c2.address hnot.2]
        exact findIdx_set_none forks p c2.address c.address hget hnot.1
      have hlen : (c.WriteSubTreeToMessage (Message.mk c.timeline [] [])
          (forks.set p none)).2.length = forks.length := by
        rw [(Write_forks c _ _).1, List.length_set]
      have hfilter : rest.filter (fun e => decide (some e.2.address ∈
            (c.WriteSubTreeToMessage (Message.mk c.timeline [] []) (forks.set p none)).2)) =
          rest.filter (fun e => decide (some e.2.address ∈ forks)) := by
        apply List.filter_congr
        intro e he
        rw [decide_eq_decide, mem_iff_findIdx_lt, mem_iff_findIdx_lt, hidx e he, hlen]
      congr 2
      rw [hfilter]
      apply List.map_congr_left
      intro e he
      exact hidx e (List.mem_of_mem_filter he)

/-- Claim C12.  `WriteSubTreeToMessage` appends to the message, at the level
of the trajectory (`own`) and below (`deeper`), position indices that are
pairwise distinct; each is an index at which the list held the pointer to a
matched descendant (for `own`, to a child of the trajectory) and holds null
afterwards; every other slot of the list is unchanged.  When the pointers
below the trajectory are pairwise distinct, the indices appended at the level
of the trajectory are, for each child whose pointer is in the list, in the
order of the children, the first index of that pointer: every such child is
recorded by its index, and its slot is null afterwards. -/
theorem WriteSubTreeToMessage_records (N : Tr4jectory) (message : Message)
    (forks : List (Option Nat)) :
    ∃ own deeper,
      (N.WriteSubTreeToMessage message forks).1.fork_position =
        message.fork_position ++ own ∧
      Message.positions_of_litters (N.WriteSubTreeToMessage message forks).1.children =
        Message.positions_of_litters message.children ++ deeper ∧
      (own ++ deeper).Nodup ∧
      (∀ p ∈ own, ∃ e ∈ N.children_, forks[p]? = some (some e.2.address)) ∧
      (∀ p ∈ own ++ deeper, (∃ a ∈ N.descendants, forks[p]? = some (some a)) ∧
        (N.WriteSubTreeToMessage message forks).2[p]? = some none) ∧
      (∀ i, i ∉ own ++ deeper → (N.WriteSubTreeToMessage message forks).2[i]? = forks[i]?) ∧
      (N.WriteSubTreeToMessage message forks).2.length = forks.length ∧
      (N.descendants.Nodup →
        own = (N.children_.filter (fun e => decide (some e.2.address ∈ forks))).map
            (fun e => forks.findIdx (fun x => decide (x = some e.2.address))) ∧
        ∀ e ∈ N.children_, some e.2.address ∈ forks →
          forks.findIdx (fun x => decide (x = some e.2.address)) ∈ own ∧
          forks[forks.findIdx (fun x => decide (x = some e.2.address))]? =
            some (some e.2.address) ∧
          (N.WriteSubTreeToMessage message forks).2[
            forks.findIdx (fun x => decide (x = some e.2.address))]? = some none) := by
  obtain ⟨own, deeper, h1, h2, h3, h4, h5, h6, h7⟩ := Write_records N message forks
  refine ⟨own, deeper, h1, h2, h3, h4, h5, h6, h7, ?_⟩
  intro hnodup
  have hown : own = (N.children_.filter (fun e => decide (some e.2.address ∈ forks))).map
      (fun e => forks.findIdx (fun x => decide (x = some e.2.address))) := by
    have hpos : (N.WriteSubTreeToMessage message forks).1.fork_position =
        message.fork_position ++
          (N.children_.filter (fun e => decide (some e.2.address ∈ forks))).map
            (fun e => forks.findIdx (fun x => decide (x = some e.2.address))) := by
      cases N with
      | mk a tl f cs =>
        simp only [WriteSubTreeToMessage, Tr4jectory.children_]
        exact Write_loop_fork_position cs none message forks hnodup
    rw [h1] at hpos
    exact List.append_cancel_left hpos
  refine ⟨hown, ?_⟩
  intro e he hmem
  have hin : forks.findIdx (fun x => decide (x = some e.2.address)) ∈ own := by
    rw [hown]
    exact List.mem_map.mpr ⟨e, List.mem_filter.mpr ⟨he, by simpa using hmem⟩, rfl⟩
  exact ⟨hin, findIdx_getElem?_of_mem forks e.2.address hmem,
    (h5 _ (List.mem_append_left _ hin)).2⟩

/-- A root with two children forked at time 0, the first with a child of its
own, and the list with the pointers to the grandchild, to the second child and
to the first child: the indices 2 and 1 are recorded at the level of the root,
the index 0 below, and the three slots are null afterwards. -/
theorem WriteSubTreeToMessage_records_witness :
    (Tr4jectory.mk 0 [0, 1] none
        [(0, Tr4jectory.mk 1 [5] (some (0, 0)) [(5, Tr4jectory.mk 3 [] (some (5, 0)) [])]),
          (0, Tr4jectory.mk 2 [6] (some (0, 0)) [])]).WriteSubTreeToMessage
        (Message.mk [0, 1] [] []) [some 3, some 2, some 1] =
      (Message.mk [0, 1]
        [Litter.mk 0 [Message.mk [5] [Litter.mk 5 [Message.mk [] [] []]] [0],
          Message.mk [6] [] []]] [2, 1], [none, none, none]) ∧
      ∃ own deeper, own = [2, 1] ∧ deeper = [0] ∧ (own ++ deeper).Nodup :=
  have hnodup : (Tr4jectory.mk 0 [0, 1] none
      [(0, Tr4jectory.mk 1 [5] (some (0, 0)) [(5, Tr4jectory.mk 3 [] (some (5, 0)) [])]),
        (0, Tr4jectory.mk 2 [6] (some (0, 0)) [])]).descendants.Nodup := by decide
  match WriteSubTreeToMessage_records
      (Tr4jectory.mk 0 [0, 1] none
        [(0, Tr4jectory.mk 1 [5] (some (0, 0)) [(5, Tr4jectory.mk 3 [] (some (5, 0)) [])]),
          (0, Tr4jectory.mk 2 [6] (some (0, 0)) [])])
      (Message.mk [0, 1] [] []) [some 3, some 2, some 1] with
  | ⟨own, deeper, _, h2, h3, _, _, _, _, h8⟩ =>
    ⟨rfl, own, deeper, (h8 hnodup).1.trans (by decide),
      (List.nil_append deeper).symm.trans (h2.symm.trans (by decide)), h3⟩

/-! ## The children that `FillSubTreeFromMessage` makes -/

theorem forget_children_emplace (k : Instant) (c : Tr4jectory)
    (cs : List (Instant × Tr4jectory)) :
    forget_children (emplace k c cs) = emplace k c.forget (forget_children cs) := by
  induction cs with
  | nil => simp [emplace, forget_children]
  | cons e rest ih =>
    obtain ⟨k2, c2⟩ := e
    simp only [emplace, forget_children]
    split
    · simp [forget_children]
    · simp [forget_children, ih]

/-- The child that `NewFork` makes at the position that `timeline_find`
returns for a fork time. -/
theorem NewFork_described (that : Tr4jectory) (ft : Instant) (fresh : Nat) (time : Instant)
    (fork : Tr4jectory)
    (h : Tr4jectory.NewFork that (that.timeline.indexOf ft) fresh = some (time, fork)) :
    time = Message.described_key that.timeline (that.fork.map Prod.fst) ft ∧
      fork = Tr4jectory.mk fresh [] (some (time, that.timeline.indexOf ft)) [] := by
  unfold Tr4jectory.NewFork at h
  split at h
  · rename_i hend
    have hnot : ft ∉ that.timeline := List.indexOf_eq_length.mp hend
    cases hf : that.fork with
    | none => simp [hf] at h
    | some o =>
      obtain ⟨key, p⟩ := o
      simp only [hf, Option.some.injEq, Prod.mk.injEq] at h
      obtain ⟨h1, h2⟩ := h
      subst h1
      exact ⟨by simp [Message.described_key, hnot], h2.symm⟩
  · rename_i hend
    have hlt : that.timeline.indexOf ft < that.timeline.length :=
      lt_of_le_of_ne List.indexOf_le_length hend
    have hmem : ft ∈ that.timeline := List.indexOf_lt_length.mp hlt
    rw [List.getElem?_eq_getElem hlt, List.getElem_indexOf hlt] at h
    simp only [Option.some.injEq, Prod.mk.injEq] at h
    obtain ⟨h1, h2⟩ := h
    subst h1
    exact ⟨by simp [Message.described_key, hmem], h2.symm⟩

mutual
/-- The children of a trajectory after `FillSubTreeFromMessage`, pointers
forgotten: the children before, and the children that the litters of the
message describe, emplaced one after the other. -/
theorem fill_children : ∀ (m : Message) (that : Tr4jectory) (forks : List (Option Nat))
    (fresh : Nat) (r : Tr4jectory × List (Option Nat) × Nat),
    FillSubTreeFromMessage m that forks fresh = some r →
    forget_children r.1.children_ =
      (Message.described_by_litters that.timeline (that.fork.map Prod.fst) m.children).foldl
        (fun children e => emplace e.1 e.2 children) (forget_children that.children_)
  | Message.mk tl cs fp, that, forks, fresh, r, h => by
    unfold FillSubTreeFromMessage at h
    split at h
    · simp at h
    · rename_i filled hfilled
      simp only [Option.some.injEq] at h
      subst h
      exact litters_children cs fp ⟨that, forks, fresh, 0⟩ filled hfilled
/-- The children of the trajectory after the outer loop of
`FillSubTreeFromMessage`. -/
theorem litters_children : ∀ (ls : List Litter) (fp : List Nat) (f g : Filling),
    FillSubTreeFromMessage.litters fp ls f = some g →
    forget_children g.that.children_ =
      (Message.described_by_litters f.that.timeline (f.that.fork.map Prod.fst) ls).foldl
        (fun children e => emplace e.1 e.2 children) (forget_children f.that.children_)
  | [], fp, f, g, h => by
    simp only [FillSubTreeFromMessage.litters, Option.some.injEq] at h
    subst h
    simp [Message.described_by_litters]
  | Litter.mk ft ms :: rest, fp, f, g, h => by
    unfold FillSubTreeFromMessage.litters at h
    split at h
    · simp at h
    · rename_i filled hfilled
      have h1 := trajectories_children ms fp ft f filled hfilled
      have h2 := litters_children rest fp filled g h
      have hframe := trajectories_frame fp ft ms f filled hfilled
      rw [h2, h1, hframe.1, hframe.2]
      simp [Message.described_by_litters, List.foldl_append]
/-- The children of the trajectory after the inner loop of
`FillSubTreeFromMessage`. -/
theorem trajectories_children : ∀ (ms : List Message) (fp : List Nat) (ft : Instant)
    (f g : Filling), FillSubTreeFromMessage.trajectories fp ft ms f = some g →
    forget_children g.that.children_ =
      (Message.described_by_messages f.that.timeline (f.that.fork.map Prod.fst) ft ms).foldl
        (fun children e => emplace e.1 e.2 children) (forget_children f.that.children_)
  | [], fp, ft, f, g, h => by
    simp only [FillSubTreeFromMessage.trajectories, Option.some.injEq] at h
    subst h
    simp [Message.described_by_messages]
  | m :: rest, fp, ft, f, g, h => by
    unfold FillSubTreeFromMessage.trajectories at h
    split at h
    · simp at h
    · rename_i time fork hnew
      obtain ⟨htime, hfork⟩ := NewFork_described f.that ft f.fresh time fork hnew
      split at h
      · simp at h
      · rename_i filled forks1 fresh1 hfilled
        have hchildren := fill_children m _ _ _ _ hfilled
        have hframe := fill_frame _ _ _ _ _ hfilled
        have hdescribed : filled.forget =
            Message.described (some (time, f.that.timeline.indexOf ft)) m := by
          cases m with
          | mk tl cs fp2 =>
            cases filled with
            | mk a tl2 f2 cs2 =>
              subst hfork
              have e1 : tl2 = tl := hframe.1
              have e2 : f2 = some (time, f.that.timeline.indexOf ft) := hframe.2
              have e3 : forget_children cs2 =
                  (Message.described_by_litters tl (some time) cs).foldl
                    (fun children e => emplace e.1 e.2 children) [] := hchildren
              subst e1 e2
              simp only [Tr4jectory.forget, Message.described, Option.map_some', e3]
        have hstep : ∀ f2 : Filling, f2.that = f.that.with_child time filled →
            FillSubTreeFromMessage.trajectories fp ft rest f2 = some g →
            forget_children g.that.children_ =
              (Message.described_by_messages f.that.timeline (f.that.fork.map Prod.fst) ft
                (m :: rest)).foldl
                (fun children e => emplace e.1 e.2 children)
                (forget_children f.that.children_) := by
          intro f2 hf2 hg
          have ih := trajectories_children rest fp ft f2 g hg
          rw [ih, hf2, (with_child_fields _ _ _).2.1, (with_child_fields _ _ _).2.2.1,
            children_with_child, forget_children_emplace, hdescribed]
          simp only [Message.described_by_messages, List.foldl_cons, ← htime]
        split at h
        · split at h
          · simp at h
          · split at h
            · exact hstep _ rfl h
            · simp at h
        · exact hstep _ rfl h
end

/-- C13, amended: for every message in which no level carries position indices,
read into a trajectory that is not a root or whose timeline has an entry at the
fork time of every litter that has trajectories, `FillSubTreeFromMessage` does
not fail, leaves every slot of the caller unchanged, and makes the children
that the litters describe: besides the children before, the trajectory has,
pointers forgotten, one child for each trajectory of each litter, emplaced in
the order of the message, with the timeline of its message and the children
that its message describes, forked where `timeline_find` finds the fork time
of the litter, under that time or, where the timeline has no entry at that
time, at its end under the key of the trajectory.  There is one new trajectory
for each trajectory of the message (`m.count` of them, with the next `m.count`
pointers), and the timeline and the fork of the trajectory are unchanged. -/
theorem fill_of_legacy_message (m : Message) (that : Tr4jectory) (forks : List (Option Nat))
    (fresh : Nat) (hlegacy : m.legacy)
    (hfork : that.fork ≠ none ∨
      ∀ l ∈ m.children, l.trajectories ≠ [] → l.fork_time ∈ that.timeline) :
    ∃ N', FillSubTreeFromMessage m that forks fresh = some (N', forks, fresh + m.count) ∧
      N'.address = that.address ∧ N'.timeline = that.timeline ∧ N'.fork = that.fork ∧
      forget_children N'.children_ =
        (Message.described_by_litters that.timeline (that.fork.map Prod.fst)
          m.children).foldl
          (fun children e => emplace e.1 e.2 children) (forget_children that.children_) ∧
      N'.children_.length =
        that.children_.length + (m.children.map (fun l => l.trajectories.length)).sum ∧
      List.Perm N'.descendants (that.descendants ++ List.range' fresh m.count) := by
  obtain ⟨N', h1, h2, h3, h4, h5, h6⟩ := fill_legacy_aux m that forks fresh hlegacy hfork
  exact ⟨N', h1, h2, h3, h4, fill_children m that forks fresh _ h1, h5, h6⟩

/-- Witness for the amended C13: a legacy message with two litters, at times 0
and 1, the first with a trajectory that has a litter of its own at a time, 9,
that its timeline does not have, read into a root with timeline `[0, 1]` and
no children, with two unset slots: the root gets two children forked at its
entry at time 0 and one forked at its entry at time 1, and the first child a
child at the end of its timeline, under its own key 0. -/
theorem fill_of_legacy_message_witness :
    FillSubTreeFromMessage
        (Message.mk [0, 1]
          [Litter.mk 0 [Message.mk [4] [Litter.mk 9 [Message.mk [] [] []]] [],
            Message.mk [] [] []], Litter.mk 1 [Message.mk [2] [] []]] [])
        (Tr4jectory.mk 0 [0, 1] none []) [none, none] 1 =
      some (Tr4jectory.mk 0 [0, 1] none
        [(0, Tr4jectory.mk 1 [4] (some (0, 0)) [(0, Tr4jectory.mk 2 [] (some (0, 1)) [])]),
          (0, Tr4jectory.mk 3 [] (some (0, 0)) []),
          (1, Tr4jectory.mk 4 [2] (some (1, 1)) [])], [none, none], 5) ∧
      ∃ N', FillSubTreeFromMessage
          (Message.mk [0, 1]
            [Litter.mk 0 [Message.mk [4] [Litter.mk 9 [Message.mk [] [] []]] [],
              Message.mk [] [] []], Litter.mk 1 [Message.mk [2] [] []]] [])
          (Tr4jectory.mk 0 [0, 1] none []) [none, none] 1 =
        some (N', [none, none], 1 + (Message.mk [0, 1]
            [Litter.mk 0 [Message.mk [4] [Litter.mk 9 [Message.mk [] [] []]] [],
              Message.mk [] [] []], Litter.mk 1 [Message.mk [2] [] []]] []).count) ∧
      forget_children N'.children_ =
        [(0, Tr4jectory.mk 0 [4] (some (0, 0)) [(0, Tr4jectory.mk 0 [] (some (0, 1)) [])]),
          (0, Tr4jectory.mk 0 [] (some (0, 0)) []),
          (1, Tr4jectory.mk 0 [2] (some (1, 1)) [])] :=
  ⟨rfl,
    match fill_of_legacy_message
        (Message.mk [0, 1]
          [Litter.mk 0 [Message.mk [4] [Litter.mk 9 [Message.mk [] [] []]] [],
            Message.mk [] [] []], Litter.mk 1 [Message.mk [2] [] []]] [])
        (Tr4jectory.mk 0 [0, 1] none []) [none, none] 1
        (by simp [Message.legacy, Message.legacy_litters, Message.legacy_messages])
        (Or.inr (by simp [Message.children, Litter.fork_time, Tr4jectory.timeline])) with
    | ⟨N', h1, _, _, _, h5, _, _⟩ => ⟨N', h1, h5.trans rfl⟩⟩

/-- The loop from one iterator of a trajectory to another meets the same
iterators in a build with `DCHECK`s and in a build without. -/
theorem iterate_in_both_builds (debug : Bool) (N : Forkable) (fuel : Nat) (it last : It3rator)
    (hit : It3rator.of_trajectory N it) (hlast : It3rator.of_trajectory N last) :
    iterate debug fuel it last = iterate true fuel it last := by
  induction fuel generalizing it with
  | zero => rfl
  | succ n ih =>
    unfold iterate
    rw [It3rator.ne, It3rator.ne, eq_of_trajectory debug N depth it last hit hlast,
      eq_of_trajectory true N depth it last hit hlast]
    cases hd : decide (it = last) with
    | true => rfl
    | false =>
      simp only [Option.map_some', Bool.not_false]
      cases hinc : it.increment with
      | none => rfl
      | some next =>
        simp only
        rw [ih next (of_trajectory_increment N it next hit hinc)]

/-- The iteration from `begin()` to `end()` of a trajectory meets the same
iterators in a build with `DCHECK`s and in a build without. -/
theorem traversal_in_both_builds (debug : Bool) (N : Forkable) (fuel : Nat) :
    (match N.begin, N.end_ with
      | some first, some last => iterate debug fuel first last
      | _, _ => none) = N.traversal fuel := by
  unfold traversal
  cases hb : N.begin with
  | none => rfl
  | some first =>
    cases he : N.end_ with
    | none => rfl
    | some last =>
      exact iterate_in_both_builds debug N fuel first last (of_trajectory_begin N first hb)
        (of_trajectory_end N last he)

end Principia
